import Mathlib

/-!
# Nonce assignment and the batched transaction writer

A shallow embedding of the relational-backend transaction writer
(`internal/persistence/postgres/transaction_writer.go`): the nonce cache, the
pre-insert idempotency check, `assignNonces`, `executeBatchOps`, `runBatch`,
`queue` and `worker`; of the nonce assignment of the embedded backend
(`internal/persistence/leveldb/nonces.go`): `assignAndLockNonce`, `calcNextNonce`
and `complete`; and of the entry points of the transaction handler for new
transactions (`pkg/txhandler/simple/simple_transaction_handler.go`):
`requestIDPreCheck`, `HandleNewTransaction`, `HandleNewContractDeployment` and
`createManagedTx`.

Conventions of the embedding

* Go pointers to operations are positions in the list `Sys.ops`; the map
  `txInsertsByFrom` holds such positions, grouped by signer, and is passed in the
  order in which `range` visits it.
* `uint64` values are natural numbers; an increment is taken modulo `2 ^ 64`.
* The wall clock, the failures of store calls and of the grouped transaction are
  supplied by an environment `Env`; a chain callback is a function carried by the
  operation.
* A completion channel is the list of values sent on it, oldest first.
* A `lockedNonce` pointer is a position in the list `LevelDB.locks`; a `select`
  is resolved by the event or case handed to the function.
* The persistence, the history and the connector that the handler calls are
  interfaces; their answers are supplied by a `Toolkit` and the calls are
  recorded in `Handler.calls`.
-/

namespace NonceDemo

/-! ## Data model -/

/-- Error values that travel on completion channels and out of the writer. -/
inductive Err where
  | duplicateID (txID : String)
  | transactionPersistenceError
  | transactionOpInvalid
  | shuttingDown
  | contextCanceled
  | deleteRecordNotFound
  | uniqueViolation
  | other (code : Nat)
deriving DecidableEq, Repr

/-- Transaction status values of `apitypes.TxStatus`. -/
inductive TxStatus where
  | Pending
  | Succeeded
  | Failed
  | Suspended
deriving DecidableEq, Repr

/-- The fields of `apitypes.ManagedTX` that the writer reads or writes.
`Nonce` is a nullable big integer. -/
structure ManagedTX where
  ID : String := ""
  From : String := ""
  Nonce : Option Int := none
  Created : Int := 0
  Status : TxStatus := TxStatus.Pending
deriving DecidableEq, Repr

/-- The fields of `apitypes.TXUpdates` used by the writer; every field is optional. -/
structure TXUpdates where
  Status : Option TxStatus := none
  TransactionHash : Option String := none
  ErrorMessage : Option String := none
deriving DecidableEq, Repr

/-- A confirmation record, identified by its transaction and an opaque payload. -/
structure ConfirmationRecord where
  TransactionID : String := ""
  payload : Nat := 0
deriving DecidableEq, Repr

/-- A receipt record. -/
structure ReceiptRecord where
  TransactionID : String := ""
  payload : Nat := 0
deriving DecidableEq, Repr

/-- A history record. -/
structure TXHistoryRecord where
  TransactionID : String := ""
  payload : Nat := 0
deriving DecidableEq, Repr

/-- A completion record written for a terminal status. -/
structure TXCompletion where
  ID : String := ""
  Time : Int := 0
  Status : TxStatus := TxStatus.Succeeded
deriving DecidableEq, Repr

/-- Entry of the metadata cache (`txCacheEntry`); every cached entry carries a time. -/
structure TxCacheEntry where
  lastCompacted : Int := 0
deriving DecidableEq, Repr

/-- Entry of the nonce cache (`nonceCacheEntry`). -/
structure NonceCacheEntry where
  cachedTime : Int
  nextNonce : Nat
deriving DecidableEq, Repr

/-- A queued write operation (`transactionOperation`). `done` lists the values sent
on the completion channel (`none` is a nil error); `nextNonceCB` is the chain
callback handed in with an insert. -/
structure TransactionOperation where
  txID : String := ""
  sentConflict : Bool := false
  done : List (Option Err) := []
  opID : String := ""
  isShutdown : Bool := false
  txInsert : Option ManagedTX := none
  noncePreAssigned : Bool := false
  nextNonceCB : String → Except Err Nat := fun _ => Except.ok 0
  txUpdate : Option TXUpdates := none
  txDelete : Option String := none
  clearConfirmations : Bool := false
  confirmation : Option ConfirmationRecord := none
  receipt : Option ReceiptRecord := none
  historyRecord : Option TXHistoryRecord := none

/-! ## The LRU cache (`lru.Cache` with string keys) -/

/-- A least-recently-used cache of capacity `size`; `items` is ordered from the most
recently used entry to the oldest. `lru.New` refuses a capacity that is not positive. -/
structure LRU (β : Type) where
  size : Nat
  items : List (String × β) := []

namespace LRU

variable {β : Type}

/-- The value stored under `k`, without touching the recency order. -/
def peek (c : LRU β) (k : String) : Option β :=
  c.items.lookup k

/-- Moves `k` with value `v` to the front of the recency order. -/
def touch (c : LRU β) (k : String) (v : β) : LRU β :=
  { c with items := (k, v) :: c.items.filter (fun e => e.1 != k) }

/-- The method `Get`: a hit makes the entry the most recently used one. -/
def get (c : LRU β) (k : String) : Option β × LRU β :=
  match c.peek k with
  | some v => (some v, c.touch k v)
  | none => (none, c)

/-- The method `Add`: an existing key is updated and moved to the front; a new key is
put at the front and the oldest entry is evicted when the capacity is exceeded. -/
def add (c : LRU β) (k : String) (v : β) : LRU β :=
  match c.peek k with
  | some _ => c.touch k v
  | none =>
    if c.size < c.items.length + 1 then { c with items := ((k, v) :: c.items).dropLast }
    else { c with items := (k, v) :: c.items }

/-- The method `Remove`. -/
def remove (c : LRU β) (k : String) : LRU β :=
  { c with items := c.items.filter (fun e => e.1 != k) }

end LRU

/-! ## Environment and state -/

/-- A call made to the store, as recorded in the trace of store calls. -/
inductive StoreCall where
  | getTransactionByID (txID : String)
  | getManyTransactions (signer : String)
  | insertManyTransactions (txs : List ManagedTX)
  | updateTransaction (txID : String) (update : TXUpdates)
  | insertManyReceipts (rs : List ReceiptRecord)
  | upsertReceipt (r : ReceiptRecord)
  | deleteManyConfirmations (txID : String)
  | insertManyConfirmations (cs : List ConfirmationRecord)
  | insertManyHistory (hs : List TXHistoryRecord)
  | compressHistory (txID : String)
  | writeTransactionCompletions (cs : List TXCompletion)
  | deleteReceipt (txID : String)
  | deleteManyHistory (txID : String)
  | deleteTransaction (txID : String)
deriving DecidableEq, Repr

/-- What the writer does not control: the wall clock (`clock n` is the `n`-th reading),
the failure injected into the `n`-th store call, the failure of beginning or committing
the grouped transaction, the configured durations (in nanoseconds), and the order in
which each `range` loop visits a map (`rangeInserts n` for the loops over
`txInsertsByFrom`, `rangeKeys n` for the loops over the other maps, `n` naming the loop). -/
structure Env where
  clock : Nat → Int := fun _ => 0
  storeFault : Nat → Option Err := fun _ => none
  beginFault : Option Err := none
  commitFault : Option Err := none
  nonceStateTimeout : Int := 3600000000000
  compressionInterval : Int := 0
  rangeInserts : Nat → List (String × List Nat) → List (String × List Nat) := fun _ m => m
  rangeKeys : Nat → List String → List String := fun _ ks => ks

/-- The mutable state seen by one worker: the two caches, the rows of the transactions
table, the number of clock readings taken, the trace of store calls, the signers for
which a chain callback was invoked, and the operation objects of the current batch. -/
structure Sys where
  nextNonceCache : LRU NonceCacheEntry
  txMetaCache : LRU TxCacheEntry
  transactions : List ManagedTX := []
  clockReads : Nat := 0
  storeCalls : List StoreCall := []
  cbCalls : List String := []
  ops : List TransactionOperation := []

/-- The conversion `int64(x)` of a `uint64`. -/
def toInt64 (x : Nat) : Int :=
  if x % 2 ^ 64 < 2 ^ 63 then ((x % 2 ^ 64 : Nat) : Int) else ((x % 2 ^ 64 : Nat) : Int) - 2 ^ 64

/-- The accessor `Uint64()` of a nullable big integer: the value when it is an unsigned
64-bit number, and zero for nil, for a negative value and for a value of `2^64` or more. -/
def uint64Of (n : Option Int) : Nat :=
  match n with
  | none => 0
  | some v => if v < 0 ∨ 2 ^ 64 ≤ v then 0 else v.toNat

/-- The key by which the store orders rows on `nonce`; rows without a nonce rank lowest. -/
def nonceRank (tx : ManagedTX) : Int :=
  match tx.Nonce with
  | none => -1
  | some v => v

/-- The first row of `GetMany` with filter `from = signer`, sort `-nonce`, limit 1. -/
def highestNonceTx (rows : List ManagedTX) (signer : String) : Option ManagedTX :=
  (rows.filter (fun tx => tx.From == signer)).foldl
    (fun best tx =>
      match best with
      | none => some tx
      | some b => if nonceRank b < nonceRank tx then some tx else some b)
    none

/-- Applies `f` to the operation at position `i`. -/
def modifyOp (ops : List TransactionOperation) (i : Nat)
    (f : TransactionOperation → TransactionOperation) : List TransactionOperation :=
  match ops[i]? with
  | some op => ops.set i (f op)
  | none => ops

/-- The assignment `op.txInsert.Nonce = fftypes.NewFFBigInt(int64(n))`. -/
def stampNonce (n : Nat) (o : TransactionOperation) : TransactionOperation :=
  { o with txInsert := o.txInsert.map (fun tx => { tx with Nonce := some (toInt64 n) }) }

/-- One reading of the wall clock. -/
def readClock (env : Env) (s : Sys) : Int × Sys :=
  (env.clock s.clockReads, { s with clockReads := s.clockReads + 1 })

/-- Records a store call and reports the failure injected into it, if any. -/
def storeCall (env : Env) (s : Sys) (c : StoreCall) : Option Err × Sys :=
  (env.storeFault s.storeCalls.length, { s with storeCalls := s.storeCalls ++ [c] })

/-! ## assignNonces -/

/-- The block of `assignNonces` guarded by `cacheEntry == nil || cacheExpired`: asks the
chain callback, takes the internal candidate from the expired cache entry when there is
one and from the store otherwise, and builds the new cache entry from the larger value. -/
def reconcileNonce (env : Env) (signer : String) (op : TransactionOperation)
    (cacheEntry : Option NonceCacheEntry) (s : Sys) : Except Err NonceCacheEntry × Sys :=
  let s1 := { s with cbCalls := s.cbCalls ++ [signer] }
  match op.nextNonceCB signer with
  | Except.error e => (Except.error e, s1)
  | Except.ok nextNonce =>
    let finish := fun (internalNextNonce : Nat) (s2 : Sys) =>
      let nextNonce1 := if internalNextNonce > nextNonce then internalNextNonce else nextNonce
      let (now, s3) := readClock env s2
      (Except.ok { cachedTime := now, nextNonce := nextNonce1 }, s3)
    match cacheEntry with
    | some ce => finish ce.nextNonce s1
    | none =>
      match storeCall env s1 (StoreCall.getManyTransactions signer) with
      | (some e, s2) => (Except.error e, s2)
      | (none, s2) =>
        match highestNonceTx s2.transactions signer with
        | some tx => finish ((uint64Of tx.Nonce + 1) % 2 ^ 64) s2
        | none => finish 0 s2

/-- The inner loop of `assignNonces` over the operations `txs` of one signer;
`cacheEntry` is the local variable of that name. -/
def assignNoncesToOps (env : Env) (signer : String) (cacheExpired : Bool) :
    List Nat → Option NonceCacheEntry → Sys → Option Err × Sys
  | [], _, s => (none, s)
  | i :: rest, cacheEntry, s =>
    match s.ops[i]? with
    | none => assignNoncesToOps env signer cacheExpired rest cacheEntry s
    | some op =>
      if op.noncePreAssigned then assignNoncesToOps env signer cacheExpired rest cacheEntry s
      else if op.sentConflict then assignNoncesToOps env signer cacheExpired rest cacheEntry s
      else
        let r : Except Err NonceCacheEntry × Sys :=
          match cacheEntry, cacheExpired with
          | some ce, false => (Except.ok ce, s)
          | _, _ => reconcileNonce env signer op cacheEntry s
        match r with
        | (Except.error e, s1) => (some e, s1)
        | (Except.ok ce, s1) =>
          let ops1 := modifyOp s1.ops i (stampNonce ce.nextNonce)
          let ce1 : NonceCacheEntry := { ce with nextNonce := (ce.nextNonce + 1) % 2 ^ 64 }
          let s2 := { s1 with ops := ops1, nextNonceCache := s1.nextNonceCache.add signer ce1 }
          assignNoncesToOps env signer cacheExpired rest (some ce1) s2

/-- The body of the outer loop of `assignNonces` for one signer: the cache lookup, the
expiry test and the inner loop. -/
def assignNoncesForSigner (env : Env) (signer : String) (txs : List Nat) (s : Sys) :
    Option Err × Sys :=
  match s.nextNonceCache.get signer with
  | (some ce, cache1) =>
    let (now, s1) := readClock env { s with nextNonceCache := cache1 }
    let cacheExpired := decide (now - ce.cachedTime > env.nonceStateTimeout)
    assignNoncesToOps env signer cacheExpired txs (some ce) s1
  | (none, cache1) =>
    assignNoncesToOps env signer false txs none { s with nextNonceCache := cache1 }

/-- The function `assignNonces`; `txInsertsByFrom` lists the map in iteration order. -/
def assignNonces (env : Env) : List (String × List Nat) → Sys → Option Err × Sys
  | [], s => (none, s)
  | (signer, txs) :: rest, s =>
    match assignNoncesForSigner env signer txs s with
    | (some e, s1) => (some e, s1)
    | (none, s1) => assignNonces env rest s1

/-! ## The batch -/

/-- The classification that `runBatch` builds from the operations of a batch
(`transactionWriterBatch` without `ops`, which live in `Sys.ops`). Maps are association
lists in insertion order; sets are lists of keys. -/
structure TransactionWriterBatch where
  txInsertsByFrom : List (String × List Nat) := []
  txUpdates : List Nat := []
  txDeletes : List String := []
  receiptInserts : List (String × ReceiptRecord) := []
  historyInserts : List TXHistoryRecord := []
  compressionChecks : List String := []
  confirmationInserts : List ConfirmationRecord := []
  confirmationResets : List String := []

/-- Assignment `m[k] = v` on a map. -/
def mapSet {β : Type} (m : List (String × β)) (k : String) (v : β) : List (String × β) :=
  match m with
  | [] => [(k, v)]
  | (k1, v1) :: rest => if k1 == k then (k, v) :: rest else (k1, v1) :: mapSet rest k v

/-- The statement `m[k] = append(m[k], i)` on the map of inserts. -/
def mapAppend (m : List (String × List Nat)) (k : String) (i : Nat) : List (String × List Nat) :=
  match m with
  | [] => [(k, [i])]
  | (k1, is) :: rest => if k1 == k then (k1, is ++ [i]) :: rest else (k1, is) :: mapAppend rest k i

/-- Assignment `m[k] = true` on a set of keys. -/
def setAdd (m : List String) (k : String) : List String :=
  if m.contains k then m else m ++ [k]

/-- One step of the classification loop of `runBatch`, for the operation at position `i`. -/
def classifyOp (b : TransactionWriterBatch) (i : Nat) (op : TransactionOperation) :
    TransactionWriterBatch :=
  match op.txInsert, op.txUpdate, op.txDelete, op.receipt, op.historyRecord, op.confirmation with
  | some tx, _, _, _, _, _ => { b with txInsertsByFrom := mapAppend b.txInsertsByFrom tx.From i }
  | none, some _, _, _, _, _ => { b with txUpdates := b.txUpdates ++ [i] }
  | none, none, some d, _, _, _ =>
    { b with txDeletes := b.txDeletes ++ [d],
             compressionChecks := b.compressionChecks.filter (fun k => k != op.txID) }
  | none, none, none, some r, _, _ => { b with receiptInserts := mapSet b.receiptInserts op.txID r }
  | none, none, none, none, some h, _ =>
    { b with historyInserts := b.historyInserts ++ [h],
             compressionChecks := setAdd b.compressionChecks op.txID }
  | none, none, none, none, none, some c =>
    if op.clearConfirmations then
      { b with confirmationInserts :=
                 b.confirmationInserts.filter (fun c1 => c1.TransactionID != c.TransactionID) ++ [c],
               confirmationResets := setAdd b.confirmationResets c.TransactionID }
    else { b with confirmationInserts := b.confirmationInserts ++ [c] }
  | none, none, none, none, none, none => b

/-- The classification loop of `runBatch` over the operations from position `i` on. -/
def classifyFrom : Nat → List TransactionOperation → TransactionWriterBatch → TransactionWriterBatch
  | _, [], b => b
  | i, op :: rest, b => classifyFrom (i + 1) rest (classifyOp b i op)

/-- The batch as `runBatch` has it before `executeBatchOps`: the four maps are made
anew, the slices are appended to. -/
def classify (b : TransactionWriterBatch) (ops : List TransactionOperation) : TransactionWriterBatch :=
  classifyFrom 0 ops
    { b with txInsertsByFrom := [], confirmationResets := [], receiptInserts := [],
             compressionChecks := [] }

/-! ## preInsertIdempotencyCheck -/

/-- The two statements `txOp.sentConflict = true` and
`txOp.done <- i18n.NewError(ctx, tmmsgs.MsgDuplicateID, txOp.txID)`. -/
def flagConflict (o : TransactionOperation) : TransactionOperation :=
  { o with sentConflict := true, done := o.done ++ [some (Err.duplicateID o.txID)] }

/-- The row returned by `GetTransactionByID`. -/
def getTransactionByID (rows : List ManagedTX) (txID : String) : Option ManagedTX :=
  rows.find? (fun tx => tx.ID == txID)

/-- The inner loop of `preInsertIdempotencyCheck` over the operations of one signer;
`validInserts` holds the positions of the operations whose `txInsert` was appended. -/
def preInsertCheckOps (env : Env) : List Nat → List Nat → Sys → Option Err × List Nat × Sys
  | [], validInserts, s => (none, validInserts, s)
  | i :: rest, validInserts, s =>
    match s.ops[i]? with
    | none => preInsertCheckOps env rest validInserts s
    | some txOp =>
      let (hit, cache1) := s.txMetaCache.get txOp.txID
      let s1 := { s with txMetaCache := cache1 }
      let r : Except Err (Option ManagedTX) × Sys :=
        match hit with
        | some _ =>
          match storeCall env s1 (StoreCall.getTransactionByID txOp.txID) with
          | (some e, s2) => (Except.error e, s2)
          | (none, s2) => (Except.ok (getTransactionByID s2.transactions txOp.txID), s2)
        | none => (Except.ok none, s1)
      match r with
      | (Except.error e, s2) => (some e, [], s2)
      | (Except.ok (some _), s2) =>
        preInsertCheckOps env rest validInserts { s2 with ops := modifyOp s2.ops i flagConflict }
      | (Except.ok none, s2) => preInsertCheckOps env rest (validInserts ++ [i]) s2

/-- The outer loop of `preInsertIdempotencyCheck` over the signers. -/
def preInsertCheckGroups (env : Env) :
    List (String × List Nat) → List Nat → Sys → Option Err × List Nat × Sys
  | [], validInserts, s => (none, validInserts, s)
  | (_, txOps) :: rest, validInserts, s =>
    match preInsertCheckOps env txOps validInserts s with
    | (some e, v, s1) => (some e, v, s1)
    | (none, v, s1) => preInsertCheckGroups env rest v s1

/-- The function `preInsertIdempotencyCheck`. -/
def preInsertIdempotencyCheck (env : Env) (b : TransactionWriterBatch) (s : Sys) :
    Option Err × List Nat × Sys :=
  preInsertCheckGroups env (env.rangeInserts 0 b.txInsertsByFrom) [] s

/-! ## mergeTxUpdates -/

/-- Modelled from the spec: the method `TXUpdates.Merge` of package `apitypes`, whose
source is not among the files here. Updates to the same transaction are merged with the
last writer winning on every scalar field that the later update sets. -/
def TXUpdates.Merge (txu txu2 : TXUpdates) : TXUpdates :=
  { Status := if txu2.Status.isSome then txu2.Status else txu.Status,
    TransactionHash := if txu2.TransactionHash.isSome then txu2.TransactionHash else txu.TransactionHash,
    ErrorMessage := if txu2.ErrorMessage.isSome then txu2.ErrorMessage else txu.ErrorMessage }

/-- The loop of `mergeTxUpdates`. `mergedUpdates` maps a transaction to the position of the
operation whose `txUpdate` object accumulates the merge. -/
def mergeTxUpdatesLoop (env : Env) :
    List Nat → List TXCompletion → List (String × Nat) → Sys →
      List TXCompletion × List (String × Nat) × Sys
  | [], txCompletions, mergedUpdates, s => (txCompletions, mergedUpdates, s)
  | i :: rest, txCompletions, mergedUpdates, s =>
    match s.ops[i]? with
    | none => mergeTxUpdatesLoop env rest txCompletions mergedUpdates s
    | some op =>
      let upd := op.txUpdate.getD {}
      let (merged1, s1) : List (String × Nat) × Sys :=
        match mergedUpdates.lookup op.txID with
        | some j => (mergedUpdates,
            { s with ops := modifyOp s.ops j (fun o => { o with txUpdate := o.txUpdate.map (fun u => u.Merge upd) }) })
        | none => (mergedUpdates ++ [(op.txID, i)], s)
      match upd.Status with
      | some st =>
        if st = TxStatus.Succeeded ∨ st = TxStatus.Failed then
          let (now, s2) := readClock env s1
          mergeTxUpdatesLoop env rest (txCompletions ++ [{ ID := op.txID, Time := now, Status := st }]) merged1 s2
        else mergeTxUpdatesLoop env rest txCompletions merged1 s1
      | none => mergeTxUpdatesLoop env rest txCompletions merged1 s1

/-- The function `mergeTxUpdates`. -/
def mergeTxUpdates (env : Env) (b : TransactionWriterBatch) (s : Sys) :
    List TXCompletion × List (String × Nat) × Sys :=
  mergeTxUpdatesLoop env b.txUpdates [] [] s

/-! ## executeBatchOps -/

/-- A sequence of store calls that stops at the first failing one. -/
def runStoreCalls (env : Env) : List StoreCall → Sys → Option Err × Sys
  | [], s => (none, s)
  | c :: rest, s =>
    match storeCall env s c with
    | (some e, s1) => (some e, s1)
    | (none, s1) => runStoreCalls env rest s1

/-- The call `transactions.InsertMany`: it fails when the store call fails and when an ID
is already stored or occurs twice among the rows; otherwise the rows are added. -/
def insertManyTransactions (env : Env) (txs : List ManagedTX) (s : Sys) : Option Err × Sys :=
  match storeCall env s (StoreCall.insertManyTransactions txs) with
  | (some e, s1) => (some e, s1)
  | (none, s1) =>
    if (txs.map (fun t => t.ID)).Nodup ∧ ∀ t ∈ txs, getTransactionByID s1.transactions t.ID = none then
      (none, { s1 with transactions := s1.transactions ++ txs })
    else (some Err.uniqueViolation, s1)

/-- The loop that primes the metadata cache with the inserted transactions. -/
def primeMetaCache (env : Env) : List ManagedTX → Sys → Sys
  | [], s => s
  | t :: rest, s =>
    let (now, s1) := readClock env s
    primeMetaCache env rest { s1 with txMetaCache := s1.txMetaCache.add t.ID { lastCompacted := now } }

/-- The function `compressionCheck`. -/
def compressionCheck (env : Env) (txID : String) (s : Sys) : Option Err × Sys :=
  let (hit, cache1) := s.txMetaCache.get txID
  let s1 := { s with txMetaCache := cache1 }
  let r : Bool × Sys :=
    match hit with
    | some txMeta =>
      let (now, s2) := readClock env s1
      (decide (now - txMeta.lastCompacted < env.compressionInterval), s2)
    | none => (false, s1)
  match r with
  | (true, s2) => (none, s2)
  | (false, s2) =>
    match storeCall env s2 (StoreCall.compressHistory txID) with
    | (some e, s3) => (some e, s3)
    | (none, s3) =>
      let (now, s4) := readClock env s3
      (none, { s4 with txMetaCache := s4.txMetaCache.add txID { lastCompacted := now } })

/-- The loop of compression checks. -/
def compressionChecks (env : Env) : List String → Sys → Option Err × Sys
  | [], s => (none, s)
  | txID :: rest, s =>
    match compressionCheck env txID s with
    | (some e, s1) => (some e, s1)
    | (none, s1) => compressionChecks env rest s1

/-- The loop over `txDeletes`: the receipt (a missing one is tolerated), the confirmations,
the history and the transaction itself are deleted. -/
def deleteTransactions (env : Env) : List String → Sys → Option Err × Sys
  | [], s => (none, s)
  | txID :: rest, s =>
    let (e1, s1) := storeCall env s (StoreCall.deleteReceipt txID)
    if e1.isSome ∧ e1 ≠ some Err.deleteRecordNotFound then (e1, s1)
    else
      match runStoreCalls env
          [StoreCall.deleteManyConfirmations txID, StoreCall.deleteManyHistory txID,
            StoreCall.deleteTransaction txID] s1 with
      | (some e, s2) => (some e, s2)
      | (none, s2) =>
        deleteTransactions env rest
          { s2 with transactions := s2.transactions.filter (fun t => t.ID != txID) }

/-- The receipts step of `executeBatchOps`: one bulk insert, and on its failure one upsert
for each receipt. -/
def insertReceipts (env : Env) (b : TransactionWriterBatch) (s : Sys) : Option Err × Sys :=
  let keys := b.receiptInserts.map Prod.fst
  let receipts := (env.rangeKeys 1 keys).filterMap (fun k => b.receiptInserts.lookup k)
  if receipts.length > 0 then
    match storeCall env s (StoreCall.insertManyReceipts receipts) with
    | (some _, s1) =>
      runStoreCalls env
        (((env.rangeKeys 2 keys).filterMap (fun k => b.receiptInserts.lookup k)).map
          StoreCall.upsertReceipt) s1
    | (none, s1) => (none, s1)
  else (none, s)

/-- The part of `executeBatchOps` that follows the insertion of the transactions. -/
def executeBatchTail (env : Env) (b : TransactionWriterBatch) (s : Sys) : Option Err × Sys :=
  let (txCompletions, mergedUpdates, s1) := mergeTxUpdates env b s
  let updates := (env.rangeKeys 0 (mergedUpdates.map Prod.fst)).filterMap (fun txID =>
    (mergedUpdates.lookup txID).bind (fun j =>
      (s1.ops[j]?).map (fun o => StoreCall.updateTransaction txID (o.txUpdate.getD {}))))
  match runStoreCalls env updates s1 with
  | (some e, s2) => (some e, s2)
  | (none, s2) =>
  match insertReceipts env b s2 with
  | (some e, s3) => (some e, s3)
  | (none, s3) =>
  match runStoreCalls env
      ((env.rangeKeys 3 b.confirmationResets).map StoreCall.deleteManyConfirmations) s3 with
  | (some e, s4) => (some e, s4)
  | (none, s4) =>
  match runStoreCalls env
      (if b.confirmationInserts.length > 0 then
        [StoreCall.insertManyConfirmations b.confirmationInserts] else []) s4 with
  | (some e, s5) => (some e, s5)
  | (none, s5) =>
  match runStoreCalls env
      (if b.historyInserts.length > 0 then [StoreCall.insertManyHistory b.historyInserts] else [])
      s5 with
  | (some e, s6) => (some e, s6)
  | (none, s6) =>
  match (if env.compressionInterval > 0 then
      compressionChecks env (env.rangeKeys 4 b.compressionChecks) s6 else (none, s6)) with
  | (some e, s7) => (some e, s7)
  | (none, s7) =>
  match storeCall env s7 (StoreCall.writeTransactionCompletions txCompletions) with
  | (some e, s8) => (some e, s8)
  | (none, s8) => deleteTransactions env b.txDeletes s8

/-- The transactions handed to the bulk insert: the `txInsert` of the valid inserts, read
when the bulk insert is made. -/
def bulkInserts (validInserts : List Nat) (ops : List TransactionOperation) : List ManagedTX :=
  validInserts.filterMap (fun i => (ops[i]?).bind (fun o => o.txInsert))

/-- The function `executeBatchOps`. -/
def executeBatchOps (env : Env) (b : TransactionWriterBatch) (s : Sys) : Option Err × Sys :=
  match preInsertIdempotencyCheck env b s with
  | (some e, _, s1) => (some e, s1)
  | (none, txInserts, s1) =>
    let r : Option Err × Sys :=
      if txInserts.length > 0 then
        match assignNonces env (env.rangeInserts 1 b.txInsertsByFrom) s1 with
        | (some e, s2) => (some e, s2)
        | (none, s2) =>
          match insertManyTransactions env (bulkInserts txInserts s2.ops) s2 with
          | (some e, s3) => (some e, s3)
          | (none, s3) => (none, primeMetaCache env (bulkInserts txInserts s2.ops) s3)
      else (none, s1)
    match r with
    | (some e, s2) => (some e, s2)
    | (none, s2) => executeBatchTail env b s2

/-! ## runBatch -/

/-- The function `clearCachedNonces`. -/
def clearCachedNonces (env : Env) (txInsertsByFrom : List (String × List Nat)) (s : Sys) : Sys :=
  (env.rangeInserts 2 txInsertsByFrom).foldl
    (fun s1 g => { s1 with nextNonceCache := s1.nextNonceCache.remove g.1 }) s

/-- The call `RunAsGroup` around the classification and `executeBatchOps`: the grouped
transaction may fail to begin (the function is then not run), the function may fail, and
the commit may fail; on every failure the rows of the store are as before. -/
def runAsGroup (env : Env) (b : TransactionWriterBatch) (s : Sys) :
    Option Err × TransactionWriterBatch × Sys :=
  match env.beginFault with
  | some e => (some e, b, s)
  | none =>
    let b1 := classify b s.ops
    match executeBatchOps env b1 s with
    | (some e, s1) => (some e, b1, { s1 with transactions := s.transactions })
    | (none, s1) =>
      match env.commitFault with
      | some e => (some e, b1, { s1 with transactions := s.transactions })
      | none => (none, b1, s1)

/-- The body of the final loop of `runBatch`: `err` is sent to an operation that was not
sent a conflict. -/
def sendResult (err : Option Err) (op : TransactionOperation) : TransactionOperation :=
  if op.sentConflict then op else { op with done := op.done ++ [err] }

/-- The final loop of `runBatch`. -/
def sendResults (err : Option Err) (ops : List TransactionOperation) : List TransactionOperation :=
  ops.map (sendResult err)

/-- The function `runBatch`. -/
def runBatch (env : Env) (b : TransactionWriterBatch) (s : Sys) : TransactionWriterBatch × Sys :=
  match runAsGroup env b s with
  | (some _, b1, s1) =>
    let s2 := clearCachedNonces env b1.txInsertsByFrom s1
    (b1, { s2 with ops := sendResults (some Err.transactionPersistenceError) s2.ops })
  | (none, b1, s1) => (b1, { s1 with ops := sendResults none s1.ops })

/-! ## Vocabulary of the statements -/

/-- The nonce carried by the insert at position `i`, if any. -/
def nonceAt (ops : List TransactionOperation) (i : Nat) : Option Int :=
  (ops[i]?).bind (fun o => o.txInsert.bind (fun tx => tx.Nonce))

/-- Position `i` holds an operation that `assignNonces` does not skip: its nonce is not
pre-assigned and it was not sent a conflict. -/
def admitted (ops : List TransactionOperation) (i : Nat) : Bool :=
  match ops[i]? with
  | some op => !op.noncePreAssigned && !op.sentConflict
  | none => false

/-- The positions among `txs` that `assignNonces` does not skip, in the order of `txs`. -/
def admittedOf (ops : List TransactionOperation) (txs : List Nat) : List Nat :=
  txs.filter (admitted ops)

/-- Position `i` holds an insert whose transaction is from `signer`. -/
def isInsertOf (ops : List TransactionOperation) (signer : String) (i : Nat) : Bool :=
  match ops[i]? with
  | some op =>
    match op.txInsert with
    | some tx => tx.From == signer
    | none => false
  | none => false

/-- The value that the chain callback of the operation at position `i` returns for
`signer`, when it returns one. -/
def chainValue (ops : List TransactionOperation) (i : Nat) (signer : String) : Option Nat :=
  match ops[i]? with
  | some op =>
    match op.nextNonceCB signer with
    | Except.ok c => some c
    | Except.error _ => none
  | none => none

/-- The error that the chain callback of the operation at position `i` returns for
`signer`, when it fails. -/
def chainError (ops : List TransactionOperation) (i : Nat) (signer : String) : Option Err :=
  match ops[i]? with
  | some op =>
    match op.nextNonceCB signer with
    | Except.ok _ => none
    | Except.error e => some e
  | none => none

/-- The candidate that the store contributes for `signer`: the nonce of the signer's
highest row plus one, or nothing when the signer has no row. -/
def storeCandidate (rows : List ManagedTX) (signer : String) : Option Nat :=
  (highestNonceTx rows signer).map (fun tx => (uint64Of tx.Nonce + 1) % 2 ^ 64)

/-- The state reached by stamping the positions `A` with consecutive nonces starting at
`ce.nextNonce`, each followed by the cache update, as the inner loop of `assignNonces`
does once `ce` is its valid cache entry. -/
def stampAll (signer : String) : List Nat → NonceCacheEntry → Sys → Sys
  | [], _, s => s
  | i :: rest, ce, s =>
    stampAll signer rest { ce with nextNonce := (ce.nextNonce + 1) % 2 ^ 64 }
      { s with ops := modifyOp s.ops i (stampNonce ce.nextNonce),
               nextNonceCache :=
                 s.nextNonceCache.add signer { ce with nextNonce := (ce.nextNonce + 1) % 2 ^ 64 } }

/-- The groups `gs` of a map of inserts are well formed for the operations `ops`: the
signers are distinct, no position occurs twice, and every position of a group holds an
insert of the group's signer. -/
def GroupsWF (ops : List TransactionOperation) (gs : List (String × List Nat)) : Prop :=
  (gs.map Prod.fst).Nodup ∧ (gs.flatMap Prod.snd).Nodup ∧
    ∀ g ∈ gs, ∀ i ∈ g.2, isInsertOf ops g.1 i = true

/-- The operation with the nonce of its insert erased: what `assignNonces` never changes. -/
def unstamp (o : TransactionOperation) : TransactionOperation :=
  { o with txInsert := o.txInsert.map (fun tx => { tx with Nonce := none }) }

/-- What a part of `assignNonces` working for `signer` on the positions `txs` leaves
alone: operations outside `txs`, everything but the nonce of the others, the rows of the
store, the metadata cache, and the cache entries of the other signers, which can only be
evicted. -/
structure NonceFrame (signer : String) (txs : List Nat) (s s1 : Sys) : Prop where
  ops_out : ∀ j, j ∉ txs → s1.ops[j]? = s.ops[j]?
  skeleton : s1.ops.map unstamp = s.ops.map unstamp
  rows : s1.transactions = s.transactions
  metaCache : s1.txMetaCache = s.txMetaCache
  size : s1.nextNonceCache.size = s.nextNonceCache.size
  peek_ne : ∀ k, k ≠ signer →
    s1.nextNonceCache.peek k = s.nextNonceCache.peek k ∨ s1.nextNonceCache.peek k = none

/-- The key `k` is among the `n + 1` most recently used entries of the cache. -/
def LRU.recent {β : Type} (c : LRU β) (k : String) (n : Nat) : Prop :=
  k ∈ (c.items.take (n + 1)).map Prod.fst

/-- The key `k` is the most recently used entry of the cache. -/
def LRU.front {β : Type} (c : LRU β) (k : String) : Prop :=
  ∃ v rest, c.items = (k, v) :: rest

/-- The invariant of the nonce cache while the group of signer `K` is processed, as seen
from another key `k`: either `K` has no entry yet and `k` is among the `n + 1` most recent
keys, or `K` is the most recent key and `k` is among the `n + 2` most recent ones. -/
def LRU.behind {β : Type} (c : LRU β) (K k : String) (n : Nat) : Prop :=
  (c.peek K = none ∧ c.recent k n) ∨ (c.front K ∧ c.recent k (n + 1))

/-- The idempotency check finds the insert at position `i` to be a duplicate: the ID of
the operation is in the metadata cache and the store returns a transaction for it. -/
def isDuplicate (s : Sys) (i : Nat) : Bool :=
  match s.ops[i]? with
  | some op =>
    (s.txMetaCache.peek op.txID).isSome && (getTransactionByID s.transactions op.txID).isSome
  | none => false

/-- The ID of the operation at position `i` is in the metadata cache. -/
def inMetaCache (s : Sys) (i : Nat) : Bool :=
  match s.ops[i]? with
  | some op => (s.txMetaCache.peek op.txID).isSome
  | none => false

/-- The store call by which the idempotency check confirms the insert at position `i`. -/
def confirmCall (ops : List TransactionOperation) (i : Nat) : StoreCall :=
  match ops[i]? with
  | some op => StoreCall.getTransactionByID op.txID
  | none => StoreCall.getTransactionByID ""

/-- The operations after the positions `js` have been sent a conflict. -/
def flagAll (ops : List TransactionOperation) : List Nat → List TransactionOperation
  | [] => ops
  | j :: rest => flagAll (modifyOp ops j flagConflict) rest

/-- What the idempotency check never changes between two states. -/
structure CheckFrame (s s1 : Sys) : Prop where
  txIDs : s1.ops.map (fun o => o.txID) = s.ops.map (fun o => o.txID)
  peeks : ∀ k, s1.txMetaCache.peek k = s.txMetaCache.peek k
  rows : s1.transactions = s.transactions
  nonces : s1.nextNonceCache = s.nextNonceCache
  calls : s1.cbCalls = s.cbCalls
  clock : s1.clockReads = s.clockReads

/-- The operation without its update: what the steps of `executeBatchOps` after the
nonce assignment never change. -/
def dropUpdate (o : TransactionOperation) : TransactionOperation :=
  { o with txUpdate := none }

/-- What the steps of `executeBatchOps` after the nonce assignment leave alone: the nonce
cache, the log of chain callbacks, and everything of the operations but their updates. -/
structure OpsKept (s s1 : Sys) : Prop where
  nonces : s1.nextNonceCache = s.nextNonceCache
  calls : s1.cbCalls = s.cbCalls
  ops : s1.ops.map dropUpdate = s.ops.map dropUpdate

/-- The invariant of the classification loop of `runBatch` on the map of inserts `m`, when
the operations before position `i` have been classified. -/
structure InsertsInv (ops : List TransactionOperation) (i : Nat)
    (m : List (String × List Nat)) : Prop where
  wf : GroupsWF ops m
  below : ∀ j, j ∈ m.flatMap Prod.snd → j < i
  covers : ∀ j op tx, j < i → ops[j]? = some op → op.txInsert = some tx →
    ∃ txs, (tx.From, txs) ∈ m ∧ j ∈ txs

/-- What a caller observes of an operation: its transaction ID, whether it was sent a
conflict, and the values sent on its completion channel. -/
def outcome (o : TransactionOperation) : String × Bool × List (Option Err) :=
  (o.txID, o.sentConflict, o.done)

/-! ## The embedded backend: `lockedNonces` and `calcNextNonce` -/

/-- A `lockedNonce` object; `unlockedClosed` tells whether its channel `unlocked` has been
closed. -/
structure LockedNonce where
  nsOpID : String := ""
  signer : String := ""
  unlockedClosed : Bool := false
  nonce : Nat := 0
  spent : Bool := false
deriving DecidableEq, Repr

/-- The state of `leveldbPersistence` that nonce assignment works on: the `lockedNonce`
objects made so far (a pointer to one is its position in `locks`), the map `lockedNonces`
from signer to such a pointer, the stored transactions, the number of clock readings and of
store queries made, and the signers for which a chain callback was invoked. -/
structure LevelDB where
  locks : List LockedNonce := []
  lockedNonces : List (String × Nat) := []
  transactions : List ManagedTX := []
  clockReads : Nat := 0
  storeCalls : Nat := 0
  cbCalls : List String := []

/-- The statement `delete(m, k)` on a map. -/
def mapDelete {β : Type} (m : List (String × β)) (k : String) : List (String × β) :=
  m.filter (fun e => e.1 != k)

/-- The method `complete` of the `lockedNonce` at position `p`: the entry of its signer is
deleted from `lockedNonces` and the channel `unlocked` is closed. The result is `none` when
the call does not return: closing a channel that is already closed panics. The branch on
`spent` only chooses the line that is logged. -/
def complete (p : Nat) (s : LevelDB) : Option LevelDB :=
  match s.locks[p]? with
  | none => none
  | some ln =>
    let lockedNonces1 := mapDelete s.lockedNonces ln.signer
    if ln.unlockedClosed then none
    else some { s with lockedNonces := lockedNonces1,
                       locks := s.locks.set p { ln with unlockedClosed := true } }

/-- Modelled from the spec: the method `ListTransactionsByNonce` of the embedded
persistence, whose source is not among the files here, called with no start nonce, limit 1
and descending direction: the stored transaction of `signer` with the highest nonce, if
there is one, or the failure of the store query. -/
def listTransactionsByNonce (env : Env) (signer : String) (s : LevelDB) :
    Except Err (List ManagedTX) × LevelDB :=
  let s1 := { s with storeCalls := s.storeCalls + 1 }
  match env.storeFault s.storeCalls with
  | some e => (Except.error e, s1)
  | none => (Except.ok (highestNonceTx s.transactions signer).toList, s1)

/-- The function `calcNextNonce`. -/
def calcNextNonce (env : Env) (signer : String) (nextNonceCB : String → Except Err Nat)
    (s : LevelDB) : Except Err Nat × LevelDB :=
  match listTransactionsByNonce env signer s with
  | (Except.error e, s1) => (Except.error e, s1)
  | (Except.ok txns, s1) =>
    let lastTxn := txns.head?
    let early : Option Nat × LevelDB :=
      match lastTxn with
      | some tx =>
        let s2 := { s1 with clockReads := s1.clockReads + 1 }
        if env.clock s1.clockReads - tx.Created < env.nonceStateTimeout then
          (some ((uint64Of tx.Nonce + 1) % 2 ^ 64), s2)
        else (none, s2)
      | none => (none, s1)
    match early with
    | (some nextNonce, s2) => (Except.ok nextNonce, s2)
    | (none, s2) =>
      let s3 := { s2 with cbCalls := s2.cbCalls ++ [signer] }
      match nextNonceCB signer with
      | Except.error e => (Except.error e, s3)
      | Except.ok nextNonce =>
        match lastTxn with
        | some tx =>
          if nextNonce ≤ uint64Of tx.Nonce then (Except.ok ((uint64Of tx.Nonce + 1) % 2 ^ 64), s3)
          else (Except.ok nextNonce, s3)
        | none => (Except.ok nextNonce, s3)

/-- What the block of `assignAndLockNonce` under `nonceMux` finds: the caller made the
`lockedNonce` at position `p` and holds the signer, or the signer is held through the
`lockedNonce` at position `p`. -/
inductive LockAttempt where
  | holder (p : Nat)
  | contended (p : Nat)
deriving DecidableEq, Repr

/-- The block of `assignAndLockNonce` between `nonceMux.Lock()` and `nonceMux.Unlock()`. -/
def lockAttempt (nsOpID signer : String) (s : LevelDB) : LockAttempt × LevelDB :=
  match s.lockedNonces.lookup signer with
  | some p => (LockAttempt.contended p, s)
  | none =>
    (LockAttempt.holder s.locks.length,
      { s with locks := s.locks ++ [{ nsOpID := nsOpID, signer := signer }],
               lockedNonces := mapSet s.lockedNonces signer s.locks.length })

/-- How a call of `assignAndLockNonce` ends: with the `lockedNonce` at position `p`, with
an error, blocked on the channel of the `lockedNonce` at position `p`, in a panic, or
still looping when the iterations allowed to it are used up. -/
inductive LockOutcome where
  | locked (p : Nat)
  | failed (e : Err)
  | blocked (p : Nat)
  | panicked
  | looping
deriving DecidableEq, Repr

/-- The branch `else if doLookup` of `assignAndLockNonce` for the holder of the
`lockedNonce` at position `p`. -/
def holderLookup (env : Env) (p : Nat) (signer : String)
    (nextNonceCB : String → Except Err Nat) (s : LevelDB) : LockOutcome × LevelDB :=
  match calcNextNonce env signer nextNonceCB s with
  | (Except.error e, s1) =>
    match complete p s1 with
    | some s2 => (LockOutcome.failed e, s2)
    | none => (LockOutcome.panicked, s1)
  | (Except.ok nextNonce, s1) =>
    (LockOutcome.locked p,
      { s1 with locks := match s1.locks[p]? with
                         | some ln => s1.locks.set p { ln with nonce := nextNonce }
                         | none => s1.locks })

/-- The function `assignAndLockNonce` run by one caller with no other goroutine taking a
step, for at most the given number of iterations of its loop. Waiting on a channel that is
not closed ends the run as blocked. -/
def assignAndLockNonce (env : Env) (nsOpID signer : String)
    (nextNonceCB : String → Except Err Nat) : Nat → LevelDB → LockOutcome × LevelDB
  | 0, s => (LockOutcome.looping, s)
  | fuel + 1, s =>
    match lockAttempt nsOpID signer s with
    | (LockAttempt.contended p, s1) =>
      match s1.locks[p]? with
      | some ln =>
        if ln.unlockedClosed then assignAndLockNonce env nsOpID signer nextNonceCB fuel s1
        else (LockOutcome.blocked p, s1)
      | none => (LockOutcome.panicked, s1)
    | (LockAttempt.holder p, s1) => holderLookup env p signer nextNonceCB s1

/-- A step that some goroutine takes on the state of the embedded backend: the locked
block of `assignAndLockNonce`, the lookup of the holder of an open `lockedNonce`, the call
of `complete` on a `lockedNonce` not completed before, the caller marking its nonce as
spent, or a write to the stored transactions. -/
inductive LockStep (env : Env) : LevelDB → LevelDB → Prop where
  | attempt (nsOpID signer : String) (s : LevelDB) :
      LockStep env s (lockAttempt nsOpID signer s).2
  | lookup (p : Nat) (ln : LockedNonce) (nextNonceCB : String → Except Err Nat) (s : LevelDB) :
      s.locks[p]? = some ln → ln.unlockedClosed = false →
      LockStep env s (holderLookup env p ln.signer nextNonceCB s).2
  | release (p : Nat) (s s1 : LevelDB) : complete p s = some s1 → LockStep env s s1
  | spend (p : Nat) (ln : LockedNonce) (s : LevelDB) : s.locks[p]? = some ln →
      LockStep env s { s with locks := s.locks.set p { ln with spent := true } }
  | store (rows : List ManagedTX) (s : LevelDB) : LockStep env s { s with transactions := rows }

/-- The states of the embedded backend reachable from the initial one. -/
inductive LockReachable (env : Env) : LevelDB → Prop where
  | init : LockReachable env {}
  | step (s s1 : LevelDB) : LockReachable env s → LockStep env s s1 → LockReachable env s1

/-- The reference of `calcNextNonce` in the words of the specification, for a store query
that succeeded: `highest` is the creation time and the nonce of the signer's stored
transaction with the highest nonce, `now` the current time, `chain` the result of the chain
callback. The second component tells whether the callback is invoked. -/
def calcNextNonceRef (timeout now : Int) (highest : Option (Int × Nat)) (chain : Except Err Nat) :
    Except Err Nat × Bool :=
  match highest with
  | some (created, nonce) =>
    if now - created < timeout then (Except.ok (nonce + 1), false)
    else (chain.map (fun c => max c (nonce + 1)), true)
  | none => (chain, true)

/-- The invariant of the embedded backend's slots: every entry of `lockedNonces` points to
a `lockedNonce` of that signer whose channel is open, and every `lockedNonce` whose channel
is open is the entry of its signer. -/
def LockInv (s : LevelDB) : Prop :=
  (∀ (signer : String) (p : Nat), s.lockedNonces.lookup signer = some p →
    ∃ ln, s.locks[p]? = some ln ∧ ln.signer = signer ∧ ln.unlockedClosed = false) ∧
  (∀ (p : Nat) (ln : LockedNonce), s.locks[p]? = some ln → ln.unlockedClosed = false →
    s.lockedNonces.lookup ln.signer = some p)

/-! ## queue and the routing to workers -/

/-- The bytes of the UTF-8 encoding of a character. -/
def utf8Bytes (c : Char) : List Nat :=
  let n := c.toNat
  if n < 128 then [n]
  else if n < 2048 then [192 + n / 64, 128 + n % 64]
  else if n < 65536 then [224 + n / 4096, 128 + n / 64 % 64, 128 + n % 64]
  else [240 + n / 262144, 128 + n / 4096 % 64, 128 + n / 64 % 64, 128 + n % 64]

/-- The conversion `[]byte(s)` of a string. -/
def bytesOf (s : String) : List Nat :=
  s.data.flatMap utf8Bytes

/-- The hash of package `hash/fnv` made by `New32a`, fed by `Write` and read by `Sum32`:
FNV-1a on 32 bits, with offset basis 2166136261 and prime 16777619. -/
def fnv32a (bytes : List Nat) : Nat :=
  bytes.foldl (fun h b => (h ^^^ b) * 16777619 % 2 ^ 32) 2166136261

/-- The part of `transactionWriter` that `queue` works on: the field `workerCount` and the
work queues, each the list of the operations waiting in it, oldest first. -/
structure Writer where
  workerCount : Nat := 1
  workQueues : List (List TransactionOperation) := [[]]

/-- The case of the final `select` of `queue` that is taken. -/
inductive QueueSelect where
  | sent
  | callerDone
  | shuttingDown
deriving DecidableEq, Repr

/-- The variable `hashKey` of `queue`. -/
def hashKey (op : TransactionOperation) : String :=
  match op.txInsert with
  | some tx => tx.From
  | none => op.txID

/-- The variable `routine` of `queue`. -/
def routine (tw : Writer) (op : TransactionOperation) : Nat :=
  fnv32a (bytesOf (hashKey op)) % tw.workerCount

/-- The function `queue`, for the case `sel` of its `select`. The result holds the writer
and the operation afterwards; it is `none` when the call panics, on the division by a zero
`workerCount` or on an index outside `workQueues`. -/
def queue (tw : Writer) (sel : QueueSelect) (op : TransactionOperation) :
    Option (Writer × TransactionOperation) :=
  if hashKey op == "" then
    some (tw, { op with done := op.done ++ [some Err.transactionOpInvalid] })
  else if tw.workerCount = 0 then none
  else
    match tw.workQueues[routine tw op]? with
    | none => none
    | some q =>
      match sel with
      | QueueSelect.sent =>
        some ({ tw with workQueues := tw.workQueues.set (routine tw op) (q ++ [op]) }, op)
      | QueueSelect.callerDone => some (tw, op)
      | QueueSelect.shuttingDown => some (tw, { op with done := op.done ++ [some Err.shuttingDown] })

/-! ## The worker -/

/-- What the `select` of one iteration of the loop of `worker` yields: an operation taken
from the work queue, or `timeoutContext.Done()`, with the fact whether the background
context `ctx` is done as well (the inner `select`). -/
inductive WorkerEvent where
  | received (op : TransactionOperation)
  | timeoutDone (ctxDone : Bool)

/-- What a worker does that others can see: a call of `runBatch` with the operations of
the batch, and the closing of the completion channel of a shutdown request. -/
inductive WorkerAction where
  | ranBatch (ops : List TransactionOperation)
  | closedDone (op : TransactionOperation)

/-- The local variables of `worker` and the trace of what it did: the operations of the
open batch (`none` for a nil `batch`), `batchCount`, `shutdownRequest`, whether the
function has left its loop, the state of the writer that `runBatch` works on, the actions
taken so far and the operations as the calls of `runBatch` left them. -/
structure WorkerState where
  sys : Sys
  batch : Option (List TransactionOperation) := none
  batchCount : Nat := 0
  shutdownRequest : Option TransactionOperation := none
  stopped : Bool := false
  actions : List WorkerAction := []
  finished : List TransactionOperation := []

/-- The statements of the loop body of `worker` after its `select`: the batch is run when
it exists and the iteration timed out or the batch is full, and the completion channel of
a shutdown request is closed. -/
def workerFinish (env : Env) (batchMaxSize : Int) (timedOut : Bool) (w : WorkerState) :
    WorkerState :=
  let w1 : WorkerState :=
    match w.batch with
    | some ops =>
      if timedOut || decide ((ops.length : Int) ≥ batchMaxSize) then
        let r := runBatch env {} { w.sys with ops := ops }
        { w with sys := r.2, batch := none,
                 actions := w.actions ++ [WorkerAction.ranBatch ops],
                 finished := w.finished ++ r.2.ops }
      else w
    | none => w
  match w1.shutdownRequest with
  | some op => { w1 with actions := w1.actions ++ [WorkerAction.closedDone op], stopped := true }
  | none => w1

/-- One iteration of the loop of `worker`, for the event its `select` yields. -/
def workerIteration (env : Env) (batchMaxSize : Int) (ev : WorkerEvent) (w : WorkerState) :
    WorkerState :=
  match ev with
  | WorkerEvent.received op =>
    if op.isShutdown then
      workerFinish env batchMaxSize true { w with shutdownRequest := some op }
    else
      match w.batch with
      | none =>
        workerFinish env batchMaxSize false
          { w with batch := some [op], batchCount := w.batchCount + 1 }
      | some ops => workerFinish env batchMaxSize false { w with batch := some (ops ++ [op]) }
  | WorkerEvent.timeoutDone ctxDone =>
    if ctxDone then { w with stopped := true }
    else workerFinish env batchMaxSize true w

/-- The function `worker` on the events that its `select` yields one after the other; the
events after the one on which the function leaves its loop are not looked at. -/
def worker (env : Env) (batchMaxSize : Int) : List WorkerEvent → WorkerState → WorkerState
  | [], w => w
  | ev :: rest, w =>
    if w.stopped then w else worker env batchMaxSize rest (workerIteration env batchMaxSize ev w)

/-- The batches that the worker passed to `runBatch`, oldest first. -/
def batchesRun : List WorkerAction → List (List TransactionOperation)
  | [] => []
  | WorkerAction.ranBatch ops :: rest => ops :: batchesRun rest
  | WorkerAction.closedDone _ :: rest => batchesRun rest

/-- The operations that the worker takes from its queue, in order, until it leaves its
loop: up to the first shutdown request or the first event with the background context
done. -/
def receivedOps : List WorkerEvent → List TransactionOperation
  | [] => []
  | WorkerEvent.received op :: rest => if op.isShutdown then [] else op :: receivedOps rest
  | WorkerEvent.timeoutDone ctxDone :: rest => if ctxDone then [] else receivedOps rest

/-- The invariant of the loop of `worker` for `batchMaxSize = B`: every batch run so far and
the open batch hold at least one operation, a batch run holds at most `B` and the open
batch fewer than `B`, and a shutdown request is only held once the loop is left. -/
def WorkerInv (B : Int) (w : WorkerState) : Prop :=
  (∀ ops, ops ∈ batchesRun w.actions → 1 ≤ ops.length ∧ (ops.length : Int) ≤ B) ∧
  (∀ b, w.batch = some b → 1 ≤ b.length ∧ (b.length : Int) < B) ∧
  (w.stopped = false → w.shutdownRequest = none)

/-- An event that is neither a shutdown request nor the end of the background context. -/
def WorkerEvent.ordinary : WorkerEvent → Prop
  | WorkerEvent.received op => op.isShutdown = false
  | WorkerEvent.timeoutDone ctxDone => ctxDone = false

/-- The invariant of a worker that is in its loop and has received the operations `R`:
it has only run batches, the batches run followed by the open batch are `R`, and the
operations of the batches run are finished, each with one value on its completion
channel. -/
def DrainInv (R : List TransactionOperation) (w : WorkerState) : Prop :=
  w.stopped = false ∧ w.shutdownRequest = none ∧
  w.actions = (batchesRun w.actions).map WorkerAction.ranBatch ∧
  (batchesRun w.actions).flatten ++ w.batch.getD [] = R ∧
  w.finished.map (fun o => o.txID) =
    ((batchesRun w.actions).flatten).map (fun o => o.txID) ∧
  ∀ o, o ∈ w.finished → o.done.length = 1

/-- The transaction ID of the operation at position `i`. -/
def txIDAt (ops : List TransactionOperation) (i : Nat) : Option String :=
  (ops[i]?).map (fun o => o.txID)

/-- The update object of the operation at position `i`, if the operation has one. -/
def updAt (ops : List TransactionOperation) (i : Nat) : Option TXUpdates :=
  (ops[i]?).bind (fun o => o.txUpdate)

/-- The update that the operation at position `i` carries. -/
def updateOf (ops : List TransactionOperation) (i : Nat) : TXUpdates :=
  (updAt ops i).getD {}

/-- The transaction and status of the completion record that the update at position `i`
calls for: its status is `Succeeded` or `Failed`. -/
def completionOf (ops : List TransactionOperation) (i : Nat) : Option (String × TxStatus) :=
  match ops[i]? with
  | some op =>
    match (op.txUpdate.getD {}).Status with
    | some st => if st = TxStatus.Succeeded ∨ st = TxStatus.Failed then some (op.txID, st) else none
    | none => none
  | none => none

/-- The update at position `i` is for transaction `T` and has a terminal status. -/
def terminalFor (ops : List TransactionOperation) (T : String) (i : Nat) : Bool :=
  match completionOf ops i with
  | some p => p.1 == T
  | none => false

/-- The merge of the update at position `k` into an accumulated update object. -/
def mergeInto (ops : List TransactionOperation) (u : Option TXUpdates) (k : Nat) :
    Option TXUpdates :=
  u.map (fun v => v.Merge (updateOf ops k))

/-- An operation that updates transaction `id` to status `st`. -/
def sampleUpdate (id : String) (st : TxStatus) : TransactionOperation :=
  { txID := id, txUpdate := some { Status := some st } }

/-! ## Vocabulary: the confirmations of a batch -/

/-- The confirmation that an operation brings to the classification of `runBatch`, with
its reset flag `clearConfirmations`: the operation is one that reaches the case
`op.confirmation != nil` of the `switch`. -/
def confirmationOf (op : TransactionOperation) : Option (ConfirmationRecord × Bool) :=
  match op.txInsert, op.txUpdate, op.txDelete, op.receipt, op.historyRecord, op.confirmation with
  | none, none, none, none, none, some c => some (c, op.clearConfirmations)
  | _, _, _, _, _, _ => none

/-- The confirmations of the operations `ops`, in arrival order, each with its reset flag. -/
def confirmationOps (ops : List TransactionOperation) : List (ConfirmationRecord × Bool) :=
  ops.filterMap confirmationOf

/-- The queue of confirmation inserts after one more confirmation `x.1` with reset flag
`x.2`. -/
def queueConfirmation (q : List ConfirmationRecord) (x : ConfirmationRecord × Bool) :
    List ConfirmationRecord :=
  if x.2 then q.filter (fun c1 => c1.TransactionID != x.1.TransactionID) ++ [x.1] else q ++ [x.1]

/-- The set of confirmation resets after one more confirmation `x.1` with reset flag `x.2`. -/
def noteReset (r : List String) (x : ConfirmationRecord × Bool) : List String :=
  if x.2 then setAdd r x.1.TransactionID else r

/-! ## Vocabulary: the trace of store calls -/

/-- The step of `executeBatchOps` that a store call belongs to, the calls of the loop over
`txDeletes` apart: 1 the idempotency pre-check, 2 the nonce assignment, 3 the bulk insert of
the transactions, 4 the merged updates, 5 the receipts, 6 the deletion of the confirmations
of reset transactions, 7 the confirmation inserts, 8 the history inserts, 9 the compression
checks, 10 the completion records; 11 stands for the deletes. -/
def StoreCall.stage : StoreCall → Nat
  | StoreCall.getTransactionByID _ => 1
  | StoreCall.getManyTransactions _ => 2
  | StoreCall.insertManyTransactions _ => 3
  | StoreCall.updateTransaction _ _ => 4
  | StoreCall.insertManyReceipts _ => 5
  | StoreCall.upsertReceipt _ => 5
  | StoreCall.deleteManyConfirmations _ => 6
  | StoreCall.insertManyConfirmations _ => 7
  | StoreCall.insertManyHistory _ => 8
  | StoreCall.compressHistory _ => 9
  | StoreCall.writeTransactionCompletions _ => 10
  | StoreCall.deleteReceipt _ => 11
  | StoreCall.deleteManyHistory _ => 11
  | StoreCall.deleteTransaction _ => 11

/-- A call that the loop over `txDeletes` makes. -/
def StoreCall.isDelete : StoreCall → Bool
  | StoreCall.deleteReceipt _ => true
  | StoreCall.deleteManyConfirmations _ => true
  | StoreCall.deleteManyHistory _ => true
  | StoreCall.deleteTransaction _ => true
  | _ => false

/-- The error that the store call `c` returns when it is call number `k` and the
transactions table holds `rows`: the failure injected into the call, and for the bulk
insert of transactions also the refusal of an ID that is stored or repeated. -/
def callError (env : Env) (rows : List ManagedTX) (k : Nat) (c : StoreCall) : Option Err :=
  match env.storeFault k with
  | some e => some e
  | none =>
    match c with
    | StoreCall.insertManyTransactions txs =>
      if (txs.map (fun t => t.ID)).Nodup ∧ ∀ t ∈ txs, getTransactionByID rows t.ID = none then none
      else some Err.uniqueViolation
    | _ => none

/-- The errors of store calls at which `executeBatchOps` does not stop: any error of the
bulk insert of receipts, and `DeleteRecordNotFound` from the deletion of a receipt. -/
def tolerated (c : StoreCall) (e : Err) : Bool :=
  match c, e with
  | StoreCall.insertManyReceipts _, _ => true
  | StoreCall.deleteReceipt _, Err.deleteRecordNotFound => true
  | _, _ => false

/-- The call `c1` is what follows a tolerated error of the call `c`: an upsert of a receipt
after the bulk insert of receipts, the deletion of the confirmations of the same transaction
after the deletion of its receipt. -/
def followsFailure (c c1 : StoreCall) : Bool :=
  match c, c1 with
  | StoreCall.insertManyReceipts _, StoreCall.upsertReceipt _ => true
  | StoreCall.deleteReceipt txID, StoreCall.deleteManyConfirmations txID1 => txID == txID1
  | _, _ => false

/-- A step that takes the writer from `s` to the result `r` makes the store calls `new`,
and every call of it that returns an error is either tolerated and followed by the call
that makes up for it, or is the last call, its error being the result of the step. -/
structure Traced (env : Env) (rows : List ManagedTX) (s : Sys) (r : Option Err × Sys)
    (new : List StoreCall) : Prop where
  calls : r.2.storeCalls = s.storeCalls ++ new
  stops : ∀ (k : Nat) (c : StoreCall) (e : Err), new[k]? = some c →
    callError env rows (s.storeCalls.length + k) c = some e →
    (tolerated c e = true ∧ ∃ c1, new[k + 1]? = some c1 ∧ followsFailure c c1 = true) ∨
    (r.1 = some e ∧ new.length = k + 1)

/-- The calls `new` are in the order of their steps, all of them of the steps `lo` to `hi`,
and a compression check is among them only if `CompressionInterval` is positive. -/
def Staged (env : Env) (lo hi : Nat) (new : List StoreCall) : Prop :=
  (new.map StoreCall.stage).Pairwise (fun a b => a ≤ b) ∧
  ∀ c, c ∈ new → lo ≤ c.stage ∧ c.stage ≤ hi ∧ (c.stage = 9 → 0 < env.compressionInterval)

/-- The compaction of the history of `txID` is due: the metadata cache has no entry for the
transaction, or the time since the entry's `lastCompacted`, at the next clock reading, is at
least `CompressionInterval`. -/
def compactionDue (env : Env) (txID : String) (s : Sys) : Bool :=
  match s.txMetaCache.peek txID with
  | none => true
  | some txMeta => decide (env.clock s.clockReads - txMeta.lastCompacted ≥ env.compressionInterval)

/-! ## The transaction handler: new transactions -/

/-- The values of `apitypes.TxSubStatus` that the handler uses. -/
inductive TxSubStatus where
  | Received
  | Stale
  | Tracking
deriving DecidableEq, Repr

/-- The values of `apitypes.TxAction` that the handler uses. -/
inductive TxAction where
  | AssignNonce
  | RetrieveGasPrice
  | SubmitTransaction
  | Timeout
deriving DecidableEq, Repr

/-- A call that the handler makes on its toolkit (the persistence `TXPersistence`, the
history `TXHistory`, the connector `Connector`), or on its own `markInflightStale`. -/
inductive HandlerCall where
  | getTransactionByID (txID : String)
  | transactionPrepare (input : String)
  | deployContractPrepare (input : String)
  | insertTransactionWithNextNonce (mtx : ManagedTX)
  | addSubStatusAction (txID : String) (subStatus : TxSubStatus) (action : TxAction)
      (info : String) (err : Option String) (actionOccurred : Int)
  | markInflightStale
deriving DecidableEq, Repr

/-- What the handler does not control. The persistence, the history and the connector are
interfaces of the toolkit: each answer is a function of the calls made before and of the
arguments. `InsertTransactionWithNextNonce` works on the transaction object it is handed
and so returns, with its error, the object as it leaves it; the prepare operations return
their error with the flag that `ffcapi.MapSubmissionRejected` gives for its reason.
`NewUUID n` is the `n`-th identifier generated and `Now n` the `n`-th clock reading. -/
structure Toolkit where
  GetTransactionByID : List HandlerCall → String → Except Err (Option ManagedTX)
  InsertTransactionWithNextNonce : List HandlerCall → ManagedTX → Option Err × ManagedTX
  AddSubStatusAction : List HandlerCall → String → TxSubStatus → TxAction → String →
    Option String → Int → Option Err
  TransactionPrepare : List HandlerCall → String → Except (Bool × Err) Unit
  DeployContractPrepare : List HandlerCall → String → Except (Bool × Err) Unit
  NewUUID : Nat → String
  Now : Nat → Int

/-- The state of the handler as far as new transactions go: the calls made so far, the
number of identifiers generated and the number of clock readings taken. -/
structure Handler where
  calls : List HandlerCall := []
  uuids : Nat := 0
  clockReads : Nat := 0
deriving DecidableEq, Repr

/-- The request headers and the fields of a `TransactionRequest` or `ContractDeployRequest`
that the handler passes on: the supplied ID, the signer and the input of the prepare
operation. -/
structure TransactionRequest where
  ID : String := ""
  From : String := ""
  input : String := ""
deriving DecidableEq, Repr

/-- The method `String` of a nullable big integer: the decimal digits, with a leading
minus sign for a negative value, and the text `<nil>` for nil. -/
def ffBigIntString (n : Option Int) : String :=
  match n with
  | none => "<nil>"
  | some v => toString v

/-- Modelled from the spec: the method `markInflightStale`, whose source is not among the
files here. The model records that it is called. -/
def markInflightStale (h : Handler) : Handler :=
  { h with calls := h.calls ++ [HandlerCall.markInflightStale] }

/-- The method `requestIDPreCheck`. -/
def requestIDPreCheck (tk : Toolkit) (reqID : String) (h : Handler) : Except Err String × Handler :=
  if reqID = "" then (Except.ok (tk.NewUUID h.uuids), { h with uuids := h.uuids + 1 })
  else
    let h1 := { h with calls := h.calls ++ [HandlerCall.getTransactionByID reqID] }
    match tk.GetTransactionByID h.calls reqID with
    | Except.error e => (Except.error e, h1)
    | Except.ok (some _) => (Except.error (Err.duplicateID reqID), h1)
    | Except.ok none => (Except.ok reqID, h1)

/-- The method `createManagedTx`, for the transaction ID and the signer of the headers; the
gas estimate and the transaction data, which it copies into the transaction object, are
left out. It returns the transaction and the error. -/
def createManagedTx (tk : Toolkit) (txID txFrom : String) (h : Handler) :
    (Option ManagedTX × Option Err) × Handler :=
  let now := tk.Now h.clockReads
  let mtx : ManagedTX := { ID := txID, Created := now, From := txFrom, Status := TxStatus.Pending }
  let h1 := { h with clockReads := h.clockReads + 1,
                     calls := h.calls ++ [HandlerCall.insertTransactionWithNextNonce mtx] }
  match tk.InsertTransactionWithNextNonce h.calls mtx with
  | (some e, _) => ((none, some e), h1)
  | (none, mtx1) =>
    let info := "\x7b\"nonce\":\"" ++ ffBigIntString mtx1.Nonce ++ "\"\x7d"
    let occurred := tk.Now h1.clockReads
    let h2 := { h1 with clockReads := h1.clockReads + 1,
                        calls := h1.calls ++ [HandlerCall.addSubStatusAction txID
                          TxSubStatus.Received TxAction.AssignNonce info none occurred] }
    match tk.AddSubStatusAction h1.calls txID TxSubStatus.Received TxAction.AssignNonce info none
        occurred with
    | some e => ((none, some e), h2)
    | none => ((some mtx1, none), markInflightStale h2)

/-- The method `HandleNewTransaction`; it returns the transaction, the flag
`submissionRejected` and the error. -/
def HandleNewTransaction (tk : Toolkit) (txReq : TransactionRequest) (h : Handler) :
    (Option ManagedTX × Bool × Option Err) × Handler :=
  match requestIDPreCheck tk txReq.ID h with
  | (Except.error e, h1) => ((none, false, some e), h1)
  | (Except.ok txID, h1) =>
    let h2 := { h1 with calls := h1.calls ++ [HandlerCall.transactionPrepare txReq.input] }
    match tk.TransactionPrepare h1.calls txReq.input with
    | Except.error (rejected, e) => ((none, rejected, some e), h2)
    | Except.ok _ =>
      match createManagedTx tk txID txReq.From h2 with
      | ((mtx, err), h3) => ((mtx, false, err), h3)

/-- The method `HandleNewContractDeployment`. -/
def HandleNewContractDeployment (tk : Toolkit) (txReq : TransactionRequest) (h : Handler) :
    (Option ManagedTX × Bool × Option Err) × Handler :=
  match requestIDPreCheck tk txReq.ID h with
  | (Except.error e, h1) => ((none, false, some e), h1)
  | (Except.ok txID, h1) =>
    let h2 := { h1 with calls := h1.calls ++ [HandlerCall.deployContractPrepare txReq.input] }
    match tk.DeployContractPrepare h1.calls txReq.input with
    | Except.error (rejected, e) => ((none, rejected, some e), h2)
    | Except.ok _ =>
      match createManagedTx tk txID txReq.From h2 with
      | ((mtx, err), h3) => ((mtx, false, err), h3)

/-- A call of the persistence or of the history. -/
def HandlerCall.isPersistence : HandlerCall → Bool
  | HandlerCall.getTransactionByID _ => true
  | HandlerCall.insertTransactionWithNextNonce _ => true
  | HandlerCall.addSubStatusAction _ _ _ _ _ _ => true
  | _ => false

/-- The events `evs`, numbered from `i`, are what the `select` of a worker can yield when the
background context is cancelled just before event number `k`: the case
`timeoutContext.Done()` finds the background context done from then on and not before. An
operation or a shutdown request that waits in the work queue can be taken at any time, also
after the cancellation. -/
def cancelledFromAt (k : Nat) : Nat → List WorkerEvent → Bool
  | _, [] => true
  | i, WorkerEvent.timeoutDone c :: rest =>
    (c == decide (k ≤ i)) && cancelledFromAt k (i + 1) rest
  | i, WorkerEvent.received _ :: rest => cancelledFromAt k (i + 1) rest

/-- The events `evs` of a worker, numbered from 0, are what its `select` can yield when the
background context is cancelled just before event number `k`. -/
def cancelledFrom (k : Nat) (evs : List WorkerEvent) : Bool :=
  cancelledFromAt k 0 evs

/-! ## Sample states -/

/-- An insert of transaction `id` from `signer` whose chain callback returns `chain`. -/
def sampleInsert (id signer : String) (chain : Nat) : TransactionOperation :=
  { txID := id, txInsert := some { ID := id, From := signer },
    nextNonceCB := fun _ => Except.ok chain }

/-- An insert of transaction `id` from `signer` whose chain callback fails with `e`. -/
def sampleFailingInsert (id signer : String) (e : Err) : TransactionOperation :=
  { txID := id, txInsert := some { ID := id, From := signer },
    nextNonceCB := fun _ => Except.error e }

/-- A writer whose caches have `slots` slots, with the given nonce-cache entries, metadata
cache keys, stored rows and operations. -/
def sampleSys (slots : Nat) (nonces : List (String × NonceCacheEntry)) (metas : List String)
    (rows : List ManagedTX) (ops : List TransactionOperation) : Sys :=
  { nextNonceCache := { size := slots, items := nonces },
    txMetaCache := { size := slots, items := metas.map (fun k => (k, { lastCompacted := 0 })) },
    transactions := rows, ops := ops }

/-- An environment whose clock always reads `now`. -/
def sampleEnv (now : Int) : Env :=
  { clock := fun _ => now }

/-- A writer in which signer `S` has the expired cache entry `nextNonce = 5` (cached at time
0) and a batch of three inserts of `S` whose chain callbacks report 3, 100 and 7. -/
def sampleExpired : Sys :=
  sampleSys 10 [("S", { cachedTime := 0, nextNonce := 5 })] [] []
    [sampleInsert "a" "S" 3, sampleInsert "b" "S" 100, sampleInsert "c" "S" 7]

/-- An operation that brings confirmation number `n` of transaction `id`, with the reset
flag `reset`. -/
def sampleConfirmation (id : String) (n : Nat) (reset : Bool) : TransactionOperation :=
  { txID := id, confirmation := some { TransactionID := id, payload := n },
    clearConfirmations := reset }

/-- An operation that deletes transaction `id`. -/
def sampleDelete (id : String) : TransactionOperation :=
  { txID := id, txDelete := some id }

/-- An operation that brings history record number `n` of transaction `id`. -/
def sampleHistory (id : String) (n : Nat) : TransactionOperation :=
  { txID := id, historyRecord := some { TransactionID := id, payload := n } }

/-- An operation that brings receipt number `n` of transaction `id`. -/
def sampleReceipt (id : String) (n : Nat) : TransactionOperation :=
  { txID := id, receipt := some { TransactionID := id, payload := n } }

/-- An environment whose clock always reads `now`, with the given `CompressionInterval`, in
which store call number `k` fails with `e`. -/
def sampleFaultEnv (now interval : Int) (k : Nat) (e : Err) : Env :=
  { clock := fun _ => now, compressionInterval := interval,
    storeFault := fun j => if j = k then some e else none }

/-- A batch of one insert, one update, one receipt, two confirmations, one history record
and one delete. -/
def sampleMixedOps : List TransactionOperation :=
  [sampleDelete "d", sampleHistory "h" 1, sampleConfirmation "t" 1 false,
   sampleConfirmation "t" 2 true, sampleReceipt "r" 1, sampleUpdate "u" TxStatus.Succeeded,
   sampleInsert "a" "S" 100]

/-- A toolkit whose store holds the transaction IDs `stored`, whose insert stamps the nonce
`nonce` or fails with `insertErr`, whose history fails with `historyErr`, and whose prepare
operations succeed; the clock reads 7 and the identifiers generated are `fresh-n`. -/
def sampleToolkit (stored : List String) (nonce : Int) (insertErr historyErr : Option Err) :
    Toolkit :=
  { GetTransactionByID := fun _ txID =>
      Except.ok (if stored.contains txID then some { ID := txID } else none),
    InsertTransactionWithNextNonce := fun _ mtx =>
      match insertErr with
      | some e => (some e, mtx)
      | none => (none, { mtx with Nonce := some nonce }),
    AddSubStatusAction := fun _ _ _ _ _ _ _ => historyErr,
    TransactionPrepare := fun _ _ => Except.ok (),
    DeployContractPrepare := fun _ _ => Except.ok (),
    NewUUID := fun n => "fresh-" ++ toString n,
    Now := fun _ => 7 }

/-- A toolkit as `sampleToolkit` whose insert succeeds and leaves the transaction object as
it got it, with a nil nonce. -/
def sampleToolkitUnstamped (historyErr : Option Err) : Toolkit :=
  { sampleToolkit [] 0 none historyErr with
    InsertTransactionWithNextNonce := fun _ mtx => (none, mtx) }

/-! ## The LRU cache: lemmas -/

namespace LRU
variable {β : Type}

theorem lookup_filter_ne (items : List (String × β)) (k k1 : String) (h : k1 ≠ k) :
    (items.filter (fun e => e.1 != k)).lookup k1 = items.lookup k1 := by
  induction items with
  | nil => rfl
  | cons e rest ih =>
    obtain ⟨a, b⟩ := e
    by_cases hak : a = k
    · subst hak
      have h1 : (k1 == a) = false := by simp [h]
      simp [List.filter, List.lookup_cons, h1, ih]
    · have h2 : (a != k) = true := by simp [hak]
      simp only [List.filter, h2, List.lookup_cons, ih]

theorem lookup_filter_self (items : List (String × β)) (k : String) :
    (items.filter (fun e => e.1 != k)).lookup k = none := by
  induction items with
  | nil => rfl
  | cons e rest ih =>
    obtain ⟨a, b⟩ := e
    by_cases hak : a = k
    · subst hak
      simp [List.filter, ih]
    · have h2 : (a != k) = true := by simp [hak]
      have h3 : (k == a) = false := by simp [Ne.symm hak]
      simp only [List.filter, h2, List.lookup_cons, h3, ih]

theorem lookup_dropLast (items : List (String × β)) (k : String) :
    items.dropLast.lookup k = items.lookup k ∨ items.dropLast.lookup k = none := by
  induction items with
  | nil => left; rfl
  | cons e rest ih =>
    obtain ⟨a, b⟩ := e
    cases rest with
    | nil => right; rfl
    | cons e2 rest2 =>
      rw [List.dropLast_cons_of_ne_nil (by simp)]
      by_cases hka : (k == a) = true
      · left; simp [List.lookup_cons, hka]
      · have hka1 : (k == a) = false := by simpa using hka
        simp only [List.lookup_cons, hka1]
        exact ih

theorem lookup_dropLast_none (items : List (String × β)) (k : String)
    (h : items.lookup k = none) : items.dropLast.lookup k = none := by
  rcases lookup_dropLast items k with h1 | h1
  · rw [h1, h]
  · exact h1

@[simp] theorem size_touch (c : LRU β) (k : String) (v : β) : (c.touch k v).size = c.size := rfl

@[simp] theorem size_get (c : LRU β) (k : String) : (c.get k).2.size = c.size := by
  unfold get; split <;> rfl

@[simp] theorem size_add (c : LRU β) (k : String) (v : β) : (c.add k v).size = c.size := by
  unfold add; split
  · rfl
  · split <;> rfl

@[simp] theorem size_remove (c : LRU β) (k : String) : (c.remove k).size = c.size := rfl

@[simp] theorem get_fst (c : LRU β) (k : String) : (c.get k).1 = c.peek k := by
  unfold get; split <;> simp_all

theorem peek_touch_self (c : LRU β) (k : String) (v : β) : (c.touch k v).peek k = some v := by
  simp [touch, peek, List.lookup_cons]

theorem peek_touch_ne (c : LRU β) (k k1 : String) (v : β) (h : k1 ≠ k) :
    (c.touch k v).peek k1 = c.peek k1 := by
  have h1 : (k1 == k) = false := by simp [h]
  simp only [touch, peek, List.lookup_cons, h1]
  exact lookup_filter_ne c.items k k1 h

@[simp] theorem peek_get (c : LRU β) (k k1 : String) : (c.get k).2.peek k1 = c.peek k1 := by
  unfold get
  split
  · rename_i v hv
    by_cases h : k1 = k
    · subst h; simp [peek_touch_self, hv]
    · simp [peek_touch_ne c k k1 v h]
  · rfl

theorem peek_add_self (c : LRU β) (k : String) (v : β) (hsize : 0 < c.size) :
    (c.add k v).peek k = some v := by
  unfold add
  split
  · exact peek_touch_self c k v
  · split
    · rename_i hlt
      have hne : c.items ≠ [] := by
        intro h0; rw [h0] at hlt; simp at hlt; omega
      simp [peek, List.dropLast_cons_of_ne_nil hne, List.lookup_cons]
    · simp [peek, List.lookup_cons]

theorem peek_add_ne (c : LRU β) (k k1 : String) (v : β) (h : k1 ≠ k) :
    (c.add k v).peek k1 = c.peek k1 ∨ (c.add k v).peek k1 = none := by
  have h1 : (k1 == k) = false := by simp [h]
  unfold add
  split
  · left; exact peek_touch_ne c k k1 v h
  · split
    · rcases lookup_dropLast ((k, v) :: c.items) k1 with h2 | h2
      · left; simp only [peek]; rw [h2]; simp [List.lookup_cons, h1]
      · right; exact h2
    · left; simp [peek, List.lookup_cons, h1]

theorem peek_add_none (c : LRU β) (k k1 : String) (v : β) (h : k1 ≠ k)
    (hn : c.peek k1 = none) : (c.add k v).peek k1 = none := by
  rcases peek_add_ne c k k1 v h with h2 | h2
  · rw [h2, hn]
  · exact h2

theorem peek_remove_self (c : LRU β) (k : String) : (c.remove k).peek k = none :=
  lookup_filter_self c.items k

theorem peek_remove_ne (c : LRU β) (k k1 : String) (h : k1 ≠ k) :
    (c.remove k).peek k1 = c.peek k1 :=
  lookup_filter_ne c.items k k1 h

end LRU

/-! ## Operation objects: lemmas -/

theorem getElem?_modifyOp (ops : List TransactionOperation) (i j : Nat)
    (f : TransactionOperation → TransactionOperation) :
    (modifyOp ops i f)[j]? = if i = j then (ops[j]?).map f else ops[j]? := by
  unfold modifyOp
  cases h : ops[i]? with
  | none =>
    by_cases hij : i = j
    · subst hij; simp [h]
    · simp [hij]
  | some op =>
    have hlt : i < ops.length := by
      rcases List.getElem?_eq_some.mp h with ⟨hlt, _⟩
      exact hlt
    by_cases hij : i = j
    · subst hij; simp [List.getElem?_set, hlt, h]
    · simp [List.getElem?_set, hij]

theorem getElem?_modifyOp_ne (ops : List TransactionOperation) (i j : Nat)
    (f : TransactionOperation → TransactionOperation) (h : i ≠ j) :
    (modifyOp ops i f)[j]? = ops[j]? := by
  rw [getElem?_modifyOp]; simp [h]

theorem getElem?_modifyOp_self (ops : List TransactionOperation) (i : Nat)
    (f : TransactionOperation → TransactionOperation) :
    (modifyOp ops i f)[i]? = (ops[i]?).map f := by
  rw [getElem?_modifyOp]; simp

@[simp] theorem length_modifyOp (ops : List TransactionOperation) (i : Nat)
    (f : TransactionOperation → TransactionOperation) :
    (modifyOp ops i f).length = ops.length := by
  unfold modifyOp
  split <;> simp

@[simp] theorem admitted_stamp (ops : List TransactionOperation) (i j n : Nat) :
    admitted (modifyOp ops i (stampNonce n)) j = admitted ops j := by
  unfold admitted
  rw [getElem?_modifyOp]
  by_cases hij : i = j
  · subst hij
    cases h : ops[i]? <;> simp [stampNonce]
  · simp [hij]

@[simp] theorem isInsertOf_stamp (ops : List TransactionOperation) (signer : String) (i j n : Nat) :
    isInsertOf (modifyOp ops i (stampNonce n)) signer j = isInsertOf ops signer j := by
  unfold isInsertOf
  rw [getElem?_modifyOp]
  by_cases hij : i = j
  · subst hij
    cases h : ops[i]? with
    | none => simp
    | some op =>
      cases h2 : op.txInsert <;> simp [stampNonce, h2]
  · simp [hij]

@[simp] theorem chainValue_stamp (ops : List TransactionOperation) (signer : String) (i j n : Nat) :
    chainValue (modifyOp ops i (stampNonce n)) j signer = chainValue ops j signer := by
  unfold chainValue
  rw [getElem?_modifyOp]
  by_cases hij : i = j
  · subst hij
    cases h : ops[i]? <;> simp [stampNonce]
  · simp [hij]

@[simp] theorem admittedOf_stamp (ops : List TransactionOperation) (txs : List Nat) (i n : Nat) :
    admittedOf (modifyOp ops i (stampNonce n)) txs = admittedOf ops txs := by
  unfold admittedOf
  congr 1
  funext j
  exact admitted_stamp ops i j n

theorem nonceAt_stamp_self (ops : List TransactionOperation) (signer : String) (i n : Nat)
    (h : isInsertOf ops signer i = true) :
    nonceAt (modifyOp ops i (stampNonce n)) i = some (toInt64 n) := by
  unfold nonceAt
  rw [getElem?_modifyOp_self]
  unfold isInsertOf at h
  cases h1 : ops[i]? with
  | none => simp [h1] at h
  | some op =>
    cases h2 : op.txInsert with
    | none => simp [h1, h2] at h
    | some tx => simp [stampNonce, h2]

theorem nonceAt_stamp_ne (ops : List TransactionOperation) (i j n : Nat) (h : i ≠ j) :
    nonceAt (modifyOp ops i (stampNonce n)) j = nonceAt ops j := by
  unfold nonceAt
  rw [getElem?_modifyOp_ne _ _ _ _ h]

theorem toInt64_of_lt (n : Nat) (h : n < 2 ^ 63) : toInt64 n = (n : Int) := by
  unfold toInt64
  have h1 : n % 2 ^ 64 = n := Nat.mod_eq_of_lt (by omega)
  rw [h1, if_pos h]

theorem toInt64_of_ge (n : Nat) (h1 : 2 ^ 63 ≤ n) (h2 : n < 2 ^ 64) :
    toInt64 n = (n : Int) - 2 ^ 64 := by
  unfold toInt64
  have h3 : n % 2 ^ 64 = n := Nat.mod_eq_of_lt h2
  rw [h3, if_neg (by omega)]

/-! ## The inner loop with a valid cache entry -/

theorem assignNoncesToOps_fresh (env : Env) (signer : String) (txs : List Nat) :
    ∀ (ce : NonceCacheEntry) (s : Sys),
      assignNoncesToOps env signer false txs (some ce) s =
        (none, stampAll signer (admittedOf s.ops txs) ce s) := by
  induction txs with
  | nil => intro ce s; rfl
  | cons i rest ih =>
    intro ce s
    unfold assignNoncesToOps
    cases h : s.ops[i]? with
    | none =>
      have hadm : admitted s.ops i = false := by simp [admitted, h]
      simp only [admittedOf, List.filter_cons, hadm]
      exact ih ce s
    | some op =>
      by_cases hp : op.noncePreAssigned = true
      · have hadm : admitted s.ops i = false := by simp [admitted, h, hp]
        simp only [admittedOf, List.filter_cons, hadm, hp, if_true]
        exact ih ce s
      · by_cases hc : op.sentConflict = true
        · have hadm : admitted s.ops i = false := by simp [admitted, h, hc]
          simp only [admittedOf, List.filter_cons, hadm, hp, hc, if_true]
          simpa using ih ce s
        · have hadm : admitted s.ops i = true := by simp [admitted, h, hp, hc]
          have hp1 : op.noncePreAssigned = false := by simpa using hp
          have hc1 : op.sentConflict = false := by simpa using hc
          simp only [admittedOf, List.filter_cons, hadm, hp1, hc1, if_true, Bool.false_eq_true,
            if_false, stampAll]
          rw [ih]
          simp only [admittedOf_stamp]
          rfl

theorem stampAll_ops_frame (signer : String) (A : List Nat) :
    ∀ (ce : NonceCacheEntry) (s : Sys) (j : Nat), j ∉ A →
      (stampAll signer A ce s).ops[j]? = s.ops[j]? := by
  induction A with
  | nil => intro ce s j _; rfl
  | cons i rest ih =>
    intro ce s j hj
    simp only [List.mem_cons, not_or] at hj
    simp only [stampAll]
    rw [ih _ _ j hj.2]
    exact getElem?_modifyOp_ne _ _ _ _ (Ne.symm hj.1)

theorem stampAll_fields (signer : String) (A : List Nat) :
    ∀ (ce : NonceCacheEntry) (s : Sys),
      (stampAll signer A ce s).transactions = s.transactions ∧
      (stampAll signer A ce s).txMetaCache = s.txMetaCache ∧
      (stampAll signer A ce s).clockReads = s.clockReads ∧
      (stampAll signer A ce s).storeCalls = s.storeCalls ∧
      (stampAll signer A ce s).cbCalls = s.cbCalls ∧
      (stampAll signer A ce s).nextNonceCache.size = s.nextNonceCache.size ∧
      (stampAll signer A ce s).ops.length = s.ops.length := by
  induction A with
  | nil => intro ce s; simp [stampAll]
  | cons i rest ih =>
    intro ce s
    simp only [stampAll]
    obtain ⟨h1, h2, h3, h4, h5, h6, h7⟩ := ih { ce with nextNonce := (ce.nextNonce + 1) % 2 ^ 64 }
      { s with ops := modifyOp s.ops i (stampNonce ce.nextNonce),
               nextNonceCache :=
                 s.nextNonceCache.add signer { ce with nextNonce := (ce.nextNonce + 1) % 2 ^ 64 } }
    refine ⟨h1, h2, h3, h4, h5, ?_, ?_⟩
    · rw [h6]; simp
    · rw [h7]; simp

theorem stampAll_admitted (signer : String) (A : List Nat) :
    ∀ (ce : NonceCacheEntry) (s : Sys) (j : Nat),
      admitted (stampAll signer A ce s).ops j = admitted s.ops j ∧
      isInsertOf (stampAll signer A ce s).ops signer j = isInsertOf s.ops signer j := by
  induction A with
  | nil => intro ce s j; simp [stampAll]
  | cons i rest ih =>
    intro ce s j
    simp only [stampAll]
    obtain ⟨h1, h2⟩ := ih { ce with nextNonce := (ce.nextNonce + 1) % 2 ^ 64 }
      { s with ops := modifyOp s.ops i (stampNonce ce.nextNonce),
               nextNonceCache :=
                 s.nextNonceCache.add signer { ce with nextNonce := (ce.nextNonce + 1) % 2 ^ 64 } } j
    rw [h1, h2]
    simp

theorem stampAll_nonces (signer : String) (A : List Nat) :
    ∀ (ce : NonceCacheEntry) (s : Sys), A.Nodup →
      (∀ i ∈ A, isInsertOf s.ops signer i = true) →
      ce.nextNonce + A.length ≤ 2 ^ 63 →
      A.map (nonceAt (stampAll signer A ce s).ops) =
        (List.range' ce.nextNonce A.length).map (fun (v : Nat) => some (v : Int)) := by
  induction A with
  | nil => intro ce s _ _ _; rfl
  | cons i rest ih =>
    intro ce s hnd hins hb
    have hnd1 := List.nodup_cons.mp hnd
    simp only [List.length_cons] at hb
    have hlt : ce.nextNonce < 2 ^ 63 := by omega
    have hmod : (ce.nextNonce + 1) % 2 ^ 64 = ce.nextNonce + 1 := Nat.mod_eq_of_lt (by omega)
    simp only [stampAll, List.map_cons, List.length_cons, List.range'_succ]
    congr 1
    · unfold nonceAt
      rw [stampAll_ops_frame signer rest _ _ i hnd1.1]
      have := nonceAt_stamp_self s.ops signer i ce.nextNonce (hins i (List.mem_cons_self _ _))
      unfold nonceAt at this
      rw [this, toInt64_of_lt _ hlt]
    · have := ih { ce with nextNonce := (ce.nextNonce + 1) % 2 ^ 64 }
        { s with ops := modifyOp s.ops i (stampNonce ce.nextNonce),
                 nextNonceCache :=
                   s.nextNonceCache.add signer { ce with nextNonce := (ce.nextNonce + 1) % 2 ^ 64 } }
        hnd1.2 (by intro j hj; simpa using hins j (List.mem_cons_of_mem _ hj))
        (by simp only [hmod]; omega)
      rw [this]
      simp only [hmod]

theorem stampAll_peek_self (signer : String) (A : List Nat) :
    ∀ (ce : NonceCacheEntry) (s : Sys), A ≠ [] → 0 < s.nextNonceCache.size →
      (stampAll signer A ce s).nextNonceCache.peek signer =
        some { cachedTime := ce.cachedTime, nextNonce := (ce.nextNonce + A.length) % 2 ^ 64 } := by
  induction A with
  | nil => intro ce s h; exact absurd rfl h
  | cons i rest ih =>
    intro ce s _ hsize
    simp only [stampAll]
    by_cases hr : rest = []
    · subst hr
      simp only [stampAll, List.length_cons, List.length_nil, Nat.zero_add]
      exact LRU.peek_add_self _ _ _ hsize
    · have hsize1 : 0 < (s.nextNonceCache.add signer
          { ce with nextNonce := (ce.nextNonce + 1) % 2 ^ 64 }).size := by
        rw [LRU.size_add]; exact hsize
      rw [ih _ _ hr hsize1]
      simp only [List.length_cons]
      have : ((ce.nextNonce + 1) % 2 ^ 64 + rest.length) % 2 ^ 64 =
          (ce.nextNonce + (rest.length + 1)) % 2 ^ 64 := by omega
      rw [this]

theorem stampAll_peek_ne (signer : String) (A : List Nat) (k : String) (hk : k ≠ signer) :
    ∀ (ce : NonceCacheEntry) (s : Sys),
      (stampAll signer A ce s).nextNonceCache.peek k = s.nextNonceCache.peek k ∨
      (stampAll signer A ce s).nextNonceCache.peek k = none := by
  induction A with
  | nil => intro ce s; left; rfl
  | cons i rest ih =>
    intro ce s
    simp only [stampAll]
    rcases ih { ce with nextNonce := (ce.nextNonce + 1) % 2 ^ 64 }
      { s with ops := modifyOp s.ops i (stampNonce ce.nextNonce),
               nextNonceCache :=
                 s.nextNonceCache.add signer { ce with nextNonce := (ce.nextNonce + 1) % 2 ^ 64 } }
      with h | h
    · rcases LRU.peek_add_ne s.nextNonceCache signer k
        { ce with nextNonce := (ce.nextNonce + 1) % 2 ^ 64 } hk with h2 | h2
      · left; rw [h]; exact h2
      · right; rw [h]; exact h2
    · right; exact h

/-! ## What assignNonces leaves alone -/

@[simp] theorem unstamp_stampNonce (n : Nat) (o : TransactionOperation) :
    unstamp (stampNonce n o) = unstamp o := by
  cases h : o.txInsert <;> simp [unstamp, stampNonce, h]

theorem map_unstamp_stamp (ops : List TransactionOperation) (i n : Nat) :
    (modifyOp ops i (stampNonce n)).map unstamp = ops.map unstamp := by
  apply List.ext_getElem?
  intro j
  rw [List.getElem?_map, List.getElem?_map, getElem?_modifyOp]
  by_cases hij : i = j
  · subst hij
    cases h : ops[i]? <;> simp
  · simp [hij]

theorem skeleton_getElem? {ops ops1 : List TransactionOperation}
    (h : ops1.map unstamp = ops.map unstamp) (j : Nat) :
    (ops1[j]?).map unstamp = (ops[j]?).map unstamp := by
  rw [← List.getElem?_map, ← List.getElem?_map, h]

theorem skeleton_length {ops ops1 : List TransactionOperation}
    (h : ops1.map unstamp = ops.map unstamp) : ops1.length = ops.length := by
  have := congrArg List.length h
  simpa using this

theorem admitted_of_skeleton {ops ops1 : List TransactionOperation}
    (h : ops1.map unstamp = ops.map unstamp) (j : Nat) : admitted ops1 j = admitted ops j := by
  have hj := skeleton_getElem? h j
  unfold admitted
  cases h1 : ops1[j]? with
  | none =>
    cases h2 : ops[j]? with
    | none => rfl
    | some o => rw [h1, h2] at hj; simp at hj
  | some o1 =>
    cases h2 : ops[j]? with
    | none => rw [h1, h2] at hj; simp at hj
    | some o =>
      rw [h1, h2] at hj
      simp only [Option.map_some', Option.some.injEq] at hj
      have ha : (unstamp o1).noncePreAssigned = (unstamp o).noncePreAssigned := by rw [hj]
      have hb : (unstamp o1).sentConflict = (unstamp o).sentConflict := by rw [hj]
      simp only [unstamp] at ha hb
      simp [ha, hb]

theorem admittedOf_of_skeleton {ops ops1 : List TransactionOperation}
    (h : ops1.map unstamp = ops.map unstamp) (txs : List Nat) :
    admittedOf ops1 txs = admittedOf ops txs := by
  unfold admittedOf
  congr 1
  funext j
  exact admitted_of_skeleton h j

theorem isInsertOf_of_skeleton {ops ops1 : List TransactionOperation}
    (h : ops1.map unstamp = ops.map unstamp) (signer : String) (j : Nat) :
    isInsertOf ops1 signer j = isInsertOf ops signer j := by
  have hj := skeleton_getElem? h j
  unfold isInsertOf
  cases h1 : ops1[j]? with
  | none =>
    cases h2 : ops[j]? with
    | none => rfl
    | some o => rw [h1, h2] at hj; simp at hj
  | some o1 =>
    cases h2 : ops[j]? with
    | none => rw [h1, h2] at hj; simp at hj
    | some o =>
      rw [h1, h2] at hj
      simp only [Option.map_some', Option.some.injEq] at hj
      have ha : (unstamp o1).txInsert = (unstamp o).txInsert := by rw [hj]
      simp only [unstamp] at ha
      cases h3 : o1.txInsert with
      | none =>
        cases h4 : o.txInsert with
        | none => simp [h3, h4]
        | some t => rw [h3, h4] at ha; simp at ha
      | some t1 =>
        cases h4 : o.txInsert with
        | none => rw [h3, h4] at ha; simp at ha
        | some t =>
          rw [h3, h4] at ha
          simp only [Option.map_some', Option.some.injEq, ManagedTX.mk.injEq] at ha
          simp [h3, h4, ha.2.1]

theorem chainValue_of_skeleton {ops ops1 : List TransactionOperation}
    (h : ops1.map unstamp = ops.map unstamp) (signer : String) (j : Nat) :
    chainValue ops1 j signer = chainValue ops j signer := by
  have hj := skeleton_getElem? h j
  unfold chainValue
  cases h1 : ops1[j]? with
  | none =>
    cases h2 : ops[j]? with
    | none => rfl
    | some o => rw [h1, h2] at hj; simp at hj
  | some o1 =>
    cases h2 : ops[j]? with
    | none => rw [h1, h2] at hj; simp at hj
    | some o =>
      rw [h1, h2] at hj
      simp only [Option.map_some', Option.some.injEq] at hj
      have ha : (unstamp o1).nextNonceCB = (unstamp o).nextNonceCB := by rw [hj]
      simp only [unstamp] at ha
      simp [ha]

theorem chainError_of_skeleton {ops ops1 : List TransactionOperation}
    (h : ops1.map unstamp = ops.map unstamp) (signer : String) (j : Nat) :
    chainError ops1 j signer = chainError ops j signer := by
  have hj := skeleton_getElem? h j
  unfold chainError
  cases h1 : ops1[j]? with
  | none =>
    cases h2 : ops[j]? with
    | none => rfl
    | some o => rw [h1, h2] at hj; simp at hj
  | some o1 =>
    cases h2 : ops[j]? with
    | none => rw [h1, h2] at hj; simp at hj
    | some o =>
      rw [h1, h2] at hj
      simp only [Option.map_some', Option.some.injEq] at hj
      have ha : (unstamp o1).nextNonceCB = (unstamp o).nextNonceCB := by rw [hj]
      simp only [unstamp] at ha
      simp [ha]

theorem NonceFrame.nonce_refl (signer : String) (txs : List Nat) (s : Sys) : NonceFrame signer txs s s :=
  ⟨fun _ _ => rfl, rfl, rfl, rfl, rfl, fun _ _ => Or.inl rfl⟩

theorem NonceFrame.nonce_trans {signer : String} {txs : List Nat} {s s1 s2 : Sys}
    (h1 : NonceFrame signer txs s s1) (h2 : NonceFrame signer txs s1 s2) :
    NonceFrame signer txs s s2 := by
  refine ⟨?_, ?_, ?_, ?_, ?_, ?_⟩
  · intro j hj; rw [h2.ops_out j hj, h1.ops_out j hj]
  · rw [h2.skeleton, h1.skeleton]
  · rw [h2.rows, h1.rows]
  · rw [h2.metaCache, h1.metaCache]
  · rw [h2.size, h1.size]
  · intro k hk
    rcases h2.peek_ne k hk with h | h
    · rcases h1.peek_ne k hk with h3 | h3
      · left; rw [h, h3]
      · right; rw [h, h3]
    · right; exact h

theorem NonceFrame.mono {signer : String} {txs txs1 : List Nat} {s s1 : Sys}
    (h : NonceFrame signer txs s s1) (hsub : ∀ j, j ∈ txs → j ∈ txs1) :
    NonceFrame signer txs1 s s1 :=
  ⟨fun j hj => h.ops_out j (fun hm => hj (hsub j hm)), h.skeleton, h.rows, h.metaCache, h.size,
    h.peek_ne⟩

theorem reconcileNonce_frame (env : Env) (signer : String) (op : TransactionOperation)
    (ce : Option NonceCacheEntry) (s : Sys) :
    (reconcileNonce env signer op ce s).2.ops = s.ops ∧
    (reconcileNonce env signer op ce s).2.nextNonceCache = s.nextNonceCache ∧
    (reconcileNonce env signer op ce s).2.txMetaCache = s.txMetaCache ∧
    (reconcileNonce env signer op ce s).2.transactions = s.transactions := by
  unfold reconcileNonce
  cases h1 : op.nextNonceCB signer with
  | error e => simp
  | ok c =>
    cases ce with
    | some e => simp [readClock]
    | none =>
      simp only [storeCall]
      cases h2 : env.storeFault s.storeCalls.length with
      | some e => simp
      | none =>
        simp only
        cases h3 : highestNonceTx s.transactions signer <;> simp [readClock]

theorem stamp_step_frame (signer : String) (i : Nat) (s : Sys) (ce : NonceCacheEntry) (n : Nat) :
    NonceFrame signer [i] s
      { s with ops := modifyOp s.ops i (stampNonce n),
               nextNonceCache := s.nextNonceCache.add signer ce } := by
  refine ⟨?_, ?_, rfl, rfl, ?_, ?_⟩
  · intro j hj
    simp only [List.mem_singleton] at hj
    exact getElem?_modifyOp_ne _ _ _ _ (Ne.symm hj)
  · exact map_unstamp_stamp s.ops i n
  · simp
  · intro k hk
    exact LRU.peek_add_ne s.nextNonceCache signer k ce hk

theorem assignNoncesToOps_frame (env : Env) (signer : String) (cacheExpired : Bool)
    (txs : List Nat) :
    ∀ (ce : Option NonceCacheEntry) (s : Sys),
      NonceFrame signer txs s (assignNoncesToOps env signer cacheExpired txs ce s).2 := by
  induction txs with
  | nil => intro ce s; exact NonceFrame.nonce_refl _ _ _
  | cons i rest ih =>
    intro ce s
    have hrest : ∀ j, j ∈ rest → j ∈ i :: rest := fun j hj => List.mem_cons_of_mem _ hj
    unfold assignNoncesToOps
    cases h : s.ops[i]? with
    | none => exact (ih ce s).mono hrest
    | some op =>
      simp only
      split
      · exact (ih ce s).mono hrest
      · split
        · exact (ih ce s).mono hrest
        · have key : ∀ (r : Except Err NonceCacheEntry × Sys),
              r.2.ops = s.ops → r.2.nextNonceCache = s.nextNonceCache →
              r.2.txMetaCache = s.txMetaCache → r.2.transactions = s.transactions →
              NonceFrame signer (i :: rest) s
                (match r with
                | (Except.error e, s1) => (some e, s1)
                | (Except.ok ce, s1) =>
                  assignNoncesToOps env signer cacheExpired rest
                    (some { ce with nextNonce := (ce.nextNonce + 1) % 2 ^ 64 })
                    { s1 with ops := modifyOp s1.ops i (stampNonce ce.nextNonce),
                              nextNonceCache := s1.nextNonceCache.add signer
                                { ce with nextNonce := (ce.nextNonce + 1) % 2 ^ 64 } }).2 := by
            intro r h1 h2 h3 h4
            obtain ⟨res, s1⟩ := r
            simp only at h1 h2 h3 h4
            have hbase : NonceFrame signer (i :: rest) s s1 :=
              ⟨fun j _ => by rw [h1], by rw [h1], h4, h3, by rw [h2], fun k _ => Or.inl (by rw [h2])⟩
            cases res with
            | error e => exact hbase
            | ok ce1 =>
              simp only
              refine hbase.nonce_trans (NonceFrame.nonce_trans ?_ ((ih _ _).mono hrest))
              exact (stamp_step_frame signer i s1 _ ce1.nextNonce).mono
                (by intro j hj; simp only [List.mem_singleton] at hj; subst hj; exact List.mem_cons_self _ _)
          cases ce with
          | none =>
            have hf := reconcileNonce_frame env signer op none s
            exact key _ hf.1 hf.2.1 hf.2.2.1 hf.2.2.2
          | some e =>
            cases cacheExpired with
            | false => exact key (Except.ok e, s) rfl rfl rfl rfl
            | true =>
              have hf := reconcileNonce_frame env signer op (some e) s
              exact key _ hf.1 hf.2.1 hf.2.2.1 hf.2.2.2

theorem assignNoncesForSigner_frame (env : Env) (signer : String) (txs : List Nat) (s : Sys) :
    NonceFrame signer txs s (assignNoncesForSigner env signer txs s).2 := by
  unfold assignNoncesForSigner
  have hget : ∀ k, (s.nextNonceCache.get signer).2.peek k = s.nextNonceCache.peek k :=
    fun k => LRU.peek_get _ _ _
  have hsz : (s.nextNonceCache.get signer).2.size = s.nextNonceCache.size := LRU.size_get _ _
  cases h : s.nextNonceCache.get signer with
  | mk hit cache1 =>
    rw [h] at hget hsz
    simp only at hget hsz
    cases hit with
    | some ce =>
      simp only [readClock]
      refine NonceFrame.nonce_trans ?_ (assignNoncesToOps_frame env signer _ txs _ _)
      exact ⟨fun _ _ => rfl, rfl, rfl, rfl, hsz, fun k _ => Or.inl (hget k)⟩
    | none =>
      simp only
      refine NonceFrame.nonce_trans ?_ (assignNoncesToOps_frame env signer _ txs _ _)
      exact ⟨fun _ _ => rfl, rfl, rfl, rfl, hsz, fun k _ => Or.inl (hget k)⟩

/-- What a whole run of `assignNonces` over the groups `gs` leaves alone. -/
theorem assignNonces_frame (env : Env) (gs : List (String × List Nat)) :
    ∀ (s : Sys),
      (∀ j, j ∉ gs.flatMap Prod.snd → (assignNonces env gs s).2.ops[j]? = s.ops[j]?) ∧
      (assignNonces env gs s).2.ops.map unstamp = s.ops.map unstamp ∧
      (assignNonces env gs s).2.transactions = s.transactions ∧
      (assignNonces env gs s).2.txMetaCache = s.txMetaCache ∧
      (assignNonces env gs s).2.nextNonceCache.size = s.nextNonceCache.size ∧
      (∀ k, k ∉ gs.map Prod.fst →
        (assignNonces env gs s).2.nextNonceCache.peek k = s.nextNonceCache.peek k ∨
        (assignNonces env gs s).2.nextNonceCache.peek k = none) := by
  induction gs with
  | nil => intro s; simp [assignNonces]
  | cons g rest ih =>
    intro s
    obtain ⟨signer, txs⟩ := g
    have hf := assignNoncesForSigner_frame env signer txs s
    unfold assignNonces
    cases h : assignNoncesForSigner env signer txs s with
    | mk err s1 =>
      rw [h] at hf
      simp only at hf
      cases err with
      | some e =>
        simp only
        refine ⟨?_, hf.skeleton, hf.rows, hf.metaCache, hf.size, ?_⟩
        · intro j hj
          simp only [List.flatMap_cons, List.mem_append, not_or] at hj
          exact hf.ops_out j hj.1
        · intro k hk
          simp only [List.map_cons, List.mem_cons, not_or] at hk
          exact hf.peek_ne k hk.1
      | none =>
        simp only
        obtain ⟨i1, i2, i3, i4, i5, i6⟩ := ih s1
        refine ⟨?_, ?_, ?_, ?_, ?_, ?_⟩
        · intro j hj
          simp only [List.flatMap_cons, List.mem_append, not_or] at hj
          rw [i1 j hj.2, hf.ops_out j hj.1]
        · rw [i2, hf.skeleton]
        · rw [i3, hf.rows]
        · rw [i4, hf.metaCache]
        · rw [i5, hf.size]
        · intro k hk
          simp only [List.map_cons, List.mem_cons, not_or] at hk
          rcases i6 k hk.2 with h1 | h1
          · rcases hf.peek_ne k hk.1 with h2 | h2
            · left; rw [h1, h2]
            · right; rw [h1, h2]
          · right; exact h1

theorem assignNonces_append (env : Env) (pre post : List (String × List Nat)) :
    ∀ (s : Sys),
      assignNonces env (pre ++ post) s =
        match assignNonces env pre s with
        | (some e, s1) => (some e, s1)
        | (none, s1) => assignNonces env post s1 := by
  induction pre with
  | nil => intro s; simp [assignNonces]
  | cons g rest ih =>
    intro s
    obtain ⟨signer, txs⟩ := g
    simp only [List.cons_append, assignNonces]
    cases h : assignNoncesForSigner env signer txs s with
    | mk err s1 =>
      cases err with
      | some e => rfl
      | none => exact ih s1

/-- Skipped operations play no part in the inner loop. -/
theorem assignNoncesToOps_admitted (env : Env) (signer : String) (cacheExpired : Bool)
    (txs : List Nat) :
    ∀ (ce : Option NonceCacheEntry) (s : Sys),
      assignNoncesToOps env signer cacheExpired txs ce s =
        assignNoncesToOps env signer cacheExpired (admittedOf s.ops txs) ce s := by
  induction txs with
  | nil => intro ce s; rfl
  | cons i rest ih =>
    intro ce s
    cases h : s.ops[i]? with
    | none =>
      have hadm : admitted s.ops i = false := by simp [admitted, h]
      simp only [admittedOf, List.filter_cons, hadm]
      rw [assignNoncesToOps, h]
      exact ih ce s
    | some op =>
      by_cases hp : op.noncePreAssigned = true
      · have hadm : admitted s.ops i = false := by simp [admitted, h, hp]
        simp only [admittedOf, List.filter_cons, hadm]
        rw [assignNoncesToOps, h]
        simp only [hp, if_true]
        exact ih ce s
      · by_cases hc : op.sentConflict = true
        · have hadm : admitted s.ops i = false := by simp [admitted, h, hc]
          simp only [admittedOf, List.filter_cons, hadm]
          rw [assignNoncesToOps, h]
          simp only [hc, if_true, ite_self]
          exact ih ce s
        · have hadm : admitted s.ops i = true := by simp [admitted, h, hp, hc]
          have hp1 : op.noncePreAssigned = false := by simpa using hp
          have hc1 : op.sentConflict = false := by simpa using hc
          simp only [admittedOf, List.filter_cons, hadm, if_true]
          rw [assignNoncesToOps, assignNoncesToOps, h]
          simp only [hp1, hc1, Bool.false_eq_true, if_false]
          have key : ∀ (r : Except Err NonceCacheEntry × Sys), r.2.ops = s.ops →
              (match r with
                | (Except.error e, s1) => (some e, s1)
                | (Except.ok ce, s1) =>
                  assignNoncesToOps env signer cacheExpired rest
                    (some { ce with nextNonce := (ce.nextNonce + 1) % 2 ^ 64 })
                    { s1 with ops := modifyOp s1.ops i (stampNonce ce.nextNonce),
                              nextNonceCache := s1.nextNonceCache.add signer
                                { ce with nextNonce := (ce.nextNonce + 1) % 2 ^ 64 } }) =
              (match r with
                | (Except.error e, s1) => (some e, s1)
                | (Except.ok ce, s1) =>
                  assignNoncesToOps env signer cacheExpired (List.filter (admitted s.ops) rest)
                    (some { ce with nextNonce := (ce.nextNonce + 1) % 2 ^ 64 })
                    { s1 with ops := modifyOp s1.ops i (stampNonce ce.nextNonce),
                              nextNonceCache := s1.nextNonceCache.add signer
                                { ce with nextNonce := (ce.nextNonce + 1) % 2 ^ 64 } }) := by
            intro r hr
            obtain ⟨res, s1⟩ := r
            simp only at hr
            cases res with
            | error e => rfl
            | ok ce1 =>
              simp only
              rw [ih]
              simp only [admittedOf_stamp, hr]
              rfl
          cases ce with
          | none => exact key _ (reconcileNonce_frame env signer op none s).1
          | some e =>
            cases cacheExpired with
            | false => exact key (Except.ok e, s) rfl
            | true => exact key _ (reconcileNonce_frame env signer op (some e) s).1

theorem admittedOf_idem (ops : List TransactionOperation) (txs : List Nat) :
    admittedOf ops (admittedOf ops txs) = admittedOf ops txs := by
  unfold admittedOf
  rw [List.filter_filter]
  congr 1
  funext j
  simp

theorem admittedOf_tail {ops : List TransactionOperation} {txs : List Nat} {i : Nat}
    {rest : List Nat} (h : admittedOf ops txs = i :: rest) :
    admitted ops i = true ∧ admittedOf ops rest = rest := by
  have h1 := admittedOf_idem ops txs
  rw [h] at h1
  unfold admittedOf at h1
  have hi : admitted ops i = true := by
    have : i ∈ List.filter (admitted ops) txs := by
      have h2 : admittedOf ops txs = i :: rest := h
      unfold admittedOf at h2
      rw [h2]; exact List.mem_cons_self _ _
    exact (List.mem_filter.mp this).2
  rw [List.filter_cons, hi] at h1
  simp only [if_true, List.cons.injEq, true_and] at h1
  exact ⟨hi, h1⟩

/-! ## The reconciliation step -/

theorem ite_gt_eq_max (a b : Nat) : (if a > b then a else b) = max b a := by
  by_cases h : a > b
  · rw [if_pos h]; omega
  · rw [if_neg h]; omega

theorem reconcileNonce_absent (env : Env) (signer : String) (op : TransactionOperation) (s : Sys)
    (c : Nat) (hcb : op.nextNonceCB signer = Except.ok c)
    (hfault : env.storeFault s.storeCalls.length = none) :
    reconcileNonce env signer op none s =
      (Except.ok { cachedTime := env.clock s.clockReads,
                   nextNonce := max c ((storeCandidate s.transactions signer).getD 0) },
        { s with cbCalls := s.cbCalls ++ [signer],
                 storeCalls := s.storeCalls ++ [StoreCall.getManyTransactions signer],
                 clockReads := s.clockReads + 1 }) := by
  unfold reconcileNonce
  simp only [hcb, storeCall, hfault, storeCandidate]
  cases h : highestNonceTx s.transactions signer with
  | none => simp [readClock]
  | some tx => simp [readClock, ite_gt_eq_max]

theorem reconcileNonce_expired (env : Env) (signer : String) (op : TransactionOperation) (s : Sys)
    (e : NonceCacheEntry) (c : Nat) (hcb : op.nextNonceCB signer = Except.ok c) :
    reconcileNonce env signer op (some e) s =
      (Except.ok { cachedTime := env.clock s.clockReads, nextNonce := max c e.nextNonce },
        { s with cbCalls := s.cbCalls ++ [signer], clockReads := s.clockReads + 1 }) := by
  unfold reconcileNonce
  simp [hcb, readClock, ite_gt_eq_max]

theorem reconcileNonce_error (env : Env) (signer : String) (op : TransactionOperation) (s : Sys)
    (ce : Option NonceCacheEntry) (e : Err) (hcb : op.nextNonceCB signer = Except.error e) :
    reconcileNonce env signer op ce s =
      (Except.error e, { s with cbCalls := s.cbCalls ++ [signer] }) := by
  unfold reconcileNonce
  simp [hcb]

theorem chainValue_eq_some {ops : List TransactionOperation} {i : Nat} {signer : String} {c : Nat}
    (h : chainValue ops i signer = some c) :
    ∃ op, ops[i]? = some op ∧ op.nextNonceCB signer = Except.ok c := by
  unfold chainValue at h
  cases h1 : ops[i]? with
  | none => simp [h1] at h
  | some op =>
    refine ⟨op, rfl, ?_⟩
    cases h2 : op.nextNonceCB signer with
    | error e => simp [h1, h2] at h
    | ok c1 => simp [h1, h2] at h; rw [h]

theorem chainError_eq_some {ops : List TransactionOperation} {i : Nat} {signer : String} {e : Err}
    (h : chainError ops i signer = some e) :
    ∃ op, ops[i]? = some op ∧ op.nextNonceCB signer = Except.error e := by
  unfold chainError at h
  cases h1 : ops[i]? with
  | none => simp [h1] at h
  | some op =>
    refine ⟨op, rfl, ?_⟩
    cases h2 : op.nextNonceCB signer with
    | error e1 => simp [h1, h2] at h; rw [h]
    | ok c1 => simp [h1, h2] at h

theorem admitted_eq_true {ops : List TransactionOperation} {i : Nat} {op : TransactionOperation}
    (h : admitted ops i = true) (hop : ops[i]? = some op) :
    op.noncePreAssigned = false ∧ op.sentConflict = false := by
  unfold admitted at h
  rw [hop] at h
  simpa using h

/-! ## One signer group, by the state of its cache entry -/

/-- A signer without a cache entry: the first admitted insert reconciles the chain value with
the store, the others follow from the new cache entry. -/
theorem assignNoncesForSigner_absent (env : Env) (signer : String) (txs : List Nat) (s : Sys)
    (i0 : Nat) (rest : List Nat) (c : Nat)
    (hpeek : s.nextNonceCache.peek signer = none)
    (hadm : admittedOf s.ops txs = i0 :: rest)
    (hcb : chainValue s.ops i0 signer = some c)
    (hfault : env.storeFault s.storeCalls.length = none) :
    assignNoncesForSigner env signer txs s =
      (none, stampAll signer (i0 :: rest)
        { cachedTime := env.clock s.clockReads,
          nextNonce := max c ((storeCandidate s.transactions signer).getD 0) }
        { s with cbCalls := s.cbCalls ++ [signer],
                 storeCalls := s.storeCalls ++ [StoreCall.getManyTransactions signer],
                 clockReads := s.clockReads + 1 }) := by
  obtain ⟨op, hop, hcb1⟩ := chainValue_eq_some hcb
  obtain ⟨hi0, hrest⟩ := admittedOf_tail hadm
  obtain ⟨hp, hc⟩ := admitted_eq_true hi0 hop
  unfold assignNoncesForSigner
  have hget : s.nextNonceCache.get signer = (none, s.nextNonceCache) := by
    unfold LRU.get; rw [hpeek]
  rw [hget]
  simp only
  rw [assignNoncesToOps_admitted, hadm, assignNoncesToOps, hop]
  simp only [hp, hc, Bool.false_eq_true, if_false]
  rw [reconcileNonce_absent env signer op _ c hcb1 hfault]
  simp only
  rw [assignNoncesToOps_fresh]
  simp only [admittedOf_stamp, hrest, stampAll]

/-- A signer with a cache entry that has not expired: every admitted insert follows from the
entry. -/
theorem assignNoncesForSigner_fresh (env : Env) (signer : String) (txs : List Nat) (s : Sys)
    (e : NonceCacheEntry)
    (hpeek : s.nextNonceCache.peek signer = some e)
    (hage : env.clock s.clockReads - e.cachedTime ≤ env.nonceStateTimeout) :
    assignNoncesForSigner env signer txs s =
      (none, stampAll signer (admittedOf s.ops txs) e
        { s with nextNonceCache := s.nextNonceCache.touch signer e,
                 clockReads := s.clockReads + 1 }) := by
  unfold assignNoncesForSigner
  have hget : s.nextNonceCache.get signer = (some e, s.nextNonceCache.touch signer e) := by
    unfold LRU.get; rw [hpeek]
  rw [hget]
  have hexp : decide (env.clock s.clockReads - e.cachedTime > env.nonceStateTimeout) = false := by
    simp only [decide_eq_false_iff_not]; omega
  simp only [readClock, hexp]
  rw [assignNoncesToOps_fresh]

/-! ## Well-formed groups -/

theorem GroupsWF.split {ops : List TransactionOperation} {pre post : List (String × List Nat)}
    {signer : String} {txs : List Nat} (h : GroupsWF ops (pre ++ (signer, txs) :: post)) :
    signer ∉ pre.map Prod.fst ∧ signer ∉ post.map Prod.fst ∧ txs.Nodup ∧
    (∀ i, i ∈ txs → i ∉ pre.flatMap Prod.snd) ∧ (∀ i, i ∈ txs → i ∉ post.flatMap Prod.snd) ∧
    (∀ i, i ∈ txs → isInsertOf ops signer i = true) := by
  obtain ⟨hk, hi, hins⟩ := h
  simp only [List.map_append, List.map_cons] at hk
  rw [List.nodup_append] at hk
  obtain ⟨_, hk2, hk3⟩ := hk
  rw [List.nodup_cons] at hk2
  simp only [List.flatMap_append, List.flatMap_cons] at hi
  rw [List.nodup_append] at hi
  obtain ⟨_, hi2, hi3⟩ := hi
  rw [List.nodup_append] at hi2
  obtain ⟨hi4, _, hi5⟩ := hi2
  refine ⟨?_, hk2.1, hi4, ?_, ?_, ?_⟩
  · intro hm
    exact hk3 hm (List.mem_cons_self _ _)
  · intro i hi hm
    exact hi3 hm (List.mem_append_left _ hi)
  · intro i hi hm
    exact hi5 hi hm
  · intro i hi
    exact hins (signer, txs) (by simp) i hi

theorem admittedOf_sub (ops : List TransactionOperation) (txs : List Nat) (i : Nat)
    (h : i ∈ admittedOf ops txs) : i ∈ txs :=
  (List.mem_filter.mp h).1

theorem admittedOf_nodup (ops : List TransactionOperation) (txs : List Nat) (h : txs.Nodup) :
    (admittedOf ops txs).Nodup :=
  h.filter _

/-! ## The store candidate -/

theorem highestNonceTx_none_of_no_row (rows : List ManagedTX) (signer : String)
    (h : ∀ tx ∈ rows, tx.From ≠ signer) : highestNonceTx rows signer = none := by
  unfold highestNonceTx
  have : rows.filter (fun tx => tx.From == signer) = [] := by
    rw [List.filter_eq_nil_iff]
    intro tx htx
    simpa using h tx htx
  rw [this]
  rfl

theorem storeCandidate_of_nonce (rows : List ManagedTX) (signer : String) (tx : ManagedTX)
    (h : Nat) (htx : highestNonceTx rows signer = some tx) (hn : tx.Nonce = some (h : Int))
    (hlt : h + 1 < 2 ^ 64) : storeCandidate rows signer = some (h + 1) := by
  unfold storeCandidate
  rw [htx]
  simp only [Option.map_some', uint64Of, hn, Option.some.injEq]
  have h1 : ¬ ((h : Int) < 0 ∨ (2 : Int) ^ 64 ≤ (h : Int)) := by omega
  rw [if_neg h1]
  simp only [Int.toNat_ofNat]
  omega

theorem storeCandidate_of_outside (rows : List ManagedTX) (signer : String) (tx : ManagedTX)
    (htx : highestNonceTx rows signer = some tx)
    (hn : tx.Nonce = none ∨ ∃ v : Int, tx.Nonce = some v ∧ (v < 0 ∨ 2 ^ 64 ≤ v)) :
    storeCandidate rows signer = some 1 := by
  unfold storeCandidate
  rw [htx]
  rcases hn with h | ⟨v, h, hv⟩
  · simp [uint64Of, h]
  · simp only [Option.map_some', uint64Of, h, Option.some.injEq]
    rw [if_pos hv]
    rfl

/-- A stored nonce that is not an unsigned 64-bit number is read as 0 by both backends: with
the stored nonce `2^64 + 5` and a chain value of 0 the relational backend stamps 1, and
`calcNextNonce` of the embedded backend, the stored transaction being new, returns 1. -/
theorem stored_nonce_outside_uint64 :
    uint64Of (some (2 ^ 64 + 5)) = 0 ∧ uint64Of (some (-3)) = 0 ∧ uint64Of none = 0 ∧
    uint64Of (some (2 ^ 64 - 1)) = 2 ^ 64 - 1 ∧
    nonceAt (assignNonces (sampleEnv 0) [("S", [0])]
      (sampleSys 10 [] [] [{ ID := "old", From := "S", Nonce := some (2 ^ 64 + 5) }]
        [sampleInsert "a" "S" 0])).2.ops 0 = some 1 ∧
    (calcNextNonce (sampleEnv 0) "S" (fun _ => Except.ok 3)
      { transactions := [{ ID := "old", From := "S", Nonce := some (2 ^ 64 + 5) }] }).1 =
      Except.ok 1 := by
  refine ⟨by decide, by decide, by rfl, by decide, by rfl, by rfl⟩

/-! ## Recency in the LRU cache -/

namespace LRU
variable {β : Type}

theorem mem_take_filter (p : String × β → Bool) (k : String) :
    ∀ (l : List (String × β)) (m : Nat), k ∈ (l.take m).map Prod.fst →
      (∀ e ∈ l, e.1 = k → p e = true) → k ∈ ((l.filter p).take m).map Prod.fst := by
  intro l
  induction l with
  | nil => intro m h _; simp at h
  | cons e rest ih =>
    intro m h hp
    cases m with
    | zero => simp at h
    | succ m =>
      simp only [List.take_succ_cons, List.map_cons, List.mem_cons] at h
      have hp1 : ∀ e1 ∈ rest, e1.1 = k → p e1 = true :=
        fun e1 he1 => hp e1 (List.mem_cons_of_mem _ he1)
      by_cases hpe : p e = true
      · rw [List.filter_cons_of_pos hpe]
        simp only [List.take_succ_cons, List.map_cons, List.mem_cons]
        rcases h with h | h
        · left; exact h
        · right; exact ih m h hp1
      · have hne : k ≠ e.1 := by
          intro hk
          exact hpe (hp e (List.mem_cons_self _ _) hk.symm)
        rw [List.filter_cons_of_neg hpe]
        rcases h with h | h
        · exact absurd h hne
        · have h1 := ih m h hp1
          have hsub : (List.take m (List.filter p rest)).Sublist (List.take (m + 1) (List.filter p rest)) := by
            rw [List.take_succ]
            exact List.sublist_append_left _ _
          exact (hsub.map Prod.fst).subset h1

theorem recent_mono (c : LRU β) (k : String) {n m : Nat} (h : c.recent k n) (hnm : n ≤ m) :
    c.recent k m := by
  unfold recent at *
  have hsub : (List.take (n + 1) c.items).Sublist (List.take (m + 1) c.items) := by
    have : List.take (n + 1) c.items = List.take (n + 1) (List.take (m + 1) c.items) := by
      rw [List.take_take]; congr 1; omega
    rw [this]
    exact List.take_sublist _ _
  exact (hsub.map Prod.fst).subset h

theorem peek_ne_none_of_recent (c : LRU β) (k : String) {n : Nat} (h : c.recent k n) :
    c.peek k ≠ none := by
  unfold recent at h
  unfold peek
  intro hn
  rw [List.lookup_eq_none_iff] at hn
  obtain ⟨e, he, hek⟩ := List.mem_map.mp h
  have := hn e (List.mem_of_mem_take he)
  simp [hek] at this

theorem recent_touch (c : LRU β) (K k : String) (v : β) (n : Nat) (hne : k ≠ K)
    (h : c.recent k n) : (c.touch K v).recent k (n + 1) := by
  unfold recent at *
  simp only [touch, List.take_succ_cons, List.map_cons, List.mem_cons]
  right
  apply mem_take_filter _ k c.items (n + 1) h
  intro e _ hek
  simp [hek, hne]

theorem front_touch (c : LRU β) (K : String) (v : β) : (c.touch K v).front K :=
  ⟨v, _, rfl⟩

theorem recent_touch_front (c : LRU β) (K k : String) (v : β) (n : Nat) (hne : k ≠ K)
    (hf : c.front K) (h : c.recent k (n + 1)) : (c.touch K v).recent k (n + 1) := by
  obtain ⟨v0, rest, hitems⟩ := hf
  unfold recent at *
  rw [hitems] at h
  simp only [List.take_succ_cons, List.map_cons, List.mem_cons] at h
  rcases h with h | h
  · exact absurd h hne
  · simp only [touch, hitems, List.take_succ_cons, List.map_cons, List.mem_cons]
    right
    have hK : ((K, v0) :: rest).filter (fun e => e.1 != K) = rest.filter (fun e => e.1 != K) := by
      rw [List.filter_cons_of_neg (by simp)]
    rw [hK]
    apply mem_take_filter _ k rest (n + 1) h
    intro e _ hek
    simp [hek, hne]

theorem peek_front (c : LRU β) (K : String) (hf : c.front K) : c.peek K ≠ none := by
  obtain ⟨v0, rest, hitems⟩ := hf
  simp [peek, hitems, List.lookup_cons]

theorem front_add (c : LRU β) (K : String) (v : β) (hsize : 0 < c.size) : (c.add K v).front K := by
  unfold add
  split
  · exact front_touch c K v
  · split
    · rename_i hlt
      have hne : c.items ≠ [] := by
        intro h0; rw [h0] at hlt; simp at hlt; omega
      exact ⟨v, c.items.dropLast, by simp [List.dropLast_cons_of_ne_nil hne]⟩
    · exact ⟨v, c.items, rfl⟩

theorem behind_add (c : LRU β) (K k : String) (v : β) (n : Nat) (hne : k ≠ K)
    (hsize : n + 1 < c.size) (h : c.behind K k n) : (c.add K v).behind K k n := by
  right
  refine ⟨front_add c K v (by omega), ?_⟩
  rcases h with ⟨hnone, hrec⟩ | ⟨hfront, hrec⟩
  · unfold add
    rw [hnone]
    simp only
    have hbase : k ∈ (List.take (n + 1 + 1) ((K, v) :: c.items)).map Prod.fst := by
      simp only [List.take_succ_cons, List.map_cons, List.mem_cons]
      right; exact hrec
    split
    · rename_i hlt
      unfold recent
      simp only
      rw [List.dropLast_eq_take, List.take_take]
      have : min (n + 1 + 1) (((K, v) :: c.items).length - 1) = n + 1 + 1 := by
        simp only [List.length_cons]; omega
      rw [this]
      exact hbase
    · exact hbase
  · have hp := peek_front c K hfront
    unfold add
    cases hpk : c.peek K with
    | none => exact absurd hpk hp
    | some v0 =>
      simp only
      exact recent_touch_front c K k v n hne hfront hrec

theorem behind_get (c : LRU β) (K k : String) (n : Nat) (hne : k ≠ K) (h : c.recent k n) :
    (c.get K).2.behind K k n := by
  unfold get
  cases hpk : c.peek K with
  | none => left; exact ⟨hpk, h⟩
  | some v0 => right; exact ⟨front_touch c K v0, recent_touch c K k v0 n hne h⟩

theorem recent_of_behind (c : LRU β) (K k : String) (n : Nat) (h : c.behind K k n) :
    c.recent k (n + 1) := by
  rcases h with ⟨_, h⟩ | ⟨_, h⟩
  · exact recent_mono c k h (by omega)
  · exact h

theorem recent_of_front (c : LRU β) (k : String) (h : c.front k) : c.recent k 0 := by
  obtain ⟨v0, rest, hitems⟩ := h
  simp [recent, hitems]

end LRU

/-! ## Recency of a signer's entry across the groups of other signers -/

theorem assignNoncesToOps_behind (env : Env) (K k : String) (n : Nat) (hne : k ≠ K)
    (cacheExpired : Bool) (txs : List Nat) :
    ∀ (ce : Option NonceCacheEntry) (s : Sys),
      s.nextNonceCache.behind K k n → n + 1 < s.nextNonceCache.size →
      (assignNoncesToOps env K cacheExpired txs ce s).2.nextNonceCache.behind K k n := by
  induction txs with
  | nil => intro ce s h _; exact h
  | cons i rest ih =>
    intro ce s hb hsize
    unfold assignNoncesToOps
    cases h : s.ops[i]? with
    | none => exact ih ce s hb hsize
    | some op =>
      simp only
      split
      · exact ih ce s hb hsize
      · split
        · exact ih ce s hb hsize
        · have key : ∀ (r : Except Err NonceCacheEntry × Sys),
              r.2.nextNonceCache = s.nextNonceCache →
              (match r with
                | (Except.error e, s1) => (some e, s1)
                | (Except.ok ce, s1) =>
                  assignNoncesToOps env K cacheExpired rest
                    (some { ce with nextNonce := (ce.nextNonce + 1) % 2 ^ 64 })
                    { s1 with ops := modifyOp s1.ops i (stampNonce ce.nextNonce),
                              nextNonceCache := s1.nextNonceCache.add K
                                { ce with nextNonce := (ce.nextNonce + 1) % 2 ^ 64 } }).2.nextNonceCache.behind
                K k n := by
            intro r hr
            obtain ⟨res, s1⟩ := r
            simp only at hr
            cases res with
            | error e => simp only; rw [hr]; exact hb
            | ok ce1 =>
              simp only
              apply ih
              · simp only [hr]
                exact LRU.behind_add _ K k _ n hne hsize hb
              · simp only [hr, LRU.size_add]
                exact hsize
          cases ce with
          | none => exact key _ (reconcileNonce_frame env K op none s).2.1
          | some e =>
            cases cacheExpired with
            | false => exact key (Except.ok e, s) rfl
            | true => exact key _ (reconcileNonce_frame env K op (some e) s).2.1

theorem assignNoncesForSigner_recent (env : Env) (K k : String) (n : Nat) (hne : k ≠ K)
    (txs : List Nat) (s : Sys) (h : s.nextNonceCache.recent k n)
    (hsize : n + 1 < s.nextNonceCache.size) :
    (assignNoncesForSigner env K txs s).2.nextNonceCache.recent k (n + 1) := by
  apply LRU.recent_of_behind _ K k n
  have hb := LRU.behind_get s.nextNonceCache K k n hne h
  have hsz : (s.nextNonceCache.get K).2.size = s.nextNonceCache.size := LRU.size_get _ _
  unfold assignNoncesForSigner
  cases hg : s.nextNonceCache.get K with
  | mk hit cache1 =>
    rw [hg] at hb hsz
    simp only at hb hsz
    cases hit with
    | some ce =>
      simp only [readClock]
      exact assignNoncesToOps_behind env K k n hne _ txs _ _ hb (by simpa [hsz] using hsize)
    | none =>
      simp only
      exact assignNoncesToOps_behind env K k n hne _ txs _ _ hb (by simpa [hsz] using hsize)

theorem assignNonces_recent (env : Env) (k : String) (gs : List (String × List Nat)) :
    ∀ (n : Nat) (s : Sys), k ∉ gs.map Prod.fst → s.nextNonceCache.recent k n →
      n + gs.length < s.nextNonceCache.size →
      (assignNonces env gs s).2.nextNonceCache.recent k (n + gs.length) := by
  induction gs with
  | nil => intro n s _ h _; simpa [assignNonces] using h
  | cons g rest ih =>
    intro n s hk h hsize
    obtain ⟨K, txs⟩ := g
    simp only [List.map_cons, List.mem_cons, not_or] at hk
    simp only [List.length_cons] at hsize
    have h1 := assignNoncesForSigner_recent env K k n hk.1 txs s h (by omega)
    have hf := assignNoncesForSigner_frame env K txs s
    unfold assignNonces
    cases hg : assignNoncesForSigner env K txs s with
    | mk err s1 =>
      rw [hg] at h1 hf
      simp only at h1 hf
      cases err with
      | some e =>
        simp only
        exact LRU.recent_mono _ k h1 (by simp only [List.length_cons]; omega)
      | none =>
        simp only
        have := ih (n + 1) s1 hk.2 h1 (by rw [hf.size]; omega)
        simp only [List.length_cons]
        have he : n + (rest.length + 1) = n + 1 + rest.length := by omega
        rw [he]
        exact this

theorem stampAll_front (signer : String) (A : List Nat) :
    ∀ (ce : NonceCacheEntry) (s : Sys), A ≠ [] → 0 < s.nextNonceCache.size →
      (stampAll signer A ce s).nextNonceCache.front signer := by
  induction A with
  | nil => intro ce s h; exact absurd rfl h
  | cons i rest ih =>
    intro ce s _ hsize
    simp only [stampAll]
    by_cases hr : rest = []
    · subst hr
      simp only [stampAll]
      exact LRU.front_add _ _ _ hsize
    · exact ih _ _ hr (by simpa using hsize)

/-! ## A signer without a cache entry -/

theorem assignNoncesForSigner_absent_fault (env : Env) (signer : String) (txs : List Nat) (s : Sys)
    (i0 : Nat) (rest : List Nat) (c : Nat) (e : Err)
    (hpeek : s.nextNonceCache.peek signer = none)
    (hadm : admittedOf s.ops txs = i0 :: rest)
    (hcb : chainValue s.ops i0 signer = some c)
    (hfault : env.storeFault s.storeCalls.length = some e) :
    (assignNoncesForSigner env signer txs s).1 = some e := by
  obtain ⟨op, hop, hcb1⟩ := chainValue_eq_some hcb
  obtain ⟨hi0, _⟩ := admittedOf_tail hadm
  obtain ⟨hp, hc⟩ := admitted_eq_true hi0 hop
  unfold assignNoncesForSigner
  have hget : s.nextNonceCache.get signer = (none, s.nextNonceCache) := by
    unfold LRU.get; rw [hpeek]
  rw [hget]
  simp only
  rw [assignNoncesToOps_admitted, hadm, assignNoncesToOps, hop]
  simp only [hp, hc, Bool.false_eq_true, if_false]
  unfold reconcileNonce
  simp [hcb1, storeCall, hfault]

/-- The effect of the group of a signer without a cache entry, when the group succeeds. -/
theorem assignNoncesForSigner_absent_spec (env : Env) (signer : String) (txs : List Nat) (s : Sys)
    (i0 : Nat) (rest : List Nat) (c N : Nat)
    (hins : ∀ i, i ∈ txs → isInsertOf s.ops signer i = true) (hnd : txs.Nodup)
    (hsize : 0 < s.nextNonceCache.size)
    (hpeek : s.nextNonceCache.peek signer = none)
    (hadm : admittedOf s.ops txs = i0 :: rest)
    (hcb : chainValue s.ops i0 signer = some c)
    (hok : (assignNoncesForSigner env signer txs s).1 = none)
    (hN : N = max c ((storeCandidate s.transactions signer).getD 0))
    (hbound : N + (rest.length + 1) ≤ 2 ^ 63) :
    (i0 :: rest).map (nonceAt (assignNoncesForSigner env signer txs s).2.ops) =
        (List.range' N (rest.length + 1)).map (fun (v : Nat) => some (v : Int)) ∧
    (assignNoncesForSigner env signer txs s).2.nextNonceCache.peek signer =
        some { cachedTime := env.clock s.clockReads, nextNonce := N + (rest.length + 1) } ∧
    (assignNoncesForSigner env signer txs s).2.nextNonceCache.front signer ∧
    (assignNoncesForSigner env signer txs s).2.cbCalls = s.cbCalls ++ [signer] := by
  have hfault : env.storeFault s.storeCalls.length = none := by
    cases hf : env.storeFault s.storeCalls.length with
    | none => rfl
    | some e =>
      have := assignNoncesForSigner_absent_fault env signer txs s i0 rest c e hpeek hadm hcb hf
      rw [hok] at this
      exact absurd this (by simp)
  rw [assignNoncesForSigner_absent env signer txs s i0 rest c hpeek hadm hcb hfault, ← hN]
  simp only
  have hA : ∀ i, i ∈ i0 :: rest → i ∈ txs := by
    intro i hi; rw [← hadm] at hi; exact admittedOf_sub _ _ _ hi
  have hAnd : (i0 :: rest).Nodup := by rw [← hadm]; exact admittedOf_nodup _ _ hnd
  refine ⟨?_, ?_, ?_, ?_⟩
  · have := stampAll_nonces signer (i0 :: rest)
      { cachedTime := env.clock s.clockReads, nextNonce := N }
      { s with cbCalls := s.cbCalls ++ [signer],
               storeCalls := s.storeCalls ++ [StoreCall.getManyTransactions signer],
               clockReads := s.clockReads + 1 }
      hAnd (fun i hi => hins i (hA i hi)) (by simpa using hbound)
    simpa using this
  · rw [stampAll_peek_self signer (i0 :: rest) _ _ (by simp) (by simpa using hsize)]
    simp only [List.length_cons]
    rw [Nat.mod_eq_of_lt (by omega)]
  · exact stampAll_front signer (i0 :: rest) _ _ (by simp) (by simpa using hsize)
  · exact (stampAll_fields signer (i0 :: rest) _ _).2.2.2.2.1

/-- C1 (amended). In one successful run of `assignNonces` over well-formed groups, a signer
that has no nonce-cache entry at the start and whose group holds the admitted inserts
`i0 :: rest` (neither pre-assigned nor conflicts, `k = rest.length + 1` of them) sees these
inserts stamped, in batch order, with `N, N+1, ..., N+k-1`, where `N` is the larger of the
value `c` returned by the chain callback of the first admitted insert and the highest stored
nonce of the signer plus one (`N = c` when the store has no row of the signer), provided
`N + k ≤ 2^63`; the stored nonce is read as an unsigned 64-bit number, and one that is not
such a number (nil, negative, `2^64` or more) is read as 0. At the end of the run the
signer's cache entry, unless the later signers of the run evicted it, holds
`nextNonce = N + k`; it is not evicted when the run has at most as many signers as the cache
has slots. -/
theorem assignNonces_absent_consecutive (env : Env) (gs : List (String × List Nat)) (s : Sys)
    (signer : String) (txs : List Nat) (i0 : Nat) (rest : List Nat) (c N : Nat)
    (hwf : GroupsWF s.ops gs) (hmem : (signer, txs) ∈ gs)
    (hsize : 0 < s.nextNonceCache.size)
    (hpeek : s.nextNonceCache.peek signer = none)
    (hadm : admittedOf s.ops txs = i0 :: rest)
    (hcb : chainValue s.ops i0 signer = some c)
    (hok : (assignNonces env gs s).1 = none)
    (hN : N = max c ((storeCandidate s.transactions signer).getD 0))
    (hbound : N + (rest.length + 1) ≤ 2 ^ 63) :
    (i0 :: rest).map (nonceAt (assignNonces env gs s).2.ops) =
        (List.range' N (rest.length + 1)).map (fun (v : Nat) => some (v : Int)) ∧
    c ≤ N ∧
    ((∀ tx ∈ s.transactions, tx.From ≠ signer) → N = c) ∧
    (∀ (tx : ManagedTX) (h : Nat), highestNonceTx s.transactions signer = some tx →
        tx.Nonce = some (h : Int) → h + 1 < 2 ^ 64 → N = max c (h + 1)) ∧
    (∀ (tx : ManagedTX), highestNonceTx s.transactions signer = some tx →
        (tx.Nonce = none ∨ ∃ v : Int, tx.Nonce = some v ∧ (v < 0 ∨ 2 ^ 64 ≤ v)) →
        N = max c 1) ∧
    (((assignNonces env gs s).2.nextNonceCache.peek signer).map (fun e => e.nextNonce) =
        some (N + (rest.length + 1)) ∨
      (assignNonces env gs s).2.nextNonceCache.peek signer = none) ∧
    (gs.length ≤ s.nextNonceCache.size →
      ((assignNonces env gs s).2.nextNonceCache.peek signer).map (fun e => e.nextNonce) =
        some (N + (rest.length + 1))) := by
  obtain ⟨pre, post, hgs⟩ := List.append_of_mem hmem
  subst hgs
  obtain ⟨hkpre, hkpost, hnd, hipre, hipost, hins⟩ := hwf.split
  -- the groups before the signer's
  have hfpre := assignNonces_frame env pre s
  rw [assignNonces_append] at hok
  rw [assignNonces_append]
  cases hpre : assignNonces env pre s with
  | mk e1 s1 =>
    rw [hpre] at hok hfpre
    simp only at hfpre
    obtain ⟨_, hsk1, hrows1, _, hsz1, hpk1⟩ := hfpre
    cases e1 with
    | some e => simp at hok
    | none =>
      simp only at hok ⊢
      have hpeek1 : s1.nextNonceCache.peek signer = none := by
        rcases hpk1 signer hkpre with h | h
        · rw [h, hpeek]
        · exact h
      have hadm1 : admittedOf s1.ops txs = i0 :: rest := by
        rw [admittedOf_of_skeleton hsk1]; exact hadm
      have hcb1 : chainValue s1.ops i0 signer = some c := by
        rw [chainValue_of_skeleton hsk1]; exact hcb
      have hins1 : ∀ i, i ∈ txs → isInsertOf s1.ops signer i = true := by
        intro i hi; rw [isInsertOf_of_skeleton hsk1]; exact hins i hi
      -- the signer's own group
      unfold assignNonces at hok ⊢
      have hspec := assignNoncesForSigner_absent_spec env signer txs s1 i0 rest c N hins1 hnd
        (by rw [hsz1]; exact hsize) hpeek1 hadm1 hcb1
      have hfgrp := assignNoncesForSigner_frame env signer txs s1
      cases hgrp : assignNoncesForSigner env signer txs s1 with
      | mk e2 s2 =>
        rw [hgrp] at hok hspec hfgrp
        simp only at hspec hfgrp
        cases e2 with
        | some e => simp at hok
        | none =>
          simp only at hok ⊢
          obtain ⟨hnonces, hpk2, hfront2, _⟩ := hspec rfl (by rw [hrows1]; exact hN) hbound
          -- the groups after the signer's
          obtain ⟨hops3, _, _, _, hsz3, hpk3⟩ := assignNonces_frame env post s2
          have hsame : (i0 :: rest).map (nonceAt (assignNonces env post s2).2.ops) =
              (i0 :: rest).map (nonceAt s2.ops) := by
            apply List.map_congr_left
            intro i hi
            have hit : i ∈ txs := by rw [← hadm] at hi; exact admittedOf_sub _ _ _ hi
            unfold nonceAt
            rw [hops3 i (hipost i hit)]
          refine ⟨by rw [hsame]; exact hnonces, by rw [hN]; exact Nat.le_max_left _ _,
            ?_, ?_, ?_, ?_, ?_⟩
          · intro hno
            rw [hN]
            unfold storeCandidate
            rw [highestNonceTx_none_of_no_row _ _ hno]
            simp
          · intro tx h htx hn hlt
            rw [hN, storeCandidate_of_nonce _ _ tx h htx hn hlt]
            rfl
          · intro tx htx hn
            rw [hN, storeCandidate_of_outside _ _ tx htx hn]
            rfl
          · rcases hpk3 signer hkpost with h | h
            · left; rw [h, hpk2]; rfl
            · right; exact h
          · intro hlen
            have hrec := assignNonces_recent env signer post 0 s2 hkpost
              (LRU.recent_of_front _ _ hfront2)
              (by
                rw [hfgrp.size, hsz1]
                simp only [List.length_append, List.length_cons] at hlen
                omega)
            have hne := LRU.peek_ne_none_of_recent _ _ hrec
            rcases hpk3 signer hkpost with h | h
            · rw [h, hpk2]; rfl
            · exact absurd h hne

/-! ## Strictly increasing nonces -/

theorem reconcileNonce_ge (env : Env) (signer : String) (op : TransactionOperation) (s : Sys)
    (e ce1 : NonceCacheEntry)
    (h : (reconcileNonce env signer op (some e) s).1 = Except.ok ce1) :
    e.nextNonce ≤ ce1.nextNonce := by
  cases hcb : op.nextNonceCB signer with
  | error err =>
    rw [reconcileNonce_error env signer op s (some e) err hcb] at h
    simp at h
  | ok c =>
    rw [reconcileNonce_expired env signer op s e c hcb] at h
    simp only [Except.ok.injEq] at h
    rw [← h]
    exact Nat.le_max_right _ _

theorem isInsertOf_some {ops : List TransactionOperation} {signer : String} {i : Nat}
    (h : isInsertOf ops signer i = true) : ∃ op, ops[i]? = some op := by
  unfold isInsertOf at h
  cases h1 : ops[i]? with
  | none => simp [h1] at h
  | some op => exact ⟨op, rfl⟩

/-- The inner loop on admitted inserts: the stamped inserts form an initial segment, each
carries the conversion of the cache value it was assigned, and as long as these values stay
below `2 ^ 63` they increase strictly and are not below the cache entry the loop began with. -/
theorem storeCandidate_lt (rows : List ManagedTX) (signer : String) :
    (storeCandidate rows signer).getD 0 < 2 ^ 64 := by
  unfold storeCandidate
  cases highestNonceTx rows signer with
  | none => simp
  | some tx =>
    simp only [Option.map_some', Option.getD_some]
    exact Nat.mod_lt _ (by decide)

/-- A reconciliation of unsigned 64-bit candidates gives an unsigned 64-bit value. -/
theorem reconcileNonce_lt (env : Env) (signer : String) (op : TransactionOperation) (s : Sys)
    (ce : Option NonceCacheEntry) (ce1 : NonceCacheEntry)
    (h : (reconcileNonce env signer op ce s).1 = Except.ok ce1)
    (hce : ∀ e, ce = some e → e.nextNonce < 2 ^ 64)
    (hcb : ∀ c, op.nextNonceCB signer = Except.ok c → c < 2 ^ 64) :
    ce1.nextNonce < 2 ^ 64 := by
  cases hc : op.nextNonceCB signer with
  | error err =>
    rw [reconcileNonce_error env signer op s ce err hc] at h
    simp at h
  | ok c =>
    have hcl := hcb c hc
    cases ce with
    | some e =>
      rw [reconcileNonce_expired env signer op s e c hc] at h
      simp only [Except.ok.injEq] at h
      rw [← h]
      exact max_lt hcl (hce e rfl)
    | none =>
      cases hf : env.storeFault s.storeCalls.length with
      | some e0 =>
        unfold reconcileNonce at h
        simp [hc, storeCall, hf] at h
      | none =>
        rw [reconcileNonce_absent env signer op s c hc hf] at h
        simp only [Except.ok.injEq] at h
        rw [← h]
        exact max_lt hcl (storeCandidate_lt _ _)

theorem assignNoncesToOps_stamps (env : Env) (signer : String) (cacheExpired : Bool)
    (A : List Nat) :
    ∀ (ce : Option NonceCacheEntry) (s : Sys), A.Nodup →
      (∀ i, i ∈ A → isInsertOf s.ops signer i = true) →
      (∀ i, i ∈ A → admitted s.ops i = true) →
      ∃ ns : List Nat,
        ns.length ≤ A.length ∧
        ((assignNoncesToOps env signer cacheExpired A ce s).1 = none → ns.length = A.length) ∧
        (A.take ns.length).map (nonceAt (assignNoncesToOps env signer cacheExpired A ce s).2.ops) =
          ns.map (fun n => some (toInt64 n)) ∧
        (∀ i, i ∈ A.drop ns.length →
          (assignNoncesToOps env signer cacheExpired A ce s).2.ops[i]? = s.ops[i]?) ∧
        ((∀ n, n ∈ ns → n < 2 ^ 63) →
          ns.Pairwise (fun a b => a < b) ∧
          ∀ n, n ∈ ns → ∀ e, ce = some e → e.nextNonce ≤ n) ∧
        ((∀ e, ce = some e → e.nextNonce < 2 ^ 64) →
          (∀ i c, i ∈ A → chainValue s.ops i signer = some c → c < 2 ^ 64) →
          ∀ n, n ∈ ns → n < 2 ^ 64) := by
  induction A with
  | nil =>
    intro ce s _ _ _
    exact ⟨[], by simp, by simp, by simp, by simp [assignNoncesToOps], by simp, by simp⟩
  | cons i rest ih =>
    intro ce s hnd hins hadm
    obtain ⟨hi_rest, hnd_rest⟩ := List.nodup_cons.mp hnd
    obtain ⟨op, hop⟩ := isInsertOf_some (hins i (List.mem_cons_self _ _))
    obtain ⟨hp, hc⟩ := admitted_eq_true (hadm i (List.mem_cons_self _ _)) hop
    rw [assignNoncesToOps, hop]
    simp only [hp, hc, Bool.false_eq_true, if_false]
    have key : ∀ (r : Except Err NonceCacheEntry × Sys), r.2.ops = s.ops →
        (∀ ce1, r.1 = Except.ok ce1 → ∀ e, ce = some e → e.nextNonce ≤ ce1.nextNonce) →
        ((∀ e, ce = some e → e.nextNonce < 2 ^ 64) →
          (∀ c, op.nextNonceCB signer = Except.ok c → c < 2 ^ 64) →
          ∀ ce1, r.1 = Except.ok ce1 → ce1.nextNonce < 2 ^ 64) →
        ∃ ns : List Nat,
          ns.length ≤ (i :: rest).length ∧
          ((match r with
              | (Except.error e, s1) => (some e, s1)
              | (Except.ok ce, s1) =>
                assignNoncesToOps env signer cacheExpired rest
                  (some { ce with nextNonce := (ce.nextNonce + 1) % 2 ^ 64 })
                  { s1 with ops := modifyOp s1.ops i (stampNonce ce.nextNonce),
                            nextNonceCache := s1.nextNonceCache.add signer
                              { ce with nextNonce := (ce.nextNonce + 1) % 2 ^ 64 } }).1 = none →
            ns.length = (i :: rest).length) ∧
          ((i :: rest).take ns.length).map (nonceAt
            (match r with
              | (Except.error e, s1) => (some e, s1)
              | (Except.ok ce, s1) =>
                assignNoncesToOps env signer cacheExpired rest
                  (some { ce with nextNonce := (ce.nextNonce + 1) % 2 ^ 64 })
                  { s1 with ops := modifyOp s1.ops i (stampNonce ce.nextNonce),
                            nextNonceCache := s1.nextNonceCache.add signer
                              { ce with nextNonce := (ce.nextNonce + 1) % 2 ^ 64 } }).2.ops) =
            ns.map (fun n => some (toInt64 n)) ∧
          (∀ j, j ∈ (i :: rest).drop ns.length →
            (match r with
              | (Except.error e, s1) => (some e, s1)
              | (Except.ok ce, s1) =>
                assignNoncesToOps env signer cacheExpired rest
                  (some { ce with nextNonce := (ce.nextNonce + 1) % 2 ^ 64 })
                  { s1 with ops := modifyOp s1.ops i (stampNonce ce.nextNonce),
                            nextNonceCache := s1.nextNonceCache.add signer
                              { ce with nextNonce := (ce.nextNonce + 1) % 2 ^ 64 } }).2.ops[j]? =
              s.ops[j]?) ∧
          ((∀ n, n ∈ ns → n < 2 ^ 63) →
            ns.Pairwise (fun a b => a < b) ∧
            ∀ n, n ∈ ns → ∀ e, ce = some e → e.nextNonce ≤ n) ∧
          ((∀ e, ce = some e → e.nextNonce < 2 ^ 64) →
            (∀ j c, j ∈ i :: rest → chainValue s.ops j signer = some c → c < 2 ^ 64) →
            ∀ n, n ∈ ns → n < 2 ^ 64) := by
      intro r hr hlo hub
      obtain ⟨res, s1⟩ := r
      simp only at hr hlo hub
      cases res with
      | error e =>
        refine ⟨[], by simp, by simp, by simp, ?_, by simp, by simp⟩
        intro j _
        simp only [hr]
      | ok ce1 =>
        simp only
        have hins2 : ∀ j, j ∈ rest →
            isInsertOf (modifyOp s1.ops i (stampNonce ce1.nextNonce)) signer j = true := by
          intro j hj
          rw [isInsertOf_stamp, hr]
          exact hins j (List.mem_cons_of_mem _ hj)
        have hadm2 : ∀ j, j ∈ rest →
            admitted (modifyOp s1.ops i (stampNonce ce1.nextNonce)) j = true := by
          intro j hj
          rw [admitted_stamp, hr]
          exact hadm j (List.mem_cons_of_mem _ hj)
        obtain ⟨ns1, h1, h2, h3, h4, h5, h6⟩ := ih
          (some { ce1 with nextNonce := (ce1.nextNonce + 1) % 2 ^ 64 })
          { s1 with ops := modifyOp s1.ops i (stampNonce ce1.nextNonce),
                    nextNonceCache := s1.nextNonceCache.add signer
                      { ce1 with nextNonce := (ce1.nextNonce + 1) % 2 ^ 64 } }
          hnd_rest hins2 hadm2
        have hfr := assignNoncesToOps_frame env signer cacheExpired rest
          (some { ce1 with nextNonce := (ce1.nextNonce + 1) % 2 ^ 64 })
          { s1 with ops := modifyOp s1.ops i (stampNonce ce1.nextNonce),
                    nextNonceCache := s1.nextNonceCache.add signer
                      { ce1 with nextNonce := (ce1.nextNonce + 1) % 2 ^ 64 } }
        refine ⟨ce1.nextNonce :: ns1, by simpa using h1, ?_, ?_, ?_, ?_, ?_⟩
        · intro hnone
          simp only [List.length_cons]
          rw [h2 hnone]
        · simp only [List.length_cons, List.take_succ_cons, List.map_cons]
          congr 1
          · unfold nonceAt
            rw [hfr.ops_out i hi_rest]
            have := nonceAt_stamp_self s1.ops signer i ce1.nextNonce
              (by rw [hr]; exact hins i (List.mem_cons_self _ _))
            unfold nonceAt at this
            exact this
        · intro j hj
          simp only [List.length_cons, List.drop_succ_cons] at hj
          rw [h4 j hj]
          simp only
          have hji : i ≠ j := by
            intro hij
            subst hij
            exact hi_rest (List.mem_of_mem_drop hj)
          rw [getElem?_modifyOp_ne _ _ _ _ hji, hr]
        · intro hsmall
          have hn0 : ce1.nextNonce < 2 ^ 63 := hsmall _ (List.mem_cons_self _ _)
          have hmod : (ce1.nextNonce + 1) % 2 ^ 64 = ce1.nextNonce + 1 :=
            Nat.mod_eq_of_lt (by omega)
          obtain ⟨hpw, hge⟩ := h5 (fun n hn => hsmall n (List.mem_cons_of_mem _ hn))
          have hge1 : ∀ n, n ∈ ns1 → ce1.nextNonce + 1 ≤ n := by
            intro n hn
            have := hge n hn { ce1 with nextNonce := (ce1.nextNonce + 1) % 2 ^ 64 } rfl
            simp only at this
            omega
          refine ⟨?_, ?_⟩
          · rw [List.pairwise_cons]
            exact ⟨fun n hn => by have := hge1 n hn; omega, hpw⟩
          · intro n hn e he
            have hle := hlo ce1 rfl e he
            rcases List.mem_cons.mp hn with h | h
            · rw [h]; exact hle
            · have := hge1 n h; omega
        · intro hce hch n hn
          have hcb0 : ∀ c, op.nextNonceCB signer = Except.ok c → c < 2 ^ 64 := by
            intro c hc
            apply hch i c (List.mem_cons_self _ _)
            unfold chainValue
            rw [hop]
            simp [hc]
          rcases List.mem_cons.mp hn with h | h
          · rw [h]; exact hub hce hcb0 ce1 rfl
          · refine h6 ?_ ?_ n h
            · intro e he
              simp only [Option.some.injEq] at he
              rw [← he]
              exact Nat.mod_lt _ (by decide)
            · intro j c hj hc
              simp only [chainValue_stamp, hr] at hc
              exact hch j c (List.mem_cons_of_mem _ hj) hc
    cases ce with
    | none =>
      exact key _ (reconcileNonce_frame env signer op none s).1 (by intro _ _ e he; simp at he)
        (fun hce hcb ce1 h1 => reconcileNonce_lt env signer op s none ce1 h1 hce hcb)
    | some e0 =>
      cases cacheExpired with
      | false =>
        refine key (Except.ok e0, s) rfl ?_ ?_
        · intro ce1 h1 e he
          simp only [Except.ok.injEq] at h1
          simp only [Option.some.injEq] at he
          rw [← h1, ← he]
        · intro hce _ ce1 h1
          simp only [Except.ok.injEq] at h1
          rw [← h1]
          exact hce e0 rfl
      | true =>
        refine key _ (reconcileNonce_frame env signer op (some e0) s).1 ?_
          (fun hce hcb ce1 h1 => reconcileNonce_lt env signer op s (some e0) ce1 h1 hce hcb)
        intro ce1 h1 e he
        simp only [Option.some.injEq] at he
        rw [← he]
        exact reconcileNonce_ge env signer op s e0 ce1 h1

theorem assignNoncesForSigner_stamps (env : Env) (signer : String) (txs : List Nat) (s : Sys)
    (hnd : txs.Nodup) (hins : ∀ i, i ∈ txs → isInsertOf s.ops signer i = true) :
    ∃ ns : List Nat,
      ns.length ≤ (admittedOf s.ops txs).length ∧
      ((assignNoncesForSigner env signer txs s).1 = none →
        ns.length = (admittedOf s.ops txs).length) ∧
      ((admittedOf s.ops txs).take ns.length).map
          (nonceAt (assignNoncesForSigner env signer txs s).2.ops) =
        ns.map (fun n => some (toInt64 n)) ∧
      (∀ i, i ∈ (admittedOf s.ops txs).drop ns.length →
        (assignNoncesForSigner env signer txs s).2.ops[i]? = s.ops[i]?) ∧
      ((∀ n, n ∈ ns → n < 2 ^ 63) → ns.Pairwise (fun a b => a < b)) ∧
      ((∀ e, s.nextNonceCache.peek signer = some e → e.nextNonce < 2 ^ 64) →
        (∀ i c, i ∈ txs → chainValue s.ops i signer = some c → c < 2 ^ 64) →
        ∀ n, n ∈ ns → n < 2 ^ 64) := by
  have hA1 : (admittedOf s.ops txs).Nodup := admittedOf_nodup _ _ hnd
  have hA2 : ∀ i, i ∈ admittedOf s.ops txs → isInsertOf s.ops signer i = true :=
    fun i hi => hins i (admittedOf_sub _ _ _ hi)
  have hA3 : ∀ i, i ∈ admittedOf s.ops txs → admitted s.ops i = true :=
    fun i hi => (List.mem_filter.mp hi).2
  unfold assignNoncesForSigner
  cases hg : s.nextNonceCache.get signer with
  | mk hit cache1 =>
    cases hit with
    | some ce =>
      simp only [readClock]
      rw [assignNoncesToOps_admitted]
      obtain ⟨ns, h1, h2, h3, h4, h5, h6⟩ := assignNoncesToOps_stamps env signer
        (decide (env.clock s.clockReads - ce.cachedTime > env.nonceStateTimeout))
        (admittedOf s.ops txs) (some ce)
        { s with nextNonceCache := cache1, clockReads := s.clockReads + 1 } hA1 hA2 hA3
      have hpk : s.nextNonceCache.peek signer = some ce := by
        have := LRU.get_fst s.nextNonceCache signer
        rw [hg] at this
        exact this.symm
      refine ⟨ns, h1, h2, h3, h4, fun hs => (h5 hs).1, ?_⟩
      intro hce hch
      refine h6 ?_ (fun i c hi hc => hch i c (admittedOf_sub _ _ _ hi) hc)
      intro e he
      simp only [Option.some.injEq] at he
      rw [← he]
      exact hce ce hpk
    | none =>
      simp only
      rw [assignNoncesToOps_admitted]
      obtain ⟨ns, h1, h2, h3, h4, h5, h6⟩ := assignNoncesToOps_stamps env signer false
        (admittedOf s.ops txs) none { s with nextNonceCache := cache1 } hA1 hA2 hA3
      refine ⟨ns, h1, h2, h3, h4, fun hs => (h5 hs).1, ?_⟩
      intro _ hch
      exact h6 (by intro e he; simp at he)
        (fun i c hi hc => hch i c (admittedOf_sub _ _ _ hi) hc)

theorem map_toInt64_of_small (ns : List Nat) (h : ∀ n, n ∈ ns → n < 2 ^ 63) :
    ns.map (fun n => some (toInt64 n)) = ns.map (fun (n : Nat) => some (n : Int)) := by
  apply List.map_congr_left
  intro n hn
  rw [toInt64_of_lt n (h n hn)]

theorem nodup_of_pairwise_lt (ns : List Nat) (h : ns.Pairwise (fun a b => a < b)) : ns.Nodup := by
  unfold List.Nodup
  exact h.imp (fun hab => Nat.ne_of_lt hab)

/-- In one run of `assignNonces` over well-formed groups, whatever the signer's cache
entry at the start (absent, fresh or expired), whatever the chain callbacks return and
whether or not the run fails on the way: the admitted inserts of a signer (neither
pre-assigned nor conflicts) that the run stamps form an initial segment, in batch order, of
the signer's admitted inserts, the others are left untouched, and the stamped nonces, as long
as the values assigned stay below `2^63`, are strictly increasing in batch order and hence
pairwise distinct. -/
theorem assignNonces_stamps (env : Env) (gs : List (String × List Nat)) (s : Sys)
    (signer : String) (txs : List Nat)
    (hwf : GroupsWF s.ops gs) (hmem : (signer, txs) ∈ gs) :
    ∃ ns : List Nat,
      ns.length ≤ (admittedOf s.ops txs).length ∧
      ((assignNonces env gs s).1 = none → ns.length = (admittedOf s.ops txs).length) ∧
      ((admittedOf s.ops txs).take ns.length).map (nonceAt (assignNonces env gs s).2.ops) =
        ns.map (fun n => some (toInt64 n)) ∧
      (∀ i, i ∈ (admittedOf s.ops txs).drop ns.length →
        (assignNonces env gs s).2.ops[i]? = s.ops[i]?) ∧
      ((∀ n, n ∈ ns → n < 2 ^ 63) →
        ((admittedOf s.ops txs).take ns.length).map (nonceAt (assignNonces env gs s).2.ops) =
          ns.map (fun (n : Nat) => some (n : Int)) ∧
        ns.Pairwise (fun a b => a < b) ∧ ns.Nodup) ∧
      ((∀ e, s.nextNonceCache.peek signer = some e → e.nextNonce < 2 ^ 64) →
        (∀ i c, i ∈ txs → chainValue s.ops i signer = some c → c < 2 ^ 64) →
        ∀ n, n ∈ ns → n < 2 ^ 64) := by
  obtain ⟨pre, post, hgs⟩ := List.append_of_mem hmem
  subst hgs
  obtain ⟨hkpre, _, hnd, hipre, hipost, hins⟩ := hwf.split
  have hfpre := assignNonces_frame env pre s
  rw [assignNonces_append]
  cases hpre : assignNonces env pre s with
  | mk e1 s1 =>
    rw [hpre] at hfpre
    simp only at hfpre
    obtain ⟨hops1, hsk1, _, _, _, hpk1⟩ := hfpre
    cases e1 with
    | some e =>
      refine ⟨[], by simp, by simp, by simp, ?_, by simp, by simp⟩
      intro i hi
      simp only [List.length_nil, List.drop_zero] at hi
      exact hops1 i (hipre i (admittedOf_sub _ _ _ hi))
    | none =>
      simp only
      have hins1 : ∀ i, i ∈ txs → isInsertOf s1.ops signer i = true := by
        intro i hi; rw [isInsertOf_of_skeleton hsk1]; exact hins i hi
      obtain ⟨ns, h1, h2, h3, h4, h5, h6⟩ :=
        assignNoncesForSigner_stamps env signer txs s1 hnd hins1
      rw [admittedOf_of_skeleton hsk1] at h1 h2 h3 h4
      have h7 : (∀ e, s.nextNonceCache.peek signer = some e → e.nextNonce < 2 ^ 64) →
          (∀ i c, i ∈ txs → chainValue s.ops i signer = some c → c < 2 ^ 64) →
          ∀ n, n ∈ ns → n < 2 ^ 64 := by
        intro hce hch
        refine h6 ?_ ?_
        · intro e he
          rcases hpk1 signer hkpre with h | h
          · exact hce e (by rw [← h]; exact he)
          · rw [h] at he; exact Option.noConfusion he
        · intro i c hi hc
          rw [chainValue_of_skeleton hsk1] at hc
          exact hch i c hi hc
      have hback : ∀ i, i ∈ admittedOf s.ops txs → s1.ops[i]? = s.ops[i]? :=
        fun i hi => hops1 i (hipre i (admittedOf_sub _ _ _ hi))
      unfold assignNonces
      cases hgrp : assignNoncesForSigner env signer txs s1 with
      | mk e2 s2 =>
        rw [hgrp] at h2 h3 h4
        simp only at h2 h3 h4
        cases e2 with
        | some e =>
          simp only
          refine ⟨ns, h1, by simp, h3, ?_, ?_, h7⟩
          · intro i hi
            rw [h4 i hi, hback i (List.mem_of_mem_drop hi)]
          · intro hs
            exact ⟨by rw [h3, map_toInt64_of_small ns hs], h5 hs, nodup_of_pairwise_lt _ (h5 hs)⟩
        | none =>
          simp only
          obtain ⟨hops3, _, _, _, _, _⟩ := assignNonces_frame env post s2
          have hpost : ∀ i, i ∈ admittedOf s.ops txs →
              (assignNonces env post s2).2.ops[i]? = s2.ops[i]? :=
            fun i hi => hops3 i (hipost i (admittedOf_sub _ _ _ hi))
          have hsame : ((admittedOf s.ops txs).take ns.length).map
                (nonceAt (assignNonces env post s2).2.ops) =
              ((admittedOf s.ops txs).take ns.length).map (nonceAt s2.ops) := by
            apply List.map_congr_left
            intro i hi
            unfold nonceAt
            rw [hpost i (List.mem_of_mem_take hi)]
          refine ⟨ns, h1, fun _ => h2 rfl, by rw [hsame]; exact h3, ?_, ?_, h7⟩
          · intro i hi
            rw [hpost i (List.mem_of_mem_drop hi), h4 i hi, hback i (List.mem_of_mem_drop hi)]
          · intro hs
            exact ⟨by rw [hsame, h3, map_toInt64_of_small ns hs], h5 hs,
              nodup_of_pairwise_lt _ (h5 hs)⟩

/-- Witness of C1: no cache entry for signer `S`, whose highest stored nonce is 105 (the
store also holds nonce 104 of `S` and nonce 900 of another signer); three inserts of `S`,
the chain reports 100. Here `N = max 100 (105 + 1) = 106`: the inserts get 106, 107, 108 and
the cache entry ends at 109. -/
theorem assignNonces_absent_consecutive_witness :
    [0, 1, 2].map (nonceAt (assignNonces (sampleEnv 0) [("S", [0, 1, 2])]
      (sampleSys 10 [] []
        [{ ID := "x", From := "S", Nonce := some 104 }, { ID := "y", From := "S", Nonce := some 105 },
         { ID := "z", From := "T", Nonce := some 900 }]
        [sampleInsert "a" "S" 100, sampleInsert "b" "S" 100, sampleInsert "c" "S" 100])).2.ops) =
      (List.range' 106 3).map (fun (v : Nat) => some (v : Int)) ∧
    (106 : Nat) = max 100 (105 + 1) ∧
    ((assignNonces (sampleEnv 0) [("S", [0, 1, 2])]
      (sampleSys 10 [] []
        [{ ID := "x", From := "S", Nonce := some 104 }, { ID := "y", From := "S", Nonce := some 105 },
         { ID := "z", From := "T", Nonce := some 900 }]
        [sampleInsert "a" "S" 100, sampleInsert "b" "S" 100,
          sampleInsert "c" "S" 100])).2.nextNonceCache.peek "S").map (fun e => e.nextNonce) =
      some (106 + 3) := by
  have h := assignNonces_absent_consecutive (sampleEnv 0) [("S", [0, 1, 2])]
    (sampleSys 10 [] []
      [{ ID := "x", From := "S", Nonce := some 104 }, { ID := "y", From := "S", Nonce := some 105 },
       { ID := "z", From := "T", Nonce := some 900 }]
      [sampleInsert "a" "S" 100, sampleInsert "b" "S" 100, sampleInsert "c" "S" 100])
    "S" [0, 1, 2] 0 [1, 2] 100 106
    (by unfold GroupsWF; decide) (by decide) (by decide) (by rfl) (by rfl) (by rfl) (by rfl)
    (by rfl) (by decide)
  exact ⟨h.1, h.2.2.2.1 { ID := "y", From := "S", Nonce := some 105 } 105 (by rfl) (by rfl)
    (by decide), h.2.2.2.2.2.2 (by decide)⟩

/-- Counterexample to C1 as stated: a nonce cache of one slot and a batch with one insert of
signer `A`, for which the chain reports `2^63`, and one of signer `B`. The run succeeds; the
insert of `A` is stamped with `-2^63`, not with `N = 2^63`, and at the end of the run the
cache holds no entry for `A` (the entry of `B` took its slot), not `nextNonce = N + 1`. And
with a stored transaction of `S` whose nonce is `-3`, which is read as 0, and a chain value
of 0, the insert of `S` is stamped with 1, not with `max(0, -3 + 1) = 0`. -/
theorem assignNonces_absent_counterexample :
    (sampleSys 1 [] [] []
      [sampleInsert "a" "A" (2 ^ 63), sampleInsert "b" "B" 100]).nextNonceCache.peek "A" = none ∧
    admittedOf (sampleSys 1 [] [] []
      [sampleInsert "a" "A" (2 ^ 63), sampleInsert "b" "B" 100]).ops [0] = [0] ∧
    chainValue (sampleSys 1 [] [] []
      [sampleInsert "a" "A" (2 ^ 63), sampleInsert "b" "B" 100]).ops 0 "A" = some (2 ^ 63) ∧
    (assignNonces (sampleEnv 0) [("A", [0]), ("B", [1])]
      (sampleSys 1 [] [] []
        [sampleInsert "a" "A" (2 ^ 63), sampleInsert "b" "B" 100])).1 = none ∧
    nonceAt (assignNonces (sampleEnv 0) [("A", [0]), ("B", [1])]
      (sampleSys 1 [] [] []
        [sampleInsert "a" "A" (2 ^ 63), sampleInsert "b" "B" 100])).2.ops 0 = some (-(2 ^ 63)) ∧
    (assignNonces (sampleEnv 0) [("A", [0]), ("B", [1])]
      (sampleSys 1 [] [] []
        [sampleInsert "a" "A" (2 ^ 63), sampleInsert "b" "B" 100])).2.nextNonceCache.peek "A" =
      none ∧
    (assignNonces (sampleEnv 0) [("S", [0])]
      (sampleSys 10 [] [] [{ ID := "old", From := "S", Nonce := some (-3) }]
        [sampleInsert "a" "S" 0])).1 = none ∧
    nonceAt (assignNonces (sampleEnv 0) [("S", [0])]
      (sampleSys 10 [] [] [{ ID := "old", From := "S", Nonce := some (-3) }]
        [sampleInsert "a" "S" 0])).2.ops 0 = some 1 := by
  refine ⟨by rfl, by rfl, by rfl, by rfl, by rfl, by rfl, by rfl, by rfl⟩

/-- C2, the code at the failing input: the signer's cache entry holds `nextNonce = 5` and has
expired, the store holds a transaction of the signer with nonce 10, the chain reports 3. The
maximum of the three candidates is 11; the insert is stamped with 5, because the store is
not read when an expired entry exists. -/
theorem assignNonces_expired_ignores_store :
    storeCandidate [{ ID := "old", From := "S", Nonce := some 10 }] "S" = some 11 ∧
    (assignNonces (sampleEnv 7200000000000) [("S", [0])]
      (sampleSys 10 [("S", { cachedTime := 0, nextNonce := 5 })] []
        [{ ID := "old", From := "S", Nonce := some 10 }] [sampleInsert "a" "S" 3])).1 = none ∧
    nonceAt (assignNonces (sampleEnv 7200000000000) [("S", [0])]
      (sampleSys 10 [("S", { cachedTime := 0, nextNonce := 5 })] []
        [{ ID := "old", From := "S", Nonce := some 10 }] [sampleInsert "a" "S" 3])).2.ops 0 =
      some 5 ∧
    (assignNonces (sampleEnv 7200000000000) [("S", [0])]
      (sampleSys 10 [("S", { cachedTime := 0, nextNonce := 5 })] []
        [{ ID := "old", From := "S", Nonce := some 10 }] [sampleInsert "a" "S" 3])).2.storeCalls =
      [] := by
  refine ⟨by rfl, by rfl, by rfl, by rfl⟩

/-! ## The idempotency check -/

theorem CheckFrame.check_refl (s : Sys) : CheckFrame s s :=
  ⟨rfl, fun _ => rfl, rfl, rfl, rfl, rfl⟩

theorem CheckFrame.check_trans {s s1 s2 : Sys} (h1 : CheckFrame s s1) (h2 : CheckFrame s1 s2) :
    CheckFrame s s2 :=
  ⟨by rw [h2.txIDs, h1.txIDs], fun k => by rw [h2.peeks, h1.peeks], by rw [h2.rows, h1.rows],
    by rw [h2.nonces, h1.nonces], by rw [h2.calls, h1.calls], by rw [h2.clock, h1.clock]⟩

theorem CheckFrame.txID_at {s s1 : Sys} (h : CheckFrame s s1) (j : Nat) :
    (s1.ops[j]?).map (fun o => o.txID) = (s.ops[j]?).map (fun o => o.txID) := by
  rw [← List.getElem?_map, ← List.getElem?_map, h.txIDs]

theorem CheckFrame.isDuplicate {s s1 : Sys} (h : CheckFrame s s1) (j : Nat) :
    isDuplicate s1 j = isDuplicate s j := by
  have hj := h.txID_at j
  unfold NonceDemo.isDuplicate
  cases h1 : s1.ops[j]? with
  | none =>
    cases h2 : s.ops[j]? with
    | none => rfl
    | some o => rw [h1, h2] at hj; simp at hj
  | some o1 =>
    cases h2 : s.ops[j]? with
    | none => rw [h1, h2] at hj; simp at hj
    | some o =>
      rw [h1, h2] at hj
      simp only [Option.map_some', Option.some.injEq] at hj
      simp only [hj, h.peeks, h.rows]

theorem CheckFrame.inMetaCache {s s1 : Sys} (h : CheckFrame s s1) (j : Nat) :
    inMetaCache s1 j = inMetaCache s j := by
  have hj := h.txID_at j
  unfold NonceDemo.inMetaCache
  cases h1 : s1.ops[j]? with
  | none =>
    cases h2 : s.ops[j]? with
    | none => rfl
    | some o => rw [h1, h2] at hj; simp at hj
  | some o1 =>
    cases h2 : s.ops[j]? with
    | none => rw [h1, h2] at hj; simp at hj
    | some o =>
      rw [h1, h2] at hj
      simp only [Option.map_some', Option.some.injEq] at hj
      simp only [hj, h.peeks]

theorem CheckFrame.confirmCall {s s1 : Sys} (h : CheckFrame s s1) (j : Nat) :
    confirmCall s1.ops j = confirmCall s.ops j := by
  have hj := h.txID_at j
  unfold NonceDemo.confirmCall
  cases h1 : s1.ops[j]? with
  | none =>
    cases h2 : s.ops[j]? with
    | none => rfl
    | some o => rw [h1, h2] at hj; simp at hj
  | some o1 =>
    cases h2 : s.ops[j]? with
    | none => rw [h1, h2] at hj; simp at hj
    | some o =>
      rw [h1, h2] at hj
      simp only [Option.map_some', Option.some.injEq] at hj
      simp only [hj]

theorem map_txID_flag (ops : List TransactionOperation) (i : Nat) :
    (modifyOp ops i flagConflict).map (fun o => o.txID) = ops.map (fun o => o.txID) := by
  apply List.ext_getElem?
  intro j
  rw [List.getElem?_map, List.getElem?_map, getElem?_modifyOp]
  by_cases hij : i = j
  · subst hij
    cases h : ops[i]? <;> simp [flagConflict]
  · simp [hij]

/-- The state in which the check examines the operation after the one at position `i`,
when the cache lookup and the store call of position `i` went through. -/
theorem preInsertCheckOps_cons (env : Env) (i : Nat) (rest validInserts : List Nat) (s : Sys)
    (op : TransactionOperation) (hop : s.ops[i]? = some op) :
    preInsertCheckOps env (i :: rest) validInserts s =
      if inMetaCache s i = true then
        match env.storeFault s.storeCalls.length with
        | some e =>
          (some e, [],
            { s with txMetaCache := (s.txMetaCache.get op.txID).2,
                     storeCalls := s.storeCalls ++ [confirmCall s.ops i] })
        | none =>
          if isDuplicate s i = true then
            preInsertCheckOps env rest validInserts
              { s with txMetaCache := (s.txMetaCache.get op.txID).2,
                       storeCalls := s.storeCalls ++ [confirmCall s.ops i],
                       ops := modifyOp s.ops i flagConflict }
          else
            preInsertCheckOps env rest (validInserts ++ [i])
              { s with txMetaCache := (s.txMetaCache.get op.txID).2,
                       storeCalls := s.storeCalls ++ [confirmCall s.ops i] }
      else
        preInsertCheckOps env rest (validInserts ++ [i])
          { s with txMetaCache := (s.txMetaCache.get op.txID).2 } := by
  rw [preInsertCheckOps, hop]
  simp only [inMetaCache, isDuplicate, confirmCall, hop]
  have hg : (s.txMetaCache.get op.txID).1 = s.txMetaCache.peek op.txID := LRU.get_fst _ _
  cases hget : s.txMetaCache.get op.txID with
  | mk hit cache1 =>
    rw [hget] at hg
    simp only at hg
    subst hg
    cases hpk : s.txMetaCache.peek op.txID with
    | none => simp [hpk]
    | some v =>
      simp only [hpk, Option.isSome_some, if_true, storeCall, Bool.true_and]
      cases hf : env.storeFault s.storeCalls.length with
      | some e => rfl
      | none =>
        simp only
        cases hx : getTransactionByID s.transactions op.txID with
        | none => simp
        | some tx => simp

theorem checkFrame_touch (s : Sys) (k : String) :
    CheckFrame s { s with txMetaCache := (s.txMetaCache.get k).2 } :=
  ⟨rfl, fun _ => LRU.peek_get _ _ _, rfl, rfl, rfl, rfl⟩

theorem checkFrame_call (s : Sys) (k : String) (c : StoreCall) :
    CheckFrame s { s with txMetaCache := (s.txMetaCache.get k).2,
                          storeCalls := s.storeCalls ++ [c] } :=
  ⟨rfl, fun _ => LRU.peek_get _ _ _, rfl, rfl, rfl, rfl⟩

theorem checkFrame_flag (s : Sys) (k : String) (c : StoreCall) (i : Nat) :
    CheckFrame s { s with txMetaCache := (s.txMetaCache.get k).2,
                          storeCalls := s.storeCalls ++ [c],
                          ops := modifyOp s.ops i flagConflict } :=
  ⟨map_txID_flag s.ops i, fun _ => LRU.peek_get _ _ _, rfl, rfl, rfl, rfl⟩

/-- The idempotency check over the positions `txs`, in every outcome: what it leaves alone,
and that an operation is either untouched or, being a duplicate, was sent a conflict once. -/
theorem preInsertCheckOps_any (env : Env) (txs : List Nat) :
    ∀ (validInserts : List Nat) (s : Sys), txs.Nodup →
      (∀ i, i ∈ txs → ∃ op, s.ops[i]? = some op) →
      CheckFrame s (preInsertCheckOps env txs validInserts s).2.2 ∧
      ∀ j, (preInsertCheckOps env txs validInserts s).2.2.ops[j]? = s.ops[j]? ∨
        (j ∈ txs ∧ isDuplicate s j = true ∧
          (preInsertCheckOps env txs validInserts s).2.2.ops[j]? =
            (s.ops[j]?).map flagConflict) := by
  induction txs with
  | nil => intro v s _ _; exact ⟨CheckFrame.check_refl s, fun j => Or.inl rfl⟩
  | cons i rest ih =>
    intro v s hnd hin
    obtain ⟨hi_rest, hnd_rest⟩ := List.nodup_cons.mp hnd
    obtain ⟨op, hop⟩ := hin i (List.mem_cons_self _ _)
    rw [preInsertCheckOps_cons env i rest v s op hop]
    -- a continuation from a state `s2` that differs from `s` at most by a flag at `i`
    have cont : ∀ (v2 : List Nat) (s2 : Sys), CheckFrame s s2 →
        (s2.ops = s.ops ∨ (isDuplicate s i = true ∧ s2.ops = modifyOp s.ops i flagConflict)) →
        CheckFrame s (preInsertCheckOps env rest v2 s2).2.2 ∧
        ∀ j, (preInsertCheckOps env rest v2 s2).2.2.ops[j]? = s.ops[j]? ∨
          (j ∈ i :: rest ∧ isDuplicate s j = true ∧
            (preInsertCheckOps env rest v2 s2).2.2.ops[j]? = (s.ops[j]?).map flagConflict) := by
      intro v2 s2 hf hops
      have hin2 : ∀ j, j ∈ rest → ∃ op, s2.ops[j]? = some op := by
        intro j hj
        obtain ⟨o, ho⟩ := hin j (List.mem_cons_of_mem _ hj)
        rcases hops with h | ⟨_, h⟩
        · exact ⟨o, by rw [h]; exact ho⟩
        · rw [h, getElem?_modifyOp]
          by_cases hij : i = j
          · subst hij; exact absurd hj hi_rest
          · exact ⟨o, by simp [hij, ho]⟩
      obtain ⟨hf2, hops2⟩ := ih v2 s2 hnd_rest hin2
      refine ⟨hf.check_trans hf2, ?_⟩
      intro j
      rcases hops2 j with h | ⟨hjr, hdup, h⟩
      · by_cases hij : i = j
        · subst hij
          rcases hops with h1 | ⟨hd, h1⟩
          · left; rw [h, h1]
          · right
            exact ⟨List.mem_cons_self _ _, hd, by rw [h, h1, getElem?_modifyOp_self]⟩
        · left
          rcases hops with h1 | ⟨_, h1⟩
          · rw [h, h1]
          · rw [h, h1, getElem?_modifyOp_ne _ _ _ _ hij]
      · right
        have hij : i ≠ j := by
          intro hij; subst hij; exact hi_rest hjr
        refine ⟨List.mem_cons_of_mem _ hjr, by rw [← hf.isDuplicate]; exact hdup, ?_⟩
        rcases hops with h1 | ⟨_, h1⟩
        · rw [h, h1]
        · rw [h, h1, getElem?_modifyOp_ne _ _ _ _ hij]
    split
    · cases hfault : env.storeFault s.storeCalls.length with
      | some e =>
        exact ⟨checkFrame_call s _ _, fun j => Or.inl rfl⟩
      | none =>
        simp only
        split
        · rename_i hdup
          exact cont _ _ (checkFrame_flag s _ _ i) (Or.inr ⟨hdup, rfl⟩)
        · exact cont _ _ (checkFrame_call s _ _) (Or.inl rfl)
    · exact cont _ _ (checkFrame_touch s _) (Or.inl rfl)

/-- The idempotency check over the positions `txs` when it returns no error: the list of
valid inserts, the operations sent a conflict and the store calls made. -/
theorem preInsertCheckOps_ok (env : Env) (txs : List Nat) :
    ∀ (validInserts : List Nat) (s : Sys),
      (∀ i, i ∈ txs → ∃ op, s.ops[i]? = some op) →
      (preInsertCheckOps env txs validInserts s).1 = none →
      (preInsertCheckOps env txs validInserts s).2.1 =
        validInserts ++ txs.filter (fun i => !isDuplicate s i) ∧
      (preInsertCheckOps env txs validInserts s).2.2.storeCalls =
        s.storeCalls ++ (txs.filter (inMetaCache s)).map (confirmCall s.ops) ∧
      (txs.Nodup → ∀ j, j ∈ txs → isDuplicate s j = true →
        (preInsertCheckOps env txs validInserts s).2.2.ops[j]? =
          (s.ops[j]?).map flagConflict) := by
  induction txs with
  | nil => intro v s _ _; simp [preInsertCheckOps]
  | cons i rest ih =>
    intro v s hin
    obtain ⟨op, hop⟩ := hin i (List.mem_cons_self _ _)
    rw [preInsertCheckOps_cons env i rest v s op hop]
    have cont : ∀ (v2 : List Nat) (s2 : Sys) (calls : List StoreCall), CheckFrame s s2 →
        (s2.ops = s.ops ∨ (isDuplicate s i = true ∧ s2.ops = modifyOp s.ops i flagConflict)) →
        s2.storeCalls = s.storeCalls ++ calls →
        (preInsertCheckOps env rest v2 s2).1 = none →
        (preInsertCheckOps env rest v2 s2).2.1 =
          v2 ++ rest.filter (fun i => !isDuplicate s i) ∧
        (preInsertCheckOps env rest v2 s2).2.2.storeCalls =
          s.storeCalls ++ calls ++ (rest.filter (inMetaCache s)).map (confirmCall s.ops) ∧
        ((i :: rest).Nodup → ∀ j, j ∈ rest → isDuplicate s j = true →
          (preInsertCheckOps env rest v2 s2).2.2.ops[j]? = (s.ops[j]?).map flagConflict) ∧
        ((i :: rest).Nodup → (preInsertCheckOps env rest v2 s2).2.2.ops[i]? = s2.ops[i]?) := by
      intro v2 s2 calls hf hops hcalls hok
      have hin2 : ∀ j, j ∈ rest → ∃ op, s2.ops[j]? = some op := by
        intro j hj
        obtain ⟨o, ho⟩ := hin j (List.mem_cons_of_mem _ hj)
        have := hf.txID_at j
        rw [ho] at this
        cases h2 : s2.ops[j]? with
        | none => rw [h2] at this; simp at this
        | some o2 => exact ⟨o2, rfl⟩
      obtain ⟨h1, h2, h3⟩ := ih v2 s2 hin2 hok
      have hdupeq : (fun i => !isDuplicate s2 i) = (fun i => !isDuplicate s i) := by
        funext j; rw [hf.isDuplicate]
      have hmeq : inMetaCache s2 = inMetaCache s := by
        funext j; rw [hf.inMetaCache]
      have hceq : confirmCall s2.ops = confirmCall s.ops := by
        funext j; rw [hf.confirmCall]
      rw [hdupeq] at h1
      rw [hmeq, hceq, hcalls] at h2
      refine ⟨h1, h2, ?_, ?_⟩
      · intro hnd j hj hdup
        obtain ⟨hi_rest, hnd_rest⟩ := List.nodup_cons.mp hnd
        have hij : i ≠ j := by
          intro hij; subst hij; exact hi_rest hj
        rw [h3 hnd_rest j hj (by rw [hf.isDuplicate]; exact hdup)]
        rcases hops with h4 | ⟨_, h4⟩
        · rw [h4]
        · rw [h4, getElem?_modifyOp_ne _ _ _ _ hij]
      · intro hnd
        obtain ⟨hi_rest, hnd_rest⟩ := List.nodup_cons.mp hnd
        rcases (preInsertCheckOps_any env rest v2 s2 hnd_rest hin2).2 i with h | ⟨h, _⟩
        · exact h
        · exact absurd h hi_rest
    by_cases hm : inMetaCache s i = true
    · rw [if_pos hm]
      cases hfault : env.storeFault s.storeCalls.length with
      | some e => simp
      | none =>
        simp only
        by_cases hdup : isDuplicate s i = true
        · rw [if_pos hdup]
          intro hok
          obtain ⟨h1, h2, h3, h4⟩ := cont v _ [confirmCall s.ops i] (checkFrame_flag s _ _ i)
            (Or.inr ⟨hdup, rfl⟩) rfl hok
          refine ⟨?_, ?_, ?_⟩
          · rw [h1]; simp [List.filter_cons, hdup]
          · rw [h2]; simp [List.filter_cons, hm]
          · intro hnd j hj hd
            rcases List.mem_cons.mp hj with hji | hjr
            · subst hji
              rw [h4 hnd]
              exact getElem?_modifyOp_self _ _ _
            · exact h3 hnd j hjr hd
        · rw [if_neg hdup]
          intro hok
          obtain ⟨h1, h2, h3, _⟩ := cont (v ++ [i]) _ [confirmCall s.ops i]
            (checkFrame_call s _ _) (Or.inl rfl) rfl hok
          refine ⟨?_, ?_, ?_⟩
          · rw [h1]; simp [List.filter_cons, hdup]
          · rw [h2]; simp [List.filter_cons, hm]
          · intro hnd j hj hd
            rcases List.mem_cons.mp hj with hji | hjr
            · subst hji; exact absurd hd hdup
            · exact h3 hnd j hjr hd
    · rw [if_neg hm]
      have hdup : ¬ isDuplicate s i = true := by
        intro hd
        apply hm
        unfold isDuplicate at hd
        unfold inMetaCache
        rw [hop] at hd ⊢
        simp only [Bool.and_eq_true] at hd
        exact hd.1
      intro hok
      obtain ⟨h1, h2, h3, _⟩ := cont (v ++ [i]) _ [] (checkFrame_touch s _) (Or.inl rfl)
        (by simp) hok
      refine ⟨?_, ?_, ?_⟩
      · rw [h1]; simp [List.filter_cons, hdup]
      · rw [h2]; simp [List.filter_cons, hm]
      · intro hnd j hj hd
        rcases List.mem_cons.mp hj with hji | hjr
        · subst hji; exact absurd hd hdup
        · exact h3 hnd j hjr hd

theorem preInsertCheckOps_append (env : Env) (a b : List Nat) :
    ∀ (v : List Nat) (s : Sys),
      preInsertCheckOps env (a ++ b) v s =
        match preInsertCheckOps env a v s with
        | (some e, v1, s1) => (some e, v1, s1)
        | (none, v1, s1) => preInsertCheckOps env b v1 s1 := by
  induction a with
  | nil => intro v s; simp [preInsertCheckOps]
  | cons i rest ih =>
    intro v s
    simp only [List.cons_append]
    rw [preInsertCheckOps, preInsertCheckOps]
    cases hop : s.ops[i]? with
    | none => simp only; exact ih v s
    | some op =>
      simp only
      cases hget : s.txMetaCache.get op.txID with
      | mk hit cache1 =>
        cases hit with
        | none => simp only; exact ih _ _
        | some m =>
          simp only [storeCall]
          cases hf : env.storeFault s.storeCalls.length with
          | some e => rfl
          | none =>
            simp only
            cases hx : getTransactionByID s.transactions op.txID with
            | none => simp only; exact ih _ _
            | some tx => simp only; exact ih _ _

/-- The two loops of the idempotency check visit the positions of all groups in turn. -/
theorem preInsertCheckGroups_flat (env : Env) (gs : List (String × List Nat)) :
    ∀ (v : List Nat) (s : Sys),
      preInsertCheckGroups env gs v s = preInsertCheckOps env (gs.flatMap Prod.snd) v s := by
  induction gs with
  | nil => intro v s; rfl
  | cons g rest ih =>
    intro v s
    obtain ⟨signer, txs⟩ := g
    simp only [preInsertCheckGroups, List.flatMap_cons]
    rw [preInsertCheckOps_append]
    cases h : preInsertCheckOps env txs v s with
    | mk e r =>
      obtain ⟨v1, s1⟩ := r
      cases e with
      | some e => rfl
      | none => exact ih v1 s1

/-! ## The steps after the nonce assignment -/

theorem OpsKept.kept_refl (s : Sys) : OpsKept s s := ⟨rfl, rfl, rfl⟩

theorem OpsKept.kept_trans {s s1 s2 : Sys} (h1 : OpsKept s s1) (h2 : OpsKept s1 s2) : OpsKept s s2 :=
  ⟨by rw [h2.nonces, h1.nonces], by rw [h2.calls, h1.calls], by rw [h2.ops, h1.ops]⟩

theorem OpsKept.of_eq {s s1 : Sys} (h1 : s1.nextNonceCache = s.nextNonceCache)
    (h2 : s1.cbCalls = s.cbCalls) (h3 : s1.ops = s.ops) : OpsKept s s1 :=
  ⟨h1, h2, by rw [h3]⟩

theorem OpsKept.after {s s1 s2 : Sys} (h : OpsKept s1 s2)
    (h1 : s1.nextNonceCache = s.nextNonceCache) (h2 : s1.cbCalls = s.cbCalls)
    (h3 : s1.ops = s.ops) : OpsKept s s2 :=
  (OpsKept.of_eq h1 h2 h3).kept_trans h

theorem storeCall_kept (env : Env) (s : Sys) (c : StoreCall) : OpsKept s (storeCall env s c).2 :=
  OpsKept.of_eq rfl rfl rfl

theorem readClock_kept (env : Env) (s : Sys) : OpsKept s (readClock env s).2 :=
  OpsKept.of_eq rfl rfl rfl

theorem runStoreCalls_kept (env : Env) (cs : List StoreCall) :
    ∀ (s : Sys), OpsKept s (runStoreCalls env cs s).2 := by
  induction cs with
  | nil => intro s; exact OpsKept.kept_refl s
  | cons c rest ih =>
    intro s
    unfold runStoreCalls
    have h1 := storeCall_kept env s c
    cases h : storeCall env s c with
    | mk e s1 =>
      rw [h] at h1
      cases e with
      | some e => exact h1
      | none => exact h1.kept_trans (ih s1)

theorem insertManyTransactions_kept (env : Env) (txs : List ManagedTX) (s : Sys) :
    OpsKept s (insertManyTransactions env txs s).2 := by
  unfold insertManyTransactions
  simp only [storeCall]
  cases env.storeFault s.storeCalls.length with
  | some e => exact OpsKept.of_eq rfl rfl rfl
  | none =>
    simp only
    split <;> exact OpsKept.of_eq rfl rfl rfl

theorem primeMetaCache_kept (env : Env) (txs : List ManagedTX) :
    ∀ (s : Sys), OpsKept s (primeMetaCache env txs s) := by
  induction txs with
  | nil => intro s; exact OpsKept.kept_refl s
  | cons t rest ih =>
    intro s
    unfold primeMetaCache
    simp only [readClock]
    exact OpsKept.after (ih _) rfl rfl rfl

theorem compressionCheck_kept (env : Env) (txID : String) (s : Sys) :
    OpsKept s (compressionCheck env txID s).2 := by
  unfold compressionCheck
  cases hget : s.txMetaCache.get txID with
  | mk hit cache1 =>
    cases hit with
    | none =>
      simp only [storeCall, readClock]
      cases env.storeFault s.storeCalls.length <;> exact OpsKept.of_eq rfl rfl rfl
    | some m =>
      simp only [storeCall, readClock]
      cases hd : decide (env.clock s.clockReads - m.lastCompacted < env.compressionInterval) with
      | true => exact OpsKept.of_eq rfl rfl rfl
      | false =>
        simp only
        cases env.storeFault (s.storeCalls.length) <;> exact OpsKept.of_eq rfl rfl rfl

theorem compressionChecks_kept (env : Env) (ks : List String) :
    ∀ (s : Sys), OpsKept s (compressionChecks env ks s).2 := by
  induction ks with
  | nil => intro s; exact OpsKept.kept_refl s
  | cons k rest ih =>
    intro s
    unfold compressionChecks
    have h1 := compressionCheck_kept env k s
    cases h : compressionCheck env k s with
    | mk e s1 =>
      rw [h] at h1
      cases e with
      | some e => exact h1
      | none => exact h1.kept_trans (ih s1)

theorem deleteTransactions_kept (env : Env) (ks : List String) :
    ∀ (s : Sys), OpsKept s (deleteTransactions env ks s).2 := by
  induction ks with
  | nil => intro s; exact OpsKept.kept_refl s
  | cons k rest ih =>
    intro s
    unfold deleteTransactions
    simp only
    have h0 := storeCall_kept env s (StoreCall.deleteReceipt k)
    cases hc : storeCall env s (StoreCall.deleteReceipt k) with
    | mk e1 s1 =>
      rw [hc] at h0
      simp only
      split
      · exact h0
      · have h1 := runStoreCalls_kept env
          [StoreCall.deleteManyConfirmations k, StoreCall.deleteManyHistory k,
            StoreCall.deleteTransaction k] s1
        cases hr : runStoreCalls env
          [StoreCall.deleteManyConfirmations k, StoreCall.deleteManyHistory k,
            StoreCall.deleteTransaction k] s1 with
        | mk e2 s2 =>
          rw [hr] at h1
          cases e2 with
          | some e => exact h0.kept_trans h1
          | none =>
            simp only
            exact (h0.kept_trans h1).kept_trans (OpsKept.after (ih _) rfl rfl rfl)

theorem insertReceipts_kept (env : Env) (b : TransactionWriterBatch) (s : Sys) :
    OpsKept s (insertReceipts env b s).2 := by
  unfold insertReceipts
  simp only
  split
  · simp only [storeCall]
    cases env.storeFault s.storeCalls.length with
    | some e =>
      simp only
      exact OpsKept.after (runStoreCalls_kept env _ _) rfl rfl rfl
    | none => exact OpsKept.of_eq rfl rfl rfl
  · exact OpsKept.kept_refl s

theorem map_dropUpdate_modify (ops : List TransactionOperation) (j : Nat) (u : TXUpdates) :
    (modifyOp ops j (fun o => { o with txUpdate := o.txUpdate.map (fun u0 => u0.Merge u) })).map
        dropUpdate = ops.map dropUpdate := by
  apply List.ext_getElem?
  intro k
  rw [List.getElem?_map, List.getElem?_map, getElem?_modifyOp]
  by_cases hjk : j = k
  · subst hjk
    cases h : ops[j]? <;> simp [dropUpdate]
  · simp [hjk]

theorem mergeTxUpdatesLoop_kept (env : Env) (is : List Nat) :
    ∀ (cs : List TXCompletion) (m : List (String × Nat)) (s : Sys),
      OpsKept s (mergeTxUpdatesLoop env is cs m s).2.2 := by
  induction is with
  | nil => intro cs m s; exact OpsKept.kept_refl s
  | cons i rest ih =>
    intro cs m s
    unfold mergeTxUpdatesLoop
    cases hop : s.ops[i]? with
    | none => exact ih cs m s
    | some op =>
      simp only
      cases hl : List.lookup op.txID m with
      | none =>
        simp only
        cases hs : (op.txUpdate.getD {}).Status with
        | none => exact ih _ _ _
        | some st =>
          simp only
          split
          · simp only [readClock]
            exact OpsKept.after (ih _ _ _) rfl rfl rfl
          · exact ih _ _ _
      | some j =>
        simp only
        have hk : OpsKept s { s with ops := modifyOp s.ops j (fun o =>
            { o with txUpdate := o.txUpdate.map (fun u => u.Merge (op.txUpdate.getD {})) }) } :=
          ⟨rfl, rfl, map_dropUpdate_modify s.ops j _⟩
        cases hs : (op.txUpdate.getD {}).Status with
        | none => exact hk.kept_trans (ih _ _ _)
        | some st =>
          simp only
          split
          · simp only [readClock]
            exact hk.kept_trans (OpsKept.after (ih _ _ _) rfl rfl rfl)
          · exact hk.kept_trans (ih _ _ _)

theorem executeBatchTail_kept (env : Env) (b : TransactionWriterBatch) (s : Sys) :
    OpsKept s (executeBatchTail env b s).2 := by
  unfold executeBatchTail mergeTxUpdates
  have h1 := mergeTxUpdatesLoop_kept env b.txUpdates [] [] s
  cases hm : mergeTxUpdatesLoop env b.txUpdates [] [] s with
  | mk cs r =>
    obtain ⟨m, s1⟩ := r
    rw [hm] at h1
    simp only at h1 ⊢
    have h2 := runStoreCalls_kept env
      ((env.rangeKeys 0 (m.map Prod.fst)).filterMap (fun txID =>
        (m.lookup txID).bind (fun j =>
          (s1.ops[j]?).map (fun o => StoreCall.updateTransaction txID (o.txUpdate.getD {}))))) s1
    cases hr2 : runStoreCalls env
      ((env.rangeKeys 0 (m.map Prod.fst)).filterMap (fun txID =>
        (m.lookup txID).bind (fun j =>
          (s1.ops[j]?).map (fun o => StoreCall.updateTransaction txID (o.txUpdate.getD {}))))) s1 with
    | mk e2 s2 =>
      rw [hr2] at h2
      cases e2 with
      | some e => exact h1.kept_trans h2
      | none =>
        simp only
        have h3 := insertReceipts_kept env b s2
        cases hr3 : insertReceipts env b s2 with
        | mk e3 s3 =>
          rw [hr3] at h3
          cases e3 with
          | some e => exact (h1.kept_trans h2).kept_trans h3
          | none =>
            simp only
            have h4 := runStoreCalls_kept env
              ((env.rangeKeys 3 b.confirmationResets).map StoreCall.deleteManyConfirmations) s3
            cases hr4 : runStoreCalls env
              ((env.rangeKeys 3 b.confirmationResets).map StoreCall.deleteManyConfirmations) s3 with
            | mk e4 s4 =>
              rw [hr4] at h4
              cases e4 with
              | some e => exact ((h1.kept_trans h2).kept_trans h3).kept_trans h4
              | none =>
                simp only
                have h5 := runStoreCalls_kept env
                  (if b.confirmationInserts.length > 0 then
                    [StoreCall.insertManyConfirmations b.confirmationInserts] else []) s4
                cases hr5 : runStoreCalls env
                  (if b.confirmationInserts.length > 0 then
                    [StoreCall.insertManyConfirmations b.confirmationInserts] else []) s4 with
                | mk e5 s5 =>
                  rw [hr5] at h5
                  cases e5 with
                  | some e => exact (((h1.kept_trans h2).kept_trans h3).kept_trans h4).kept_trans h5
                  | none =>
                    simp only
                    have h6 := runStoreCalls_kept env
                      (if b.historyInserts.length > 0 then
                        [StoreCall.insertManyHistory b.historyInserts] else []) s5
                    cases hr6 : runStoreCalls env
                      (if b.historyInserts.length > 0 then
                        [StoreCall.insertManyHistory b.historyInserts] else []) s5 with
                    | mk e6 s6 =>
                      rw [hr6] at h6
                      have h16 := ((((h1.kept_trans h2).kept_trans h3).kept_trans h4).kept_trans h5).kept_trans h6
                      cases e6 with
                      | some e => exact h16
                      | none =>
                        simp only
                        have h7 : OpsKept s6 (if env.compressionInterval > 0 then
                            compressionChecks env (env.rangeKeys 4 b.compressionChecks) s6
                            else (none, s6)).2 := by
                          split
                          · exact compressionChecks_kept env _ s6
                          · exact OpsKept.kept_refl s6
                        cases hr7 : (if env.compressionInterval > 0 then
                            compressionChecks env (env.rangeKeys 4 b.compressionChecks) s6
                            else (none, s6)) with
                        | mk e7 s7 =>
                          rw [hr7] at h7
                          cases e7 with
                          | some e => exact h16.kept_trans h7
                          | none =>
                            simp only [storeCall]
                            cases env.storeFault s7.storeCalls.length with
                            | some e => exact (h16.kept_trans h7).kept_trans (OpsKept.of_eq rfl rfl rfl)
                            | none =>
                              exact (h16.kept_trans h7).kept_trans
                                (OpsKept.after (deleteTransactions_kept env _ _) rfl rfl rfl)

/-! ## The classification of a batch -/

theorem mapAppend_keys (m : List (String × List Nat)) (k : String) (i : Nat) :
    (mapAppend m k i).map Prod.fst =
      if k ∈ m.map Prod.fst then m.map Prod.fst else m.map Prod.fst ++ [k] := by
  induction m with
  | nil => simp [mapAppend]
  | cons g rest ih =>
    obtain ⟨k1, is⟩ := g
    unfold mapAppend
    by_cases h : k1 = k
    · subst h; simp
    · have h1 : (k1 == k) = false := by simp [h]
      have h2 : ¬ k = k1 := fun hh => h hh.symm
      simp only [h1, Bool.false_eq_true, if_false, List.map_cons, ih, List.mem_cons, h2, false_or]
      split <;> simp

theorem mapAppend_mem (m : List (String × List Nat)) (k : String) (i j : Nat) :
    j ∈ (mapAppend m k i).flatMap Prod.snd ↔ j ∈ m.flatMap Prod.snd ∨ j = i := by
  induction m with
  | nil => simp [mapAppend]
  | cons g rest ih =>
    obtain ⟨k1, is⟩ := g
    unfold mapAppend
    by_cases h : (k1 == k) = true
    · simp only [h, if_true, List.flatMap_cons, List.mem_append, List.mem_singleton]
      tauto
    · simp only [h, if_false, List.flatMap_cons, List.mem_append, ih, Bool.false_eq_true]
      tauto

theorem mapAppend_nodup (m : List (String × List Nat)) (k : String) (i : Nat)
    (h : (m.flatMap Prod.snd).Nodup) (hi : i ∉ m.flatMap Prod.snd) :
    ((mapAppend m k i).flatMap Prod.snd).Nodup := by
  induction m with
  | nil => simp [mapAppend]
  | cons g rest ih =>
    obtain ⟨k1, is⟩ := g
    simp only [List.flatMap_cons, List.mem_append, not_or] at hi
    simp only [List.flatMap_cons] at h
    rw [List.nodup_append] at h
    obtain ⟨h1, h2, h3⟩ := h
    unfold mapAppend
    by_cases hk : (k1 == k) = true
    · simp only [hk, if_true, List.flatMap_cons]
      rw [List.nodup_append]
      refine ⟨?_, h2, ?_⟩
      · rw [List.nodup_append]
        refine ⟨h1, by simp, ?_⟩
        intro a ha hb
        simp only [List.mem_singleton] at hb
        subst hb
        exact hi.1 ha
      · intro a ha hb
        simp only [List.mem_append, List.mem_singleton] at ha
        rcases ha with ha | ha
        · exact h3 ha hb
        · subst ha; exact hi.2 hb
    · simp only [hk, if_false, List.flatMap_cons, Bool.false_eq_true]
      rw [List.nodup_append]
      refine ⟨h1, ih h2 hi.2, ?_⟩
      intro a ha hb
      rcases (mapAppend_mem rest k i a).mp hb with hb | hb
      · exact h3 ha hb
      · subst hb; exact hi.1 ha

theorem mapAppend_group (m : List (String × List Nat)) (k : String) (i : Nat)
    (g : String × List Nat) (hg : g ∈ mapAppend m k i) (j : Nat) (hj : j ∈ g.2) :
    (g.1 = k ∧ j = i) ∨ ∃ g0, g0 ∈ m ∧ g0.1 = g.1 ∧ j ∈ g0.2 := by
  induction m with
  | nil =>
    simp only [mapAppend, List.mem_singleton] at hg
    subst hg
    simp only [List.mem_singleton] at hj
    left; exact ⟨rfl, hj⟩
  | cons g1 rest ih =>
    obtain ⟨k1, is⟩ := g1
    unfold mapAppend at hg
    by_cases hk : (k1 == k) = true
    · simp only [hk, if_true, List.mem_cons] at hg
      rcases hg with hg | hg
      · subst hg
        simp only [List.mem_append, List.mem_singleton] at hj
        rcases hj with hj | hj
        · right; exact ⟨(k1, is), List.mem_cons_self _ _, rfl, hj⟩
        · left; exact ⟨by simpa using hk, hj⟩
      · right; exact ⟨g, List.mem_cons_of_mem _ hg, rfl, hj⟩
    · simp only [hk, if_false, List.mem_cons, Bool.false_eq_true] at hg
      rcases hg with hg | hg
      · subst hg
        right; exact ⟨(k1, is), List.mem_cons_self _ _, rfl, hj⟩
      · rcases ih hg with h | ⟨g0, hg0, h1, h2⟩
        · left; exact h
        · right; exact ⟨g0, List.mem_cons_of_mem _ hg0, h1, h2⟩

theorem mapAppend_has (m : List (String × List Nat)) (k : String) (i : Nat) :
    ∃ txs, (k, txs) ∈ mapAppend m k i ∧ i ∈ txs := by
  induction m with
  | nil => exact ⟨[i], by simp [mapAppend], by simp⟩
  | cons g1 rest ih =>
    obtain ⟨k1, is⟩ := g1
    unfold mapAppend
    by_cases hk : (k1 == k) = true
    · have : k1 = k := by simpa using hk
      subst this
      exact ⟨is ++ [i], by simp, by simp⟩
    · obtain ⟨txs, h1, h2⟩ := ih
      exact ⟨txs, by simp only [hk, if_false, Bool.false_eq_true]; exact List.mem_cons_of_mem _ h1, h2⟩

theorem mapAppend_keeps (m : List (String × List Nat)) (k : String) (i : Nat) (k0 : String)
    (txs : List Nat) (j : Nat) (h : (k0, txs) ∈ m) (hj : j ∈ txs) :
    ∃ txs1, (k0, txs1) ∈ mapAppend m k i ∧ j ∈ txs1 := by
  induction m with
  | nil => simp at h
  | cons g1 rest ih =>
    obtain ⟨k1, is⟩ := g1
    unfold mapAppend
    rcases List.mem_cons.mp h with h | h
    · simp only [Prod.mk.injEq] at h
      obtain ⟨h1, h2⟩ := h
      subst h1 h2
      by_cases hk : (k0 == k) = true
      · exact ⟨txs ++ [i], by simp [hk], by simp [hj]⟩
      · exact ⟨txs, by simp [hk], hj⟩
    · obtain ⟨txs1, h1, h2⟩ := ih h
      by_cases hk : (k1 == k) = true
      · exact ⟨txs, by simp only [hk, if_true]; exact List.mem_cons_of_mem _ h, hj⟩
      · exact ⟨txs1, by simp only [hk, if_false, Bool.false_eq_true]; exact List.mem_cons_of_mem _ h1, h2⟩

theorem classifyOp_inserts (b : TransactionWriterBatch) (i : Nat) (op : TransactionOperation) :
    (classifyOp b i op).txInsertsByFrom =
      match op.txInsert with
      | some tx => mapAppend b.txInsertsByFrom tx.From i
      | none => b.txInsertsByFrom := by
  unfold classifyOp
  cases h1 : op.txInsert with
  | some tx => rfl
  | none =>
    cases h2 : op.txUpdate with
    | some u => rfl
    | none =>
      cases h3 : op.txDelete with
      | some d => rfl
      | none =>
        cases h4 : op.receipt with
        | some r => rfl
        | none =>
          cases h5 : op.historyRecord with
          | some h => rfl
          | none =>
            cases h6 : op.confirmation with
            | some c =>
              simp only
              split <;> rfl
            | none => rfl

theorem InsertsInv.step {ops : List TransactionOperation} {i : Nat} {b : TransactionWriterBatch}
    {op : TransactionOperation} (h : InsertsInv ops i b.txInsertsByFrom)
    (hop : ops[i]? = some op) : InsertsInv ops (i + 1) (classifyOp b i op).txInsertsByFrom := by
  rw [classifyOp_inserts]
  obtain ⟨⟨hk, hf, hins⟩, hbelow, hcov⟩ := h
  cases htx : op.txInsert with
  | none =>
    simp only
    refine ⟨⟨hk, hf, hins⟩, fun j hj => Nat.lt_succ_of_lt (hbelow j hj), ?_⟩
    intro j op1 tx hj hop1 htx1
    rcases Nat.lt_succ_iff_lt_or_eq.mp hj with hlt | heq
    · exact hcov j op1 tx hlt hop1 htx1
    · subst heq
      rw [hop] at hop1
      simp only [Option.some.injEq] at hop1
      subst hop1
      rw [htx] at htx1
      simp at htx1
  | some tx =>
    simp only
    have hi : i ∉ b.txInsertsByFrom.flatMap Prod.snd := fun hm => Nat.lt_irrefl _ (hbelow i hm)
    refine ⟨⟨?_, mapAppend_nodup _ _ _ hf hi, ?_⟩, ?_, ?_⟩
    · rw [mapAppend_keys]
      split
      · exact hk
      · rename_i hnot
        rw [List.nodup_append]
        refine ⟨hk, by simp, ?_⟩
        intro a ha hb
        simp only [List.mem_singleton] at hb
        subst hb
        exact hnot ha
    · intro g hg j hj
      rcases mapAppend_group _ _ _ g hg j hj with ⟨h1, h2⟩ | ⟨g0, hg0, h1, h2⟩
      · subst h2
        unfold isInsertOf
        rw [hop]
        simp [htx, h1]
      · rw [← h1]
        exact hins g0 hg0 j h2
    · intro j hj
      rcases (mapAppend_mem _ _ _ _).mp hj with h1 | h1
      · exact Nat.lt_succ_of_lt (hbelow j h1)
      · subst h1; exact Nat.lt_succ_self _
    · intro j op1 tx1 hj hop1 htx1
      rcases Nat.lt_succ_iff_lt_or_eq.mp hj with hlt | heq
      · obtain ⟨txs, h1, h2⟩ := hcov j op1 tx1 hlt hop1 htx1
        exact mapAppend_keeps _ _ _ _ txs j h1 h2
      · subst heq
        rw [hop] at hop1
        simp only [Option.some.injEq] at hop1
        subst hop1
        rw [htx] at htx1
        simp only [Option.some.injEq] at htx1
        subst htx1
        exact mapAppend_has _ _ _

theorem classifyFrom_inserts (ops : List TransactionOperation) :
    ∀ (rest : List TransactionOperation) (i : Nat) (b : TransactionWriterBatch),
      rest = ops.drop i → InsertsInv ops i b.txInsertsByFrom →
      InsertsInv ops ops.length (classifyFrom i rest b).txInsertsByFrom := by
  intro rest
  induction rest with
  | nil =>
    intro i b hr h
    have hlen : ops.length ≤ i := by
      have := congrArg List.length hr
      simp only [List.length_nil, List.length_drop] at this
      omega
    unfold classifyFrom
    exact ⟨h.wf, fun j hj => by
        have hj1 := h.below j hj
        have hin := h.wf.2.2
        obtain ⟨g, hg, hjg⟩ := List.mem_flatMap.mp hj
        obtain ⟨o, ho⟩ := isInsertOf_some (hin g hg j hjg)
        exact (List.getElem?_eq_some.mp ho).1,
      fun j op tx hj hop htx => by
        have hj2 : j < i := by omega
        exact h.covers j op tx hj2 hop htx⟩
  | cons op rest ih =>
    intro i b hr h
    have hop : ops[i]? = some op := by
      have := congrArg (fun l => l[0]?) hr
      simp only [List.getElem?_cons_zero, List.getElem?_drop, Nat.add_zero] at this
      exact this.symm
    have hrest : rest = ops.drop (i + 1) := by
      have := congrArg List.tail hr
      simp only [List.tail_cons, List.tail_drop] at this
      exact this
    unfold classifyFrom
    exact ih (i + 1) _ hrest (h.step hop)

/-- The map of inserts that `runBatch` builds is well formed, and it holds every insert of
the batch in the group of its signer. -/
theorem classify_inserts (b : TransactionWriterBatch) (ops : List TransactionOperation) :
    InsertsInv ops ops.length (classify b ops).txInsertsByFrom := by
  unfold classify
  apply classifyFrom_inserts ops ops 0 _ (by simp)
  exact ⟨⟨by simp, by simp, by simp⟩, by simp, fun j _ _ hj => absurd hj (Nat.not_lt_zero j)⟩

theorem GroupsWF.perm {ops : List TransactionOperation} {gs gs1 : List (String × List Nat)}
    (h : GroupsWF ops gs) (hp : gs1.Perm gs) : GroupsWF ops gs1 := by
  obtain ⟨hk, hf, hins⟩ := h
  refine ⟨?_, ?_, ?_⟩
  · exact ((hp.map Prod.fst).nodup_iff).mpr hk
  · exact ((hp.flatMap_right Prod.snd).nodup_iff).mpr hf
  · intro g hg
    exact hins g (hp.subset hg)

/-! ## executeBatchOps and runBatch -/

theorem outcome_of_skeleton {ops ops1 : List TransactionOperation}
    (h : ops1.map unstamp = ops.map unstamp) (j : Nat) :
    (ops1[j]?).map outcome = (ops[j]?).map outcome := by
  have hj := skeleton_getElem? h j
  cases h1 : ops1[j]? with
  | none =>
    cases h2 : ops[j]? with
    | none => rfl
    | some o => rw [h1, h2] at hj; simp at hj
  | some o1 =>
    cases h2 : ops[j]? with
    | none => rw [h1, h2] at hj; simp at hj
    | some o =>
      rw [h1, h2] at hj
      simp only [Option.map_some', Option.some.injEq] at hj
      have ha : outcome (unstamp o1) = outcome (unstamp o) := by rw [hj]
      simpa [outcome, unstamp] using ha

theorem kept_getElem? {ops ops1 : List TransactionOperation}
    (h : ops1.map dropUpdate = ops.map dropUpdate) (j : Nat) :
    (ops1[j]?).map dropUpdate = (ops[j]?).map dropUpdate := by
  rw [← List.getElem?_map, ← List.getElem?_map, h]

theorem outcome_of_kept {ops ops1 : List TransactionOperation}
    (h : ops1.map dropUpdate = ops.map dropUpdate) (j : Nat) :
    (ops1[j]?).map outcome = (ops[j]?).map outcome := by
  have hj := kept_getElem? h j
  cases h1 : ops1[j]? with
  | none =>
    cases h2 : ops[j]? with
    | none => rfl
    | some o => rw [h1, h2] at hj; simp at hj
  | some o1 =>
    cases h2 : ops[j]? with
    | none => rw [h1, h2] at hj; simp at hj
    | some o =>
      rw [h1, h2] at hj
      simp only [Option.map_some', Option.some.injEq] at hj
      have ha : outcome (dropUpdate o1) = outcome (dropUpdate o) := by rw [hj]
      simpa [outcome, dropUpdate] using ha

theorem nonceAt_of_kept {ops ops1 : List TransactionOperation}
    (h : ops1.map dropUpdate = ops.map dropUpdate) (j : Nat) :
    nonceAt ops1 j = nonceAt ops j := by
  have hj := kept_getElem? h j
  unfold nonceAt
  cases h1 : ops1[j]? with
  | none =>
    cases h2 : ops[j]? with
    | none => rfl
    | some o => rw [h1, h2] at hj; simp at hj
  | some o1 =>
    cases h2 : ops[j]? with
    | none => rw [h1, h2] at hj; simp at hj
    | some o =>
      rw [h1, h2] at hj
      simp only [Option.map_some', Option.some.injEq] at hj
      have ha : (dropUpdate o1).txInsert = (dropUpdate o).txInsert := by rw [hj]
      simp only [dropUpdate] at ha
      simp [ha]

/-- The four ways in which `executeBatchOps` proceeds: the idempotency check fails; no insert
is valid and the later steps run at once; the nonce assignment fails and its error is
returned as it is; or the nonces are assigned and the bulk insert and the later steps run. -/
theorem executeBatchOps_cases (env : Env) (b : TransactionWriterBatch) (s : Sys) :
    (∃ e, (preInsertIdempotencyCheck env b s).1 = some e ∧
      executeBatchOps env b s = (some e, (preInsertIdempotencyCheck env b s).2.2)) ∨
    ((preInsertIdempotencyCheck env b s).1 = none ∧
      (preInsertIdempotencyCheck env b s).2.1 = [] ∧
      executeBatchOps env b s = executeBatchTail env b (preInsertIdempotencyCheck env b s).2.2) ∨
    (∃ e, (preInsertIdempotencyCheck env b s).1 = none ∧
      (preInsertIdempotencyCheck env b s).2.1 ≠ [] ∧
      (assignNonces env (env.rangeInserts 1 b.txInsertsByFrom)
        (preInsertIdempotencyCheck env b s).2.2).1 = some e ∧
      executeBatchOps env b s =
        (some e, (assignNonces env (env.rangeInserts 1 b.txInsertsByFrom)
          (preInsertIdempotencyCheck env b s).2.2).2)) ∨
    ((preInsertIdempotencyCheck env b s).1 = none ∧
      (preInsertIdempotencyCheck env b s).2.1 ≠ [] ∧
      (assignNonces env (env.rangeInserts 1 b.txInsertsByFrom)
        (preInsertIdempotencyCheck env b s).2.2).1 = none ∧
      executeBatchOps env b s =
        match insertManyTransactions env
            (bulkInserts (preInsertIdempotencyCheck env b s).2.1
              (assignNonces env (env.rangeInserts 1 b.txInsertsByFrom)
                (preInsertIdempotencyCheck env b s).2.2).2.ops)
            (assignNonces env (env.rangeInserts 1 b.txInsertsByFrom)
              (preInsertIdempotencyCheck env b s).2.2).2 with
        | (some e, s3) => (some e, s3)
        | (none, s3) =>
          executeBatchTail env b
            (primeMetaCache env
              (bulkInserts (preInsertIdempotencyCheck env b s).2.1
                (assignNonces env (env.rangeInserts 1 b.txInsertsByFrom)
                  (preInsertIdempotencyCheck env b s).2.2).2.ops) s3)) := by
  unfold executeBatchOps
  cases hc : preInsertIdempotencyCheck env b s with
  | mk e0 r =>
    obtain ⟨valid, sA⟩ := r
    cases e0 with
    | some e => left; exact ⟨e, rfl, rfl⟩
    | none =>
      right
      simp only
      cases valid with
      | nil => left; simp
      | cons i rest =>
        right
        simp only [List.length_cons, Nat.succ_pos, gt_iff_lt, if_true, Nat.zero_lt_succ]
        cases ha : assignNonces env (env.rangeInserts 1 b.txInsertsByFrom) sA with
        | mk e1 sB =>
          cases e1 with
          | some e => left; exact ⟨e, by simp⟩
          | none =>
            right
            cases hi : insertManyTransactions env (bulkInserts (i :: rest) sB.ops) sB with
            | mk e2 sC =>
              cases e2 with
              | some e => simp [hi]
              | none => simp [hi]

theorem executeBatchOps_outcome (env : Env) (b : TransactionWriterBatch) (s : Sys) (j : Nat) :
    ((executeBatchOps env b s).2.ops[j]?).map outcome =
      ((preInsertIdempotencyCheck env b s).2.2.ops[j]?).map outcome := by
  rcases executeBatchOps_cases env b s with ⟨e, _, h⟩ | ⟨_, _, h⟩ | ⟨e, _, _, _, h⟩ | ⟨_, _, _, h⟩
  · rw [h]
  · rw [h]
    exact outcome_of_kept (executeBatchTail_kept env b _).ops j
  · rw [h]
    exact outcome_of_skeleton (assignNonces_frame env _ _).2.1 j
  · rw [h]
    have h1 := outcome_of_skeleton
      (assignNonces_frame env (env.rangeInserts 1 b.txInsertsByFrom)
        (preInsertIdempotencyCheck env b s).2.2).2.1 j
    rw [← h1]
    have h2 := insertManyTransactions_kept env
      (bulkInserts (preInsertIdempotencyCheck env b s).2.1
        (assignNonces env (env.rangeInserts 1 b.txInsertsByFrom)
          (preInsertIdempotencyCheck env b s).2.2).2.ops)
      (assignNonces env (env.rangeInserts 1 b.txInsertsByFrom)
        (preInsertIdempotencyCheck env b s).2.2).2
    cases hi : insertManyTransactions env
      (bulkInserts (preInsertIdempotencyCheck env b s).2.1
        (assignNonces env (env.rangeInserts 1 b.txInsertsByFrom)
          (preInsertIdempotencyCheck env b s).2.2).2.ops)
      (assignNonces env (env.rangeInserts 1 b.txInsertsByFrom)
        (preInsertIdempotencyCheck env b s).2.2).2 with
    | mk e2 sC =>
      rw [hi] at h2
      cases e2 with
      | some e => exact outcome_of_kept h2.ops j
      | none =>
        simp only
        exact outcome_of_kept
          ((h2.kept_trans (primeMetaCache_kept env _ sC)).kept_trans (executeBatchTail_kept env b _)).ops j

theorem clearCachedNonces_ops (env : Env) (m : List (String × List Nat)) (s : Sys) :
    (clearCachedNonces env m s).ops = s.ops ∧
    (clearCachedNonces env m s).cbCalls = s.cbCalls ∧
    (clearCachedNonces env m s).transactions = s.transactions := by
  unfold clearCachedNonces
  generalize env.rangeInserts 2 m = gs
  induction gs generalizing s with
  | nil => exact ⟨rfl, rfl, rfl⟩
  | cons g rest ih =>
    simp only [List.foldl_cons]
    obtain ⟨h1, h2, h3⟩ := ih { s with nextNonceCache := s.nextNonceCache.remove g.1 }
    exact ⟨h1, h2, h3⟩

theorem clearCachedNonces_peek (env : Env) (m : List (String × List Nat)) (s : Sys) (k : String) :
    (clearCachedNonces env m s).nextNonceCache.peek k =
      if k ∈ (env.rangeInserts 2 m).map Prod.fst then none else s.nextNonceCache.peek k := by
  unfold clearCachedNonces
  generalize env.rangeInserts 2 m = gs
  induction gs generalizing s with
  | nil => simp
  | cons g rest ih =>
    simp only [List.foldl_cons, List.map_cons, List.mem_cons]
    rw [ih]
    by_cases hk : k = g.1
    · subst hk
      simp only [true_or, if_true]
      split
      · rfl
      · exact LRU.peek_remove_self _ _
    · simp only [hk, false_or]
      split
      · rfl
      · exact LRU.peek_remove_ne _ _ _ hk

theorem getElem?_sendResults (err : Option Err) (ops : List TransactionOperation) (j : Nat) :
    (sendResults err ops)[j]? = (ops[j]?).map (sendResult err) := by
  unfold sendResults
  rw [List.getElem?_map]

/-- The operations after the idempotency check of `executeBatchOps`, in every outcome of the
check: an operation is as it was or, being a duplicate, was sent a conflict once. -/
theorem preInsertIdempotencyCheck_any (env : Env) (b : TransactionWriterBatch) (s : Sys)
    (hnd : ((env.rangeInserts 0 b.txInsertsByFrom).flatMap Prod.snd).Nodup)
    (hin : ∀ i, i ∈ (env.rangeInserts 0 b.txInsertsByFrom).flatMap Prod.snd →
      ∃ op, s.ops[i]? = some op) :
    CheckFrame s (preInsertIdempotencyCheck env b s).2.2 ∧
    ∀ j, (preInsertIdempotencyCheck env b s).2.2.ops[j]? = s.ops[j]? ∨
      (j ∈ (env.rangeInserts 0 b.txInsertsByFrom).flatMap Prod.snd ∧ isDuplicate s j = true ∧
        (preInsertIdempotencyCheck env b s).2.2.ops[j]? = (s.ops[j]?).map flagConflict) := by
  unfold preInsertIdempotencyCheck
  rw [preInsertCheckGroups_flat]
  exact preInsertCheckOps_any env _ [] s hnd hin

theorem preInsertIdempotencyCheck_ok (env : Env) (b : TransactionWriterBatch) (s : Sys)
    (hin : ∀ i, i ∈ (env.rangeInserts 0 b.txInsertsByFrom).flatMap Prod.snd →
      ∃ op, s.ops[i]? = some op)
    (hok : (preInsertIdempotencyCheck env b s).1 = none) :
    (preInsertIdempotencyCheck env b s).2.1 =
      ((env.rangeInserts 0 b.txInsertsByFrom).flatMap Prod.snd).filter
        (fun i => !isDuplicate s i) ∧
    (preInsertIdempotencyCheck env b s).2.2.storeCalls =
      s.storeCalls ++ (((env.rangeInserts 0 b.txInsertsByFrom).flatMap Prod.snd).filter
        (inMetaCache s)).map (confirmCall s.ops) ∧
    (((env.rangeInserts 0 b.txInsertsByFrom).flatMap Prod.snd).Nodup →
      ∀ j, j ∈ (env.rangeInserts 0 b.txInsertsByFrom).flatMap Prod.snd →
        isDuplicate s j = true →
        (preInsertIdempotencyCheck env b s).2.2.ops[j]? = (s.ops[j]?).map flagConflict) := by
  unfold preInsertIdempotencyCheck at hok ⊢
  rw [preInsertCheckGroups_flat] at hok ⊢
  have := preInsertCheckOps_ok env _ [] s hin hok
  simpa using this

theorem classify_wf (env : Env) (b : TransactionWriterBatch) (s : Sys) (n : Nat)
    (hrange : ∀ n m, (env.rangeInserts n m).Perm m) :
    GroupsWF s.ops (env.rangeInserts n (classify b s.ops).txInsertsByFrom) :=
  (classify_inserts b s.ops).wf.perm (hrange n _)

theorem GroupsWF.in_range {ops : List TransactionOperation} {gs : List (String × List Nat)}
    (h : GroupsWF ops gs) (i : Nat) (hi : i ∈ gs.flatMap Prod.snd) : ∃ op, ops[i]? = some op := by
  obtain ⟨g, hg, hig⟩ := List.mem_flatMap.mp hi
  exact isInsertOf_some (h.2.2 g hg i hig)

theorem runBatch_ops (env : Env) (b : TransactionWriterBatch) (s : Sys) :
    (runBatch env b s).2.ops =
      sendResults ((runAsGroup env b s).1.map (fun _ => Err.transactionPersistenceError))
        (runAsGroup env b s).2.2.ops := by
  unfold runBatch
  cases h : runAsGroup env b s with
  | mk e r =>
    obtain ⟨b1, s1⟩ := r
    cases e with
    | some e =>
      simp only [Option.map_some']
      rw [(clearCachedNonces_ops env b1.txInsertsByFrom s1).1]
    | none => rfl

/-- The operations as the grouped function of `runBatch` leaves them: each is, to its caller,
as it was, or is a duplicate that was sent a conflict once. -/
theorem runAsGroup_outcome (env : Env) (b : TransactionWriterBatch) (s : Sys)
    (hrange : ∀ n m, (env.rangeInserts n m).Perm m) (j : Nat) :
    ((runAsGroup env b s).2.2.ops[j]?).map outcome = (s.ops[j]?).map outcome ∨
    (env.beginFault = none ∧ isDuplicate s j = true ∧
      ((runAsGroup env b s).2.2.ops[j]?).map outcome =
        ((s.ops[j]?).map flagConflict).map outcome) := by
  unfold runAsGroup
  cases hb : env.beginFault with
  | some e => left; rfl
  | none =>
    simp only
    have hwf := classify_wf env b s 0 hrange
    obtain ⟨_, hany⟩ := preInsertIdempotencyCheck_any env (classify b s.ops) s hwf.2.1
      (fun i hi => hwf.in_range i hi)
    have hout := executeBatchOps_outcome env (classify b s.ops) s j
    have key : ((executeBatchOps env (classify b s.ops) s).2.ops[j]?).map outcome =
          (s.ops[j]?).map outcome ∨
        (isDuplicate s j = true ∧
          ((executeBatchOps env (classify b s.ops) s).2.ops[j]?).map outcome =
            ((s.ops[j]?).map flagConflict).map outcome) := by
      rcases hany j with h | ⟨_, hd, h⟩
      · left; rw [hout, h]
      · right; exact ⟨hd, by rw [hout, h]⟩
    cases he : executeBatchOps env (classify b s.ops) s with
    | mk e1 s1 =>
      rw [he] at key
      simp only at key
      cases e1 with
      | some e =>
        simp only
        rcases key with h | ⟨hd, h⟩
        · left; exact h
        · right; exact ⟨trivial, hd, h⟩
      | none =>
        simp only
        cases env.commitFault with
        | some e =>
          simp only
          rcases key with h | ⟨hd, h⟩
          · left; exact h
          · right; exact ⟨trivial, hd, h⟩
        | none =>
          simp only
          rcases key with h | ⟨hd, h⟩
          · left; exact h
          · right; exact ⟨trivial, hd, h⟩

/-- C8. When `runBatch` returns, the operations of the batch being fresh as queued (no
conflict sent, nothing on the completion channel), exactly one value has been sent on the
completion channel of each operation of the batch: the duplicate-ID error for an operation
flagged as a conflict, otherwise nil when the grouped store transaction succeeded, otherwise
the one generic persistence error, never the underlying error. -/
theorem runBatch_sends_one_result (env : Env) (b : TransactionWriterBatch) (s : Sys)
    (hrange : ∀ n m, (env.rangeInserts n m).Perm m)
    (hfresh : ∀ op, op ∈ s.ops → op.sentConflict = false ∧ op.done = []) :
    (runBatch env b s).2.ops.length = s.ops.length ∧
    ∀ (j : Nat) (op1 : TransactionOperation), (runBatch env b s).2.ops[j]? = some op1 →
      op1.done =
        [match op1.sentConflict, (runAsGroup env b s).1 with
          | true, _ => some (Err.duplicateID op1.txID)
          | false, none => none
          | false, some _ => some Err.transactionPersistenceError] := by
  have hlen : ∀ j : Nat, ((runAsGroup env b s).2.2.ops[j]?).isSome = (s.ops[j]?).isSome := by
    intro j
    rcases runAsGroup_outcome env b s hrange j with h | ⟨_, _, h⟩
    · have := congrArg Option.isSome h
      simpa using this
    · have := congrArg Option.isSome h
      simpa using this
  refine ⟨?_, ?_⟩
  · rw [runBatch_ops]
    unfold sendResults
    rw [List.length_map]
    apply Nat.le_antisymm
    · by_contra hlt
      have h1 := hlen s.ops.length
      rw [List.getElem?_eq_none (Nat.le_refl _)] at h1
      have h2 : s.ops.length < (runAsGroup env b s).2.2.ops.length := by omega
      rw [List.getElem?_eq_getElem h2] at h1
      simp at h1
    · by_contra hlt
      have h1 := hlen (runAsGroup env b s).2.2.ops.length
      rw [List.getElem?_eq_none (Nat.le_refl _)] at h1
      have h2 : (runAsGroup env b s).2.2.ops.length < s.ops.length := by omega
      rw [List.getElem?_eq_getElem h2] at h1
      simp at h1
  · intro j op1 hop1
    rw [runBatch_ops, getElem?_sendResults] at hop1
    cases hx : (runAsGroup env b s).2.2.ops[j]? with
    | none => rw [hx] at hop1; simp at hop1
    | some oX =>
      rw [hx] at hop1
      simp only [Option.map_some', Option.some.injEq] at hop1
      have hs := hlen j
      rw [hx] at hs
      cases ho : s.ops[j]? with
      | none => rw [ho] at hs; simp at hs
      | some o =>
        obtain ⟨hf1, hf2⟩ := hfresh o (List.getElem?_mem ho)
        rcases runAsGroup_outcome env b s hrange j with h | ⟨_, _, h⟩
        · rw [hx, ho] at h
          simp only [Option.map_some', Option.some.injEq, outcome, Prod.mk.injEq] at h
          obtain ⟨_, h2, h3⟩ := h
          rw [hf1] at h2
          rw [hf2] at h3
          subst hop1
          unfold sendResult
          simp only [h2, Bool.false_eq_true, if_false, h3, List.nil_append]
          cases (runAsGroup env b s).1 <;> rfl
        · rw [hx, ho] at h
          simp only [Option.map_some', Option.some.injEq, outcome, Prod.mk.injEq, flagConflict] at h
          obtain ⟨h1, h2, h3⟩ := h
          rw [hf2] at h3
          subst hop1
          unfold sendResult
          simp only [h2, if_true, h3, List.nil_append, h1]

/-! ## Inserts that are skipped consume no nonce -/

theorem admittedOf_erase (ops : List TransactionOperation) (txs : List Nat) (j : Nat)
    (hj : admitted ops j = false) :
    admittedOf ops (txs.filter (fun i => i ≠ j)) = admittedOf ops txs := by
  unfold admittedOf
  rw [List.filter_filter]
  apply List.filter_congr
  intro i _
  by_cases hij : i = j
  · subst hij; simp [hj]
  · simp [hij]

theorem assignNoncesForSigner_skip (env : Env) (signer : String) (txs : List Nat) (s : Sys)
    (j : Nat) (hj : admitted s.ops j = false) :
    assignNoncesForSigner env signer (txs.filter (fun i => i ≠ j)) s =
      assignNoncesForSigner env signer txs s := by
  unfold assignNoncesForSigner
  cases hg : s.nextNonceCache.get signer with
  | mk hit cache1 =>
    cases hit with
    | some ce =>
      simp only [readClock]
      rw [assignNoncesToOps_admitted, assignNoncesToOps_admitted env signer _ txs]
      simp only [admittedOf_erase s.ops txs j hj]
    | none =>
      simp only
      rw [assignNoncesToOps_admitted, assignNoncesToOps_admitted env signer _ txs]
      simp only [admittedOf_erase s.ops txs j hj]

/-- An insert that `assignNonces` skips plays no part in the run: the run is the same as on
the groups without it. -/
theorem assignNonces_skip (env : Env) (gs : List (String × List Nat)) (j : Nat) :
    ∀ (s : Sys), admitted s.ops j = false →
      assignNonces env (gs.map (fun g => (g.1, g.2.filter (fun i => i ≠ j)))) s =
        assignNonces env gs s := by
  induction gs with
  | nil => intro s _; rfl
  | cons g rest ih =>
    intro s hj
    obtain ⟨signer, txs⟩ := g
    simp only [List.map_cons, assignNonces]
    rw [assignNoncesForSigner_skip env signer txs s j hj]
    have hf := assignNoncesForSigner_frame env signer txs s
    cases hgr : assignNoncesForSigner env signer txs s with
    | mk e s1 =>
      rw [hgr] at hf
      cases e with
      | some e => rfl
      | none =>
        simp only
        exact ih s1 (by rw [admitted_of_skeleton hf.skeleton]; exact hj)

theorem assignNonces_skipped_untouched (env : Env) (gs : List (String × List Nat)) (j : Nat)
    (s : Sys) (hj : admitted s.ops j = false) :
    (assignNonces env gs s).2.ops[j]? = s.ops[j]? := by
  rw [← assignNonces_skip env gs j s hj]
  apply (assignNonces_frame env _ s).1
  intro hm
  obtain ⟨g, hg, hjg⟩ := List.mem_flatMap.mp hm
  obtain ⟨g0, _, hg0⟩ := List.mem_map.mp hg
  rw [← hg0] at hjg
  simp at hjg

/-! ## The log of chain callbacks -/

theorem reconcileNonce_calls (env : Env) (signer : String) (op : TransactionOperation)
    (ce : Option NonceCacheEntry) (s : Sys) :
    (reconcileNonce env signer op ce s).2.cbCalls = s.cbCalls ++ [signer] := by
  unfold reconcileNonce
  cases h1 : op.nextNonceCB signer with
  | error e => simp
  | ok c =>
    cases ce with
    | some e => simp [readClock]
    | none =>
      simp only [storeCall]
      cases h2 : env.storeFault s.storeCalls.length with
      | some e => simp
      | none =>
        simp only
        cases h3 : highestNonceTx s.transactions signer <;> simp [readClock]

theorem assignNoncesToOps_calls (env : Env) (signer : String) (cacheExpired : Bool)
    (txs : List Nat) :
    ∀ (ce : Option NonceCacheEntry) (s : Sys),
      ∃ L, (assignNoncesToOps env signer cacheExpired txs ce s).2.cbCalls = s.cbCalls ++ L ∧
        ∀ k, k ∈ L → k = signer := by
  induction txs with
  | nil => intro ce s; exact ⟨[], by simp [assignNoncesToOps], by simp⟩
  | cons i rest ih =>
    intro ce s
    unfold assignNoncesToOps
    cases h : s.ops[i]? with
    | none => exact ih ce s
    | some op =>
      simp only
      split
      · exact ih ce s
      · split
        · exact ih ce s
        · have key : ∀ (r : Except Err NonceCacheEntry × Sys),
              (∃ L0, r.2.cbCalls = s.cbCalls ++ L0 ∧ ∀ k, k ∈ L0 → k = signer) →
              ∃ L, (match r with
                | (Except.error e, s1) => (some e, s1)
                | (Except.ok ce, s1) =>
                  assignNoncesToOps env signer cacheExpired rest
                    (some { ce with nextNonce := (ce.nextNonce + 1) % 2 ^ 64 })
                    { s1 with ops := modifyOp s1.ops i (stampNonce ce.nextNonce),
                              nextNonceCache := s1.nextNonceCache.add signer
                                { ce with nextNonce := (ce.nextNonce + 1) % 2 ^ 64 } }).2.cbCalls =
                  s.cbCalls ++ L ∧ ∀ k, k ∈ L → k = signer := by
            intro r hr
            obtain ⟨res, s1⟩ := r
            obtain ⟨L0, h0, h0k⟩ := hr
            simp only at h0
            cases res with
            | error e => exact ⟨L0, h0, h0k⟩
            | ok ce1 =>
              simp only
              obtain ⟨L1, h1, h1k⟩ := ih (some { ce1 with nextNonce := (ce1.nextNonce + 1) % 2 ^ 64 })
                { s1 with ops := modifyOp s1.ops i (stampNonce ce1.nextNonce),
                          nextNonceCache := s1.nextNonceCache.add signer
                            { ce1 with nextNonce := (ce1.nextNonce + 1) % 2 ^ 64 } }
              refine ⟨L0 ++ L1, ?_, ?_⟩
              · rw [h1]; simp only; rw [h0, List.append_assoc]
              · intro k hk
                rcases List.mem_append.mp hk with h | h
                · exact h0k k h
                · exact h1k k h
          cases ce with
          | none =>
            exact key _ ⟨[signer], reconcileNonce_calls env signer op none s, by simp⟩
          | some e =>
            cases cacheExpired with
            | false => exact key (Except.ok e, s) ⟨[], by simp, by simp⟩
            | true =>
              exact key _ ⟨[signer], reconcileNonce_calls env signer op (some e) s, by simp⟩

theorem assignNoncesForSigner_calls (env : Env) (signer : String) (txs : List Nat) (s : Sys) :
    ∃ L, (assignNoncesForSigner env signer txs s).2.cbCalls = s.cbCalls ++ L ∧
      ∀ k, k ∈ L → k = signer := by
  unfold assignNoncesForSigner
  cases hg : s.nextNonceCache.get signer with
  | mk hit cache1 =>
    cases hit with
    | some ce =>
      simp only [readClock]
      exact assignNoncesToOps_calls env signer _ txs _ _
    | none =>
      simp only
      exact assignNoncesToOps_calls env signer _ txs _ _

theorem assignNonces_calls (env : Env) (gs : List (String × List Nat)) :
    ∀ (s : Sys), ∃ L, (assignNonces env gs s).2.cbCalls = s.cbCalls ++ L ∧
      ∀ k, k ∈ L → k ∈ gs.map Prod.fst := by
  induction gs with
  | nil => intro s; exact ⟨[], by simp [assignNonces], by simp⟩
  | cons g rest ih =>
    intro s
    obtain ⟨signer, txs⟩ := g
    obtain ⟨L0, h0, h0k⟩ := assignNoncesForSigner_calls env signer txs s
    unfold assignNonces
    cases hgr : assignNoncesForSigner env signer txs s with
    | mk e s1 =>
      rw [hgr] at h0
      simp only at h0
      cases e with
      | some e =>
        refine ⟨L0, h0, ?_⟩
        intro k hk
        rw [h0k k hk]
        simp
      | none =>
        simp only
        obtain ⟨L1, h1, h1k⟩ := ih s1
        refine ⟨L0 ++ L1, by rw [h1, h0, List.append_assoc], ?_⟩
        intro k hk
        rcases List.mem_append.mp hk with h | h
        · rw [h0k k h]; simp
        · simp only [List.map_cons, List.mem_cons]
          right; exact h1k k h

/-! ## A signer without a cache entry: no nonce without the chain callback -/

theorem assignNoncesForSigner_absent_quiet (env : Env) (signer : String) (txs : List Nat)
    (s : Sys) (hpeek : s.nextNonceCache.peek signer = none) :
    (∃ L, (assignNoncesForSigner env signer txs s).2.cbCalls = s.cbCalls ++ signer :: L) ∨
    ((assignNoncesForSigner env signer txs s).2.nextNonceCache.peek signer = none ∧
      (assignNoncesForSigner env signer txs s).2.ops = s.ops ∧
      (assignNoncesForSigner env signer txs s).2.cbCalls = s.cbCalls) := by
  unfold assignNoncesForSigner
  have hget : s.nextNonceCache.get signer = (none, s.nextNonceCache) := by
    unfold LRU.get; rw [hpeek]
  rw [hget]
  simp only
  rw [assignNoncesToOps_admitted]
  cases hA : admittedOf s.ops txs with
  | nil => right; exact ⟨hpeek, rfl, rfl⟩
  | cons i0 rest =>
    left
    have hi0 : admitted s.ops i0 = true := (admittedOf_tail hA).1
    have hop : ∃ op, s.ops[i0]? = some op := by
      unfold admitted at hi0
      cases h : s.ops[i0]? with
      | none => rw [h] at hi0; simp at hi0
      | some op => exact ⟨op, rfl⟩
    obtain ⟨op, hop⟩ := hop
    obtain ⟨hp, hc⟩ := admitted_eq_true hi0 hop
    rw [assignNoncesToOps, hop]
    simp only [hp, hc, Bool.false_eq_true, if_false]
    have hcalls := reconcileNonce_calls env signer op none s
    cases hr : reconcileNonce env signer op none s with
    | mk res s1 =>
      rw [hr] at hcalls
      simp only at hcalls
      cases res with
      | error e => exact ⟨[], by simpa using hcalls⟩
      | ok ce1 =>
        simp only
        obtain ⟨L1, h1, _⟩ := assignNoncesToOps_calls env signer false rest
          (some { ce1 with nextNonce := (ce1.nextNonce + 1) % 2 ^ 64 })
          { s1 with ops := modifyOp s1.ops i0 (stampNonce ce1.nextNonce),
                    nextNonceCache := s1.nextNonceCache.add signer
                      { ce1 with nextNonce := (ce1.nextNonce + 1) % 2 ^ 64 } }
        refine ⟨L1, ?_⟩
        rw [h1]
        simp only
        rw [hcalls, List.append_assoc]
        rfl

/-- From a state in which signer `S` has no cache entry, a run of `assignNonces` either
invokes the chain callback for `S`, or leaves `S` without an entry and the inserts of `S`
untouched. -/
theorem assignNonces_absent_quiet (env : Env) (S : String) (gs : List (String × List Nat)) :
    ∀ (s : Sys), (gs.map Prod.fst).Nodup → (gs.flatMap Prod.snd).Nodup →
      s.nextNonceCache.peek S = none →
      S ∈ (assignNonces env gs s).2.cbCalls.drop s.cbCalls.length ∨
      ((assignNonces env gs s).2.nextNonceCache.peek S = none ∧
        ∀ txs, (S, txs) ∈ gs → ∀ i, i ∈ txs → (assignNonces env gs s).2.ops[i]? = s.ops[i]?) := by
  induction gs with
  | nil => intro s _ _ hpeek; right; exact ⟨hpeek, by simp⟩
  | cons g rest ih =>
    intro s hk hf hpeek
    obtain ⟨K, txsK⟩ := g
    simp only [List.map_cons] at hk
    obtain ⟨hK_rest, hk_rest⟩ := List.nodup_cons.mp hk
    simp only [List.flatMap_cons] at hf
    rw [List.nodup_append] at hf
    obtain ⟨_, hf_rest, hdisj⟩ := hf
    have hframe := assignNoncesForSigner_frame env K txsK s
    obtain ⟨L0, hL0, hL0k⟩ := assignNoncesForSigner_calls env K txsK s
    have hquiet : K = S →
        (∃ L, (assignNoncesForSigner env K txsK s).2.cbCalls = s.cbCalls ++ S :: L) ∨
        ((assignNoncesForSigner env K txsK s).2.nextNonceCache.peek S = none ∧
          (assignNoncesForSigner env K txsK s).2.ops = s.ops ∧
          (assignNoncesForSigner env K txsK s).2.cbCalls = s.cbCalls) := by
      intro hKS
      subst hKS
      exact assignNoncesForSigner_absent_quiet env K txsK s hpeek
    unfold assignNonces
    cases hgr : assignNoncesForSigner env K txsK s with
    | mk e s1 =>
      rw [hgr] at hframe hL0 hquiet
      simp only at hframe hL0 hquiet
      -- the rest of the run, seen from `s1`
      have hrest_calls : ∀ s2 : Sys, (∃ L1, s2.cbCalls = s1.cbCalls ++ L1) →
          (S ∈ s1.cbCalls.drop s.cbCalls.length ∨ S ∈ s2.cbCalls.drop s1.cbCalls.length) →
          S ∈ s2.cbCalls.drop s.cbCalls.length := by
        intro s2 h2 hS
        obtain ⟨L1, hL1⟩ := h2
        have a1 : s2.cbCalls = s.cbCalls ++ (L0 ++ L1) := by
          rw [hL1, hL0, List.append_assoc]
        have d1 : s2.cbCalls.drop s.cbCalls.length = L0 ++ L1 := by rw [a1]; simp
        have d2 : s1.cbCalls.drop s.cbCalls.length = L0 := by rw [hL0]; simp
        have d3 : s2.cbCalls.drop s1.cbCalls.length = L1 := by rw [hL1]; simp
        rw [d1]
        rw [d2, d3] at hS
        exact List.mem_append.mpr hS
      by_cases hKS : K = S
      · -- the group of `S` itself
        rcases hquiet hKS with ⟨L, hL⟩ | ⟨hq1, hq2, hq3⟩
        · have hS1 : S ∈ s1.cbCalls.drop s.cbCalls.length := by rw [hL]; simp
          left
          cases e with
          | some e => exact hS1
          | none =>
            simp only
            obtain ⟨L1, hL1, _⟩ := assignNonces_calls env rest s1
            exact hrest_calls _ ⟨L1, hL1⟩ (Or.inl hS1)
        · have hSrest : S ∉ rest.map Prod.fst := by rw [← hKS]; exact hK_rest
          have honly : ∀ txs, (S, txs) ∈ (K, txsK) :: rest → txs = txsK := by
            intro txs hm
            rcases List.mem_cons.mp hm with h | h
            · simp only [Prod.mk.injEq] at h; exact h.2
            · exact absurd (List.mem_map.mpr ⟨(S, txs), h, rfl⟩) hSrest
          cases e with
          | some e =>
            right
            exact ⟨hq1, fun txs _ i _ => by rw [hq2]⟩
          | none =>
            simp only
            obtain ⟨hops3, _, _, _, _, hpk3⟩ := assignNonces_frame env rest s1
            right
            refine ⟨?_, ?_⟩
            · rcases hpk3 S hSrest with h | h
              · rw [h]; exact hq1
              · exact h
            · intro txs hm i hi
              rw [honly txs hm] at hi
              rw [hops3 i (fun hm2 => hdisj hi hm2), hq2]
      · -- the group of another signer
        have hpeek1 : s1.nextNonceCache.peek S = none := by
          rcases hframe.peek_ne S (fun h => hKS h.symm) with h | h
          · rw [h]; exact hpeek
          · exact h
        have hin_rest : ∀ txs, (S, txs) ∈ (K, txsK) :: rest → (S, txs) ∈ rest := by
          intro txs hm
          rcases List.mem_cons.mp hm with h | h
          · simp only [Prod.mk.injEq] at h; exact absurd h.1.symm hKS
          · exact h
        have hout : ∀ txs, (S, txs) ∈ rest → ∀ i, i ∈ txs → s1.ops[i]? = s.ops[i]? := by
          intro txs hm i hi
          apply hframe.ops_out i
          intro hiK
          exact hdisj hiK (List.mem_flatMap.mpr ⟨(S, txs), hm, hi⟩)
        cases e with
        | some e =>
          right
          exact ⟨hpeek1, fun txs hm i hi => hout txs (hin_rest txs hm) i hi⟩
        | none =>
          simp only
          rcases ih s1 hk_rest hf_rest hpeek1 with h | ⟨h1, h2⟩
          · left
            obtain ⟨L1, hL1, _⟩ := assignNonces_calls env rest s1
            exact hrest_calls _ ⟨L1, hL1⟩ (Or.inr h)
          · right
            refine ⟨h1, ?_⟩
            intro txs hm i hi
            rw [h2 txs (hin_rest txs hm) i hi, hout txs (hin_rest txs hm) i hi]

/-! ## A signer whose cache entry stays fresh and is not evicted -/

theorem LRU.recent_of_peek {β : Type} (c : LRU β) (k : String) (v : β)
    (h : c.peek k = some v) : c.recent k (c.items.length - 1) ∧ 0 < c.items.length := by
  unfold LRU.peek at h
  have hne : c.items ≠ [] := by
    intro h0; rw [h0] at h; simp at h
  have hlen : 0 < c.items.length := List.length_pos.mpr hne
  refine ⟨?_, hlen⟩
  unfold LRU.recent
  have h1 : c.items.length - 1 + 1 = c.items.length := by omega
  rw [h1, List.take_length]
  have : List.lookup k c.items ≠ none := by rw [h]; simp
  rw [Ne, List.lookup_eq_none_iff] at this
  simp only [not_forall] at this
  obtain ⟨p, hp, hpk⟩ := this
  simp only [bne_iff_ne, ne_eq, Decidable.not_not] at hpk
  exact List.mem_map.mpr ⟨p, hp, hpk.symm⟩

theorem assignNoncesForSigner_fresh_front (env : Env) (signer : String) (txs : List Nat) (s : Sys)
    (e : NonceCacheEntry)
    (hsize : 0 < s.nextNonceCache.size)
    (hpeek : s.nextNonceCache.peek signer = some e)
    (hage : env.clock s.clockReads - e.cachedTime ≤ env.nonceStateTimeout) :
    (assignNoncesForSigner env signer txs s).2.nextNonceCache.front signer := by
  rw [assignNoncesForSigner_fresh env signer txs s e hpeek hage]
  simp only
  by_cases hA : admittedOf s.ops txs = []
  · rw [hA]
    exact LRU.front_touch _ _ _
  · exact stampAll_front signer _ e _ hA (by simpa using hsize)

/-- The effect of the group of a signer whose cache entry is fresh. -/
theorem assignNoncesForSigner_fresh_effect (env : Env) (signer : String) (txs : List Nat)
    (s : Sys) (e : NonceCacheEntry)
    (hnd : txs.Nodup) (hins : ∀ i, i ∈ txs → isInsertOf s.ops signer i = true)
    (hsize : 0 < s.nextNonceCache.size)
    (hpeek : s.nextNonceCache.peek signer = some e)
    (hage : env.clock s.clockReads - e.cachedTime ≤ env.nonceStateTimeout)
    (hbound : e.nextNonce + (admittedOf s.ops txs).length ≤ 2 ^ 63) :
    (assignNoncesForSigner env signer txs s).1 = none ∧
    (admittedOf s.ops txs).map (nonceAt (assignNoncesForSigner env signer txs s).2.ops) =
      (List.range' e.nextNonce (admittedOf s.ops txs).length).map
        (fun (v : Nat) => some (v : Int)) ∧
    (assignNoncesForSigner env signer txs s).2.nextNonceCache.peek signer =
      some { cachedTime := e.cachedTime,
             nextNonce := e.nextNonce + (admittedOf s.ops txs).length } ∧
    (assignNoncesForSigner env signer txs s).2.cbCalls = s.cbCalls ∧
    (assignNoncesForSigner env signer txs s).2.storeCalls = s.storeCalls := by
  rw [assignNoncesForSigner_fresh env signer txs s e hpeek hage]
  have hAnd : (admittedOf s.ops txs).Nodup := admittedOf_nodup _ _ hnd
  have hf := stampAll_fields signer (admittedOf s.ops txs) e
    { s with nextNonceCache := s.nextNonceCache.touch signer e, clockReads := s.clockReads + 1 }
  refine ⟨rfl, ?_, ?_, hf.2.2.2.2.1, hf.2.2.2.1⟩
  · exact stampAll_nonces signer (admittedOf s.ops txs) e _ hAnd
      (fun i hi => hins i (admittedOf_sub _ _ _ hi)) hbound
  · by_cases hA : admittedOf s.ops txs = []
    · rw [hA]
      simp only [stampAll, List.length_nil, Nat.add_zero]
      exact LRU.peek_touch_self _ _ _
    · rw [stampAll_peek_self signer _ e _ hA (by simpa using hsize)]
      rw [Nat.mod_eq_of_lt (by omega)]

/-- A whole run seen from a signer whose cache entry is fresh at every reading of the clock
and cannot be evicted, the cache having room for the signers of the run: when the run
succeeds the admitted inserts follow from the entry, which advances by their number. -/
theorem assignNonces_fresh_whole (env : Env) (gs : List (String × List Nat)) (s : Sys)
    (signer : String) (txs : List Nat) (e : NonceCacheEntry)
    (hwf : GroupsWF s.ops gs) (hmem : (signer, txs) ∈ gs)
    (hpeek : s.nextNonceCache.peek signer = some e)
    (hfresh : ∀ n, env.clock n - e.cachedTime ≤ env.nonceStateTimeout)
    (hroom : s.nextNonceCache.items.length + gs.length ≤ s.nextNonceCache.size)
    (hok : (assignNonces env gs s).1 = none)
    (hbound : e.nextNonce + (admittedOf s.ops txs).length ≤ 2 ^ 63) :
    (admittedOf s.ops txs).map (nonceAt (assignNonces env gs s).2.ops) =
      (List.range' e.nextNonce (admittedOf s.ops txs).length).map
        (fun (v : Nat) => some (v : Int)) ∧
    (assignNonces env gs s).2.nextNonceCache.peek signer =
      some { cachedTime := e.cachedTime,
             nextNonce := e.nextNonce + (admittedOf s.ops txs).length } := by
  obtain ⟨pre, post, hgs⟩ := List.append_of_mem hmem
  subst hgs
  obtain ⟨hkpre, hkpost, hnd, hipre, hipost, hins⟩ := hwf.split
  obtain ⟨hrec0, hlen0⟩ := LRU.recent_of_peek _ _ _ hpeek
  simp only [List.length_append, List.length_cons] at hroom
  have hfpre := assignNonces_frame env pre s
  have hrecpre := assignNonces_recent env signer pre (s.nextNonceCache.items.length - 1) s hkpre
    hrec0 (by omega)
  rw [assignNonces_append] at hok
  rw [assignNonces_append]
  cases hpre : assignNonces env pre s with
  | mk e1 s1 =>
    rw [hpre] at hok hfpre hrecpre
    simp only at hfpre hrecpre
    obtain ⟨_, hsk1, _, _, hsz1, hpk1⟩ := hfpre
    cases e1 with
    | some e => simp at hok
    | none =>
      simp only at hok ⊢
      have hpeek1 : s1.nextNonceCache.peek signer = some e := by
        rcases hpk1 signer hkpre with h | h
        · rw [h, hpeek]
        · exact absurd h (LRU.peek_ne_none_of_recent _ _ hrecpre)
      have hins1 : ∀ i, i ∈ txs → isInsertOf s1.ops signer i = true := by
        intro i hi; rw [isInsertOf_of_skeleton hsk1]; exact hins i hi
      have hsize1 : 0 < s1.nextNonceCache.size := by rw [hsz1]; omega
      have heff := assignNoncesForSigner_fresh_effect env signer txs s1 e hnd hins1 hsize1 hpeek1
        (hfresh _) (by rw [admittedOf_of_skeleton hsk1]; exact hbound)
      have hfront := assignNoncesForSigner_fresh_front env signer txs s1 e hsize1 hpeek1
        (hfresh _)
      have hfgrp := assignNoncesForSigner_frame env signer txs s1
      rw [admittedOf_of_skeleton hsk1] at heff
      unfold assignNonces at hok ⊢
      cases hgrp : assignNoncesForSigner env signer txs s1 with
      | mk e2 s2 =>
        rw [hgrp] at hok heff hfront hfgrp
        simp only at heff hfront hfgrp
        cases e2 with
        | some e => simp at hok
        | none =>
          simp only at hok ⊢
          obtain ⟨_, hnonces, hpk2, _, _⟩ := heff
          obtain ⟨hops3, _, _, _, _, hpk3⟩ := assignNonces_frame env post s2
          have hrec := assignNonces_recent env signer post 0 s2 hkpost
            (LRU.recent_of_front _ _ hfront) (by rw [hfgrp.size, hsz1]; omega)
          have hne := LRU.peek_ne_none_of_recent _ _ hrec
          refine ⟨?_, ?_⟩
          · rw [← hnonces]
            apply List.map_congr_left
            intro i hi
            unfold nonceAt
            rw [hops3 i (hipost i (admittedOf_sub _ _ _ hi))]
          · rcases hpk3 signer hkpost with h | h
            · rw [h, hpk2]
            · exact absurd h hne

/-! ## Duplicates through a whole batch -/

theorem runAsGroup_begun (env : Env) (b : TransactionWriterBatch) (s : Sys)
    (hbegin : env.beginFault = none) :
    (runAsGroup env b s).2.1 = classify b s.ops ∧
    (runAsGroup env b s).2.2.ops = (executeBatchOps env (classify b s.ops) s).2.ops ∧
    (runAsGroup env b s).2.2.nextNonceCache =
      (executeBatchOps env (classify b s.ops) s).2.nextNonceCache ∧
    (runAsGroup env b s).2.2.cbCalls = (executeBatchOps env (classify b s.ops) s).2.cbCalls ∧
    ((executeBatchOps env (classify b s.ops) s).1 ≠ none → (runAsGroup env b s).1 ≠ none) ∧
    ((runAsGroup env b s).1 = none → (executeBatchOps env (classify b s.ops) s).1 = none) := by
  unfold runAsGroup
  rw [hbegin]
  simp only
  cases he : executeBatchOps env (classify b s.ops) s with
  | mk e1 s1 =>
    cases e1 with
    | some e => simp
    | none =>
      simp only
      cases env.commitFault with
      | some e => simp
      | none => simp

theorem nonceAt_sendResults (err : Option Err) (ops : List TransactionOperation) (j : Nat) :
    nonceAt (sendResults err ops) j = nonceAt ops j := by
  unfold nonceAt
  rw [getElem?_sendResults]
  cases h : ops[j]? with
  | none => rfl
  | some o =>
    simp only [Option.map_some', Option.some_bind, sendResult]
    split <;> rfl

theorem executeBatchOps_skipped (env : Env) (b : TransactionWriterBatch) (s : Sys) (j : Nat)
    (hj : admitted (preInsertIdempotencyCheck env b s).2.2.ops j = false) :
    nonceAt (executeBatchOps env b s).2.ops j =
      nonceAt (preInsertIdempotencyCheck env b s).2.2.ops j := by
  have hskip := assignNonces_skipped_untouched env (env.rangeInserts 1 b.txInsertsByFrom) j
    (preInsertIdempotencyCheck env b s).2.2 hj
  have hn : nonceAt (assignNonces env (env.rangeInserts 1 b.txInsertsByFrom)
      (preInsertIdempotencyCheck env b s).2.2).2.ops j =
      nonceAt (preInsertIdempotencyCheck env b s).2.2.ops j := by
    unfold nonceAt; rw [hskip]
  rcases executeBatchOps_cases env b s with ⟨e, _, h⟩ | ⟨_, _, h⟩ | ⟨e, _, _, _, h⟩ | ⟨_, _, _, h⟩
  · rw [h]
  · rw [h]
    exact nonceAt_of_kept (executeBatchTail_kept env b _).ops j
  · rw [h]; exact hn
  · rw [h, ← hn]
    have h2 := insertManyTransactions_kept env
      (bulkInserts (preInsertIdempotencyCheck env b s).2.1
        (assignNonces env (env.rangeInserts 1 b.txInsertsByFrom)
          (preInsertIdempotencyCheck env b s).2.2).2.ops)
      (assignNonces env (env.rangeInserts 1 b.txInsertsByFrom)
        (preInsertIdempotencyCheck env b s).2.2).2
    cases hi : insertManyTransactions env
      (bulkInserts (preInsertIdempotencyCheck env b s).2.1
        (assignNonces env (env.rangeInserts 1 b.txInsertsByFrom)
          (preInsertIdempotencyCheck env b s).2.2).2.ops)
      (assignNonces env (env.rangeInserts 1 b.txInsertsByFrom)
        (preInsertIdempotencyCheck env b s).2.2).2 with
    | mk e2 sC =>
      rw [hi] at h2
      cases e2 with
      | some e => exact nonceAt_of_kept h2.ops j
      | none =>
        simp only
        exact nonceAt_of_kept
          ((h2.kept_trans (primeMetaCache_kept env _ sC)).kept_trans (executeBatchTail_kept env b _)).ops j

theorem classify_visits (env : Env) (b : TransactionWriterBatch) (s : Sys) (n : Nat)
    (hrange : ∀ n m, (env.rangeInserts n m).Perm m)
    (j : Nat) (op : TransactionOperation) (hop : s.ops[j]? = some op)
    (hins : op.txInsert.isSome = true) :
    j ∈ (env.rangeInserts n (classify b s.ops).txInsertsByFrom).flatMap Prod.snd := by
  cases htx : op.txInsert with
  | none => rw [htx] at hins; simp at hins
  | some tx =>
    have hlt : j < s.ops.length := (List.getElem?_eq_some.mp hop).1
    obtain ⟨txs, h1, h2⟩ := (classify_inserts b s.ops).covers j op tx hlt hop htx
    have : j ∈ (classify b s.ops).txInsertsByFrom.flatMap Prod.snd :=
      List.mem_flatMap.mpr ⟨(tx.From, txs), h1, h2⟩
    exact ((hrange n _).flatMap_right Prod.snd).symm.subset this

theorem isDuplicate_of (s : Sys) (j : Nat) (op : TransactionOperation)
    (hop : s.ops[j]? = some op)
    (hmeta : (s.txMetaCache.peek op.txID).isSome = true)
    (hstored : (getTransactionByID s.transactions op.txID).isSome = true) :
    isDuplicate s j = true := by
  unfold isDuplicate
  rw [hop]
  simp [hmeta, hstored]

theorem admitted_flagged (ops : List TransactionOperation) (j : Nat) (op : TransactionOperation)
    (h : ops[j]? = some (flagConflict op)) : admitted ops j = false := by
  unfold admitted
  rw [h]
  simp [flagConflict]

/-- C5 (amended). For a batch of fresh operations whose grouped transaction begins and whose
idempotency check does not fail: an insert whose transaction ID is in the metadata cache
and already exists in the store receives the duplicate-ID conflict error, and nothing else,
on its completion channel, keeps its nonce as it was, and does not advance the signer's
nonce: `assignNonces` skips it and runs exactly as on the batch without it. -/
theorem duplicate_in_cache_gets_conflict (env : Env) (b : TransactionWriterBatch) (s : Sys)
    (j : Nat) (op : TransactionOperation)
    (hrange : ∀ n m, (env.rangeInserts n m).Perm m)
    (hfresh : ∀ o, o ∈ s.ops → o.sentConflict = false ∧ o.done = [])
    (hbegin : env.beginFault = none)
    (hop : s.ops[j]? = some op) (hins : op.txInsert.isSome = true)
    (hmeta : (s.txMetaCache.peek op.txID).isSome = true)
    (hstored : (getTransactionByID s.transactions op.txID).isSome = true)
    (hcheck : (preInsertIdempotencyCheck env (classify b s.ops) s).1 = none) :
    (∃ op1, (runBatch env b s).2.ops[j]? = some op1 ∧ op1.sentConflict = true ∧
      op1.done = [some (Err.duplicateID op.txID)]) ∧
    nonceAt (runBatch env b s).2.ops j = nonceAt s.ops j ∧
    j ∉ (preInsertIdempotencyCheck env (classify b s.ops) s).2.1 ∧
    admitted (preInsertIdempotencyCheck env (classify b s.ops) s).2.2.ops j = false ∧
    ∀ gs, assignNonces env (gs.map (fun g => (g.1, g.2.filter (fun i => i ≠ j))))
        (preInsertIdempotencyCheck env (classify b s.ops) s).2.2 =
      assignNonces env gs (preInsertIdempotencyCheck env (classify b s.ops) s).2.2 := by
  have hwf := classify_wf env b s 0 hrange
  have hvis := classify_visits env b s 0 hrange j op hop hins
  have hdup := isDuplicate_of s j op hop hmeta hstored
  obtain ⟨hvalid, _, hflag⟩ := preInsertIdempotencyCheck_ok env (classify b s.ops) s
    (fun i hi => hwf.in_range i hi) hcheck
  have hA : (preInsertIdempotencyCheck env (classify b s.ops) s).2.2.ops[j]? =
      some (flagConflict op) := by
    rw [hflag hwf.2.1 j hvis hdup, hop]; rfl
  have hadm := admitted_flagged _ j op hA
  obtain ⟨_, hops, _, _, _, _⟩ := runAsGroup_begun env b s hbegin
  obtain ⟨hf1, hf2⟩ := hfresh op (List.getElem?_mem hop)
  refine ⟨?_, ?_, ?_, hadm, fun gs => assignNonces_skip env gs j _ hadm⟩
  · have hout := executeBatchOps_outcome env (classify b s.ops) s j
    rw [hA, ← hops] at hout
    cases hx : (runAsGroup env b s).2.2.ops[j]? with
    | none => rw [hx] at hout; simp at hout
    | some oX =>
      rw [hx] at hout
      simp only [Option.map_some', Option.some.injEq, outcome, flagConflict, Prod.mk.injEq] at hout
      obtain ⟨_, h2, h3⟩ := hout
      refine ⟨oX, ?_, h2, ?_⟩
      · rw [runBatch_ops, getElem?_sendResults, hx]
        simp [sendResult, h2]
      · rw [h3, hf2]; rfl
  · rw [runBatch_ops, nonceAt_sendResults, hops, executeBatchOps_skipped env _ s j hadm]
    unfold nonceAt
    rw [hA, hop]
    rfl
  · rw [hvalid]
    intro hm
    have := (List.mem_filter.mp hm).2
    rw [hdup] at this
    simp at this

/-- Witness of C5: the ID `a` is in the metadata cache and in the store; the insert gets the
duplicate-ID error and keeps its empty nonce. -/
theorem duplicate_in_cache_gets_conflict_witness :
    (∃ op1, (runBatch (sampleEnv 0) {}
        (sampleSys 10 [] ["a"] [{ ID := "a", From := "S", Nonce := some 7 }]
          [sampleInsert "a" "S" 100])).2.ops[0]? = some op1 ∧ op1.sentConflict = true ∧
      op1.done = [some (Err.duplicateID "a")]) ∧
    nonceAt (runBatch (sampleEnv 0) {}
        (sampleSys 10 [] ["a"] [{ ID := "a", From := "S", Nonce := some 7 }]
          [sampleInsert "a" "S" 100])).2.ops 0 = none := by
  have h := duplicate_in_cache_gets_conflict (sampleEnv 0) {}
    (sampleSys 10 [] ["a"] [{ ID := "a", From := "S", Nonce := some 7 }]
      [sampleInsert "a" "S" 100]) 0 (sampleInsert "a" "S" 100)
    (fun _ _ => List.Perm.refl _)
    (by intro o ho; simp [sampleSys, sampleInsert] at ho; subst ho; exact ⟨rfl, rfl⟩)
    (by rfl) (by rfl) (by rfl) (by rfl) (by rfl) (by rfl)
  exact ⟨h.1, h.2.1⟩

/-- Counterexample to C5 as stated: the ID `a` exists in the store but not in the metadata
cache. The insert is not flagged: it is admitted to the bulk insert, is stamped with the
nonce 100, the bulk insert fails on the duplicate ID, and the completion channel receives
the generic persistence error, not the duplicate-ID error. -/
theorem duplicate_not_in_cache_counterexample :
    (getTransactionByID (sampleSys 10 [] [] [{ ID := "a", From := "S", Nonce := some 7 }]
      [sampleInsert "a" "S" 100]).transactions "a").isSome = true ∧
    (preInsertIdempotencyCheck (sampleEnv 0)
      (classify {} [sampleInsert "a" "S" 100])
      (sampleSys 10 [] [] [{ ID := "a", From := "S", Nonce := some 7 }]
        [sampleInsert "a" "S" 100])).2.1 = [0] ∧
    ((assignNonces (sampleEnv 0) [("S", [0])]
      (sampleSys 10 [] [] [{ ID := "a", From := "S", Nonce := some 7 }]
        [sampleInsert "a" "S" 100])).2.nextNonceCache.peek "S").map (fun e => e.nextNonce) =
      some 101 ∧
    (runBatch (sampleEnv 0) {}
      (sampleSys 10 [] [] [{ ID := "a", From := "S", Nonce := some 7 }]
        [sampleInsert "a" "S" 100])).2.ops.map (fun o => (o.sentConflict, o.done)) =
      [(false, [some Err.transactionPersistenceError])] ∧
    nonceAt (runBatch (sampleEnv 0) {}
      (sampleSys 10 [] [] [{ ID := "a", From := "S", Nonce := some 7 }]
        [sampleInsert "a" "S" 100])).2.ops 0 = some 100 := by
  refine ⟨by rfl, by rfl, by rfl, by rfl, by rfl⟩

/-! ## The check followed by the assignment -/

theorem isInsertOf_flagged (ops ops1 : List TransactionOperation) (signer : String) (i : Nat)
    (h : ops1[i]? = ops[i]? ∨ ops1[i]? = (ops[i]?).map flagConflict) :
    isInsertOf ops1 signer i = isInsertOf ops signer i := by
  unfold isInsertOf
  rcases h with h | h
  · rw [h]
  · rw [h]
    cases ops[i]? with
    | none => rfl
    | some o => rfl

theorem groupsWF_checked (env : Env) (b : TransactionWriterBatch) (s : Sys)
    (gs : List (String × List Nat))
    (hnd : ((env.rangeInserts 0 b.txInsertsByFrom).flatMap Prod.snd).Nodup)
    (hin : ∀ i, i ∈ (env.rangeInserts 0 b.txInsertsByFrom).flatMap Prod.snd →
      ∃ op, s.ops[i]? = some op)
    (hwf : GroupsWF s.ops gs) :
    GroupsWF (preInsertIdempotencyCheck env b s).2.2.ops gs := by
  obtain ⟨_, hany⟩ := preInsertIdempotencyCheck_any env b s hnd hin
  refine ⟨hwf.1, hwf.2.1, fun g hg i hi => ?_⟩
  rw [isInsertOf_flagged s.ops _ g.1 i ?_]
  · exact hwf.2.2 g hg i hi
  · rcases hany i with h | ⟨_, _, h⟩
    · exact Or.inl h
    · exact Or.inr h

theorem inMetaCache_of_duplicate (s : Sys) (j : Nat) (h : isDuplicate s j = true) :
    inMetaCache s j = true := by
  unfold isDuplicate at h
  unfold inMetaCache
  cases hop : s.ops[j]? with
  | none => rw [hop] at h; simp at h
  | some op =>
    rw [hop] at h
    simp only [Bool.and_eq_true] at h
    exact h.1

theorem confirmCall_fresh (s : Sys) (V : List Nat) (j : Nat) (op : TransactionOperation)
    (hin : ∀ i, i ∈ V → ∃ o, s.ops[i]? = some o)
    (hop : s.ops[j]? = some op) (hmeta : inMetaCache s j = false) :
    StoreCall.getTransactionByID op.txID ∉ (V.filter (inMetaCache s)).map (confirmCall s.ops) := by
  intro hm
  obtain ⟨i, hi, hcall⟩ := List.mem_map.mp hm
  obtain ⟨hiV, him⟩ := List.mem_filter.mp hi
  obtain ⟨o, ho⟩ := hin i hiV
  unfold confirmCall at hcall
  rw [ho] at hcall
  simp only [StoreCall.getTransactionByID.injEq] at hcall
  unfold inMetaCache at him hmeta
  rw [ho] at him
  rw [hop] at hmeta
  simp only at him hmeta
  rw [hcall, hmeta] at him
  exact Bool.false_ne_true him

/-- C6 (amended). In `preInsertIdempotencyCheck` followed by `assignNonces`, for a
well-formed map of inserts over operations not yet flagged, when the check returns no error:
an insert is flagged as a conflict exactly when its ID is in the metadata cache and the store
returns a transaction for it; such an insert is sent the duplicate-ID error, is absent from
the list returned for the bulk insert, is left as it is by `assignNonces` (its nonce
included), and `assignNonces` runs exactly as on the map without it; an insert whose ID is
not in the metadata cache is in the returned list and the check makes no store read for its
ID. For a signer whose cache entry is fresh at every clock reading, when the cache has room
for every signer of the batch and the assignment succeeds, the cached `nextNonce` advances by
exactly the number of the signer's inserts that are neither conflicts nor pre-assigned
(up to `2^63`). -/
theorem check_then_assign_effect (env : Env) (b : TransactionWriterBatch) (s : Sys)
    (hrange : ∀ n m, (env.rangeInserts n m).Perm m)
    (hwf : GroupsWF s.ops b.txInsertsByFrom)
    (hfresh : ∀ o, o ∈ s.ops → o.sentConflict = false)
    (hcheck : (preInsertIdempotencyCheck env b s).1 = none) :
    (∀ g, g ∈ b.txInsertsByFrom → ∀ j, j ∈ g.2 → ∀ op, s.ops[j]? = some op →
      (∃ op1, (preInsertIdempotencyCheck env b s).2.2.ops[j]? = some op1 ∧
        (op1.sentConflict = true ↔ isDuplicate s j = true)) ∧
      (isDuplicate s j = true →
        (preInsertIdempotencyCheck env b s).2.2.ops[j]? = some (flagConflict op) ∧
        j ∉ (preInsertIdempotencyCheck env b s).2.1 ∧
        (assignNonces env (env.rangeInserts 1 b.txInsertsByFrom)
          (preInsertIdempotencyCheck env b s).2.2).2.ops[j]? = some (flagConflict op) ∧
        assignNonces env
            ((env.rangeInserts 1 b.txInsertsByFrom).map
              (fun g => (g.1, g.2.filter (fun i => i ≠ j))))
            (preInsertIdempotencyCheck env b s).2.2 =
          assignNonces env (env.rangeInserts 1 b.txInsertsByFrom)
            (preInsertIdempotencyCheck env b s).2.2) ∧
      (inMetaCache s j = false →
        j ∈ (preInsertIdempotencyCheck env b s).2.1 ∧
        StoreCall.getTransactionByID op.txID ∉
          (preInsertIdempotencyCheck env b s).2.2.storeCalls.drop s.storeCalls.length)) ∧
    (∀ signer txs e, (signer, txs) ∈ b.txInsertsByFrom →
      s.nextNonceCache.peek signer = some e →
      (∀ n, env.clock n - e.cachedTime ≤ env.nonceStateTimeout) →
      s.nextNonceCache.items.length + b.txInsertsByFrom.length ≤ s.nextNonceCache.size →
      (assignNonces env (env.rangeInserts 1 b.txInsertsByFrom)
        (preInsertIdempotencyCheck env b s).2.2).1 = none →
      e.nextNonce + (admittedOf (preInsertIdempotencyCheck env b s).2.2.ops txs).length ≤ 2 ^ 63 →
      (assignNonces env (env.rangeInserts 1 b.txInsertsByFrom)
        (preInsertIdempotencyCheck env b s).2.2).2.nextNonceCache.peek signer =
        some { cachedTime := e.cachedTime,
               nextNonce := e.nextNonce +
                 (admittedOf (preInsertIdempotencyCheck env b s).2.2.ops txs).length }) := by
  have hwf0 : GroupsWF s.ops (env.rangeInserts 0 b.txInsertsByFrom) := hwf.perm (hrange 0 _)
  have hwf1 : GroupsWF s.ops (env.rangeInserts 1 b.txInsertsByFrom) := hwf.perm (hrange 1 _)
  have hin := fun i hi => hwf0.in_range i hi
  obtain ⟨hvalid, hcalls, hflag⟩ := preInsertIdempotencyCheck_ok env b s hin hcheck
  obtain ⟨hframe, hany⟩ := preInsertIdempotencyCheck_any env b s hwf0.2.1 hin
  constructor
  · intro g hg j hj op hop
    have hV : j ∈ (env.rangeInserts 0 b.txInsertsByFrom).flatMap Prod.snd :=
      ((hrange 0 _).flatMap_right Prod.snd).symm.subset (List.mem_flatMap.mpr ⟨g, hg, hj⟩)
    have hdupA : isDuplicate s j = true →
        (preInsertIdempotencyCheck env b s).2.2.ops[j]? = some (flagConflict op) := by
      intro hd
      rw [hflag hwf0.2.1 j hV hd, hop]; rfl
    refine ⟨?_, ?_, ?_⟩
    · by_cases hd : isDuplicate s j = true
      · exact ⟨flagConflict op, hdupA hd, by simp [flagConflict, hd]⟩
      · rcases hany j with h | ⟨_, h, _⟩
        · refine ⟨op, by rw [h, hop], ?_⟩
          rw [hfresh op (List.getElem?_mem hop)]
          simp [hd]
        · exact absurd h hd
    · intro hd
      have hadm := admitted_flagged _ j op (hdupA hd)
      refine ⟨hdupA hd, ?_, ?_, assignNonces_skip env _ j _ hadm⟩
      · rw [hvalid]
        intro hm
        have := (List.mem_filter.mp hm).2
        rw [hd] at this
        simp at this
      · rw [assignNonces_skipped_untouched env _ j _ hadm, hdupA hd]
    · intro hmeta
      have hnd : isDuplicate s j = false := by
        cases hd : isDuplicate s j with
        | false => rfl
        | true => rw [inMetaCache_of_duplicate s j hd] at hmeta; exact absurd hmeta (by simp)
      refine ⟨?_, ?_⟩
      · rw [hvalid]
        exact List.mem_filter.mpr ⟨hV, by simp [hnd]⟩
      · rw [hcalls, List.drop_left]
        exact confirmCall_fresh s _ j op hin hop hmeta
  · intro signer txs e hmem hpeek hage hroom hok hbound
    have hwfA := groupsWF_checked env b s _ hwf0.2.1 hin hwf1
    have hmem1 : (signer, txs) ∈ env.rangeInserts 1 b.txInsertsByFrom :=
      (hrange 1 _).symm.subset hmem
    have hlen : (env.rangeInserts 1 b.txInsertsByFrom).length = b.txInsertsByFrom.length :=
      (hrange 1 _).length_eq
    exact (assignNonces_fresh_whole env _ _ signer txs e hwfA hmem1
      (by rw [hframe.nonces]; exact hpeek) hage
      (by rw [hframe.nonces, hlen]; exact hroom) hok hbound).2

/-- Witness of C6: signer `S` has a fresh entry with `nextNonce = 110`; the batch holds an
insert of the stored and cached ID `a` and an insert of the new ID `b`. The first is
flagged and left out, the second is admitted without a store read, and the cached
`nextNonce` advances by one. -/
theorem check_then_assign_effect_witness :
    (preInsertIdempotencyCheck (sampleEnv 5) { txInsertsByFrom := [("S", [0, 1])] }
      (sampleSys 10 [("S", { cachedTime := 5, nextNonce := 110 })] ["a"]
        [{ ID := "a", From := "S", Nonce := some 7 }]
        [sampleInsert "a" "S" 100, sampleInsert "b" "S" 100])).2.2.ops[0]? =
      some (flagConflict (sampleInsert "a" "S" 100)) ∧
    1 ∈ (preInsertIdempotencyCheck (sampleEnv 5) { txInsertsByFrom := [("S", [0, 1])] }
      (sampleSys 10 [("S", { cachedTime := 5, nextNonce := 110 })] ["a"]
        [{ ID := "a", From := "S", Nonce := some 7 }]
        [sampleInsert "a" "S" 100, sampleInsert "b" "S" 100])).2.1 ∧
    (assignNonces (sampleEnv 5) [("S", [0, 1])]
      (preInsertIdempotencyCheck (sampleEnv 5) { txInsertsByFrom := [("S", [0, 1])] }
        (sampleSys 10 [("S", { cachedTime := 5, nextNonce := 110 })] ["a"]
          [{ ID := "a", From := "S", Nonce := some 7 }]
          [sampleInsert "a" "S" 100, sampleInsert "b" "S" 100])).2.2).2.nextNonceCache.peek "S" =
      some { cachedTime := 5, nextNonce := 111 } := by
  have h := check_then_assign_effect (sampleEnv 5) { txInsertsByFrom := [("S", [0, 1])] }
    (sampleSys 10 [("S", { cachedTime := 5, nextNonce := 110 })] ["a"]
      [{ ID := "a", From := "S", Nonce := some 7 }]
      [sampleInsert "a" "S" 100, sampleInsert "b" "S" 100])
    (fun _ _ => List.Perm.refl _) (by unfold GroupsWF; decide)
    (by intro o ho; simp [sampleSys, sampleInsert] at ho; rcases ho with ho | ho <;> subst ho <;> rfl)
    (by rfl)
  have h0 := h.1 ("S", [0, 1]) (by decide) 0 (by decide) (sampleInsert "a" "S" 100) (by rfl)
  have h1 := h.1 ("S", [0, 1]) (by decide) 1 (by decide) (sampleInsert "b" "S" 100) (by rfl)
  exact ⟨(h0.2.1 (by rfl)).1, (h1.2.2 (by rfl)).1,
    h.2 "S" [0, 1] { cachedTime := 5, nextNonce := 110 } (by decide) (by rfl)
      (fun _ => by simp [sampleEnv]) (by decide) (by rfl) (by decide)⟩

/-- Counterexample to C6 as stated: signer `S` has an expired entry with `nextNonce = 5`
and one insert, neither a conflict nor pre-assigned, for which the chain reports 100. The
check and the assignment succeed, and the cached `nextNonce` goes from 5 to 101: it
advances by 96, not by the one insert. -/
theorem check_then_assign_counterexample :
    (sampleSys 10 [("S", { cachedTime := 0, nextNonce := 5 })] [] []
      [sampleInsert "a" "S" 100]).nextNonceCache.peek "S" =
      some { cachedTime := 0, nextNonce := 5 } ∧
    (preInsertIdempotencyCheck (sampleEnv 7200000000000) { txInsertsByFrom := [("S", [0])] }
      (sampleSys 10 [("S", { cachedTime := 0, nextNonce := 5 })] [] []
        [sampleInsert "a" "S" 100])).1 = none ∧
    admittedOf (preInsertIdempotencyCheck (sampleEnv 7200000000000)
      { txInsertsByFrom := [("S", [0])] }
      (sampleSys 10 [("S", { cachedTime := 0, nextNonce := 5 })] [] []
        [sampleInsert "a" "S" 100])).2.2.ops [0] = [0] ∧
    (assignNonces (sampleEnv 7200000000000) [("S", [0])]
      (preInsertIdempotencyCheck (sampleEnv 7200000000000) { txInsertsByFrom := [("S", [0])] }
        (sampleSys 10 [("S", { cachedTime := 0, nextNonce := 5 })] [] []
          [sampleInsert "a" "S" 100])).2.2).1 = none ∧
    ((assignNonces (sampleEnv 7200000000000) [("S", [0])]
      (preInsertIdempotencyCheck (sampleEnv 7200000000000) { txInsertsByFrom := [("S", [0])] }
        (sampleSys 10 [("S", { cachedTime := 0, nextNonce := 5 })] [] []
          [sampleInsert "a" "S" 100])).2.2).2.nextNonceCache.peek "S").map
        (fun e => e.nextNonce) = some 101 := by
  refine ⟨by rfl, by rfl, by rfl, by rfl, by rfl⟩

/-! ## The fresh entry and the order of the stamped nonces -/

/-- C3 (amended). When `assignNonces` takes up the group of a signer whose cache entry is at
most `NonceStateTimeout` old (an age equal to the timeout counts as fresh), the group cannot
fail, every admitted insert is stamped with the entry's current `nextNonce`, which then grows
by one (the inserts get `nextNonce, nextNonce+1, ...` in batch order and the entry ends at
`nextNonce + k`, its `cachedTime` unchanged), and neither a chain callback nor the store is
consulted; this for `nextNonce + k ≤ 2^63`. -/
theorem fresh_entry_serves_inserts (env : Env) (signer : String) (txs : List Nat) (s : Sys)
    (e : NonceCacheEntry)
    (hnd : txs.Nodup) (hins : ∀ i, i ∈ txs → isInsertOf s.ops signer i = true)
    (hsize : 0 < s.nextNonceCache.size)
    (hpeek : s.nextNonceCache.peek signer = some e)
    (hage : env.clock s.clockReads - e.cachedTime ≤ env.nonceStateTimeout)
    (hbound : e.nextNonce + (admittedOf s.ops txs).length ≤ 2 ^ 63) :
    (assignNoncesForSigner env signer txs s).1 = none ∧
    (admittedOf s.ops txs).map (nonceAt (assignNoncesForSigner env signer txs s).2.ops) =
      (List.range' e.nextNonce (admittedOf s.ops txs).length).map
        (fun (v : Nat) => some (v : Int)) ∧
    (assignNoncesForSigner env signer txs s).2.nextNonceCache.peek signer =
      some { cachedTime := e.cachedTime,
             nextNonce := e.nextNonce + (admittedOf s.ops txs).length } ∧
    (assignNoncesForSigner env signer txs s).2.cbCalls = s.cbCalls ∧
    (assignNoncesForSigner env signer txs s).2.storeCalls = s.storeCalls :=
  assignNoncesForSigner_fresh_effect env signer txs s e hnd hins hsize hpeek hage hbound

/-- Witness of C3: the signer's entry holds `nextNonce = 110` and is fresh, the
chain would report 100; the single insert gets 110 and the entry becomes 111. -/
theorem fresh_entry_serves_inserts_witness :
    [0].map (nonceAt (assignNoncesForSigner (sampleEnv 5) "S" [0]
      (sampleSys 10 [("S", { cachedTime := 5, nextNonce := 110 })] [] []
        [sampleInsert "a" "S" 100])).2.ops) = [some 110] ∧
    (assignNoncesForSigner (sampleEnv 5) "S" [0]
      (sampleSys 10 [("S", { cachedTime := 5, nextNonce := 110 })] [] []
        [sampleInsert "a" "S" 100])).2.nextNonceCache.peek "S" =
      some { cachedTime := 5, nextNonce := 111 } ∧
    (assignNoncesForSigner (sampleEnv 5) "S" [0]
      (sampleSys 10 [("S", { cachedTime := 5, nextNonce := 110 })] [] []
        [sampleInsert "a" "S" 100])).2.cbCalls = [] := by
  have h := fresh_entry_serves_inserts (sampleEnv 5) "S" [0]
    (sampleSys 10 [("S", { cachedTime := 5, nextNonce := 110 })] [] []
      [sampleInsert "a" "S" 100])
    { cachedTime := 5, nextNonce := 110 } (by decide) (by decide) (by decide) (by rfl)
    (by decide) (by decide)
  exact ⟨h.2.1, h.2.2.1, h.2.2.2.1⟩

/-- Counterexample to C3 as stated: a fresh entry with `nextNonce = 2^64 - 1`. The insert is
stamped with `-1`, not with `2^64 - 1`, and the entry becomes `0`, not `2^64`. -/
theorem fresh_entry_counterexample :
    (sampleSys 10 [("S", { cachedTime := 5, nextNonce := 2 ^ 64 - 1 })] [] []
        [sampleInsert "a" "S" 100]).nextNonceCache.peek "S" =
      some { cachedTime := 5, nextNonce := 2 ^ 64 - 1 } ∧
    nonceAt (assignNoncesForSigner (sampleEnv 5) "S" [0]
      (sampleSys 10 [("S", { cachedTime := 5, nextNonce := 2 ^ 64 - 1 })] [] []
        [sampleInsert "a" "S" 100])).2.ops 0 = some (-1) ∧
    (assignNoncesForSigner (sampleEnv 5) "S" [0]
      (sampleSys 10 [("S", { cachedTime := 5, nextNonce := 2 ^ 64 - 1 })] [] []
        [sampleInsert "a" "S" 100])).2.nextNonceCache.peek "S" =
      some { cachedTime := 5, nextNonce := 0 } := by
  refine ⟨by rfl, by rfl, by rfl⟩

theorem toInt64_range (n : Nat) : -(2 : Int) ^ 63 ≤ toInt64 n ∧ toInt64 n < 2 ^ 63 := by
  unfold toInt64
  have h : n % 2 ^ 64 < 2 ^ 64 := Nat.mod_lt _ (by decide)
  split <;> constructor <;> omega

theorem lt_of_toInt64_nonneg (n : Nat) (h : n < 2 ^ 64) (h0 : 0 ≤ toInt64 n) : n < 2 ^ 63 := by
  by_contra hge
  rw [toInt64_of_ge n (by omega) h] at h0
  omega

/-- C4. In one run of `assignNonces` over well-formed groups, whatever the signer's cache
entry at the start (absent, fresh or expired), whatever the chain callbacks return and
whether or not the run fails on the way, the entry and the callback values being unsigned
64-bit numbers: the run stamps the first `m` admitted inserts of the signer (neither
pre-assigned nor conflicts), in batch order, all of them when it succeeds, with the nonces
`vs`, and leaves the others untouched; and when none of the stamped nonces is negative, that
is when the values assigned stay below `2^63`, the stamped nonces are strictly increasing in
batch order and hence pairwise distinct. -/
theorem stamped_nonces_strictly_increasing (env : Env) (gs : List (String × List Nat)) (s : Sys)
    (signer : String) (txs : List Nat)
    (hwf : GroupsWF s.ops gs) (hmem : (signer, txs) ∈ gs)
    (hentry : ∀ e, s.nextNonceCache.peek signer = some e → e.nextNonce < 2 ^ 64)
    (hchain : ∀ i c, i ∈ txs → chainValue s.ops i signer = some c → c < 2 ^ 64) :
    ∃ (m : Nat) (vs : List Int),
      vs.length = m ∧ m ≤ (admittedOf s.ops txs).length ∧
      ((assignNonces env gs s).1 = none → m = (admittedOf s.ops txs).length) ∧
      ((admittedOf s.ops txs).take m).map (nonceAt (assignNonces env gs s).2.ops) =
        vs.map some ∧
      (∀ i, i ∈ (admittedOf s.ops txs).drop m →
        (assignNonces env gs s).2.ops[i]? = s.ops[i]?) ∧
      (∀ v, v ∈ vs → -(2 : Int) ^ 63 ≤ v ∧ v < 2 ^ 63) ∧
      ((∀ v, v ∈ vs → 0 ≤ v) → vs.Pairwise (fun a b => a < b) ∧ vs.Nodup) := by
  obtain ⟨ns, h1, h2, h3, h4, h5, h6⟩ := assignNonces_stamps env gs s signer txs hwf hmem
  have hb := h6 hentry hchain
  refine ⟨ns.length, ns.map toInt64, by simp, h1, h2, ?_, h4, ?_, ?_⟩
  · rw [h3, List.map_map]
    rfl
  · intro v hv
    obtain ⟨n, _, rfl⟩ := List.mem_map.mp hv
    exact toInt64_range n
  · intro hnn
    have hs : ∀ n, n ∈ ns → n < 2 ^ 63 := fun n hn =>
      lt_of_toInt64_nonneg n (hb n hn) (hnn _ (List.mem_map.mpr ⟨n, hn, rfl⟩))
    have hpw : (ns.map toInt64).Pairwise (fun a b => a < b) := by
      rw [List.pairwise_map]
      refine (List.Pairwise.and_mem.mp (h5 hs).2.1).imp ?_
      intro a b hab
      obtain ⟨ha, hb1, hlt⟩ := hab
      rw [toInt64_of_lt a (hs a ha), toInt64_of_lt b (hs b hb1)]
      exact Int.ofNat_lt.mpr hlt
    refine ⟨hpw, ?_⟩
    unfold List.Nodup
    exact hpw.imp (fun hab => Int.ne_of_lt hab)

/-- Witness of C4: an expired entry with `nextNonce = 5` and three inserts whose callbacks
report 3, 100 and 7. The run stamps all three, with 5, 100 and 101. -/
theorem stamped_nonces_strictly_increasing_witness :
    (∃ (m : Nat) (vs : List Int),
      vs.length = m ∧ m ≤ (admittedOf sampleExpired.ops [0, 1, 2]).length ∧
      ((assignNonces (sampleEnv 7200000000000) [("S", [0, 1, 2])] sampleExpired).1 = none →
        m = (admittedOf sampleExpired.ops [0, 1, 2]).length) ∧
      ((admittedOf sampleExpired.ops [0, 1, 2]).take m).map
          (nonceAt (assignNonces (sampleEnv 7200000000000) [("S", [0, 1, 2])]
            sampleExpired).2.ops) = vs.map some ∧
      (∀ i, i ∈ (admittedOf sampleExpired.ops [0, 1, 2]).drop m →
        (assignNonces (sampleEnv 7200000000000) [("S", [0, 1, 2])] sampleExpired).2.ops[i]? =
          sampleExpired.ops[i]?) ∧
      (∀ v, v ∈ vs → -(2 : Int) ^ 63 ≤ v ∧ v < 2 ^ 63) ∧
      ((∀ v, v ∈ vs → 0 ≤ v) → vs.Pairwise (fun a b => a < b) ∧ vs.Nodup)) ∧
    (assignNonces (sampleEnv 7200000000000) [("S", [0, 1, 2])] sampleExpired).1 = none ∧
    (admittedOf sampleExpired.ops [0, 1, 2]).map
        (nonceAt (assignNonces (sampleEnv 7200000000000) [("S", [0, 1, 2])]
          sampleExpired).2.ops) = [some 5, some 100, some 101] :=
  ⟨stamped_nonces_strictly_increasing (sampleEnv 7200000000000) [("S", [0, 1, 2])] sampleExpired
    "S" [0, 1, 2] (by unfold GroupsWF; decide) (by decide)
    (by intro e he
        have h : e = { cachedTime := 0, nextNonce := 5 } := by
          have h0 : sampleExpired.nextNonceCache.peek "S" =
              some { cachedTime := 0, nextNonce := 5 } := by rfl
          rw [h0] at he
          exact (Option.some.inj he).symm
        rw [h]
        decide)
    (by intro i c hi hc
        simp only [List.mem_cons, List.mem_singleton, List.not_mem_nil, or_false] at hi
        rcases hi with h | h | h <;> subst h <;>
          simp [chainValue, sampleExpired, sampleSys, sampleInsert] at hc <;> omega),
    by rfl, by rfl⟩

/-! ## Two inserts with one transaction ID -/

theorem runBatch_plain_result (env : Env) (b : TransactionWriterBatch) (s : Sys)
    (hrange : ∀ n m, (env.rangeInserts n m).Perm m)
    (j : Nat) (op : TransactionOperation) (hop : s.ops[j]? = some op)
    (hconf : op.sentConflict = false) (hdone : op.done = [])
    (hdup : isDuplicate s j = false) :
    ∃ op1, (runBatch env b s).2.ops[j]? = some op1 ∧ op1.sentConflict = false ∧
      op1.done = [(runAsGroup env b s).1.map (fun _ => Err.transactionPersistenceError)] := by
  rcases runAsGroup_outcome env b s hrange j with h | ⟨_, hd, _⟩
  · rw [hop] at h
    cases hx : (runAsGroup env b s).2.2.ops[j]? with
    | none => rw [hx] at h; simp at h
    | some oX =>
      rw [hx] at h
      simp only [Option.map_some', Option.some.injEq, outcome, Prod.mk.injEq] at h
      obtain ⟨_, h2, h3⟩ := h
      rw [hconf] at h2
      rw [hdone] at h3
      refine ⟨sendResult ((runAsGroup env b s).1.map (fun _ => Err.transactionPersistenceError)) oX,
        ?_, ?_, ?_⟩
      · rw [runBatch_ops, getElem?_sendResults, hx]; rfl
      · unfold sendResult
        simp only [h2, Bool.false_eq_true, if_false]
      · unfold sendResult
        simp only [h2, Bool.false_eq_true, if_false, h3, List.nil_append]
  · rw [hdup] at hd
    exact absurd hd (by simp)

theorem two_mem_sublist {α : Type} (l : List α) (i j : α) (hi : i ∈ l) (hj : j ∈ l)
    (hne : i ≠ j) : [i, j].Sublist l ∨ [j, i].Sublist l := by
  induction l with
  | nil => simp at hi
  | cons x rest ih =>
    rcases List.mem_cons.mp hi with hix | hir
    · rcases List.mem_cons.mp hj with hjx | hjr
      · exact absurd (hix.trans hjx.symm) hne
      · left
        subst hix
        exact List.Sublist.cons₂ _ (List.singleton_sublist.mpr hjr)
    · rcases List.mem_cons.mp hj with hjx | hjr
      · right
        subst hjx
        exact List.Sublist.cons₂ _ (List.singleton_sublist.mpr hir)
      · exact (ih hir hjr).imp (fun h => h.cons x) (fun h => h.cons x)

theorem bulkInserts_repeated (l : List Nat) (ops : List TransactionOperation) (i j : Nat)
    (id : String) (hi : i ∈ l) (hj : j ∈ l) (hne : i ≠ j)
    (hidi : ((ops[i]?).bind (fun o => o.txInsert)).map (fun t => t.ID) = some id)
    (hidj : ((ops[j]?).bind (fun o => o.txInsert)).map (fun t => t.ID) = some id) :
    ¬ ((bulkInserts l ops).map (fun t => t.ID)).Nodup := by
  intro hnd
  unfold bulkInserts at hnd
  rw [List.map_filterMap] at hnd
  generalize hf : (fun (x : Nat) => Option.map (fun (t : ManagedTX) => t.ID)
    ((ops[x]?).bind (fun (o : TransactionOperation) => o.txInsert))) = f at hnd
  have e1 : f i = some id := by rw [← hf]; exact hidi
  have e2 : f j = some id := by rw [← hf]; exact hidj
  have hsub : [id, id].Sublist (l.filterMap f) := by
    rcases two_mem_sublist l i j hi hj hne with h | h
    · have h3 := h.filterMap f
      simp only [List.filterMap_cons, e1, e2, List.filterMap_nil] at h3
      exact h3
    · have h3 := h.filterMap f
      simp only [List.filterMap_cons, e1, e2, List.filterMap_nil] at h3
      exact h3
  have := hnd.sublist hsub
  simp at this

theorem insertManyTransactions_repeated (env : Env) (txs : List ManagedTX) (s : Sys)
    (h : ¬ (txs.map (fun t => t.ID)).Nodup) : (insertManyTransactions env txs s).1 ≠ none := by
  unfold insertManyTransactions
  cases hc : storeCall env s (StoreCall.insertManyTransactions txs) with
  | mk e s1 =>
    cases e with
    | some e => simp
    | none =>
      simp only
      rw [if_neg (fun hh => h hh.1)]
      simp

theorem insertID_unstamp (o1 o : TransactionOperation) (h : unstamp o1 = unstamp o) :
    o1.txInsert.map (fun t => t.ID) = o.txInsert.map (fun t => t.ID) := by
  have h1 := congrArg (fun x => x.txInsert.map (fun t => t.ID)) h
  simp only [unstamp, Option.map_map] at h1
  exact h1

theorem assignNonces_insertID (env : Env) (gs : List (String × List Nat)) (s : Sys) (i : Nat) :
    ((((assignNonces env gs s).2.ops[i]?).bind (fun o => o.txInsert)).map (fun t => t.ID)) =
      (((s.ops[i]?).bind (fun o => o.txInsert)).map (fun t => t.ID)) := by
  have h := (assignNonces_frame env gs s).2.1
  have h1 := congrArg (fun l => l[i]?) h
  simp only [List.getElem?_map] at h1
  cases hx : (assignNonces env gs s).2.ops[i]? with
  | none =>
    rw [hx] at h1
    cases hy : s.ops[i]? with
    | none => rfl
    | some o => rw [hy] at h1; simp at h1
  | some o1 =>
    rw [hx] at h1
    cases hy : s.ops[i]? with
    | none => rw [hy] at h1; simp at h1
    | some o =>
      rw [hy] at h1
      simp only [Option.map_some', Option.some.injEq] at h1
      simp only [Option.some_bind]
      exact insertID_unstamp o1 o h1

theorem not_duplicate_of_new (s : Sys) (j : Nat) (op : TransactionOperation)
    (hop : s.ops[j]? = some op) (hnew : getTransactionByID s.transactions op.txID = none) :
    isDuplicate s j = false := by
  unfold isDuplicate
  rw [hop]
  simp [hnew]

theorem check_keeps_new (env : Env) (b : TransactionWriterBatch) (s : Sys)
    (hnd : ((env.rangeInserts 0 b.txInsertsByFrom).flatMap Prod.snd).Nodup)
    (hin : ∀ i, i ∈ (env.rangeInserts 0 b.txInsertsByFrom).flatMap Prod.snd →
      ∃ op, s.ops[i]? = some op)
    (j : Nat) (hdup : isDuplicate s j = false) :
    (preInsertIdempotencyCheck env b s).2.2.ops[j]? = s.ops[j]? := by
  rcases (preInsertIdempotencyCheck_any env b s hnd hin).2 j with h | ⟨_, hd, _⟩
  · exact h
  · rw [hdup] at hd
    exact absurd hd (by simp)

theorem mem_valid_of_new (env : Env) (b : TransactionWriterBatch) (s : Sys)
    (hrange : ∀ n m, (env.rangeInserts n m).Perm m)
    (hcheck : (preInsertIdempotencyCheck env (classify b s.ops) s).1 = none)
    (j : Nat) (op : TransactionOperation) (hop : s.ops[j]? = some op)
    (hins : op.txInsert.isSome = true) (hdup : isDuplicate s j = false) :
    j ∈ (preInsertIdempotencyCheck env (classify b s.ops) s).2.1 := by
  have hwf := classify_wf env b s 0 hrange
  rw [(preInsertIdempotencyCheck_ok env (classify b s.ops) s
    (fun i hi => hwf.in_range i hi) hcheck).1]
  exact List.mem_filter.mpr ⟨classify_visits env b s 0 hrange j op hop hins, by simp [hdup]⟩

theorem insertID_after_assign (env : Env) (b : TransactionWriterBatch) (s : Sys)
    (hrange : ∀ n m, (env.rangeInserts n m).Perm m)
    (j : Nat) (op : TransactionOperation) (tx : ManagedTX) (hop : s.ops[j]? = some op)
    (htx : op.txInsert = some tx) (hdup : isDuplicate s j = false) :
    ((((assignNonces env (env.rangeInserts 1 (classify b s.ops).txInsertsByFrom)
        (preInsertIdempotencyCheck env (classify b s.ops) s).2.2).2.ops[j]?).bind
      (fun o => o.txInsert)).map (fun t => t.ID)) = some tx.ID := by
  have hwf := classify_wf env b s 0 hrange
  rw [assignNonces_insertID, check_keeps_new env _ s hwf.2.1 (fun i hi => hwf.in_range i hi) j hdup,
    hop]
  simp [htx]

theorem executeBatchOps_repeated_fails (env : Env) (b : TransactionWriterBatch) (s : Sys)
    (hrange : ∀ n m, (env.rangeInserts n m).Perm m)
    (i j : Nat) (oi oj : TransactionOperation) (ti tj : ManagedTX) (hne : i ≠ j)
    (hi : s.ops[i]? = some oi) (hj : s.ops[j]? = some oj)
    (hti : oi.txInsert = some ti) (htj : oj.txInsert = some tj) (hid : ti.ID = tj.ID)
    (hdi : isDuplicate s i = false) (hdj : isDuplicate s j = false) :
    (executeBatchOps env (classify b s.ops) s).1 ≠ none := by
  have hvi := fun hc => mem_valid_of_new env b s hrange hc i oi hi (by rw [hti]; rfl) hdi
  have hvj := fun hc => mem_valid_of_new env b s hrange hc j oj hj (by rw [htj]; rfl) hdj
  rcases executeBatchOps_cases env (classify b s.ops) s with
    ⟨e, _, h⟩ | ⟨hc, hv, _⟩ | ⟨e, _, _, _, h⟩ | ⟨hc, _, _, h⟩
  · rw [h]; simp
  · have := hvi hc
    rw [hv] at this
    simp at this
  · rw [h]; simp
  · rw [h]
    have hrep := insertManyTransactions_repeated env
      (bulkInserts (preInsertIdempotencyCheck env (classify b s.ops) s).2.1
        (assignNonces env (env.rangeInserts 1 (classify b s.ops).txInsertsByFrom)
          (preInsertIdempotencyCheck env (classify b s.ops) s).2.2).2.ops)
      (assignNonces env (env.rangeInserts 1 (classify b s.ops).txInsertsByFrom)
        (preInsertIdempotencyCheck env (classify b s.ops) s).2.2).2
      (bulkInserts_repeated _ _ i j ti.ID (hvi hc) (hvj hc) hne
        (insertID_after_assign env b s hrange i oi ti hi hti hdi)
        (by rw [hid]; exact insertID_after_assign env b s hrange j oj tj hj htj hdj))
    cases hins : insertManyTransactions env
      (bulkInserts (preInsertIdempotencyCheck env (classify b s.ops) s).2.1
        (assignNonces env (env.rangeInserts 1 (classify b s.ops).txInsertsByFrom)
          (preInsertIdempotencyCheck env (classify b s.ops) s).2.2).2.ops)
      (assignNonces env (env.rangeInserts 1 (classify b s.ops).txInsertsByFrom)
        (preInsertIdempotencyCheck env (classify b s.ops) s).2.2).2 with
    | mk e2 s3 =>
      rw [hins] at hrep
      cases e2 with
      | none => exact absurd rfl hrep
      | some e => simp

theorem runAsGroup_fails_of_exec (env : Env) (b : TransactionWriterBatch) (s : Sys)
    (h : (executeBatchOps env (classify b s.ops) s).1 ≠ none) : (runAsGroup env b s).1 ≠ none := by
  cases hb : env.beginFault with
  | some e => unfold runAsGroup; rw [hb]; simp
  | none => exact (runAsGroup_begun env b s hb).2.2.2.2.1 h

theorem assignNonces_stamped (env : Env) (gs : List (String × List Nat)) (s : Sys)
    (signer : String) (txs : List Nat) (i : Nat)
    (hwf : GroupsWF s.ops gs) (hmem : (signer, txs) ∈ gs) (hi : i ∈ txs)
    (hadm : admitted s.ops i = true) (hok : (assignNonces env gs s).1 = none) :
    (nonceAt (assignNonces env gs s).2.ops i).isSome = true := by
  obtain ⟨ns, _, hlen, hmap, _, _⟩ := assignNonces_stamps env gs s signer txs hwf hmem
  rw [hlen hok, List.take_of_length_le (Nat.le_refl _)] at hmap
  have hin : i ∈ admittedOf s.ops txs := List.mem_filter.mpr ⟨hi, hadm⟩
  have := List.mem_map_of_mem (nonceAt (assignNonces env gs s).2.ops) hin
  rw [hmap] at this
  obtain ⟨n, _, hn⟩ := List.mem_map.mp this
  rw [← hn]
  rfl

theorem stamped_after_check (env : Env) (b : TransactionWriterBatch) (s : Sys)
    (hrange : ∀ n m, (env.rangeInserts n m).Perm m)
    (j : Nat) (op : TransactionOperation) (hop : s.ops[j]? = some op)
    (hins : op.txInsert.isSome = true) (hdup : isDuplicate s j = false)
    (hconf : op.sentConflict = false) (hpre : op.noncePreAssigned = false)
    (hok : (assignNonces env (env.rangeInserts 1 (classify b s.ops).txInsertsByFrom)
      (preInsertIdempotencyCheck env (classify b s.ops) s).2.2).1 = none) :
    (nonceAt (assignNonces env (env.rangeInserts 1 (classify b s.ops).txInsertsByFrom)
      (preInsertIdempotencyCheck env (classify b s.ops) s).2.2).2.ops j).isSome = true := by
  have hwf0 := classify_wf env b s 0 hrange
  have hwf1 := classify_wf env b s 1 hrange
  have hin := fun i hi => hwf0.in_range i hi
  have hwfA := groupsWF_checked env (classify b s.ops) s _ hwf0.2.1 hin hwf1
  have hkeep := check_keeps_new env (classify b s.ops) s hwf0.2.1 hin j hdup
  cases htx : op.txInsert with
  | none => rw [htx] at hins; simp at hins
  | some tx =>
    have hlt : j < s.ops.length := (List.getElem?_eq_some.mp hop).1
    obtain ⟨txs, h1, h2⟩ := (classify_inserts b s.ops).covers j op tx hlt hop htx
    have hmem : (tx.From, txs) ∈ env.rangeInserts 1 (classify b s.ops).txInsertsByFrom :=
      (hrange 1 _).symm.subset h1
    refine assignNonces_stamped env _ _ tx.From txs j hwfA hmem h2 ?_ hok
    unfold admitted
    rw [hkeep, hop]
    simp [hconf, hpre]

/-- C7 (amended). For every batch that contains two inserts with the same transaction ID,
an ID not yet stored, both queued fresh: when the idempotency check passes, both inserts
are admitted to the bulk insert, so that the list handed to the bulk insert holds the ID
twice, and when the nonce assignment succeeds both are assigned a nonce (unless
pre-assigned); the grouped store transaction then cannot succeed (the bulk insert rejects
the repeated ID), and each of the two receives the generic persistence error on its
completion channel, neither the duplicate-ID conflict. -/
theorem repeated_id_both_admitted (env : Env) (b : TransactionWriterBatch) (s : Sys)
    (i j : Nat) (oi oj : TransactionOperation) (ti tj : ManagedTX)
    (hrange : ∀ n m, (env.rangeInserts n m).Perm m) (hne : i ≠ j)
    (hi : s.ops[i]? = some oi) (hj : s.ops[j]? = some oj)
    (hti : oi.txInsert = some ti) (htj : oj.txInsert = some tj)
    (hidi : oi.txID = ti.ID) (hidj : oj.txID = tj.ID) (hid : ti.ID = tj.ID)
    (hnew : getTransactionByID s.transactions ti.ID = none)
    (hfi : oi.sentConflict = false ∧ oi.done = [])
    (hfj : oj.sentConflict = false ∧ oj.done = []) :
    (runAsGroup env b s).1 ≠ none ∧
    (∃ o1, (runBatch env b s).2.ops[i]? = some o1 ∧ o1.sentConflict = false ∧
      o1.done = [some Err.transactionPersistenceError]) ∧
    (∃ o1, (runBatch env b s).2.ops[j]? = some o1 ∧ o1.sentConflict = false ∧
      o1.done = [some Err.transactionPersistenceError]) ∧
    ((preInsertIdempotencyCheck env (classify b s.ops) s).1 = none →
      i ∈ (preInsertIdempotencyCheck env (classify b s.ops) s).2.1 ∧
      j ∈ (preInsertIdempotencyCheck env (classify b s.ops) s).2.1 ∧
      ¬ ((bulkInserts (preInsertIdempotencyCheck env (classify b s.ops) s).2.1
          (assignNonces env (env.rangeInserts 1 (classify b s.ops).txInsertsByFrom)
            (preInsertIdempotencyCheck env (classify b s.ops) s).2.2).2.ops).map
        (fun t => t.ID)).Nodup ∧
      ((assignNonces env (env.rangeInserts 1 (classify b s.ops).txInsertsByFrom)
          (preInsertIdempotencyCheck env (classify b s.ops) s).2.2).1 = none →
        (oi.noncePreAssigned = false →
          (nonceAt (assignNonces env (env.rangeInserts 1 (classify b s.ops).txInsertsByFrom)
            (preInsertIdempotencyCheck env (classify b s.ops) s).2.2).2.ops i).isSome = true) ∧
        (oj.noncePreAssigned = false →
          (nonceAt (assignNonces env (env.rangeInserts 1 (classify b s.ops).txInsertsByFrom)
            (preInsertIdempotencyCheck env (classify b s.ops) s).2.2).2.ops j).isSome = true))) := by
  have hdi : isDuplicate s i = false :=
    not_duplicate_of_new s i oi hi (by rw [hidi]; exact hnew)
  have hdj : isDuplicate s j = false :=
    not_duplicate_of_new s j oj hj (by rw [hidj, ← hid]; exact hnew)
  have hinsi : oi.txInsert.isSome = true := by rw [hti]; rfl
  have hinsj : oj.txInsert.isSome = true := by rw [htj]; rfl
  have hfail := runAsGroup_fails_of_exec env b s
    (executeBatchOps_repeated_fails env b s hrange i j oi oj ti tj hne hi hj hti htj hid hdi hdj)
  have hsome : (runAsGroup env b s).1.map (fun _ => Err.transactionPersistenceError) =
      some Err.transactionPersistenceError := by
    cases h : (runAsGroup env b s).1 with
    | none => exact absurd h hfail
    | some e => rfl
  refine ⟨hfail, ?_, ?_, fun hc => ⟨?_, ?_, ?_, fun hok => ⟨fun hp => ?_, fun hp => ?_⟩⟩⟩
  · obtain ⟨o1, h1, h2, h3⟩ := runBatch_plain_result env b s hrange i oi hi hfi.1 hfi.2 hdi
    exact ⟨o1, h1, h2, by rw [h3, hsome]⟩
  · obtain ⟨o1, h1, h2, h3⟩ := runBatch_plain_result env b s hrange j oj hj hfj.1 hfj.2 hdj
    exact ⟨o1, h1, h2, by rw [h3, hsome]⟩
  · exact mem_valid_of_new env b s hrange hc i oi hi hinsi hdi
  · exact mem_valid_of_new env b s hrange hc j oj hj hinsj hdj
  · exact bulkInserts_repeated _ _ i j ti.ID
      (mem_valid_of_new env b s hrange hc i oi hi hinsi hdi)
      (mem_valid_of_new env b s hrange hc j oj hj hinsj hdj) hne
      (insertID_after_assign env b s hrange i oi ti hi hti hdi)
      (by rw [hid]; exact insertID_after_assign env b s hrange j oj tj hj htj hdj)
  · exact stamped_after_check env b s hrange i oi hi hinsi hdi hfi.1 hp hok
  · exact stamped_after_check env b s hrange j oj hj hinsj hdj hfj.1 hp hok

/-- Witness of C7: two inserts of the new ID `a` from signer `S`. -/
theorem repeated_id_both_admitted_witness :
    (∃ o1, (runBatch (sampleEnv 0) {}
      (sampleSys 10 [] [] [] [sampleInsert "a" "S" 100, sampleInsert "a" "S" 100])).2.ops[0]? =
        some o1 ∧ o1.sentConflict = false ∧ o1.done = [some Err.transactionPersistenceError]) ∧
    (∃ o1, (runBatch (sampleEnv 0) {}
      (sampleSys 10 [] [] [] [sampleInsert "a" "S" 100, sampleInsert "a" "S" 100])).2.ops[1]? =
        some o1 ∧ o1.sentConflict = false ∧ o1.done = [some Err.transactionPersistenceError]) := by
  have h := repeated_id_both_admitted (sampleEnv 0) {}
    (sampleSys 10 [] [] [] [sampleInsert "a" "S" 100, sampleInsert "a" "S" 100]) 0 1
    (sampleInsert "a" "S" 100) (sampleInsert "a" "S" 100)
    { ID := "a", From := "S" } { ID := "a", From := "S" }
    (fun _ _ => List.Perm.refl _) (by decide) (by rfl) (by rfl) (by rfl) (by rfl) (by rfl)
    (by rfl) (by rfl) (by rfl) ⟨by rfl, by rfl⟩ ⟨by rfl, by rfl⟩
  exact ⟨h.2.1, h.2.2.1⟩

/-- Counterexample to C7 as stated: a batch of two inserts of the new ID `a` from signer
`S`. Both are in the list for the bulk insert, which so holds the ID `a` twice, both are
assigned a nonce (100 and 101), and neither receives the duplicate-ID conflict: both
receive the generic persistence error. -/
theorem repeated_id_counterexample :
    (preInsertIdempotencyCheck (sampleEnv 0)
      (classify {} [sampleInsert "a" "S" 100, sampleInsert "a" "S" 100])
      (sampleSys 10 [] [] [] [sampleInsert "a" "S" 100, sampleInsert "a" "S" 100])).2.1 =
      [0, 1] ∧
    (bulkInserts [0, 1]
      (assignNonces (sampleEnv 0) [("S", [0, 1])]
        (sampleSys 10 [] [] []
          [sampleInsert "a" "S" 100, sampleInsert "a" "S" 100])).2.ops).map (fun t => t.ID) =
      ["a", "a"] ∧
    [0, 1].map (nonceAt (runBatch (sampleEnv 0) {}
      (sampleSys 10 [] [] [] [sampleInsert "a" "S" 100, sampleInsert "a" "S" 100])).2.ops) =
      [some 100, some 101] ∧
    (runBatch (sampleEnv 0) {}
      (sampleSys 10 [] [] [] [sampleInsert "a" "S" 100, sampleInsert "a" "S" 100])).2.ops.map
        (fun o => (o.sentConflict, o.done)) =
      [(false, [some Err.transactionPersistenceError]),
       (false, [some Err.transactionPersistenceError])] := by
  refine ⟨by rfl, by rfl, by rfl, by rfl⟩

/-- Witness of C8: a batch with an insert of the stored and cached ID `a` and an insert of
the new ID `b`; the first receives the duplicate-ID error, the second nil. -/
theorem runBatch_sends_one_result_witness :
    (runBatch (sampleEnv 0) {}
      (sampleSys 10 [] ["a"] [{ ID := "a", From := "S", Nonce := some 7 }]
        [sampleInsert "a" "S" 100, sampleInsert "b" "S" 100])).2.ops.length = 2 ∧
    (∀ (j : Nat) (op1 : TransactionOperation),
      (runBatch (sampleEnv 0) {}
        (sampleSys 10 [] ["a"] [{ ID := "a", From := "S", Nonce := some 7 }]
          [sampleInsert "a" "S" 100, sampleInsert "b" "S" 100])).2.ops[j]? = some op1 →
      op1.done =
        [match op1.sentConflict, (runAsGroup (sampleEnv 0) {}
            (sampleSys 10 [] ["a"] [{ ID := "a", From := "S", Nonce := some 7 }]
              [sampleInsert "a" "S" 100, sampleInsert "b" "S" 100])).1 with
          | true, _ => some (Err.duplicateID op1.txID)
          | false, none => none
          | false, some _ => some Err.transactionPersistenceError]) ∧
    (runBatch (sampleEnv 0) {}
      (sampleSys 10 [] ["a"] [{ ID := "a", From := "S", Nonce := some 7 }]
        [sampleInsert "a" "S" 100, sampleInsert "b" "S" 100])).2.ops.map (fun o => o.done) =
      [[some (Err.duplicateID "a")], [none]] := by
  have h := runBatch_sends_one_result (sampleEnv 0) {}
    (sampleSys 10 [] ["a"] [{ ID := "a", From := "S", Nonce := some 7 }]
      [sampleInsert "a" "S" 100, sampleInsert "b" "S" 100])
    (fun _ _ => List.Perm.refl _)
    (by intro o ho; simp [sampleSys, sampleInsert] at ho
        rcases ho with ho | ho <;> subst ho <;> exact ⟨rfl, rfl⟩)
  exact ⟨h.1, h.2, by rfl⟩

/-! ## The nonce cache after a failed batch -/

theorem mapAppend_nonempty (m : List (String × List Nat)) (k : String) (i : Nat)
    (h : ∀ g, g ∈ m → g.2 ≠ []) : ∀ g, g ∈ mapAppend m k i → g.2 ≠ [] := by
  induction m with
  | nil =>
    intro g hg
    simp only [mapAppend, List.mem_singleton] at hg
    subst hg
    simp
  | cons e rest ih =>
    obtain ⟨k1, is⟩ := e
    intro g hg
    unfold mapAppend at hg
    by_cases hk : (k1 == k) = true
    · rw [if_pos hk] at hg
      rcases List.mem_cons.mp hg with hg | hg
      · subst hg; simp
      · exact h g (List.mem_cons_of_mem _ hg)
    · rw [if_neg hk] at hg
      rcases List.mem_cons.mp hg with hg | hg
      · subst hg; exact h (k1, is) (List.mem_cons_self _ _)
      · exact ih (fun g1 hg1 => h g1 (List.mem_cons_of_mem _ hg1)) g hg

theorem classifyFrom_nonempty (rest : List TransactionOperation) :
    ∀ (i : Nat) (b : TransactionWriterBatch), (∀ g, g ∈ b.txInsertsByFrom → g.2 ≠ []) →
      ∀ g, g ∈ (classifyFrom i rest b).txInsertsByFrom → g.2 ≠ [] := by
  induction rest with
  | nil => intro i b h; exact h
  | cons op rest ih =>
    intro i b h
    unfold classifyFrom
    apply ih
    rw [classifyOp_inserts]
    cases op.txInsert with
    | none => exact h
    | some tx => exact mapAppend_nonempty _ _ _ h

theorem classify_key_has_insert (b : TransactionWriterBatch) (ops : List TransactionOperation)
    (k : String) (hk : k ∈ (classify b ops).txInsertsByFrom.map Prod.fst) :
    ∃ (j : Nat) (op : TransactionOperation) (tx : ManagedTX),
      ops[j]? = some op ∧ op.txInsert = some tx ∧ tx.From = k := by
  obtain ⟨g, hg, hgk⟩ := List.mem_map.mp hk
  have hne : g.2 ≠ [] := classifyFrom_nonempty ops 0 _ (by intro g hg; simp at hg) g hg
  obtain ⟨j, hj⟩ := List.exists_mem_of_ne_nil _ hne
  have hins := (classify_inserts b ops).wf.2.2 g hg j hj
  unfold isInsertOf at hins
  cases hop : ops[j]? with
  | none => rw [hop] at hins; simp at hins
  | some op =>
    rw [hop] at hins
    simp only at hins
    cases htx : op.txInsert with
    | none => rw [htx] at hins; simp at hins
    | some tx =>
      rw [htx] at hins
      simp only [beq_iff_eq] at hins
      exact ⟨j, op, tx, hop, htx, hins.trans hgk⟩

theorem runBatch_failed (env : Env) (b : TransactionWriterBatch) (s : Sys)
    (hfail : (runAsGroup env b s).1 ≠ none) :
    (runBatch env b s).2.nextNonceCache =
      (clearCachedNonces env (runAsGroup env b s).2.1.txInsertsByFrom
        (runAsGroup env b s).2.2).nextNonceCache ∧
    (runBatch env b s).2.cbCalls = (runAsGroup env b s).2.2.cbCalls := by
  unfold runBatch
  cases h : runAsGroup env b s with
  | mk e r =>
    obtain ⟨b1, s1⟩ := r
    rw [h] at hfail
    cases e with
    | none => exact absurd rfl hfail
    | some e =>
      exact ⟨rfl, (clearCachedNonces_ops env b1.txInsertsByFrom s1).2.1⟩

theorem executeBatchOps_nonces (env : Env) (b : TransactionWriterBatch) (s : Sys)
    (hnd : ((env.rangeInserts 0 b.txInsertsByFrom).flatMap Prod.snd).Nodup)
    (hin : ∀ i, i ∈ (env.rangeInserts 0 b.txInsertsByFrom).flatMap Prod.snd →
      ∃ op, s.ops[i]? = some op) :
    (executeBatchOps env b s).2.nextNonceCache = s.nextNonceCache ∨
    (executeBatchOps env b s).2.nextNonceCache =
      (assignNonces env (env.rangeInserts 1 b.txInsertsByFrom)
        (preInsertIdempotencyCheck env b s).2.2).2.nextNonceCache := by
  have hframe := (preInsertIdempotencyCheck_any env b s hnd hin).1
  rcases executeBatchOps_cases env b s with ⟨e, _, h⟩ | ⟨_, _, h⟩ | ⟨e, _, _, _, h⟩ | ⟨_, _, _, h⟩
  · left; rw [h]; exact hframe.nonces
  · left; rw [h, (executeBatchTail_kept env b _).nonces]; exact hframe.nonces
  · right; rw [h]
  · right
    rw [h]
    have h2 := insertManyTransactions_kept env
      (bulkInserts (preInsertIdempotencyCheck env b s).2.1
        (assignNonces env (env.rangeInserts 1 b.txInsertsByFrom)
          (preInsertIdempotencyCheck env b s).2.2).2.ops)
      (assignNonces env (env.rangeInserts 1 b.txInsertsByFrom)
        (preInsertIdempotencyCheck env b s).2.2).2
    cases hi : insertManyTransactions env
      (bulkInserts (preInsertIdempotencyCheck env b s).2.1
        (assignNonces env (env.rangeInserts 1 b.txInsertsByFrom)
          (preInsertIdempotencyCheck env b s).2.2).2.ops)
      (assignNonces env (env.rangeInserts 1 b.txInsertsByFrom)
        (preInsertIdempotencyCheck env b s).2.2).2 with
    | mk e2 sC =>
      rw [hi] at h2
      cases e2 with
      | some e => exact h2.nonces
      | none =>
        simp only
        exact ((h2.kept_trans (primeMetaCache_kept env _ sC)).kept_trans
          (executeBatchTail_kept env b _)).nonces

theorem executeBatchOps_peek_other (env : Env) (b : TransactionWriterBatch) (s : Sys) (k : String)
    (hwf0 : GroupsWF s.ops (env.rangeInserts 0 b.txInsertsByFrom))
    (hk : k ∉ (env.rangeInserts 1 b.txInsertsByFrom).map Prod.fst) :
    ((executeBatchOps env b s).2.nextNonceCache.peek k = s.nextNonceCache.peek k ∨
      (executeBatchOps env b s).2.nextNonceCache.peek k = none) ∧
    (s.nextNonceCache.items.length + (env.rangeInserts 1 b.txInsertsByFrom).length ≤
        s.nextNonceCache.size →
      (executeBatchOps env b s).2.nextNonceCache.peek k = s.nextNonceCache.peek k) := by
  have hin := fun i hi => hwf0.in_range i hi
  have hframe := (preInsertIdempotencyCheck_any env b s hwf0.2.1 hin).1
  have hfr := (assignNonces_frame env (env.rangeInserts 1 b.txInsertsByFrom)
    (preInsertIdempotencyCheck env b s).2.2).2.2.2.2.2 k hk
  rw [hframe.nonces] at hfr
  rcases executeBatchOps_nonces env b s hwf0.2.1 hin with h | h
  · rw [h]
    exact ⟨Or.inl rfl, fun _ => rfl⟩
  · rw [h]
    refine ⟨hfr, fun hroom => ?_⟩
    cases hp : s.nextNonceCache.peek k with
    | none =>
      rcases hfr with h1 | h1
      · rw [h1, hp]
      · exact h1
    | some v =>
      obtain ⟨hrec, hpos⟩ := LRU.recent_of_peek s.nextNonceCache k v hp
      have hrec1 := assignNonces_recent env k (env.rangeInserts 1 b.txInsertsByFrom)
        (s.nextNonceCache.items.length - 1) (preInsertIdempotencyCheck env b s).2.2 hk
        (by rw [hframe.nonces]; exact hrec) (by rw [hframe.nonces]; omega)
      rcases hfr with h1 | h1
      · rw [h1, hp]
      · exact absurd h1 (LRU.peek_ne_none_of_recent _ k hrec1)

/-- C9 (amended). After `runBatch` fails for a batch whose grouped store transaction had
begun: for every insert of the batch, the nonce cache holds no entry for its signer `S`, and
the next `assignNonces` run, on whatever operations, either invokes the chain callback for
`S` or leaves `S` without an entry and the inserts of `S` as they were (no nonce assigned);
the entry of a signer with no insert in the batch is as before or was evicted from the
cache, and is as before when the cache has room for its entries and the signers of the
batch. -/
theorem failed_batch_clears_signers (env : Env) (b : TransactionWriterBatch) (s : Sys)
    (hrange : ∀ n m, (env.rangeInserts n m).Perm m)
    (hbegin : env.beginFault = none)
    (hfail : (runAsGroup env b s).1 ≠ none) :
    (∀ (j : Nat) (op : TransactionOperation) (tx : ManagedTX),
      s.ops[j]? = some op → op.txInsert = some tx →
      (runBatch env b s).2.nextNonceCache.peek tx.From = none ∧
      ∀ (env1 : Env) (ops1 : List TransactionOperation) (gs : List (String × List Nat)),
        (gs.map Prod.fst).Nodup → (gs.flatMap Prod.snd).Nodup →
        tx.From ∈ (assignNonces env1 gs { (runBatch env b s).2 with ops := ops1 }).2.cbCalls.drop
            (runBatch env b s).2.cbCalls.length ∨
        ((assignNonces env1 gs
            { (runBatch env b s).2 with ops := ops1 }).2.nextNonceCache.peek tx.From = none ∧
          ∀ txs, (tx.From, txs) ∈ gs → ∀ i, i ∈ txs →
            (assignNonces env1 gs { (runBatch env b s).2 with ops := ops1 }).2.ops[i]? =
              ops1[i]?)) ∧
    (∀ k : String,
      (∀ (j : Nat) (op : TransactionOperation) (tx : ManagedTX),
        s.ops[j]? = some op → op.txInsert = some tx → tx.From ≠ k) →
      ((runBatch env b s).2.nextNonceCache.peek k = s.nextNonceCache.peek k ∨
        (runBatch env b s).2.nextNonceCache.peek k = none) ∧
      (s.nextNonceCache.items.length + (classify b s.ops).txInsertsByFrom.length ≤
          s.nextNonceCache.size →
        (runBatch env b s).2.nextNonceCache.peek k = s.nextNonceCache.peek k)) := by
  obtain ⟨hb1, _, hnon, _, _, _⟩ := runAsGroup_begun env b s hbegin
  obtain ⟨hrn, _⟩ := runBatch_failed env b s hfail
  constructor
  · intro j op tx hop htx
    have hlt : j < s.ops.length := (List.getElem?_eq_some.mp hop).1
    obtain ⟨txs, h1, _⟩ := (classify_inserts b s.ops).covers j op tx hlt hop htx
    have hkey : tx.From ∈ (env.rangeInserts 2 (classify b s.ops).txInsertsByFrom).map Prod.fst :=
      List.mem_map.mpr ⟨(tx.From, txs), (hrange 2 _).symm.subset h1, rfl⟩
    have hnone : (runBatch env b s).2.nextNonceCache.peek tx.From = none := by
      rw [hrn, clearCachedNonces_peek, hb1, if_pos hkey]
    refine ⟨hnone, fun env1 ops1 gs hk hp => ?_⟩
    exact assignNonces_absent_quiet env1 tx.From gs
      { (runBatch env b s).2 with ops := ops1 } hk hp hnone
  · intro k hk
    have hk0 : k ∉ (classify b s.ops).txInsertsByFrom.map Prod.fst := by
      intro hmem
      obtain ⟨j, op, tx, hop, htx, hfrom⟩ := classify_key_has_insert b s.ops k hmem
      exact hk j op tx hop htx hfrom
    have hk1 : k ∉ (env.rangeInserts 1 (classify b s.ops).txInsertsByFrom).map Prod.fst :=
      fun hm => hk0 (((hrange 1 _).map Prod.fst).subset hm)
    have hk2 : k ∉ (env.rangeInserts 2 (classify b s.ops).txInsertsByFrom).map Prod.fst :=
      fun hm => hk0 (((hrange 2 _).map Prod.fst).subset hm)
    have hpk : (runBatch env b s).2.nextNonceCache.peek k =
        (executeBatchOps env (classify b s.ops) s).2.nextNonceCache.peek k := by
      rw [hrn, clearCachedNonces_peek, hb1, if_neg hk2, hnon]
    rw [hpk]
    have h := executeBatchOps_peek_other env (classify b s.ops) s k
      (classify_wf env b s 0 hrange) hk1
    rw [(hrange 1 _).length_eq] at h
    exact h

/-- Witness of C9: signer `S` has a fresh entry, the store already holds the ID `a` (unknown
to the metadata cache), and the batch inserts `a` for `S`: the bulk insert fails and the
entry of `S` is gone. -/
theorem failed_batch_clears_signers_witness :
    (sampleSys 10 [("S", { cachedTime := 0, nextNonce := 5 })] []
      [{ ID := "a", From := "S", Nonce := some 4 }]
      [sampleInsert "a" "S" 100]).nextNonceCache.peek "S" =
      some { cachedTime := 0, nextNonce := 5 } ∧
    (runBatch (sampleEnv 0) {}
      (sampleSys 10 [("S", { cachedTime := 0, nextNonce := 5 })] []
        [{ ID := "a", From := "S", Nonce := some 4 }]
        [sampleInsert "a" "S" 100])).2.nextNonceCache.peek "S" = none := by
  have h := failed_batch_clears_signers (sampleEnv 0) {}
    (sampleSys 10 [("S", { cachedTime := 0, nextNonce := 5 })] []
      [{ ID := "a", From := "S", Nonce := some 4 }] [sampleInsert "a" "S" 100])
    (fun _ _ => List.Perm.refl _) (by rfl) (by decide)
  exact ⟨by rfl, (h.1 0 (sampleInsert "a" "S" 100) { ID := "a", From := "S" } (by rfl) (by rfl)).1⟩

/-- Counterexample to C9 as stated. First, a batch with an insert for `S`, who has a cache
entry, whose grouped store transaction fails to begin: `runBatch` fails and the entry of `S`
is still there. Second, a nonce cache of one slot that holds the entry of `B`, and a batch
with one insert for `A` whose bulk insert fails (the ID is already stored): `B` has no insert
in the batch and its entry is gone. -/
theorem failed_batch_counterexample :
    ((runAsGroup { beginFault := some (Err.other 1) } {}
      (sampleSys 10 [("S", { cachedTime := 0, nextNonce := 5 })] [] []
        [sampleInsert "a" "S" 100])).1 = some (Err.other 1) ∧
      (runBatch { beginFault := some (Err.other 1) } {}
        (sampleSys 10 [("S", { cachedTime := 0, nextNonce := 5 })] [] []
          [sampleInsert "a" "S" 100])).2.nextNonceCache.peek "S" =
        some { cachedTime := 0, nextNonce := 5 }) ∧
    ((runAsGroup (sampleEnv 0) {}
      (sampleSys 1 [("B", { cachedTime := 0, nextNonce := 5 })] []
        [{ ID := "a", From := "A", Nonce := some 4 }]
        [sampleInsert "a" "A" 100])).1 = some Err.uniqueViolation ∧
      (sampleSys 1 [("B", { cachedTime := 0, nextNonce := 5 })] []
        [{ ID := "a", From := "A", Nonce := some 4 }]
        [sampleInsert "a" "A" 100]).nextNonceCache.peek "B" =
        some { cachedTime := 0, nextNonce := 5 } ∧
      (runBatch (sampleEnv 0) {}
        (sampleSys 1 [("B", { cachedTime := 0, nextNonce := 5 })] []
          [{ ID := "a", From := "A", Nonce := some 4 }]
          [sampleInsert "a" "A" 100])).2.nextNonceCache.peek "B" = none) := by
  refine ⟨⟨by rfl, by rfl⟩, by rfl, by rfl, by rfl⟩

/-! ## A failing chain callback -/

theorem assignNoncesForSigner_callback_error (env : Env) (signer : String) (txs : List Nat)
    (s : Sys) (i : Nat) (rest : List Nat) (e : Err)
    (hstale : ∀ ce, s.nextNonceCache.peek signer = some ce →
      env.clock s.clockReads - ce.cachedTime > env.nonceStateTimeout)
    (hadm : admittedOf s.ops txs = i :: rest)
    (hcb : chainError s.ops i signer = some e) :
    (assignNoncesForSigner env signer txs s).1 = some e := by
  obtain ⟨op, hop, hcb1⟩ := chainError_eq_some hcb
  obtain ⟨hi0, _⟩ := admittedOf_tail hadm
  obtain ⟨hp, hc⟩ := admitted_eq_true hi0 hop
  unfold assignNoncesForSigner
  cases hpeek : s.nextNonceCache.peek signer with
  | none =>
    have hget : s.nextNonceCache.get signer = (none, s.nextNonceCache) := by
      unfold LRU.get; rw [hpeek]
    rw [hget]
    simp only
    rw [assignNoncesToOps_admitted, hadm, assignNoncesToOps, hop]
    simp only [hp, hc, Bool.false_eq_true, if_false]
    rw [reconcileNonce_error env signer op _ none e hcb1]
  | some ce =>
    have hget : s.nextNonceCache.get signer = (some ce, s.nextNonceCache.touch signer ce) := by
      unfold LRU.get; rw [hpeek]
    rw [hget]
    simp only [readClock]
    have hexp : decide (env.clock s.clockReads - ce.cachedTime > env.nonceStateTimeout) = true :=
      decide_eq_true (hstale ce hpeek)
    rw [hexp, assignNoncesToOps_admitted]
    simp only [hadm]
    rw [assignNoncesToOps]
    simp only [hop, hp, hc, Bool.false_eq_true, if_false]
    rw [reconcileNonce_error env signer op _ (some ce) e hcb1]

theorem chainError_flagged (ops ops1 : List TransactionOperation) (signer : String) (i : Nat)
    (h : ops1[i]? = ops[i]? ∨ ops1[i]? = (ops[i]?).map flagConflict) :
    chainError ops1 i signer = chainError ops i signer := by
  unfold chainError
  rcases h with h | h
  · rw [h]
  · rw [h]
    cases ops[i]? with
    | none => rfl
    | some o => rfl

theorem runAsGroup_error (env : Env) (b : TransactionWriterBatch) (s : Sys) (e : Err)
    (hbegin : env.beginFault = none)
    (h : (executeBatchOps env (classify b s.ops) s).1 = some e) :
    (runAsGroup env b s).1 = some e := by
  unfold runAsGroup
  rw [hbegin]
  simp only
  cases he : executeBatchOps env (classify b s.ops) s with
  | mk e1 s1 =>
    rw [he] at h
    simp only at h
    subst h
    rfl

/-- C10 (amended). On the relational backend, when the chain callback fails with `e` while
a nonce is being assigned to an insert (the grouped store transaction has begun, the
idempotency check and the groups of the signers taken before have succeeded, the signer's
cache entry is absent or expired, and the insert is the signer's first that is neither
pre-assigned nor a conflict), `assignNonces`, `executeBatchOps` and the grouped transaction
return `e` unchanged, and `runBatch` delivers on that insert's completion channel the one
generic persistence error, not the callback's error. -/
theorem callback_error_becomes_generic (env : Env) (b : TransactionWriterBatch) (s : Sys)
    (pre post : List (String × List Nat)) (signer : String) (txs : List Nat)
    (i : Nat) (rest : List Nat) (e : Err)
    (hrange : ∀ n m, (env.rangeInserts n m).Perm m)
    (hfresh : ∀ o, o ∈ s.ops → o.sentConflict = false ∧ o.done = [])
    (hbegin : env.beginFault = none)
    (hcheck : (preInsertIdempotencyCheck env (classify b s.ops) s).1 = none)
    (hsplit : env.rangeInserts 1 (classify b s.ops).txInsertsByFrom =
      pre ++ (signer, txs) :: post)
    (hpre : (assignNonces env pre (preInsertIdempotencyCheck env (classify b s.ops) s).2.2).1 =
      none)
    (hstale : ∀ ce,
      (assignNonces env pre
        (preInsertIdempotencyCheck env (classify b s.ops) s).2.2).2.nextNonceCache.peek signer =
        some ce →
      env.clock (assignNonces env pre
        (preInsertIdempotencyCheck env (classify b s.ops) s).2.2).2.clockReads - ce.cachedTime >
        env.nonceStateTimeout)
    (hadm : admittedOf (preInsertIdempotencyCheck env (classify b s.ops) s).2.2.ops txs =
      i :: rest)
    (hcb : chainError s.ops i signer = some e) :
    (assignNonces env (env.rangeInserts 1 (classify b s.ops).txInsertsByFrom)
      (preInsertIdempotencyCheck env (classify b s.ops) s).2.2).1 = some e ∧
    (executeBatchOps env (classify b s.ops) s).1 = some e ∧
    (runAsGroup env b s).1 = some e ∧
    ∃ o1, (runBatch env b s).2.ops[i]? = some o1 ∧ o1.sentConflict = false ∧
      o1.done = [some Err.transactionPersistenceError] := by
  have hwf0 := classify_wf env b s 0 hrange
  have hin := fun j hj => hwf0.in_range j hj
  obtain ⟨hvalid, _, hflag⟩ := preInsertIdempotencyCheck_ok env (classify b s.ops) s hin hcheck
  obtain ⟨_, hany⟩ := preInsertIdempotencyCheck_any env (classify b s.ops) s hwf0.2.1 hin
  obtain ⟨op, hop, _⟩ := chainError_eq_some hcb
  obtain ⟨hf1, hf2⟩ := hfresh op (List.getElem?_mem hop)
  obtain ⟨hiadm, _⟩ := admittedOf_tail hadm
  have hitxs : i ∈ txs := admittedOf_sub _ _ _ (by rw [hadm]; exact List.mem_cons_self _ _)
  have hV : i ∈ (env.rangeInserts 0 (classify b s.ops).txInsertsByFrom).flatMap Prod.snd := by
    have h1 : i ∈ (env.rangeInserts 1 (classify b s.ops).txInsertsByFrom).flatMap Prod.snd := by
      rw [hsplit]
      exact List.mem_flatMap.mpr ⟨(signer, txs), by simp, hitxs⟩
    have h2 := ((hrange 1 (classify b s.ops).txInsertsByFrom).flatMap_right Prod.snd).subset h1
    exact ((hrange 0 (classify b s.ops).txInsertsByFrom).flatMap_right Prod.snd).symm.subset h2
  have hdup : isDuplicate s i = false := by
    cases hd : isDuplicate s i with
    | false => rfl
    | true =>
      have hA : (preInsertIdempotencyCheck env (classify b s.ops) s).2.2.ops[i]? =
          some (flagConflict op) := by
        rw [hflag hwf0.2.1 i hV hd, hop]; rfl
      rw [admitted_flagged _ i op hA] at hiadm
      exact absurd hiadm (by simp)
  have hfr := assignNonces_frame env pre (preInsertIdempotencyCheck env (classify b s.ops) s).2.2
  have hassign : (assignNonces env (env.rangeInserts 1 (classify b s.ops).txInsertsByFrom)
      (preInsertIdempotencyCheck env (classify b s.ops) s).2.2).1 = some e := by
    rw [hsplit, assignNonces_append]
    cases hp : assignNonces env pre (preInsertIdempotencyCheck env (classify b s.ops) s).2.2 with
    | mk e1 s1 =>
      rw [hp] at hpre hstale hfr
      simp only at hpre hstale hfr
      subst hpre
      simp only
      have herr := assignNoncesForSigner_callback_error env signer txs s1 i rest e hstale
        (by rw [admittedOf_of_skeleton hfr.2.1]; exact hadm)
        (by
          rw [chainError_of_skeleton hfr.2.1, chainError_flagged s.ops _ signer i ?_]
          · exact hcb
          · rcases hany i with h | ⟨_, _, h⟩
            · exact Or.inl h
            · exact Or.inr h)
      unfold assignNonces
      cases hg : assignNoncesForSigner env signer txs s1 with
      | mk e2 s2 =>
        rw [hg] at herr
        simp only at herr
        subst herr
        rfl
  have hexec : (executeBatchOps env (classify b s.ops) s).1 = some e := by
    rcases executeBatchOps_cases env (classify b s.ops) s with
      ⟨e1, hc, _⟩ | ⟨_, hv, _⟩ | ⟨e1, _, _, ha, h⟩ | ⟨_, _, ha, _⟩
    · rw [hcheck] at hc
      exact absurd hc (by simp)
    · have hm : i ∈ (preInsertIdempotencyCheck env (classify b s.ops) s).2.1 := by
        rw [hvalid]
        exact List.mem_filter.mpr ⟨hV, by simp [hdup]⟩
      rw [hv] at hm
      simp at hm
    · rw [h]
      rw [hassign] at ha
      exact ha.symm
    · rw [hassign] at ha
      exact absurd ha (by simp)
  have hgroup := runAsGroup_error env b s e hbegin hexec
  refine ⟨hassign, hexec, hgroup, ?_⟩
  obtain ⟨o1, h1, h2, h3⟩ := runBatch_plain_result env b s hrange i op hop hf1 hf2 hdup
  exact ⟨o1, h1, h2, by rw [h3, hgroup]; rfl⟩

/-- Witness of C10: one insert of signer `S`, who has no cache entry, whose chain callback
fails with the error `other 7`. -/
theorem callback_error_becomes_generic_witness :
    (runAsGroup (sampleEnv 0) {}
      (sampleSys 10 [] [] [] [sampleFailingInsert "a" "S" (Err.other 7)])).1 =
      some (Err.other 7) ∧
    ∃ o1, (runBatch (sampleEnv 0) {}
      (sampleSys 10 [] [] [] [sampleFailingInsert "a" "S" (Err.other 7)])).2.ops[0]? = some o1 ∧
      o1.sentConflict = false ∧ o1.done = [some Err.transactionPersistenceError] := by
  have h := callback_error_becomes_generic (sampleEnv 0) {}
    (sampleSys 10 [] [] [] [sampleFailingInsert "a" "S" (Err.other 7)])
    [] [] "S" [0] 0 [] (Err.other 7)
    (fun _ _ => List.Perm.refl _)
    (by intro o ho; simp [sampleSys, sampleFailingInsert] at ho; subst ho; exact ⟨rfl, rfl⟩)
    (by rfl) (by rfl) (by rfl) (by rfl)
    (fun ce hce => Option.noConfusion (hce : (none : Option NonceCacheEntry) = some ce))
    (by rfl) (by rfl)
  exact ⟨h.2.2.1, h.2.2.2⟩

/-- Counterexample to C10 as stated: the chain callback of the one insert of the batch
fails with the error `other 7` while its nonce is being assigned; `assignNonces` returns
that error, and the value delivered on the insert's completion channel is the generic
persistence error, not `other 7`. -/
theorem callback_error_counterexample :
    chainError (sampleSys 10 [] [] []
      [sampleFailingInsert "a" "S" (Err.other 7)]).ops 0 "S" = some (Err.other 7) ∧
    (assignNonces (sampleEnv 0) [("S", [0])]
      (sampleSys 10 [] [] [] [sampleFailingInsert "a" "S" (Err.other 7)])).1 =
      some (Err.other 7) ∧
    (assignNonces (sampleEnv 0) [("S", [0])]
      (sampleSys 10 [] [] [] [sampleFailingInsert "a" "S" (Err.other 7)])).2.cbCalls = ["S"] ∧
    (runBatch (sampleEnv 0) {}
      (sampleSys 10 [] [] [] [sampleFailingInsert "a" "S" (Err.other 7)])).2.ops.map
        (fun o => o.done) = [[some Err.transactionPersistenceError]] ∧
    Err.transactionPersistenceError ≠ Err.other 7 := by
  refine ⟨by rfl, by rfl, by rfl, by rfl, by decide⟩

/-! ## The embedded backend: the signer's slot -/

theorem lookup_mapSet_self {β : Type} (m : List (String × β)) (k : String) (v : β) :
    (mapSet m k v).lookup k = some v := by
  induction m with
  | nil => simp [mapSet, List.lookup_cons]
  | cons e rest ih =>
    obtain ⟨k1, v1⟩ := e
    unfold mapSet
    by_cases h : (k1 == k) = true
    · rw [if_pos h]; simp [List.lookup_cons]
    · rw [if_neg h]
      have h1 : (k == k1) = false := by
        simp only [Bool.not_eq_true, beq_eq_false_iff_ne, ne_eq] at h ⊢
        exact fun hh => h hh.symm
      simp only [List.lookup_cons, h1]
      exact ih

theorem lookup_mapSet_ne {β : Type} (m : List (String × β)) (k k1 : String) (v : β)
    (hne : k1 ≠ k) : (mapSet m k v).lookup k1 = m.lookup k1 := by
  induction m with
  | nil =>
    have h1 : (k1 == k) = false := by simp [hne]
    simp [mapSet, List.lookup_cons, h1]
  | cons e rest ih =>
    obtain ⟨k2, v2⟩ := e
    unfold mapSet
    by_cases h : (k2 == k) = true
    · rw [if_pos h]
      have hk : k2 = k := by simpa using h
      subst hk
      have h1 : (k1 == k2) = false := by simp [hne]
      simp only [List.lookup_cons, h1]
    · rw [if_neg h]
      simp only [List.lookup_cons, ih]

theorem lookup_mapDelete_self {β : Type} (m : List (String × β)) (k : String) :
    (mapDelete m k).lookup k = none :=
  LRU.lookup_filter_self m k

theorem lookup_mapDelete_ne {β : Type} (m : List (String × β)) (k k1 : String) (hne : k1 ≠ k) :
    (mapDelete m k).lookup k1 = m.lookup k1 :=
  LRU.lookup_filter_ne m k k1 hne

theorem complete_open (p : Nat) (ln : LockedNonce) (s : LevelDB)
    (hp : s.locks[p]? = some ln) (hopen : ln.unlockedClosed = false) :
    complete p s =
      some { s with lockedNonces := mapDelete s.lockedNonces ln.signer,
                    locks := s.locks.set p { ln with unlockedClosed := true } } := by
  unfold complete
  rw [hp]
  simp [hopen]

theorem calcNextNonce_locks (env : Env) (signer : String) (cb : String → Except Err Nat)
    (s : LevelDB) :
    (calcNextNonce env signer cb s).2.locks = s.locks ∧
    (calcNextNonce env signer cb s).2.lockedNonces = s.lockedNonces ∧
    (calcNextNonce env signer cb s).2.transactions = s.transactions := by
  unfold calcNextNonce listTransactionsByNonce
  cases env.storeFault s.storeCalls with
  | some e => exact ⟨rfl, rfl, rfl⟩
  | none =>
    simp only
    cases highestNonceTx s.transactions signer with
    | none =>
      simp only [Option.toList, List.head?_nil]
      cases cb signer with
      | error e => exact ⟨rfl, rfl, rfl⟩
      | ok n => exact ⟨rfl, rfl, rfl⟩
    | some tx =>
      simp only [Option.toList, List.head?_cons]
      by_cases hf : env.clock s.clockReads - tx.Created < env.nonceStateTimeout
      · simp only [if_pos hf]
        exact ⟨trivial, trivial, trivial⟩
      · simp only [if_neg hf]
        cases cb signer with
        | error e => exact ⟨rfl, rfl, rfl⟩
        | ok n =>
          simp only
          split <;> exact ⟨rfl, rfl, rfl⟩

theorem calcNextNonce_error_cause (env : Env) (signer : String) (cb : String → Except Err Nat)
    (s : LevelDB) (e : Err) (h : (calcNextNonce env signer cb s).1 = Except.error e) :
    env.storeFault s.storeCalls = some e ∨ cb signer = Except.error e := by
  unfold calcNextNonce listTransactionsByNonce at h
  cases hq : env.storeFault s.storeCalls with
  | some e1 =>
    rw [hq] at h
    simp only [Except.error.injEq] at h
    left; rw [h]
  | none =>
    right
    rw [hq] at h
    simp only at h
    cases hh : highestNonceTx s.transactions signer with
    | none =>
      rw [hh] at h
      simp only [Option.toList, List.head?_nil] at h
      cases hc : cb signer with
      | error e1 =>
        rw [hc] at h
        simp only [Except.error.injEq] at h
        rw [h]
      | ok n => rw [hc] at h; simp at h
    | some tx =>
      rw [hh] at h
      simp only [Option.toList, List.head?_cons] at h
      by_cases hf : env.clock s.clockReads - tx.Created < env.nonceStateTimeout
      · simp [if_pos hf] at h
      · simp only [if_neg hf] at h
        cases hc : cb signer with
        | error e1 =>
          rw [hc] at h
          simp only [Except.error.injEq] at h
          rw [h]
        | ok n =>
          rw [hc] at h
          simp only at h
          split at h <;> simp at h

/-- C11. On the embedded backend, when the caller of `assignAndLockNonce` finds the
signer's slot free and `calcNextNonce` fails with `e` (the error of the store query or of
the chain callback), the call ends with that same error and without a `lockedNonce`, and
the slot is released: `lockedNonces` has no entry for the signer and every entry is as it
was before the call; the `lockedNonce` objects made before are untouched and the channel
of the one made by the call is closed. -/
theorem assignAndLockNonce_releases_on_error (env : Env) (nsOpID signer : String)
    (cb : String → Except Err Nat) (fuel : Nat) (s : LevelDB) (e : Err)
    (hfree : s.lockedNonces.lookup signer = none)
    (hfail : (calcNextNonce env signer cb (lockAttempt nsOpID signer s).2).1 = Except.error e) :
    (assignAndLockNonce env nsOpID signer cb (fuel + 1) s).1 = LockOutcome.failed e ∧
    (env.storeFault s.storeCalls = some e ∨ cb signer = Except.error e) ∧
    (assignAndLockNonce env nsOpID signer cb (fuel + 1) s).2.lockedNonces.lookup signer = none ∧
    (∀ k, (assignAndLockNonce env nsOpID signer cb (fuel + 1) s).2.lockedNonces.lookup k =
      s.lockedNonces.lookup k) ∧
    (∀ (p : Nat) (ln : LockedNonce), s.locks[p]? = some ln →
      (assignAndLockNonce env nsOpID signer cb (fuel + 1) s).2.locks[p]? = some ln) ∧
    (assignAndLockNonce env nsOpID signer cb (fuel + 1) s).2.locks[s.locks.length]? =
      some { nsOpID := nsOpID, signer := signer, unlockedClosed := true } := by
  have hatt : lockAttempt nsOpID signer s =
      (LockAttempt.holder s.locks.length,
        { s with locks := s.locks ++ [{ nsOpID := nsOpID, signer := signer }],
                 lockedNonces := mapSet s.lockedNonces signer s.locks.length }) := by
    unfold lockAttempt; rw [hfree]
  have hcause := calcNextNonce_error_cause env signer cb _ e hfail
  rw [hatt] at hfail hcause
  simp only at hcause
  unfold assignAndLockNonce
  rw [hatt]
  simp only
  unfold holderLookup
  obtain ⟨hl, hm, _⟩ := calcNextNonce_locks env signer cb
    { s with locks := s.locks ++ [{ nsOpID := nsOpID, signer := signer }],
             lockedNonces := mapSet s.lockedNonces signer s.locks.length }
  cases hc : calcNextNonce env signer cb
    { s with locks := s.locks ++ [{ nsOpID := nsOpID, signer := signer }],
             lockedNonces := mapSet s.lockedNonces signer s.locks.length } with
  | mk r s1 =>
    rw [hc] at hfail hl hm
    simp only at hfail hl hm
    subst hfail
    simp only
    have hp : s1.locks[s.locks.length]? =
        some ({ nsOpID := nsOpID, signer := signer } : LockedNonce) := by
      rw [hl]; simp
    rw [complete_open s.locks.length _ s1 hp rfl]
    simp only
    refine ⟨trivial, hcause, ?_, ?_, ?_, ?_⟩
    · rw [hm]; exact lookup_mapDelete_self _ _
    · intro k
      rw [hm]
      by_cases hk : k = signer
      · subst hk; rw [lookup_mapDelete_self, hfree]
      · rw [lookup_mapDelete_ne _ _ _ hk, lookup_mapSet_ne _ _ _ _ hk]
    · intro p ln hpl
      have hlt : p < s.locks.length := (List.getElem?_eq_some.mp hpl).1
      rw [hl, List.getElem?_set_ne (by omega), List.getElem?_append_left hlt]
      exact hpl
    · rw [hl, List.getElem?_set_self (by simp)]

/-- Witness of C11: a free slot and a chain callback that fails with `other 7`, the signer
having no stored transaction. -/
theorem assignAndLockNonce_releases_on_error_witness :
    (assignAndLockNonce {} "op" "S" (fun _ => Except.error (Err.other 7)) 1
      { lockedNonces := [("T", 0)], locks := [{ signer := "T" }] }).1 =
      LockOutcome.failed (Err.other 7) ∧
    (assignAndLockNonce {} "op" "S" (fun _ => Except.error (Err.other 7)) 1
      { lockedNonces := [("T", 0)], locks := [{ signer := "T" }] }).2.lockedNonces =
      [("T", 0)] := by
  have h := assignAndLockNonce_releases_on_error {} "op" "S"
    (fun _ => Except.error (Err.other 7)) 0
    { lockedNonces := [("T", 0)], locks := [{ signer := "T" }] } (Err.other 7)
    (by rfl) (by rfl)
  exact ⟨h.1, by rfl⟩

/-! ## The embedded backend: `calcNextNonce` against its reference -/

/-- C12. When the store query succeeds and the signer's highest stored nonce is below
`2^64 - 1`, `calcNextNonce` returns what the reference returns, and invokes the chain
callback exactly when the reference does: for a highest-nonce stored transaction created
less than `NonceStateTimeout` ago, that nonce plus one without the callback; otherwise the
callback is invoked (its error is returned) and the result is the larger of its value and
the highest stored nonce plus one, the callback's value alone when the signer has no stored
transaction. The stored nonce is the unsigned 64-bit number that `Uint64()` reads: the
value itself when it is in that range, which the last part states, and 0 for a stored value
that is nil, negative or `2^64` or more. -/
theorem calcNextNonce_matches_reference (env : Env) (signer : String)
    (cb : String → Except Err Nat) (s : LevelDB)
    (hq : env.storeFault s.storeCalls = none)
    (hbound : ∀ tx, highestNonceTx s.transactions signer = some tx →
      uint64Of tx.Nonce < 2 ^ 64 - 1) :
    ((calcNextNonce env signer cb s).1 =
      (calcNextNonceRef env.nonceStateTimeout (env.clock s.clockReads)
        ((highestNonceTx s.transactions signer).map (fun tx => (tx.Created, uint64Of tx.Nonce)))
        (cb signer)).1 ∧
    (calcNextNonce env signer cb s).2.cbCalls =
      if (calcNextNonceRef env.nonceStateTimeout (env.clock s.clockReads)
        ((highestNonceTx s.transactions signer).map (fun tx => (tx.Created, uint64Of tx.Nonce)))
        (cb signer)).2 then s.cbCalls ++ [signer] else s.cbCalls) ∧
    (∀ (tx : ManagedTX) (h : Nat), highestNonceTx s.transactions signer = some tx →
      tx.Nonce = some (h : Int) → h < 2 ^ 64 → uint64Of tx.Nonce = h) ∧
    (∀ (tx : ManagedTX), highestNonceTx s.transactions signer = some tx →
      (tx.Nonce = none ∨ ∃ v : Int, tx.Nonce = some v ∧ (v < 0 ∨ 2 ^ 64 ≤ v)) →
      uint64Of tx.Nonce = 0) := by
  refine ⟨?_, ?_, ?_⟩
  swap
  · intro tx h _ hn hlt
    rw [hn]
    unfold uint64Of
    simp only
    rw [if_neg (by omega)]
    exact Int.toNat_ofNat h
  swap
  · intro tx _ hn
    rcases hn with h | ⟨v, h, hv⟩
    · rw [h]; rfl
    · rw [h]
      unfold uint64Of
      simp only
      rw [if_pos hv]
  unfold calcNextNonce listTransactionsByNonce calcNextNonceRef
  rw [hq]
  simp only
  cases hh : highestNonceTx s.transactions signer with
  | none =>
    simp only [Option.toList, List.head?_nil, Option.map_none']
    cases cb signer with
    | error e => exact ⟨rfl, rfl⟩
    | ok n => exact ⟨rfl, rfl⟩
  | some tx =>
    have hb := hbound tx hh
    have hmod : (uint64Of tx.Nonce + 1) % 2 ^ 64 = uint64Of tx.Nonce + 1 :=
      Nat.mod_eq_of_lt (by omega)
    simp only [Option.toList, List.head?_cons, Option.map_some', hmod]
    by_cases hf : env.clock s.clockReads - tx.Created < env.nonceStateTimeout
    · simp only [if_pos hf]
      exact ⟨trivial, by simp⟩
    · simp only [if_neg hf]
      cases cb signer with
      | error e => exact ⟨rfl, rfl⟩
      | ok n =>
        simp only
        by_cases hn : n ≤ uint64Of tx.Nonce
        · simp only [if_pos hn]
          refine ⟨?_, rfl⟩
          show Except.ok (uint64Of tx.Nonce + 1) = Except.ok (max n (uint64Of tx.Nonce + 1))
          rw [Nat.max_eq_right (by omega)]
        · simp only [if_neg hn]
          refine ⟨?_, rfl⟩
          show Except.ok n = Except.ok (max n (uint64Of tx.Nonce + 1))
          rw [Nat.max_eq_left (by omega)]

/-- Witness of C12: the signer's stored nonces go up to 105, the newest transaction is two
hours old, and the chain reports 101; the next nonce is 106. -/
theorem calcNextNonce_matches_reference_witness :
    (calcNextNonce (sampleEnv 7200000000000) "S" (fun _ => Except.ok 101)
      { transactions := [{ ID := "a", From := "S", Nonce := some 104 },
                         { ID := "b", From := "S", Nonce := some 105 }] }).1 = Except.ok 106 ∧
    (calcNextNonce (sampleEnv 7200000000000) "S" (fun _ => Except.ok 101)
      { transactions := [{ ID := "a", From := "S", Nonce := some 104 },
                         { ID := "b", From := "S", Nonce := some 105 }] }).2.cbCalls = ["S"] ∧
    uint64Of (some 105) = 105 := by
  have h := calcNextNonce_matches_reference (sampleEnv 7200000000000) "S"
    (fun _ => Except.ok 101)
    { transactions := [{ ID := "a", From := "S", Nonce := some 104 },
                       { ID := "b", From := "S", Nonce := some 105 }] }
    (by rfl) (by intro tx htx; cases htx; decide)
  exact ⟨h.1.1.trans (by rfl), h.1.2.trans (by rfl),
    h.2.1 { ID := "b", From := "S", Nonce := some 105 } 105 (by rfl) (by rfl) (by decide)⟩

/-! ## The embedded backend: `complete` -/

/-- C15. The method `complete` of a `lockedNonce` that was not completed before returns,
removes the entry of its own signer from `lockedNonces` and closes the channel of the slot,
whatever the flag `spent`, and changes nothing else: the entry of every other signer, the
other `lockedNonce` objects and the other fields of this one are as before. -/
theorem complete_releases_slot (p : Nat) (ln : LockedNonce) (s : LevelDB)
    (hp : s.locks[p]? = some ln) (hopen : ln.unlockedClosed = false) :
    ∃ s1, complete p s = some s1 ∧
      s1.lockedNonces.lookup ln.signer = none ∧
      s1.locks[p]? = some { ln with unlockedClosed := true } ∧
      (∀ k, k ≠ ln.signer → s1.lockedNonces.lookup k = s.lockedNonces.lookup k) ∧
      (∀ q, q ≠ p → s1.locks[q]? = s.locks[q]?) ∧
      s1.transactions = s.transactions ∧ s1.cbCalls = s.cbCalls := by
  have hlt : p < s.locks.length := (List.getElem?_eq_some.mp hp).1
  refine ⟨_, complete_open p ln s hp hopen, ?_, ?_, ?_, ?_, rfl, rfl⟩
  · exact lookup_mapDelete_self _ _
  · simp only
    rw [List.getElem?_set_self hlt]
  · intro k hk
    exact lookup_mapDelete_ne _ _ _ hk
  · intro q hq
    simp only
    rw [List.getElem?_set_ne (fun h => hq h.symm)]

/-- Witness of C15: the slots of `S` and `T` are held and the nonce of `S` was not spent;
`complete` on the `lockedNonce` of `S` leaves the slot of `T` alone. -/
theorem complete_releases_slot_witness :
    ∃ s1, complete 0
        { locks := [{ signer := "S", nonce := 5 }, { signer := "T", spent := true }],
          lockedNonces := [("S", 0), ("T", 1)] } = some s1 ∧
      s1.lockedNonces = [("T", 1)] ∧
      s1.locks = [{ signer := "S", nonce := 5, unlockedClosed := true },
                  { signer := "T", spent := true }] := by
  obtain ⟨s1, h1, _⟩ := complete_releases_slot 0 { signer := "S", nonce := 5 }
    { locks := [{ signer := "S", nonce := 5 }, { signer := "T", spent := true }],
      lockedNonces := [("S", 0), ("T", 1)] } (by rfl) (by rfl)
  refine ⟨s1, h1, ?_, ?_⟩
  · have h2 : complete 0
        { locks := [{ signer := "S", nonce := 5 }, { signer := "T", spent := true }],
          lockedNonces := [("S", 0), ("T", 1)] } =
        some { locks := [{ signer := "S", nonce := 5, unlockedClosed := true },
                         { signer := "T", spent := true }],
               lockedNonces := [("T", 1)] } := by rfl
    rw [h2] at h1
    cases h1
    rfl
  · have h2 : complete 0
        { locks := [{ signer := "S", nonce := 5 }, { signer := "T", spent := true }],
          lockedNonces := [("S", 0), ("T", 1)] } =
        some { locks := [{ signer := "S", nonce := 5, unlockedClosed := true },
                         { signer := "T", spent := true }],
               lockedNonces := [("T", 1)] } := by rfl
    rw [h2] at h1
    cases h1
    rfl

/-! ## The two backends on a single insert -/

theorem calcNextNonce_stale (env : Env) (signer : String) (cb : String → Except Err Nat)
    (s : LevelDB) (c : Nat)
    (hq : env.storeFault s.storeCalls = none) (hcb : cb signer = Except.ok c)
    (hbound : ∀ tx, highestNonceTx s.transactions signer = some tx →
      uint64Of tx.Nonce < 2 ^ 64 - 1)
    (hstale : ∀ tx, highestNonceTx s.transactions signer = some tx →
      env.nonceStateTimeout ≤ env.clock s.clockReads - tx.Created ∨ c ≤ uint64Of tx.Nonce + 1) :
    (calcNextNonce env signer cb s).1 =
      Except.ok (max c ((storeCandidate s.transactions signer).getD 0)) := by
  unfold calcNextNonce listTransactionsByNonce storeCandidate
  rw [hq, hcb]
  simp only
  cases hh : highestNonceTx s.transactions signer with
  | none =>
    simp only [Option.toList, List.head?_nil, Option.map_none', Option.getD_none]
    rw [Nat.max_eq_left (Nat.zero_le _)]
  | some tx =>
    have hb := hbound tx hh
    have hmod : (uint64Of tx.Nonce + 1) % 2 ^ 64 = uint64Of tx.Nonce + 1 :=
      Nat.mod_eq_of_lt (by omega)
    simp only [Option.toList, List.head?_cons, Option.map_some', Option.getD_some, hmod]
    by_cases hf : env.clock s.clockReads - tx.Created < env.nonceStateTimeout
    · simp only [if_pos hf]
      rcases hstale tx hh with h | h
      · omega
      · rw [Nat.max_eq_right h]
    · simp only [if_neg hf]
      by_cases hn : c ≤ uint64Of tx.Nonce
      · simp only [if_pos hn]
        rw [Nat.max_eq_right (by omega)]
      · simp only [if_neg hn]
        rw [Nat.max_eq_left (by omega)]

theorem assignNonces_single (env : Env) (signer : String) (txs : List Nat) (s : Sys) :
    assignNonces env [(signer, txs)] s = assignNoncesForSigner env signer txs s := by
  unfold assignNonces
  cases h : assignNoncesForSigner env signer txs s with
  | mk e s1 =>
    cases e with
    | some e => rfl
    | none => simp only [assignNonces]

/-- C13 (amended). A single insert on the relational backend that starts with no
nonce-cache entry for the signer is assigned the nonce that `calcNextNonce` returns on the
embedded backend for the same stored transactions and the same chain callback, when both
store queries and the callback succeed, the signer's highest-nonce stored transaction, if
there is one, is at least `NonceStateTimeout` old or the chain value is not above its nonce
plus one, and the values stay below `2^63`. Both backends read the stored nonce through
`Uint64()`, as an unsigned 64-bit number, and a stored nonce that is not such a number (nil,
negative, `2^64` or more) as 0: the conditions are on the number so read. -/
theorem backends_agree_unless_fresh (env : Env) (s : Sys) (d : LevelDB) (signer : String)
    (i : Nat) (op : TransactionOperation) (c : Nat)
    (hrows : d.transactions = s.transactions)
    (hpeek : s.nextNonceCache.peek signer = none)
    (hsize : 0 < s.nextNonceCache.size)
    (hop : s.ops[i]? = some op)
    (hins : isInsertOf s.ops signer i = true)
    (hadm : admitted s.ops i = true)
    (hcb : op.nextNonceCB signer = Except.ok c)
    (hqs : env.storeFault s.storeCalls.length = none)
    (hqd : env.storeFault d.storeCalls = none)
    (hbound : ∀ tx, highestNonceTx s.transactions signer = some tx →
      uint64Of tx.Nonce < 2 ^ 63 - 1)
    (hc : c < 2 ^ 63)
    (hstale : ∀ tx, highestNonceTx s.transactions signer = some tx →
      env.nonceStateTimeout ≤ env.clock d.clockReads - tx.Created ∨ c ≤ uint64Of tx.Nonce + 1) :
    ∃ N : Nat, (calcNextNonce env signer op.nextNonceCB d).1 = Except.ok N ∧
      (assignNonces env [(signer, [i])] s).1 = none ∧
      nonceAt (assignNonces env [(signer, [i])] s).2.ops i = some (N : Int) := by
  refine ⟨max c ((storeCandidate s.transactions signer).getD 0), ?_, ?_, ?_⟩
  · rw [← hrows]
    exact calcNextNonce_stale env signer op.nextNonceCB d c hqd hcb
      (fun tx htx => by have := hbound tx (hrows ▸ htx); omega)
      (fun tx htx => hstale tx (hrows ▸ htx))
  · rw [assignNonces_single]
    have hadmOf : admittedOf s.ops [i] = [i] := by simp [admittedOf, hadm]
    have hcv : chainValue s.ops i signer = some c := by
      unfold chainValue; rw [hop]; simp [hcb]
    rw [assignNoncesForSigner_absent env signer [i] s i [] c hpeek hadmOf hcv hqs]
  · rw [assignNonces_single]
    have hadmOf : admittedOf s.ops [i] = [i] := by simp [admittedOf, hadm]
    have hcv : chainValue s.ops i signer = some c := by
      unfold chainValue; rw [hop]; simp [hcb]
    have hok : (assignNoncesForSigner env signer [i] s).1 = none := by
      rw [assignNoncesForSigner_absent env signer [i] s i [] c hpeek hadmOf hcv hqs]
    have hN : max c ((storeCandidate s.transactions signer).getD 0) + (([] : List Nat).length + 1) ≤ 2 ^ 63 := by
      unfold storeCandidate
      cases hh : highestNonceTx s.transactions signer with
      | none => simp only [Option.map_none', Option.getD_none, List.length_nil]; omega
      | some tx =>
        have hb := hbound tx hh
        simp only [Option.map_some', Option.getD_some, List.length_nil]
        have hmod : (uint64Of tx.Nonce + 1) % 2 ^ 64 = uint64Of tx.Nonce + 1 :=
          Nat.mod_eq_of_lt (by omega)
        rw [hmod]
        omega
    have hspec := (assignNoncesForSigner_absent_spec env signer [i] s i [] c _
      (by intro j hj; simp only [List.mem_singleton] at hj; subst hj; exact hins)
      (by simp) hsize hpeek hadmOf hcv hok rfl hN).1
    simpa using hspec

/-- Witness of C13: the store holds a transaction of `S` with nonce 105 that is two hours
old and the chain reports 101; both backends give 106. With a stored nonce of `2^64 + 5`,
which both backends read as 0, two hours old, and a chain value of 3, both give 3. -/
theorem backends_agree_unless_fresh_witness :
    (∃ N : Nat,
      (calcNextNonce (sampleEnv 7200000000000) "S" (sampleInsert "a" "S" 101).nextNonceCB
        { transactions := [{ ID := "old", From := "S", Nonce := some 105 }] }).1 = Except.ok N ∧
      (assignNonces (sampleEnv 7200000000000) [("S", [0])]
        (sampleSys 10 [] [] [{ ID := "old", From := "S", Nonce := some 105 }]
          [sampleInsert "a" "S" 101])).1 = none ∧
      nonceAt (assignNonces (sampleEnv 7200000000000) [("S", [0])]
        (sampleSys 10 [] [] [{ ID := "old", From := "S", Nonce := some 105 }]
          [sampleInsert "a" "S" 101])).2.ops 0 = some (N : Int)) ∧
    (calcNextNonce (sampleEnv 7200000000000) "S" (sampleInsert "a" "S" 101).nextNonceCB
      { transactions := [{ ID := "old", From := "S", Nonce := some 105 }] }).1 =
      Except.ok 106 ∧
    nonceAt (assignNonces (sampleEnv 7200000000000) [("S", [0])]
      (sampleSys 10 [] [] [{ ID := "old", From := "S", Nonce := some 105 }]
        [sampleInsert "a" "S" 101])).2.ops 0 = some 106 ∧
    (∃ N : Nat,
      (calcNextNonce (sampleEnv 7200000000000) "S" (sampleInsert "a" "S" 3).nextNonceCB
        { transactions := [{ ID := "old", From := "S", Nonce := some (2 ^ 64 + 5) }] }).1 =
        Except.ok N ∧
      (assignNonces (sampleEnv 7200000000000) [("S", [0])]
        (sampleSys 10 [] [] [{ ID := "old", From := "S", Nonce := some (2 ^ 64 + 5) }]
          [sampleInsert "a" "S" 3])).1 = none ∧
      nonceAt (assignNonces (sampleEnv 7200000000000) [("S", [0])]
        (sampleSys 10 [] [] [{ ID := "old", From := "S", Nonce := some (2 ^ 64 + 5) }]
          [sampleInsert "a" "S" 3])).2.ops 0 = some (N : Int)) ∧
    nonceAt (assignNonces (sampleEnv 7200000000000) [("S", [0])]
      (sampleSys 10 [] [] [{ ID := "old", From := "S", Nonce := some (2 ^ 64 + 5) }]
        [sampleInsert "a" "S" 3])).2.ops 0 = some 3 :=
  ⟨backends_agree_unless_fresh (sampleEnv 7200000000000)
    (sampleSys 10 [] [] [{ ID := "old", From := "S", Nonce := some 105 }]
      [sampleInsert "a" "S" 101])
    { transactions := [{ ID := "old", From := "S", Nonce := some 105 }] } "S" 0
    (sampleInsert "a" "S" 101) 101 (by rfl) (by rfl) (by decide) (by rfl) (by rfl) (by rfl)
    (by rfl) (by rfl) (by rfl) (by intro tx htx; cases htx; decide) (by decide)
    (by intro tx htx; cases htx; left; decide),
   by rfl, by rfl,
   backends_agree_unless_fresh (sampleEnv 7200000000000)
    (sampleSys 10 [] [] [{ ID := "old", From := "S", Nonce := some (2 ^ 64 + 5) }]
      [sampleInsert "a" "S" 3])
    { transactions := [{ ID := "old", From := "S", Nonce := some (2 ^ 64 + 5) }] } "S" 0
    (sampleInsert "a" "S" 3) 3 (by rfl) (by rfl) (by decide) (by rfl) (by rfl) (by rfl)
    (by rfl) (by rfl) (by rfl) (by intro tx htx; cases htx; decide) (by decide)
    (by intro tx htx; cases htx; left; decide),
   by rfl⟩

/-- Counterexample to C13 as stated: the store holds a transaction of `S` with nonce 5
created at this very moment, and the chain reports 100. With no cache entry for `S` the
relational backend assigns 100 to the insert; `calcNextNonce` of the embedded backend
returns 6 for the same store and callback, without asking the chain. -/
theorem backends_disagree_counterexample :
    (sampleSys 10 [] [] [{ ID := "old", From := "S", Nonce := some 5 }]
      [sampleInsert "a" "S" 100]).nextNonceCache.peek "S" = none ∧
    nonceAt (assignNonces (sampleEnv 0) [("S", [0])]
      (sampleSys 10 [] [] [{ ID := "old", From := "S", Nonce := some 5 }]
        [sampleInsert "a" "S" 100])).2.ops 0 = some 100 ∧
    (calcNextNonce (sampleEnv 0) "S" (sampleInsert "a" "S" 100).nextNonceCB
      { transactions := [{ ID := "old", From := "S", Nonce := some 5 }] }).1 = Except.ok 6 ∧
    (calcNextNonce (sampleEnv 0) "S" (sampleInsert "a" "S" 100).nextNonceCB
      { transactions := [{ ID := "old", From := "S", Nonce := some 5 }] }).2.cbCalls = [] := by
  refine ⟨by rfl, by rfl, by rfl, by rfl⟩

/-! ## The embedded backend: one holder per signer -/

theorem lockInv_init : LockInv {} := by
  refine ⟨fun signer p h => ?_, fun p ln h _ => ?_⟩
  · simp at h
  · simp at h

theorem lockInv_of_eq {s s1 : LevelDB} (h : LockInv s) (hl : s1.locks = s.locks)
    (hm : s1.lockedNonces = s.lockedNonces) : LockInv s1 := by
  unfold LockInv
  rw [hl, hm]
  exact h

theorem lockInv_attempt (nsOpID signer : String) (s : LevelDB) (h : LockInv s) :
    LockInv (lockAttempt nsOpID signer s).2 := by
  unfold lockAttempt
  cases hf : s.lockedNonces.lookup signer with
  | some p => exact h
  | none =>
    refine ⟨fun k p hk => ?_, fun p ln hp hopen => ?_⟩
    · simp only at hk ⊢
      by_cases hks : k = signer
      · subst hks
        rw [lookup_mapSet_self] at hk
        cases hk
        exact ⟨{ nsOpID := nsOpID, signer := k }, by simp, rfl, rfl⟩
      · rw [lookup_mapSet_ne _ _ _ _ hks] at hk
        obtain ⟨ln, h1, h2, h3⟩ := h.1 k p hk
        have hlt : p < s.locks.length := (List.getElem?_eq_some.mp h1).1
        exact ⟨ln, by rw [List.getElem?_append_left hlt]; exact h1, h2, h3⟩
    · simp only at hp ⊢
      by_cases hlt : p < s.locks.length
      · rw [List.getElem?_append_left hlt] at hp
        have hold := h.2 p ln hp hopen
        have hne : ln.signer ≠ signer := by
          intro heq
          rw [heq, hf] at hold
          exact absurd hold (by simp)
        rw [lookup_mapSet_ne _ _ _ _ hne]
        exact hold
      · have hge : s.locks.length ≤ p := by omega
        rw [List.getElem?_append_right hge] at hp
        have hp0 : p - s.locks.length = 0 := by
          by_contra hne
          rw [List.getElem?_eq_none (by simp; omega)] at hp
          exact absurd hp (by simp)
        rw [hp0] at hp
        simp only [List.getElem?_cons_zero, Option.some.injEq] at hp
        subst hp
        have : p = s.locks.length := by omega
        subst this
        exact lookup_mapSet_self _ _ _

theorem lockInv_set (p : Nat) (ln ln1 : LockedNonce) (s : LevelDB) (h : LockInv s)
    (hp : s.locks[p]? = some ln) (hs : ln1.signer = ln.signer)
    (hc : ln1.unlockedClosed = ln.unlockedClosed) :
    LockInv { s with locks := s.locks.set p ln1 } := by
  have hlt : p < s.locks.length := (List.getElem?_eq_some.mp hp).1
  refine ⟨fun k q hk => ?_, fun q l hq hopen => ?_⟩
  · obtain ⟨l, h1, h2, h3⟩ := h.1 k q hk
    by_cases hqp : q = p
    · subst hqp
      rw [hp] at h1
      cases h1
      exact ⟨ln1, by simp only; rw [List.getElem?_set_self hlt], hs.trans h2, hc.trans h3⟩
    · exact ⟨l, by simp only; rw [List.getElem?_set_ne (fun hh => hqp hh.symm)]; exact h1, h2, h3⟩
  · simp only at hq ⊢
    by_cases hqp : q = p
    · subst hqp
      rw [List.getElem?_set_self hlt] at hq
      cases hq
      rw [hs]
      exact h.2 q ln hp (hc ▸ hopen)
    · rw [List.getElem?_set_ne (fun hh => hqp hh.symm)] at hq
      exact h.2 q l hq hopen

theorem lockInv_complete (p : Nat) (s s1 : LevelDB) (h : LockInv s)
    (hc : complete p s = some s1) : LockInv s1 := by
  unfold complete at hc
  cases hp : s.locks[p]? with
  | none => rw [hp] at hc; simp at hc
  | some ln =>
    rw [hp] at hc
    simp only at hc
    by_cases hcl : ln.unlockedClosed = true
    · rw [if_pos hcl] at hc; simp at hc
    · rw [if_neg hcl] at hc
      have hopen : ln.unlockedClosed = false := by simpa using hcl
      simp only [Option.some.injEq] at hc
      subst hc
      have hlt : p < s.locks.length := (List.getElem?_eq_some.mp hp).1
      have hown := h.2 p ln hp hopen
      refine ⟨fun k q hk => ?_, fun q l hq hlo => ?_⟩
      · simp only at hk ⊢
        by_cases hks : k = ln.signer
        · subst hks
          rw [lookup_mapDelete_self] at hk
          exact absurd hk (by simp)
        · rw [lookup_mapDelete_ne _ _ _ hks] at hk
          obtain ⟨l, h1, h2, h3⟩ := h.1 k q hk
          have hqp : q ≠ p := by
            intro hh
            subst hh
            rw [hp] at h1
            cases h1
            exact hks h2.symm
          exact ⟨l, by rw [List.getElem?_set_ne (fun hh => hqp hh.symm)]; exact h1, h2, h3⟩
      · simp only at hq ⊢
        by_cases hqp : q = p
        · subst hqp
          rw [List.getElem?_set_self hlt] at hq
          cases hq
          simp at hlo
        · rw [List.getElem?_set_ne (fun hh => hqp hh.symm)] at hq
          have hold := h.2 q l hq hlo
          have hne : l.signer ≠ ln.signer := by
            intro heq
            rw [heq, hown] at hold
            cases hold
            exact hqp rfl
          rw [lookup_mapDelete_ne _ _ _ hne]
          exact hold

theorem lockInv_lookup (env : Env) (p : Nat) (ln : LockedNonce)
    (cb : String → Except Err Nat) (s : LevelDB) (h : LockInv s)
    (hp : s.locks[p]? = some ln) :
    LockInv (holderLookup env p ln.signer cb s).2 := by
  unfold holderLookup
  obtain ⟨hl, hm, _⟩ := calcNextNonce_locks env ln.signer cb s
  cases hc : calcNextNonce env ln.signer cb s with
  | mk r s1 =>
    rw [hc] at hl hm
    simp only at hl hm
    have h1 : LockInv s1 := lockInv_of_eq h hl hm
    cases r with
    | error e =>
      simp only
      cases hcp : complete p s1 with
      | none => exact h1
      | some s2 => exact lockInv_complete p s1 s2 h1 hcp
    | ok n =>
      simp only
      have hp1 : s1.locks[p]? = some ln := by rw [hl]; exact hp
      rw [hp1]
      exact lockInv_set p ln { ln with nonce := n } s1 h1 hp1 rfl rfl

theorem lockInv_step (env : Env) (s s1 : LevelDB) (h : LockInv s) (hs : LockStep env s s1) :
    LockInv s1 := by
  cases hs with
  | attempt nsOpID signer => exact lockInv_attempt nsOpID signer s h
  | lookup p ln cb _ hp _ => exact lockInv_lookup env p ln cb s h hp
  | release p _ _ hc => exact lockInv_complete p s s1 h hc
  | spend p ln _ hp => exact lockInv_set p ln { ln with spent := true } s h hp rfl rfl
  | store rows => exact lockInv_of_eq h rfl rfl

theorem lockInv_reachable (env : Env) (s : LevelDB) (h : LockReachable env s) : LockInv s := by
  induction h with
  | init => exact lockInv_init
  | step s s1 _ hs ih => exact lockInv_step env s s1 ih hs

/-- C14. In every state of the embedded backend reachable by steps of `assignAndLockNonce`
and of `complete`, each `lockedNonce` being completed at most once: two `lockedNonce`
objects of one signer that are both not completed are the same object; an entry of
`lockedNonces` points to a `lockedNonce` of its signer that is not completed; a caller of
`assignAndLockNonce` becomes the holder exactly in a step in which `lockedNonces` has no
entry for the signer, and that step makes the `lockedNonce` and inserts it as the entry;
while an entry is present the step changes nothing and the caller waits on the channel of
the entry's `lockedNonce`. -/
theorem one_holder_per_signer (env : Env) (s : LevelDB) (h : LockReachable env s) :
    (∀ (p q : Nat) (lp lq : LockedNonce), s.locks[p]? = some lp → s.locks[q]? = some lq →
      lp.unlockedClosed = false → lq.unlockedClosed = false → lp.signer = lq.signer → p = q) ∧
    (∀ (signer : String) (p : Nat), s.lockedNonces.lookup signer = some p →
      ∃ ln, s.locks[p]? = some ln ∧ ln.signer = signer ∧ ln.unlockedClosed = false) ∧
    (∀ (nsOpID signer : String), s.lockedNonces.lookup signer = none →
      (lockAttempt nsOpID signer s).1 = LockAttempt.holder s.locks.length ∧
      (lockAttempt nsOpID signer s).2.lockedNonces.lookup signer = some s.locks.length ∧
      (lockAttempt nsOpID signer s).2.locks[s.locks.length]? =
        some { nsOpID := nsOpID, signer := signer }) ∧
    (∀ (nsOpID signer : String) (p : Nat), s.lockedNonces.lookup signer = some p →
      lockAttempt nsOpID signer s = (LockAttempt.contended p, s) ∧
      ∀ (cb : String → Except Err Nat) (fuel : Nat),
        assignAndLockNonce env nsOpID signer cb (fuel + 1) s = (LockOutcome.blocked p, s)) := by
  have hinv := lockInv_reachable env s h
  refine ⟨?_, hinv.1, ?_, ?_⟩
  · intro p q lp lq hp hq hop hoq hsig
    have h1 := hinv.2 p lp hp hop
    have h2 := hinv.2 q lq hq hoq
    rw [hsig, h2] at h1
    cases h1
    rfl
  · intro nsOpID signer hfree
    unfold lockAttempt
    rw [hfree]
    refine ⟨rfl, lookup_mapSet_self _ _ _, ?_⟩
    simp
  · intro nsOpID signer p hheld
    have hatt : lockAttempt nsOpID signer s = (LockAttempt.contended p, s) := by
      unfold lockAttempt; rw [hheld]
    refine ⟨hatt, fun cb fuel => ?_⟩
    obtain ⟨ln, h1, _, h3⟩ := hinv.1 signer p hheld
    unfold assignAndLockNonce
    rw [hatt]
    simp only [h1, h3, Bool.false_eq_true, if_false]

/-- Witness of C14: the state reached when a first caller took the slot of `S`; a second
caller for `S` waits. -/
theorem one_holder_per_signer_witness :
    assignAndLockNonce {} "op2" "S" (fun _ => Except.ok 7) 1 (lockAttempt "op1" "S" {}).2 =
      (LockOutcome.blocked 0, (lockAttempt "op1" "S" {}).2) :=
  ((one_holder_per_signer {} (lockAttempt "op1" "S" {}).2
    (LockReachable.step _ _ LockReachable.init (LockStep.attempt "op1" "S" {}))).2.2.2
      "op2" "S" 0 (by rfl)).2 (fun _ => Except.ok 7) 0

/-! ## queue: the routing -/

theorem fnv32a_known_values :
    fnv32a (bytesOf "") = 2166136261 ∧ fnv32a (bytesOf "a") = 3826002220 ∧
    fnv32a (bytesOf "foobar") = 3214735720 := by
  refine ⟨by decide, by decide, by decide⟩

theorem queue_empty_key (tw : Writer) (sel : QueueSelect) (op : TransactionOperation)
    (h : hashKey op = "") :
    queue tw sel op =
      some (tw, { op with done := op.done ++ [some Err.transactionOpInvalid] }) := by
  unfold queue
  simp [h]

theorem queue_keyed (tw : Writer) (sel : QueueSelect) (op : TransactionOperation)
    (h : hashKey op ≠ "") (hW : tw.workerCount ≠ 0) :
    queue tw sel op =
      match tw.workQueues[routine tw op]? with
      | none => none
      | some q =>
        match sel with
        | QueueSelect.sent =>
          some ({ tw with workQueues := tw.workQueues.set (routine tw op) (q ++ [op]) }, op)
        | QueueSelect.callerDone => some (tw, op)
        | QueueSelect.shuttingDown =>
          some (tw, { op with done := op.done ++ [some Err.shuttingDown] }) := by
  unfold queue
  have h1 : (hashKey op == "") = false := by simpa using h
  simp only [h1, Bool.false_eq_true, if_false, hW]

theorem fnv32a_snoc (bs : List Nat) (b : Nat) :
    fnv32a (bs ++ [b]) = (fnv32a bs ^^^ b) * 16777619 % 2 ^ 32 := by
  unfold fnv32a
  rw [List.foldl_append]
  rfl

theorem bytesOf_ascii (k : String) (h : ∀ c, c ∈ k.data → c.toNat < 128) :
    bytesOf k = k.data.map Char.toNat := by
  unfold bytesOf
  generalize k.data = cs at h
  induction cs with
  | nil => rfl
  | cons c rest ih =>
    rw [List.flatMap_cons, List.map_cons, ih (fun d hd => h d (List.mem_cons_of_mem _ hd))]
    have hc : utf8Bytes c = [c.toNat] := by
      unfold utf8Bytes
      simp only
      rw [if_pos (h c (List.mem_cons_self _ _))]
    rw [hc]
    rfl

/-- C16. `queue` computes the worker index as the 32-bit FNV-1a hash of the routing key
modulo `workerCount`, the key being the `From` of the transaction for an insert and the
`txID` of the operation otherwise. The hash is the FNV-1a hash on 32 bits: it starts from
the offset basis 2166136261 and takes each byte by an exclusive or followed by the
multiplication with the prime 16777619 modulo `2^32`; the bytes of a key of ASCII characters
are the codes of its characters. For a writer with `workerCount ≥ 1` and that many work
queues the index is below `workerCount`, so an operation with a non-empty key that is sent
is appended to the work queue of that index; two inserts with the same `From` get the same
index whatever their transaction IDs, and two operations that are not inserts and have the
same `txID` get the same index. -/
theorem queue_routes_by_key (tw : Writer) (op : TransactionOperation)
    (hW : 1 ≤ tw.workerCount) (hlen : tw.workQueues.length = tw.workerCount) :
    routine tw op = fnv32a (bytesOf (match op.txInsert with
      | some tx => tx.From
      | none => op.txID)) % tw.workerCount ∧
    (fnv32a [] = 2166136261 ∧
      ∀ (bs : List Nat) (b : Nat), fnv32a (bs ++ [b]) = (fnv32a bs ^^^ b) * 16777619 % 2 ^ 32) ∧
    (∀ k : String, (∀ c, c ∈ k.data → c.toNat < 128) → bytesOf k = k.data.map Char.toNat) ∧
    routine tw op < tw.workerCount ∧
    (hashKey op ≠ "" → ∃ q, tw.workQueues[routine tw op]? = some q ∧
      queue tw QueueSelect.sent op =
        some ({ tw with workQueues := tw.workQueues.set (routine tw op) (q ++ [op]) }, op)) ∧
    (∀ (op2 : TransactionOperation) (t1 t2 : ManagedTX), op.txInsert = some t1 →
      op2.txInsert = some t2 → t1.From = t2.From → routine tw op2 = routine tw op) ∧
    (∀ op2 : TransactionOperation, op.txInsert = none → op2.txInsert = none →
      op2.txID = op.txID → routine tw op2 = routine tw op) := by
  have hlt : routine tw op < tw.workerCount := Nat.mod_lt _ (by omega)
  refine ⟨?_, ⟨rfl, fnv32a_snoc⟩, bytesOf_ascii, hlt, ?_, ?_, ?_⟩
  · unfold routine hashKey
    cases op.txInsert <;> rfl
  · intro hk
    have hq : routine tw op < tw.workQueues.length := by rw [hlen]; exact hlt
    refine ⟨tw.workQueues[routine tw op], List.getElem?_eq_getElem hq, ?_⟩
    rw [queue_keyed tw _ op hk (by omega), List.getElem?_eq_getElem hq]
  · intro op2 t1 t2 h1 h2 hfrom
    unfold routine hashKey
    rw [h1, h2]
    simp only [hfrom]
  · intro op2 h1 h2 hid
    unfold routine hashKey
    rw [h1, h2]
    simp only [hid]

/-- Witness of C16: four workers. The FNV-1a hash of the key `0xabc` is 755330587, so an
insert of signer `0xabc` goes to worker 3, and so does a second insert of that signer with
another transaction ID; an update of transaction `t1`, whose key has the hash 138734806,
goes to worker 2. The hash has its known values on the strings `a` and `foobar`. -/
theorem queue_routes_by_key_witness :
    routine { workerCount := 4, workQueues := [[], [], [], []] }
        { txID := "t1", txInsert := some { ID := "t1", From := "0xabc" } } = 755330587 % 4 ∧
    routine { workerCount := 4, workQueues := [[], [], [], []] }
        { txID := "t1", txInsert := some { ID := "t1", From := "0xabc" } } = 3 ∧
    routine { workerCount := 4, workQueues := [[], [], [], []] }
        { txID := "t2", txInsert := some { ID := "t2", From := "0xabc" } } = 3 ∧
    routine { workerCount := 4, workQueues := [[], [], [], []] }
        { txID := "t1", txUpdate := some {} } = 138734806 % 4 ∧
    (queue { workerCount := 4, workQueues := [[], [], [], []] } QueueSelect.sent
        { txID := "t1", txInsert := some { ID := "t1", From := "0xabc" } }).map
      (fun r => r.1.workQueues.map (fun q => q.map (fun o => o.txID))) =
        some [[], [], [], ["t1"]] ∧
    fnv32a (bytesOf "a") = 3826002220 ∧ fnv32a (bytesOf "foobar") = 3214735720 ∧
    bytesOf "0xabc" = [48, 120, 97, 98, 99] := by
  have h := queue_routes_by_key { workerCount := 4, workQueues := [[], [], [], []] }
    { txID := "t1", txInsert := some { ID := "t1", From := "0xabc" } } (by decide) (by rfl)
  have h1 := queue_routes_by_key { workerCount := 4, workQueues := [[], [], [], []] }
    { txID := "t1", txUpdate := some {} } (by decide) (by rfl)
  have hb := h.2.2.1 "0xabc" (by decide)
  refine ⟨h.1.trans (by decide), h.1.trans (by decide), ?_, h1.1.trans (by decide), by rfl,
    by decide, by decide, hb.trans (by decide)⟩
  exact (h.2.2.2.2.2.1 { txID := "t2", txInsert := some { ID := "t2", From := "0xabc" } }
    { ID := "t1", From := "0xabc" } { ID := "t2", From := "0xabc" } rfl rfl rfl).trans
    (h.1.trans (by decide))

/-- With no worker at all `queue` panics on the division for the worker index. -/
theorem queue_without_workers :
    queue { workerCount := 0, workQueues := [] } QueueSelect.sent
      { txID := "t1", txInsert := some { ID := "t1", From := "0xabc" } } = none := by
  rfl

/-- C17. For every operation whose routing key is empty (an insert whose `From` is empty,
whatever its `txID`, or an operation that is not an insert and whose `txID` is empty),
`queue` sends the invalid-operation error on the completion channel of the operation and
leaves every work queue as it was, whichever case its `select` would take; for an
operation with a non-empty routing key `queue` sends nothing or the shutting-down error,
never the invalid-operation error. -/
theorem queue_rejects_empty_key (tw : Writer) (sel : QueueSelect) (op : TransactionOperation) :
    (∀ tx : ManagedTX, op.txInsert = some tx → tx.From = "" →
      queue tw sel op =
        some (tw, { op with done := op.done ++ [some Err.transactionOpInvalid] })) ∧
    (op.txInsert = none → op.txID = "" →
      queue tw sel op =
        some (tw, { op with done := op.done ++ [some Err.transactionOpInvalid] })) ∧
    (hashKey op ≠ "" → ∀ r, queue tw sel op = some r →
      (r.2.done = op.done ∨ r.2.done = op.done ++ [some Err.shuttingDown]) ∧
      some Err.transactionOpInvalid ∉ r.2.done.drop op.done.length) := by
  refine ⟨?_, ?_, ?_⟩
  · intro tx htx hfrom
    exact queue_empty_key tw sel op (by unfold hashKey; rw [htx]; exact hfrom)
  · intro hins hid
    exact queue_empty_key tw sel op (by unfold hashKey; rw [hins]; exact hid)
  · intro hk r hr
    by_cases hW : tw.workerCount = 0
    · unfold queue at hr
      have h1 : (hashKey op == "") = false := by simpa using hk
      simp [h1, hW] at hr
    · rw [queue_keyed tw sel op hk hW] at hr
      cases hq : tw.workQueues[routine tw op]? with
      | none => rw [hq] at hr; simp at hr
      | some q =>
        rw [hq] at hr
        cases sel with
        | sent =>
          simp only [Option.some.injEq] at hr
          subst hr
          exact ⟨Or.inl rfl, by simp⟩
        | callerDone =>
          simp only [Option.some.injEq] at hr
          subst hr
          exact ⟨Or.inl rfl, by simp⟩
        | shuttingDown =>
          simp only [Option.some.injEq] at hr
          subst hr
          exact ⟨Or.inr rfl, by simp⟩

/-! ## The worker: batches -/

theorem batchesRun_append (l1 l2 : List WorkerAction) :
    batchesRun (l1 ++ l2) = batchesRun l1 ++ batchesRun l2 := by
  induction l1 with
  | nil => rfl
  | cons a rest ih =>
    cases a with
    | ranBatch ops =>
      show ops :: batchesRun (rest ++ l2) = ops :: (batchesRun rest ++ batchesRun l2)
      rw [ih]
    | closedDone op =>
      show batchesRun (rest ++ l2) = batchesRun rest ++ batchesRun l2
      exact ih

theorem workerFinish_run (env : Env) (B : Int) (w : WorkerState) (ops : List TransactionOperation)
    (timedOut : Bool) (hb : w.batch = some ops) (hs : w.shutdownRequest = none)
    (hrun : timedOut = true ∨ B ≤ (ops.length : Int)) :
    workerFinish env B timedOut w =
      { w with sys := (runBatch env {} { w.sys with ops := ops }).2, batch := none,
               actions := w.actions ++ [WorkerAction.ranBatch ops],
               finished := w.finished ++ (runBatch env {} { w.sys with ops := ops }).2.ops } := by
  unfold workerFinish
  have hc : (timedOut || decide ((ops.length : Int) ≥ B)) = true := by
    rcases hrun with h | h
    · simp [h]
    · simp [h]
  simp only [hb, hc, if_true, hs]

theorem workerFinish_keep (env : Env) (B : Int) (w : WorkerState) (ops : List TransactionOperation)
    (hb : w.batch = some ops) (hs : w.shutdownRequest = none) (hlt : (ops.length : Int) < B) :
    workerFinish env B false w = w := by
  unfold workerFinish
  have hc : (false || decide ((ops.length : Int) ≥ B)) = false := by
    simp only [Bool.false_or, decide_eq_false_iff_not]
    omega
  simp only [hb, hc, Bool.false_eq_true, if_false, hs]

theorem workerFinish_idle (env : Env) (B : Int) (timedOut : Bool) (w : WorkerState)
    (hb : w.batch = none) (hs : w.shutdownRequest = none) :
    workerFinish env B timedOut w = w := by
  unfold workerFinish
  simp only [hb, hs]

theorem workerFinish_shutdown_run (env : Env) (B : Int) (w : WorkerState)
    (op : TransactionOperation) (ops : List TransactionOperation)
    (hs : w.shutdownRequest = some op) (hb : w.batch = some ops) :
    workerFinish env B true w =
      { w with sys := (runBatch env {} { w.sys with ops := ops }).2, batch := none,
               actions := w.actions ++ [WorkerAction.ranBatch ops, WorkerAction.closedDone op],
               finished := w.finished ++ (runBatch env {} { w.sys with ops := ops }).2.ops,
               stopped := true } := by
  unfold workerFinish
  simp only [hb, Bool.true_or, if_true, hs, List.append_assoc, List.singleton_append]

theorem workerFinish_shutdown_idle (env : Env) (B : Int) (w : WorkerState)
    (op : TransactionOperation) (hs : w.shutdownRequest = some op) (hb : w.batch = none) :
    workerFinish env B true w =
      { w with actions := w.actions ++ [WorkerAction.closedDone op], stopped := true } := by
  unfold workerFinish
  simp only [hb, hs]

/-- What one iteration of the loop of `worker` does to the open batch, the trace of actions,
the finished operations and the two loop variables, case by case. `ran` is the batch that
the iteration passes to `runBatch`, if it does so. -/
theorem workerIteration_effect (env : Env) (B : Int) (ev : WorkerEvent) (w : WorkerState)
    (hs : w.shutdownRequest = none) :
    ∃ (ran : Option (List TransactionOperation)) (closing : List WorkerAction),
      (workerIteration env B ev w).actions =
        w.actions ++ (ran.toList.map WorkerAction.ranBatch ++ closing) ∧
      (workerIteration env B ev w).finished =
        w.finished ++ (match ran with
          | some ops => (runBatch env {} { w.sys with ops := ops }).2.ops
          | none => []) ∧
      (match ev with
        | WorkerEvent.received op =>
          if op.isShutdown then
            ran = w.batch ∧ closing = [WorkerAction.closedDone op] ∧
            (workerIteration env B ev w).batch = none ∧
            (workerIteration env B ev w).stopped = true ∧
            (workerIteration env B ev w).shutdownRequest = some op
          else
            closing = [] ∧
            (workerIteration env B ev w).stopped = w.stopped ∧
            (workerIteration env B ev w).shutdownRequest = none ∧
            (if B ≤ (((w.batch.getD []) ++ [op]).length : Int) then
              ran = some ((w.batch.getD []) ++ [op]) ∧ (workerIteration env B ev w).batch = none
            else
              ran = none ∧
              (workerIteration env B ev w).batch = some ((w.batch.getD []) ++ [op]))
        | WorkerEvent.timeoutDone ctxDone =>
          closing = [] ∧
          (workerIteration env B ev w).shutdownRequest = none ∧
          if ctxDone then
            ran = none ∧ (workerIteration env B ev w).batch = w.batch ∧
            (workerIteration env B ev w).stopped = true
          else
            ran = w.batch ∧ (workerIteration env B ev w).batch = none ∧
            (workerIteration env B ev w).stopped = w.stopped) := by
  cases ev with
  | received op =>
    by_cases hsd : op.isShutdown = true
    · cases hb : w.batch with
      | none =>
        have hw : workerIteration env B (WorkerEvent.received op) w =
            { ({ w with shutdownRequest := some op } : WorkerState) with
              actions := w.actions ++ [WorkerAction.closedDone op], stopped := true } := by
          simp only [workerIteration, hsd, if_true]
          exact workerFinish_shutdown_idle env B { w with shutdownRequest := some op } op rfl hb
        refine ⟨none, [WorkerAction.closedDone op], ?_, ?_, ?_⟩
        · rw [hw]; simp
        · rw [hw]; simp
        · rw [hw]; simp [hsd, hb]
      | some ops =>
        have hw : workerIteration env B (WorkerEvent.received op) w =
            { ({ w with shutdownRequest := some op } : WorkerState) with
              sys := (runBatch env {} { w.sys with ops := ops }).2, batch := none,
              actions := w.actions ++ [WorkerAction.ranBatch ops, WorkerAction.closedDone op],
              finished := w.finished ++ (runBatch env {} { w.sys with ops := ops }).2.ops,
              stopped := true } := by
          simp only [workerIteration, hsd, if_true]
          exact workerFinish_shutdown_run env B { w with shutdownRequest := some op } op ops rfl hb
        refine ⟨some ops, [WorkerAction.closedDone op], ?_, ?_, ?_⟩
        · rw [hw]; simp
        · rw [hw]
        · rw [hw]; simp [hsd]
    · have hsd1 : op.isShutdown = false := by simpa using hsd
      have hstep : workerIteration env B (WorkerEvent.received op) w =
          workerFinish env B false
            { w with batch := some ((w.batch.getD []) ++ [op]),
                     batchCount := if w.batch.isSome then w.batchCount else w.batchCount + 1 } := by
        simp only [workerIteration, hsd1, Bool.false_eq_true, if_false]
        cases hb : w.batch with
        | none => rfl
        | some ops => rfl
      by_cases hfull : B ≤ (((w.batch.getD []) ++ [op]).length : Int)
      · have hw := workerFinish_run env B
          { w with batch := some ((w.batch.getD []) ++ [op]),
                   batchCount := if w.batch.isSome then w.batchCount else w.batchCount + 1 }
          ((w.batch.getD []) ++ [op]) false rfl hs (Or.inr hfull)
        rw [← hstep] at hw
        refine ⟨some ((w.batch.getD []) ++ [op]), [], ?_, ?_, ?_⟩
        · rw [hw]; simp
        · rw [hw]
        · rw [hw]
          simp [hsd1, hs]
          simpa using hfull
      · have hw := workerFinish_keep env B
          { w with batch := some ((w.batch.getD []) ++ [op]),
                   batchCount := if w.batch.isSome then w.batchCount else w.batchCount + 1 }
          ((w.batch.getD []) ++ [op]) rfl hs (by omega)
        rw [← hstep] at hw
        refine ⟨none, [], ?_, ?_, ?_⟩
        · rw [hw]; simp
        · rw [hw]; simp
        · rw [hw]
          simp [hsd1, hs]
          simpa using hfull
  | timeoutDone ctxDone =>
    cases ctxDone with
    | true =>
      have hw : workerIteration env B (WorkerEvent.timeoutDone true) w =
          { w with stopped := true } := by
        simp [workerIteration]
      refine ⟨none, [], ?_, ?_, ?_⟩
      · rw [hw]; simp
      · rw [hw]; simp
      · rw [hw]; simp [hs]
    | false =>
      have hstep : workerIteration env B (WorkerEvent.timeoutDone false) w =
          workerFinish env B true w := by
        simp [workerIteration]
      cases hb : w.batch with
      | none =>
        have hw := workerFinish_idle env B true w hb hs
        rw [← hstep] at hw
        refine ⟨none, [], ?_, ?_, ?_⟩
        · rw [hw]; simp
        · rw [hw]; simp
        · rw [hw]; simp [hs, hb]
      | some ops =>
        have hw := workerFinish_run env B w ops true hb hs (Or.inl rfl)
        rw [← hstep] at hw
        refine ⟨some ops, [], ?_, ?_, ?_⟩
        · rw [hw]; simp
        · rw [hw]
        · rw [hw]; simp [hs]

theorem batchesRun_map (l : List (List TransactionOperation)) :
    batchesRun (l.map WorkerAction.ranBatch) = l := by
  induction l with
  | nil => rfl
  | cons a rest ih =>
    show a :: batchesRun (rest.map WorkerAction.ranBatch) = a :: rest
    rw [ih]

theorem flatten_toList (o : Option (List TransactionOperation)) :
    o.toList.flatten = o.getD [] := by
  cases o <;> simp

theorem receivedOps_cons (ev : WorkerEvent) (rest : List WorkerEvent)
    (h : ev.ordinary) : receivedOps (ev :: rest) = receivedOps [ev] ++ receivedOps rest := by
  cases ev with
  | received op =>
    have h1 : op.isShutdown = false := h
    simp [receivedOps, h1]
  | timeoutDone c =>
    have h1 : c = false := h
    subst h1
    simp [receivedOps]

theorem receivedOps_stop (ev : WorkerEvent) (rest : List WorkerEvent)
    (h : ¬ ev.ordinary) : receivedOps (ev :: rest) = [] ∧ receivedOps [ev] = [] := by
  cases ev with
  | received op =>
    have h1 : op.isShutdown = true := by
      simpa [WorkerEvent.ordinary] using h
    simp [receivedOps, h1]
  | timeoutDone c =>
    have h1 : c = true := by
      simpa [WorkerEvent.ordinary] using h
    subst h1
    simp [receivedOps]

theorem workerIteration_stopped (env : Env) (B : Int) (ev : WorkerEvent) (w : WorkerState)
    (hs : w.shutdownRequest = none) (hns : w.stopped = false) :
    ((workerIteration env B ev w).stopped = true ↔ ¬ ev.ordinary) := by
  obtain ⟨ran, closing, _, _, hcase⟩ := workerIteration_effect env B ev w hs
  cases ev with
  | received op =>
    by_cases hsd : op.isShutdown = true
    · simp only [hsd, if_true] at hcase
      simp [WorkerEvent.ordinary, hsd, hcase.2.2.2.1]
    · have hsd1 : op.isShutdown = false := by simpa using hsd
      simp only [hsd1, Bool.false_eq_true, if_false] at hcase
      simp [WorkerEvent.ordinary, hsd1, hcase.2.1, hns]
  | timeoutDone c =>
    cases c with
    | true =>
      simp only [if_true] at hcase
      simp [WorkerEvent.ordinary, hcase.2.2.2.2]
    | false =>
      simp only [Bool.false_eq_true, if_false] at hcase
      simp [WorkerEvent.ordinary, hcase.2.2.2.2, hns]

theorem workerIteration_inv (env : Env) (B : Int) (hB : 1 ≤ B) (ev : WorkerEvent)
    (w : WorkerState) (hinv : WorkerInv B w) (hns : w.stopped = false) :
    WorkerInv B (workerIteration env B ev w) ∧
    (batchesRun (workerIteration env B ev w).actions).flatten ++
        (workerIteration env B ev w).batch.getD [] =
      (batchesRun w.actions).flatten ++ w.batch.getD [] ++ receivedOps [ev] := by
  have hs := hinv.2.2 hns
  obtain ⟨ran, closing, hact, _, hcase⟩ := workerIteration_effect env B ev w hs
  have hpend : ∀ b, w.batch = some b → 1 ≤ b.length ∧ (b.length : Int) < B := hinv.2.1
  cases ev with
  | received op =>
    by_cases hsd : op.isShutdown = true
    · simp only [hsd, if_true] at hcase
      obtain ⟨hran, hcl, hb1, hst, _⟩ := hcase
      have hruns : batchesRun (workerIteration env B (WorkerEvent.received op) w).actions =
          batchesRun w.actions ++ w.batch.toList := by
        rw [hact, hran, hcl, batchesRun_append, batchesRun_append, batchesRun_map]
        simp [batchesRun]
      refine ⟨⟨?_, ?_, ?_⟩, ?_⟩
      · intro ops hops
        rw [hruns] at hops
        rcases List.mem_append.mp hops with h | h
        · exact hinv.1 ops h
        · have hb : w.batch = some ops := by
            cases hwb : w.batch with
            | none => rw [hwb] at h; simp at h
            | some b => rw [hwb] at h; simp at h; rw [h]
          obtain ⟨h1, h2⟩ := hpend ops hb
          exact ⟨h1, by omega⟩
      · intro b hb
        rw [hb1] at hb
        exact absurd hb (by simp)
      · intro h
        rw [hst] at h
        exact absurd h (by simp)
      · rw [hruns, hb1]
        simp [receivedOps, hsd, flatten_toList]
    · have hsd1 : op.isShutdown = false := by simpa using hsd
      simp only [hsd1, Bool.false_eq_true, if_false] at hcase
      obtain ⟨hcl, hst, hsr, hfull⟩ := hcase
      have hlen : 1 ≤ ((w.batch.getD []) ++ [op]).length ∧
          (((w.batch.getD []) ++ [op]).length : Int) ≤ B := by
        cases hwb : w.batch with
        | none => simp; omega
        | some b =>
          obtain ⟨h1, h2⟩ := hpend b hwb
          simp only [Option.getD_some, List.length_append, List.length_singleton, Nat.cast_add,
            Nat.cast_one]
          omega
      by_cases hf : B ≤ (((w.batch.getD []) ++ [op]).length : Int)
      · rw [if_pos hf] at hfull
        obtain ⟨hran, hb1⟩ := hfull
        have hruns : batchesRun (workerIteration env B (WorkerEvent.received op) w).actions =
            batchesRun w.actions ++ [(w.batch.getD []) ++ [op]] := by
          rw [hact, hran, hcl, batchesRun_append, List.append_nil, batchesRun_map]
          rfl
        refine ⟨⟨?_, ?_, ?_⟩, ?_⟩
        · intro ops hops
          rw [hruns] at hops
          rcases List.mem_append.mp hops with h | h
          · exact hinv.1 ops h
          · simp only [List.mem_singleton] at h
            rw [h]
            exact hlen
        · intro b hb
          rw [hb1] at hb
          exact absurd hb (by simp)
        · intro _
          exact hsr
        · rw [hruns, hb1]
          simp [receivedOps, hsd1]
      · rw [if_neg hf] at hfull
        obtain ⟨hran, hb1⟩ := hfull
        have hruns : batchesRun (workerIteration env B (WorkerEvent.received op) w).actions =
            batchesRun w.actions := by
          rw [hact, hran, hcl, batchesRun_append]
          simp [batchesRun]
        refine ⟨⟨?_, ?_, ?_⟩, ?_⟩
        · intro ops hops
          rw [hruns] at hops
          exact hinv.1 ops hops
        · intro b hb
          rw [hb1] at hb
          simp only [Option.some.injEq] at hb
          rw [← hb]
          exact ⟨hlen.1, by omega⟩
        · intro _
          exact hsr
        · rw [hruns, hb1]
          simp [receivedOps, hsd1]
  | timeoutDone c =>
    obtain ⟨hcl, hsr, hrest⟩ := hcase
    cases c with
    | true =>
      simp only [if_true] at hrest
      obtain ⟨hran, hb1, hst⟩ := hrest
      have hruns : batchesRun (workerIteration env B (WorkerEvent.timeoutDone true) w).actions =
          batchesRun w.actions := by
        rw [hact, hran, hcl, batchesRun_append]
        simp [batchesRun]
      refine ⟨⟨?_, ?_, ?_⟩, ?_⟩
      · intro ops hops
        rw [hruns] at hops
        exact hinv.1 ops hops
      · intro b hb
        rw [hb1] at hb
        exact hpend b hb
      · intro _
        exact hsr
      · rw [hruns, hb1]
        simp [receivedOps]
    | false =>
      simp only [Bool.false_eq_true, if_false] at hrest
      obtain ⟨hran, hb1, hst⟩ := hrest
      have hruns : batchesRun (workerIteration env B (WorkerEvent.timeoutDone false) w).actions =
          batchesRun w.actions ++ w.batch.toList := by
        rw [hact, hran, hcl, batchesRun_append, List.append_nil, batchesRun_map]
      refine ⟨⟨?_, ?_, ?_⟩, ?_⟩
      · intro ops hops
        rw [hruns] at hops
        rcases List.mem_append.mp hops with h | h
        · exact hinv.1 ops h
        · have hb : w.batch = some ops := by
            cases hwb : w.batch with
            | none => rw [hwb] at h; simp at h
            | some b => rw [hwb] at h; simp at h; rw [h]
          obtain ⟨h1, h2⟩ := hpend ops hb
          exact ⟨h1, by omega⟩
      · intro b hb
        rw [hb1] at hb
        exact absurd hb (by simp)
      · intro _
        exact hsr
      · rw [hruns, hb1]
        simp [receivedOps, flatten_toList]

theorem worker_inv (env : Env) (B : Int) (hB : 1 ≤ B) (events : List WorkerEvent) :
    ∀ w : WorkerState, WorkerInv B w →
      WorkerInv B (worker env B events w) ∧
      (batchesRun (worker env B events w).actions).flatten ++
          (worker env B events w).batch.getD [] =
        (batchesRun w.actions).flatten ++ w.batch.getD [] ++
          (if w.stopped then [] else receivedOps events) := by
  induction events with
  | nil =>
    intro w hinv
    refine ⟨hinv, ?_⟩
    simp [worker, receivedOps]
  | cons ev rest ih =>
    intro w hinv
    by_cases hst : w.stopped = true
    · have hw : worker env B (ev :: rest) w = w := by simp [worker, hst]
      rw [hw]
      exact ⟨hinv, by simp [hst]⟩
    · have hns : w.stopped = false := by simpa using hst
      have hw : worker env B (ev :: rest) w = worker env B rest (workerIteration env B ev w) := by
        simp [worker, hns]
      obtain ⟨hinv1, htr1⟩ := workerIteration_inv env B hB ev w hinv hns
      obtain ⟨hinv2, htr2⟩ := ih _ hinv1
      rw [hw]
      refine ⟨hinv2, ?_⟩
      rw [htr2, htr1]
      simp only [hns, Bool.false_eq_true, if_false, List.append_assoc]
      congr 2
      have hstop := workerIteration_stopped env B ev w (hinv.2.2 hns) hns
      by_cases hord : ev.ordinary
      · have h1 : (workerIteration env B ev w).stopped = false := by
          cases h : (workerIteration env B ev w).stopped with
          | false => rfl
          | true => exact absurd hord (hstop.mp h)
        rw [h1, receivedOps_cons ev rest hord]
        simp
      · have h1 : (workerIteration env B ev w).stopped = true := hstop.mpr hord
        obtain ⟨h2, h3⟩ := receivedOps_stop ev rest hord
        rw [h1, h2, h3]
        simp

theorem workerInv_start (B : Int) (s : Sys) : WorkerInv B { sys := s } := by
  refine ⟨?_, ?_, ?_⟩
  · intro ops h; simp [batchesRun] at h
  · intro b h; simp at h
  · intro _; rfl

/-- C18. For `BatchMaxSize ≥ 1` and every sequence of events that a worker sees, from its
start: every batch passed to `runBatch` holds at least one and at most `BatchMaxSize`
operations; the batches run, one after the other, followed by the open batch are the
operations that the worker received, in the order in which it received them, so that no
operation is in two batches; and while the worker is in its loop, the iteration that
receives an operation runs the batch exactly when the batch then holds `BatchMaxSize`
operations, and the iteration in which the timer of the open batch fires runs that batch. -/
theorem worker_batches_bounded (env : Env) (B : Int) (events : List WorkerEvent) (s : Sys)
    (hB : 1 ≤ B) :
    (∀ ops, ops ∈ batchesRun (worker env B events { sys := s }).actions →
      1 ≤ ops.length ∧ (ops.length : Int) ≤ B) ∧
    (batchesRun (worker env B events { sys := s }).actions).flatten ++
        (worker env B events { sys := s }).batch.getD [] = receivedOps events ∧
    ((worker env B events { sys := s }).stopped = false →
      (∀ op : TransactionOperation, op.isShutdown = false →
        if ((((worker env B events { sys := s }).batch.getD []) ++ [op]).length : Int) = B then
          batchesRun (workerIteration env B (WorkerEvent.received op)
              (worker env B events { sys := s })).actions =
            batchesRun (worker env B events { sys := s }).actions ++
              [((worker env B events { sys := s }).batch.getD []) ++ [op]] ∧
          (workerIteration env B (WorkerEvent.received op)
            (worker env B events { sys := s })).batch = none
        else
          batchesRun (workerIteration env B (WorkerEvent.received op)
              (worker env B events { sys := s })).actions =
            batchesRun (worker env B events { sys := s }).actions ∧
          (workerIteration env B (WorkerEvent.received op)
            (worker env B events { sys := s })).batch =
            some (((worker env B events { sys := s }).batch.getD []) ++ [op]) ∧
          ((((worker env B events { sys := s }).batch.getD []) ++ [op]).length : Int) < B) ∧
      (∀ b, (worker env B events { sys := s }).batch = some b →
        batchesRun (workerIteration env B (WorkerEvent.timeoutDone false)
            (worker env B events { sys := s })).actions =
          batchesRun (worker env B events { sys := s }).actions ++ [b] ∧
        (workerIteration env B (WorkerEvent.timeoutDone false)
          (worker env B events { sys := s })).batch = none)) := by
  obtain ⟨hinv, htr⟩ := worker_inv env B hB events { sys := s } (workerInv_start B s)
  refine ⟨hinv.1, ?_, ?_⟩
  · rw [htr]
    simp [batchesRun]
  · intro hns
    have hs := hinv.2.2 hns
    refine ⟨?_, ?_⟩
    · intro op hop
      obtain ⟨ran, closing, hact, _, hcase⟩ := workerIteration_effect env B
        (WorkerEvent.received op) (worker env B events { sys := s }) hs
      simp only [hop, Bool.false_eq_true, if_false] at hcase
      obtain ⟨hcl, _, _, hfull⟩ := hcase
      have hlen : ((((worker env B events { sys := s }).batch.getD []) ++ [op]).length : Int) ≤ B := by
        cases hwb : (worker env B events { sys := s }).batch with
        | none => simp; omega
        | some b =>
          obtain ⟨_, h2⟩ := hinv.2.1 b hwb
          simp only [Option.getD_some, List.length_append, List.length_singleton, Nat.cast_add,
            Nat.cast_one]
          omega
      by_cases hf : ((((worker env B events { sys := s }).batch.getD []) ++ [op]).length : Int) = B
      · rw [if_pos hf]
        rw [if_pos (by omega)] at hfull
        obtain ⟨hran, hb1⟩ := hfull
        refine ⟨?_, hb1⟩
        rw [hact, hran, hcl, batchesRun_append, List.append_nil, batchesRun_map]
        rfl
      · rw [if_neg hf]
        rw [if_neg (by omega)] at hfull
        obtain ⟨hran, hb1⟩ := hfull
        refine ⟨?_, hb1, by omega⟩
        rw [hact, hran, hcl, batchesRun_append]
        simp [batchesRun]
    · intro b hb
      obtain ⟨ran, closing, hact, _, hcase⟩ := workerIteration_effect env B
        (WorkerEvent.timeoutDone false) (worker env B events { sys := s }) hs
      simp only [Bool.false_eq_true, if_false] at hcase
      obtain ⟨hcl, _, hran, hb1, _⟩ := hcase
      refine ⟨?_, hb1⟩
      rw [hact, hran, hcl, hb, batchesRun_append, List.append_nil, batchesRun_map]
      rfl

/-- Witness of C18: `BatchMaxSize = 2`; the worker receives `a`, `b`, `c` and then the timer
of the batch of `c` fires: the batches run are `a, b` and `c`. -/
theorem worker_batches_bounded_witness :
    (∀ ops, ops ∈ batchesRun (worker (sampleEnv 0) 2
        [WorkerEvent.received (sampleInsert "a" "S" 100),
         WorkerEvent.received (sampleInsert "b" "S" 100),
         WorkerEvent.received (sampleInsert "c" "S" 100),
         WorkerEvent.timeoutDone false] { sys := sampleSys 10 [] [] [] [] }).actions →
      1 ≤ ops.length ∧ (ops.length : Int) ≤ 2) ∧
    (batchesRun (worker (sampleEnv 0) 2
        [WorkerEvent.received (sampleInsert "a" "S" 100),
         WorkerEvent.received (sampleInsert "b" "S" 100),
         WorkerEvent.received (sampleInsert "c" "S" 100),
         WorkerEvent.timeoutDone false] { sys := sampleSys 10 [] [] [] [] }).actions).map
      (fun b => b.map (fun o => o.txID)) = [["a", "b"], ["c"]] := by
  have h := worker_batches_bounded (sampleEnv 0) 2
    [WorkerEvent.received (sampleInsert "a" "S" 100),
     WorkerEvent.received (sampleInsert "b" "S" 100),
     WorkerEvent.received (sampleInsert "c" "S" 100),
     WorkerEvent.timeoutDone false] (sampleSys 10 [] [] [] []) (by decide)
  exact ⟨h.1, by rfl⟩

/-! ## The worker: shutdown -/

theorem runBatch_all_sent (env : Env) (b : TransactionWriterBatch) (s : Sys)
    (hrange : ∀ n m, (env.rangeInserts n m).Perm m)
    (hfresh : ∀ o, o ∈ s.ops → o.sentConflict = false ∧ o.done = []) :
    (runBatch env b s).2.ops.map (fun o => o.txID) = s.ops.map (fun o => o.txID) ∧
    ∀ o, o ∈ (runBatch env b s).2.ops → o.done.length = 1 := by
  have hpoint : ∀ j : Nat,
      (((runBatch env b s).2.ops[j]?).map (fun o => o.txID) =
        (s.ops[j]?).map (fun o => o.txID)) ∧
      ∀ o, (runBatch env b s).2.ops[j]? = some o → o.done.length = 1 := by
    intro j
    rw [runBatch_ops, getElem?_sendResults]
    cases ho : s.ops[j]? with
    | none =>
      rcases runAsGroup_outcome env b s hrange j with h | ⟨_, _, h⟩
      · rw [ho] at h
        cases hx : (runAsGroup env b s).2.2.ops[j]? with
        | none => simp
        | some oX => rw [hx] at h; simp at h
      · rw [ho] at h
        cases hx : (runAsGroup env b s).2.2.ops[j]? with
        | none => simp
        | some oX => rw [hx] at h; simp at h
    | some o =>
      obtain ⟨hf1, hf2⟩ := hfresh o (List.getElem?_mem ho)
      rcases runAsGroup_outcome env b s hrange j with h | ⟨_, _, h⟩
      · rw [ho] at h
        cases hx : (runAsGroup env b s).2.2.ops[j]? with
        | none => rw [hx] at h; simp at h
        | some oX =>
          rw [hx] at h
          simp only [Option.map_some', Option.some.injEq, outcome, Prod.mk.injEq] at h
          obtain ⟨h1, h2, h3⟩ := h
          rw [hf1] at h2
          rw [hf2] at h3
          refine ⟨?_, ?_⟩
          · simp only [Option.map_some', Option.some.injEq]
            unfold sendResult
            simp [h2, h1]
          · intro o1 ho1
            simp only [Option.map_some', Option.some.injEq] at ho1
            subst ho1
            unfold sendResult
            simp [h2, h3]
      · rw [ho] at h
        cases hx : (runAsGroup env b s).2.2.ops[j]? with
        | none => rw [hx] at h; simp at h
        | some oX =>
          rw [hx] at h
          simp only [Option.map_some', Option.some.injEq, outcome, Prod.mk.injEq,
            flagConflict] at h
          obtain ⟨h1, h2, h3⟩ := h
          rw [hf2] at h3
          refine ⟨?_, ?_⟩
          · simp only [Option.map_some', Option.some.injEq]
            unfold sendResult
            simp [h2, h1]
          · intro o1 ho1
            simp only [Option.map_some', Option.some.injEq] at ho1
            subst ho1
            unfold sendResult
            simp [h2, h3]
  refine ⟨?_, ?_⟩
  · apply List.ext_getElem?
    intro j
    rw [List.getElem?_map, List.getElem?_map]
    exact (hpoint j).1
  · intro o ho
    obtain ⟨j, hj⟩ := List.getElem?_of_mem ho
    exact (hpoint j).2 o hj

theorem worker_of_stopped (env : Env) (B : Int) (events : List WorkerEvent) (w : WorkerState)
    (h : w.stopped = true) : worker env B events w = w := by
  cases events with
  | nil => rfl
  | cons ev rest => simp [worker, h]

theorem worker_append (env : Env) (B : Int) (l1 l2 : List WorkerEvent) :
    ∀ w : WorkerState, worker env B (l1 ++ l2) w = worker env B l2 (worker env B l1 w) := by
  induction l1 with
  | nil => intro w; rfl
  | cons ev rest ih =>
    intro w
    by_cases hst : w.stopped = true
    · have h1 : worker env B (ev :: rest ++ l2) w = w := by simp [worker, hst]
      have h2 : worker env B (ev :: rest) w = w := by simp [worker, hst]
      rw [h1, h2, worker_of_stopped env B l2 w hst]
    · have hns : w.stopped = false := by simpa using hst
      have h1 : worker env B (ev :: rest ++ l2) w =
          worker env B (rest ++ l2) (workerIteration env B ev w) := by simp [worker, hns]
      have h2 : worker env B (ev :: rest) w = worker env B rest (workerIteration env B ev w) := by
        simp [worker, hns]
      rw [h1, h2, ih]

theorem drainInv_step (env : Env) (B : Int) (ev : WorkerEvent) (w : WorkerState)
    (R : List TransactionOperation)
    (hrange : ∀ n m, (env.rangeInserts n m).Perm m)
    (hinv : DrainInv R w) (hord : ev.ordinary)
    (hfresh : ∀ o, o ∈ R ++ receivedOps [ev] → o.sentConflict = false ∧ o.done = []) :
    DrainInv (R ++ receivedOps [ev]) (workerIteration env B ev w) := by
  obtain ⟨hns, hs, hacts, hflat, hfin, hdone⟩ := hinv
  obtain ⟨ran, closing, hact, hfinished, hcase⟩ := workerIteration_effect env B ev w hs
  -- the facts common to the ordinary events
  have hcommon : closing = [] ∧ (workerIteration env B ev w).stopped = false ∧
      (workerIteration env B ev w).shutdownRequest = none ∧
      ran.getD [] ++ (workerIteration env B ev w).batch.getD [] =
        w.batch.getD [] ++ receivedOps [ev] := by
    cases ev with
    | received op =>
      have hsd1 : op.isShutdown = false := hord
      simp only [hsd1, Bool.false_eq_true, if_false] at hcase
      obtain ⟨hcl, hst, hsr, hfull⟩ := hcase
      refine ⟨hcl, by rw [hst]; exact hns, hsr, ?_⟩
      by_cases hf : B ≤ (((w.batch.getD []) ++ [op]).length : Int)
      · rw [if_pos hf] at hfull
        rw [hfull.1, hfull.2]
        simp [receivedOps, hsd1]
      · rw [if_neg hf] at hfull
        rw [hfull.1, hfull.2]
        simp [receivedOps, hsd1]
    | timeoutDone c =>
      have hc : c = false := hord
      subst hc
      simp only [Bool.false_eq_true, if_false] at hcase
      obtain ⟨hcl, hsr, hran, hb1, hst⟩ := hcase
      refine ⟨hcl, by rw [hst]; exact hns, hsr, ?_⟩
      rw [hran, hb1]
      simp [receivedOps]
  obtain ⟨hcl, hst1, hsr1, hsplit⟩ := hcommon
  have hruns : batchesRun (workerIteration env B ev w).actions =
      batchesRun w.actions ++ ran.toList := by
    rw [hact, hcl, batchesRun_append, List.append_nil, batchesRun_map]
  have hflat1 : (batchesRun (workerIteration env B ev w).actions).flatten ++
      (workerIteration env B ev w).batch.getD [] = R ++ receivedOps [ev] := by
    rw [hruns, List.flatten_append, flatten_toList, List.append_assoc, hsplit,
      ← List.append_assoc, hflat]
  have hranfresh : ∀ ops, ran = some ops → ∀ o, o ∈ ops → o.sentConflict = false ∧ o.done = [] := by
    intro ops hro o ho
    apply hfresh
    rw [← hflat1, hruns, hro]
    simp only [Option.toList_some, List.flatten_append, List.flatten_cons, List.flatten_nil,
      List.append_nil, List.append_assoc, List.mem_append]
    right; left; exact ho
  refine ⟨hst1, hsr1, ?_, hflat1, ?_, ?_⟩
  · rw [hruns, List.map_append, ← hacts, hact, hcl, List.append_nil]
  · rw [hfinished, hruns, List.map_append, hfin, List.flatten_append, List.map_append,
      flatten_toList]
    congr 1
    cases hro : ran with
    | none => simp
    | some ops =>
      exact (runBatch_all_sent env {} { w.sys with ops := ops } hrange
        (hranfresh ops hro)).1
  · intro o ho
    rw [hfinished] at ho
    rcases List.mem_append.mp ho with h | h
    · exact hdone o h
    · cases hro : ran with
      | none => rw [hro] at h; simp at h
      | some ops =>
        rw [hro] at h
        exact (runBatch_all_sent env {} { w.sys with ops := ops } hrange
          (hranfresh ops hro)).2 o h

theorem drainInv_run (env : Env) (B : Int) (hrange : ∀ n m, (env.rangeInserts n m).Perm m)
    (evs : List WorkerEvent) :
    ∀ (w : WorkerState) (R : List TransactionOperation), DrainInv R w →
      (∀ ev, ev ∈ evs → ev.ordinary) →
      (∀ o, o ∈ R ++ receivedOps evs → o.sentConflict = false ∧ o.done = []) →
      DrainInv (R ++ receivedOps evs) (worker env B evs w) := by
  induction evs with
  | nil =>
    intro w R hinv _ _
    simpa [worker, receivedOps] using hinv
  | cons ev rest ih =>
    intro w R hinv hord hfresh
    have hev : ev.ordinary := hord ev (List.mem_cons_self _ _)
    have hw : worker env B (ev :: rest) w = worker env B rest (workerIteration env B ev w) := by
      simp [worker, hinv.1]
    rw [hw, receivedOps_cons ev rest hev, ← List.append_assoc]
    apply ih
    · apply drainInv_step env B ev w R hrange hinv hev
      intro o ho
      apply hfresh
      rw [receivedOps_cons ev rest hev, ← List.append_assoc]
      exact List.mem_append_left _ ho
    · intro e he
      exact hord e (List.mem_cons_of_mem _ he)
    · intro o ho
      apply hfresh
      rw [receivedOps_cons ev rest hev, ← List.append_assoc]
      exact ho

theorem receivedOps_ordinary (evs : List WorkerEvent) (h : ∀ ev, ev ∈ evs → ev.ordinary) :
    ∀ o, o ∈ receivedOps evs → o.isShutdown = false := by
  induction evs with
  | nil => intro o ho; simp [receivedOps] at ho
  | cons ev rest ih =>
    intro o ho
    have hev : ev.ordinary := h ev (List.mem_cons_self _ _)
    rw [receivedOps_cons ev rest hev] at ho
    rcases List.mem_append.mp ho with h1 | h1
    · cases ev with
      | received op =>
        have hsd : op.isShutdown = false := hev
        simp only [receivedOps, hsd, Bool.false_eq_true, if_false, List.mem_singleton] at h1
        rw [h1]; exact hsd
      | timeoutDone c =>
        have hc : c = false := hev
        subst hc
        simp [receivedOps] at h1
    · exact ih (fun e he => h e (List.mem_cons_of_mem _ he)) o h1

/-- C19. For every sequence of operations that a worker receives, with batch timers firing
in between and the background context not cancelled, followed by a shutdown request: the
worker has then left its loop, holding the request; what it did is to run batches, the
open one included, and after that to close the completion channel of the request; the
batches are the operations received in their order, so the request is in no batch; and
every operation received, fresh as queued, is finished with exactly one value on its
completion channel. -/
theorem worker_drains_on_shutdown (env : Env) (B : Int) (evs : List WorkerEvent)
    (req : TransactionOperation) (s : Sys)
    (hrange : ∀ n m, (env.rangeInserts n m).Perm m)
    (hord : ∀ ev, ev ∈ evs → ev.ordinary)
    (hreq : req.isShutdown = true)
    (hfresh : ∀ o, o ∈ receivedOps evs → o.sentConflict = false ∧ o.done = []) :
    (worker env B (evs ++ [WorkerEvent.received req]) { sys := s }).stopped = true ∧
    (worker env B (evs ++ [WorkerEvent.received req]) { sys := s }).shutdownRequest = some req ∧
    (worker env B (evs ++ [WorkerEvent.received req]) { sys := s }).batch = none ∧
    (∃ bs : List (List TransactionOperation),
      (worker env B (evs ++ [WorkerEvent.received req]) { sys := s }).actions =
        bs.map WorkerAction.ranBatch ++ [WorkerAction.closedDone req] ∧
      bs.flatten = receivedOps evs ∧
      ∀ b, b ∈ bs → ∀ o, o ∈ b → o.isShutdown = false) ∧
    (worker env B (evs ++ [WorkerEvent.received req]) { sys := s }).finished.map
        (fun o => o.txID) = (receivedOps evs).map (fun o => o.txID) ∧
    (∀ o, o ∈ (worker env B (evs ++ [WorkerEvent.received req]) { sys := s }).finished →
      o.done.length = 1) := by
  have hstart : DrainInv [] ({ sys := s } : WorkerState) :=
    ⟨rfl, rfl, rfl, rfl, rfl, fun o ho => by simp at ho⟩
  have hinv := drainInv_run env B hrange evs { sys := s } [] hstart hord
    (by simpa using hfresh)
  rw [List.nil_append] at hinv
  obtain ⟨hns, hs, hacts, hflat, hfin, hdone⟩ := hinv
  have hw : worker env B (evs ++ [WorkerEvent.received req]) { sys := s } =
      workerIteration env B (WorkerEvent.received req) (worker env B evs { sys := s }) := by
    rw [worker_append]
    simp [worker, hns]
  obtain ⟨ran, closing, hact, hfinished, hcase⟩ := workerIteration_effect env B
    (WorkerEvent.received req) (worker env B evs { sys := s }) hs
  simp only [hreq, if_true] at hcase
  obtain ⟨hran, hcl, hb1, hst, hsr⟩ := hcase
  have hranfresh : ∀ ops, ran = some ops → ∀ o, o ∈ ops → o.sentConflict = false ∧ o.done = [] := by
    intro ops hro o ho
    apply hfresh
    rw [← hflat, ← hran, hro]
    simp only [Option.getD_some, List.mem_append]
    right; exact ho
  rw [hw]
  refine ⟨hst, hsr, hb1, ⟨batchesRun (worker env B evs { sys := s }).actions ++ ran.toList,
    ?_, ?_, ?_⟩, ?_, ?_⟩
  · rw [hact, hcl, List.map_append, ← hacts, List.append_assoc]
  · rw [List.flatten_append, flatten_toList, hran, hflat]
  · intro b hb o ho
    apply receivedOps_ordinary evs hord
    rw [← hflat, ← hran, ← flatten_toList, ← List.flatten_append]
    exact List.mem_flatten.mpr ⟨b, hb, ho⟩
  · rw [hfinished, List.map_append, hfin, ← hflat, List.map_append]
    congr 1
    rw [← hran]
    cases hro : ran with
    | none => simp
    | some ops =>
      exact (runBatch_all_sent env {} { (worker env B evs { sys := s }).sys with ops := ops }
        hrange (hranfresh ops hro)).1
  · intro o ho
    rw [hfinished] at ho
    rcases List.mem_append.mp ho with h | h
    · exact hdone o h
    · cases hro : ran with
      | none => rw [hro] at h; simp at h
      | some ops =>
        rw [hro] at h
        exact (runBatch_all_sent env {} { (worker env B evs { sys := s }).sys with ops := ops }
          hrange (hranfresh ops hro)).2 o h

/-- Witness of C19: `BatchMaxSize = 2`; the worker receives `a`, `b`, `c` and then the
shutdown request. It runs the batch `a, b`, then the open batch `c`, and then closes the
channel of the request. -/
theorem worker_drains_on_shutdown_witness :
    (worker (sampleEnv 0) 2
      ([WorkerEvent.received (sampleInsert "a" "S" 100),
        WorkerEvent.received (sampleInsert "b" "S" 100),
        WorkerEvent.received (sampleInsert "c" "S" 100)] ++
        [WorkerEvent.received { isShutdown := true }])
      { sys := sampleSys 10 [] [] [] [] }).stopped = true ∧
    (worker (sampleEnv 0) 2
      ([WorkerEvent.received (sampleInsert "a" "S" 100),
        WorkerEvent.received (sampleInsert "b" "S" 100),
        WorkerEvent.received (sampleInsert "c" "S" 100)] ++
        [WorkerEvent.received { isShutdown := true }])
      { sys := sampleSys 10 [] [] [] [] }).finished.map (fun o => (o.txID, o.done)) =
      [("a", [none]), ("b", [none]), ("c", [none])] := by
  have h := worker_drains_on_shutdown (sampleEnv 0) 2
    [WorkerEvent.received (sampleInsert "a" "S" 100),
     WorkerEvent.received (sampleInsert "b" "S" 100),
     WorkerEvent.received (sampleInsert "c" "S" 100)]
    { isShutdown := true } (sampleSys 10 [] [] [] [])
    (fun _ _ => List.Perm.refl _)
    (by intro ev hev; simp at hev; rcases hev with h | h | h <;> subst h <;> rfl)
    (by rfl)
    (by intro o ho
        simp [receivedOps, sampleInsert] at ho
        rcases ho with h | h | h <;> subst h <;> exact ⟨rfl, rfl⟩)
  exact ⟨h.1, by rfl⟩

/-! ## mergeTxUpdates -/

theorem lookup_append_single {β : Type} (m : List (String × β)) (k T : String) (v : β) :
    (m ++ [(k, v)]).lookup T =
      match m.lookup T with
      | some x => some x
      | none => if T == k then some v else none := by
  induction m with
  | nil => simp [List.lookup_cons]; split <;> simp_all
  | cons e rest ih =>
    obtain ⟨k1, v1⟩ := e
    by_cases h : (T == k1) = true
    · simp [List.lookup_cons, h]
    · have h1 : (T == k1) = false := by simpa using h
      simp only [List.cons_append, List.lookup_cons, h1]
      exact ih

theorem mergeTxUpdatesLoop_cons (env : Env) (i : Nat) (rest : List Nat) (cs : List TXCompletion)
    (m : List (String × Nat)) (s : Sys) (op : TransactionOperation)
    (hop : s.ops[i]? = some op) :
    ∃ (compl : List TXCompletion) (s2 : Sys),
      mergeTxUpdatesLoop env (i :: rest) cs m s =
        mergeTxUpdatesLoop env rest (cs ++ compl)
          (match m.lookup op.txID with
            | some _ => m
            | none => m ++ [(op.txID, i)]) s2 ∧
      s2.ops = (match m.lookup op.txID with
        | some j => modifyOp s.ops j (fun o =>
            { o with txUpdate := o.txUpdate.map (fun u => u.Merge (op.txUpdate.getD {})) })
        | none => s.ops) ∧
      compl.map (fun c => (c.ID, c.Status)) = (completionOf s.ops i).toList := by
  rw [mergeTxUpdatesLoop]
  unfold completionOf
  rw [hop]
  simp only
  cases hl : List.lookup op.txID m with
  | none =>
    simp only
    cases hs : (op.txUpdate.getD {}).Status with
    | none => exact ⟨[], s, by simp, rfl, by simp⟩
    | some st =>
      simp only
      by_cases ht : st = TxStatus.Succeeded ∨ st = TxStatus.Failed
      · simp only [if_pos ht, readClock]
        exact ⟨[{ ID := op.txID, Time := env.clock s.clockReads, Status := st }], _, rfl, rfl,
          by simp⟩
      · simp only [if_neg ht]
        exact ⟨[], s, by simp, rfl, by simp⟩
  | some j =>
    simp only
    cases hs : (op.txUpdate.getD {}).Status with
    | none =>
      refine ⟨[], { s with ops := modifyOp s.ops j (fun o =>
        { o with txUpdate := o.txUpdate.map (fun u => u.Merge (op.txUpdate.getD {})) }) },
        ?_, rfl, by simp⟩
      simp
    | some st =>
      simp only
      by_cases ht : st = TxStatus.Succeeded ∨ st = TxStatus.Failed
      · simp only [if_pos ht, readClock]
        exact ⟨[{ ID := op.txID, Time := env.clock s.clockReads, Status := st }],
          { s with ops := modifyOp s.ops j (fun o =>
              { o with txUpdate := o.txUpdate.map (fun u => u.Merge (op.txUpdate.getD {})) }),
                   clockReads := s.clockReads + 1 }, rfl, rfl, by simp⟩
      · simp only [if_neg ht]
        refine ⟨[], { s with ops := modifyOp s.ops j (fun o =>
          { o with txUpdate := o.txUpdate.map (fun u => u.Merge (op.txUpdate.getD {})) }) },
          ?_, rfl, by simp⟩
        simp

theorem txIDAt_modify (ops : List TransactionOperation) (j k : Nat) (f : TXUpdates → TXUpdates) :
    txIDAt (modifyOp ops j (fun o => { o with txUpdate := o.txUpdate.map f })) k =
      txIDAt ops k := by
  unfold txIDAt
  rw [getElem?_modifyOp]
  by_cases h : j = k
  · subst h
    simp only [if_true]
    cases ops[j]? <;> rfl
  · simp [h]

theorem updAt_modify_self (ops : List TransactionOperation) (j : Nat)
    (f : TXUpdates → TXUpdates) :
    updAt (modifyOp ops j (fun o => { o with txUpdate := o.txUpdate.map f })) j =
      (updAt ops j).map f := by
  unfold updAt
  rw [getElem?_modifyOp_self]
  cases ops[j]? <;> rfl

theorem filterMap_filter_length {α β : Type} (l : List α) (f : α → Option β) (p : β → Bool) :
    ((l.filterMap f).filter p).length =
      (l.filter (fun k => match f k with
        | some x => p x
        | none => false)).length := by
  induction l with
  | nil => rfl
  | cons a rest ih =>
    cases hf : f a with
    | none => simp [List.filterMap_cons, hf, List.filter_cons, ih]
    | some x =>
      cases hp : p x with
      | true => simp [List.filterMap_cons, hf, List.filter_cons, hp, ih]
      | false => simp [List.filterMap_cons, hf, List.filter_cons, hp, ih]

theorem foldl_mergeInto_congr (ops ops1 : List TransactionOperation) (l : List Nat)
    (h : ∀ k, k ∈ l → ops1[k]? = ops[k]?) :
    ∀ u : Option TXUpdates, l.foldl (mergeInto ops1) u = l.foldl (mergeInto ops) u := by
  induction l with
  | nil => intro u; rfl
  | cons k rest ih =>
    intro u
    have hk : mergeInto ops1 u k = mergeInto ops u k := by
      unfold mergeInto updateOf updAt
      rw [h k (List.mem_cons_self _ _)]
    simp only [List.foldl_cons, hk]
    exact ih (fun k1 hk1 => h k1 (List.mem_cons_of_mem _ hk1)) _

theorem mergeTxUpdatesLoop_spec (env : Env) (l : List Nat) :
    ∀ (cs : List TXCompletion) (m : List (String × Nat)) (s : Sys),
      l.Nodup → (∀ i, i ∈ l → ∃ op, s.ops[i]? = some op) →
      (∀ T j, m.lookup T = some j → j ∉ l ∧ txIDAt s.ops j = some T) →
      (mergeTxUpdatesLoop env l cs m s).1.map (fun c => (c.ID, c.Status)) =
        cs.map (fun c => (c.ID, c.Status)) ++ l.filterMap (completionOf s.ops) ∧
      (∀ k, txIDAt (mergeTxUpdatesLoop env l cs m s).2.2.ops k = txIDAt s.ops k) ∧
      (∀ T j, m.lookup T = some j →
        (mergeTxUpdatesLoop env l cs m s).2.1.lookup T = some j ∧
        updAt (mergeTxUpdatesLoop env l cs m s).2.2.ops j =
          (l.filter (fun k => txIDAt s.ops k == some T)).foldl (mergeInto s.ops)
            (updAt s.ops j)) ∧
      (∀ T, m.lookup T = none → l.filter (fun k => txIDAt s.ops k == some T) = [] →
        (mergeTxUpdatesLoop env l cs m s).2.1.lookup T = none) ∧
      (∀ T j0 restT, m.lookup T = none →
        l.filter (fun k => txIDAt s.ops k == some T) = j0 :: restT →
        (mergeTxUpdatesLoop env l cs m s).2.1.lookup T = some j0 ∧
        updAt (mergeTxUpdatesLoop env l cs m s).2.2.ops j0 =
          restT.foldl (mergeInto s.ops) (updAt s.ops j0)) := by
  induction l with
  | nil =>
    intro cs m s _ _ _
    refine ⟨by simp [mergeTxUpdatesLoop], fun k => rfl, fun T j h => ⟨h, rfl⟩,
      fun T h _ => h, fun T j0 restT _ h => by simp at h⟩
  | cons i rest ih =>
    intro cs m s hnd hvalid hm
    obtain ⟨op, hop⟩ := hvalid i (List.mem_cons_self _ _)
    obtain ⟨compl, s2, hstep, hops2, hcompl⟩ := mergeTxUpdatesLoop_cons env i rest cs m s op hop
    have hirest : i ∉ rest := (List.nodup_cons.mp hnd).1
    have hndr : rest.Nodup := (List.nodup_cons.mp hnd).2
    have htxi : txIDAt s.ops i = some op.txID := by unfold txIDAt; rw [hop]; rfl
    -- the operations after the step
    have hsame : ∀ k, k ∈ i :: rest → s2.ops[k]? = s.ops[k]? := by
      intro k hk
      rw [hops2]
      cases hl : m.lookup op.txID with
      | none => rfl
      | some j =>
        simp only
        have hj := (hm op.txID j hl).1
        exact getElem?_modifyOp_ne _ _ _ _ (fun h => hj (h ▸ hk))
    have htx2 : ∀ k, txIDAt s2.ops k = txIDAt s.ops k := by
      intro k
      rw [hops2]
      cases hl : m.lookup op.txID with
      | none => rfl
      | some j => exact txIDAt_modify _ _ _ _
    have hvalid2 : ∀ k, k ∈ rest → ∃ o, s2.ops[k]? = some o := by
      intro k hk
      rw [hsame k (List.mem_cons_of_mem _ hk)]
      exact hvalid k (List.mem_cons_of_mem _ hk)
    generalize hm1 : (match m.lookup op.txID with
      | some _ => m
      | none => m ++ [(op.txID, i)]) = m1 at hstep
    have hl_some : ∀ T j, m.lookup T = some j → m1.lookup T = some j := by
      intro T j h
      rw [← hm1]
      cases hl : m.lookup op.txID with
      | some _ => exact h
      | none =>
        simp only
        rw [lookup_append_single, h]
    have hl_self : m.lookup op.txID = none → m1.lookup op.txID = some i := by
      intro h
      rw [← hm1, h]
      simp only
      rw [lookup_append_single, h]
      simp
    have hl_none : ∀ T, m.lookup T = none → op.txID ≠ T → m1.lookup T = none := by
      intro T h hT
      rw [← hm1]
      cases hl : m.lookup op.txID with
      | some _ => exact h
      | none =>
        simp only
        rw [lookup_append_single, h]
        simp only
        rw [if_neg (by simpa using fun hh => hT hh.symm)]
    have hm2 : ∀ T j, m1.lookup T = some j → j ∉ rest ∧ txIDAt s2.ops j = some T := by
      intro T j hlk
      rw [htx2]
      cases hT : m.lookup T with
      | some x =>
        rw [hl_some T x hT] at hlk
        simp only [Option.some.injEq] at hlk
        subst hlk
        obtain ⟨h1, h2⟩ := hm T x hT
        exact ⟨fun h => h1 (List.mem_cons_of_mem _ h), h2⟩
      | none =>
        by_cases hk : op.txID = T
        · subst hk
          rw [hl_self hT] at hlk
          simp only [Option.some.injEq] at hlk
          subst hlk
          exact ⟨hirest, htxi⟩
        · rw [hl_none T hT hk] at hlk
          exact absurd hlk (by simp)
    obtain ⟨ih1, ih2, ih3, ih4, ih5⟩ := ih (cs ++ compl) m1 s2 hndr hvalid2 hm2
    rw [hstep]
    -- what the remaining iterations read is unchanged by the step
    have hfm : rest.filterMap (completionOf s2.ops) = rest.filterMap (completionOf s.ops) := by
      apply List.filterMap_congr
      intro k hk
      unfold completionOf
      rw [hsame k (List.mem_cons_of_mem _ hk)]
    have hfilt : ∀ T, rest.filter (fun k => txIDAt s2.ops k == some T) =
        rest.filter (fun k => txIDAt s.ops k == some T) := by
      intro T
      congr 1
      funext k
      rw [htx2]
    have hfold : ∀ (T : String) (u : Option TXUpdates),
        (rest.filter (fun k => txIDAt s.ops k == some T)).foldl (mergeInto s2.ops) u =
          (rest.filter (fun k => txIDAt s.ops k == some T)).foldl (mergeInto s.ops) u := by
      intro T u
      apply foldl_mergeInto_congr
      intro k hk
      exact hsame k (List.mem_cons_of_mem _ (List.mem_filter.mp hk).1)
    have hfcons : ∀ T, (i :: rest).filter (fun k => txIDAt s.ops k == some T) =
        if op.txID = T then i :: rest.filter (fun k => txIDAt s.ops k == some T)
        else rest.filter (fun k => txIDAt s.ops k == some T) := by
      intro T
      by_cases hT : op.txID = T
      · simp [List.filter_cons, htxi, hT]
      · simp [List.filter_cons, htxi, hT]
    refine ⟨?_, ?_, ?_, ?_, ?_⟩
    · rw [ih1, hfm, List.map_append, hcompl, List.append_assoc]
      congr 1
      cases hc : completionOf s.ops i with
      | none => simp [List.filterMap_cons, hc]
      | some p => simp [List.filterMap_cons, hc]
    · intro k
      rw [ih2, htx2]
    · intro T j hlk
      have hjT := (hm T j hlk).2
      obtain ⟨h1, h2⟩ := ih3 T j (hl_some T j hlk)
      refine ⟨h1, ?_⟩
      by_cases hT : op.txID = T
      · subst hT
        rw [hlk] at hops2
        simp only at hops2
        rw [h2, hfilt, hfold, hfcons, if_pos rfl, List.foldl_cons, hops2, updAt_modify_self]
        congr 1
        unfold mergeInto updateOf updAt
        rw [hop]
        rfl
      · rw [h2, hfilt, hfold, hfcons, if_neg hT]
        congr 1
        unfold updAt
        rw [hops2]
        cases hl : m.lookup op.txID with
        | none => rfl
        | some j1 =>
          simp only
          have hj1 := (hm op.txID j1 hl).2
          have hne : j1 ≠ j := by
            intro h
            rw [h, hjT] at hj1
            simp only [Option.some.injEq] at hj1
            exact hT hj1.symm
          rw [getElem?_modifyOp_ne _ _ _ _ hne]
    · intro T hlk hnil
      rw [hfcons] at hnil
      by_cases hT : op.txID = T
      · rw [if_pos hT] at hnil
        exact absurd hnil (by simp)
      · rw [if_neg hT] at hnil
        exact ih4 T (hl_none T hlk hT) (by rw [hfilt]; exact hnil)
    · intro T j0 restT hlk hcons
      rw [hfcons] at hcons
      by_cases hT : op.txID = T
      · subst hT
        rw [if_pos rfl] at hcons
        simp only [List.cons.injEq] at hcons
        obtain ⟨hj0, hrT⟩ := hcons
        subst hj0
        rw [hlk] at hops2
        simp only at hops2
        obtain ⟨h1, h2⟩ := ih3 op.txID i (hl_self hlk)
        refine ⟨h1, ?_⟩
        rw [h2, hfilt, hfold, hrT, hops2]
      · rw [if_neg hT] at hcons
        obtain ⟨h1, h2⟩ := ih5 T j0 restT (hl_none T hlk hT) (by rw [hfilt]; exact hcons)
        refine ⟨h1, ?_⟩
        have hj0 : j0 ∈ rest := by
          have : j0 ∈ rest.filter (fun k => txIDAt s.ops k == some T) := by
            rw [hcons]; exact List.mem_cons_self _ _
          exact (List.mem_filter.mp this).1
        have hsub : ∀ k, k ∈ restT → k ∈ rest := by
          intro k hk
          have : k ∈ rest.filter (fun k => txIDAt s.ops k == some T) := by
            rw [hcons]; exact List.mem_cons_of_mem _ hk
          exact (List.mem_filter.mp this).1
        rw [h2, foldl_mergeInto_congr s.ops s2.ops restT
          (fun k hk => hsame k (List.mem_cons_of_mem _ (hsub k hk)))]
        congr 1
        unfold updAt
        rw [hsame j0 (List.mem_cons_of_mem _ hj0)]

/-- C20 (amended). For every batch whose updates are distinct operations that carry an
update object: `mergeTxUpdates` emits one completion record for every update with a
terminal status (`Succeeded` or `Failed`), in batch order, so that a transaction gets as
many completion records as it has such updates in the batch, exactly one when it has
exactly one; and the merged update of a transaction is kept in the update object of its
first update in the batch and is the result of merging its later updates into it in batch
order. -/
theorem mergeTxUpdates_completion_per_update (env : Env) (b : TransactionWriterBatch) (s : Sys)
    (hnd : b.txUpdates.Nodup)
    (hvalid : ∀ i, i ∈ b.txUpdates → ∃ op u, s.ops[i]? = some op ∧ op.txUpdate = some u) :
    (mergeTxUpdates env b s).1.map (fun c => (c.ID, c.Status)) =
      b.txUpdates.filterMap (completionOf s.ops) ∧
    (∀ T : String, ((mergeTxUpdates env b s).1.filter (fun c => c.ID == T)).length =
      (b.txUpdates.filter (terminalFor s.ops T)).length) ∧
    (∀ (T : String) (j0 : Nat) (restT : List Nat),
      b.txUpdates.filter (fun k => txIDAt s.ops k == some T) = j0 :: restT →
      (mergeTxUpdates env b s).2.1.lookup T = some j0 ∧
      updAt (mergeTxUpdates env b s).2.2.ops j0 =
        some (restT.foldl (fun u k => u.Merge (updateOf s.ops k)) (updateOf s.ops j0))) := by
  unfold mergeTxUpdates
  obtain ⟨h1, _, _, _, h5⟩ := mergeTxUpdatesLoop_spec env b.txUpdates [] [] s hnd
    (fun i hi => by obtain ⟨op, _, h, _⟩ := hvalid i hi; exact ⟨op, h⟩)
    (fun T j h => by simp at h)
  have hcomp : (mergeTxUpdatesLoop env b.txUpdates [] [] s).1.map (fun c => (c.ID, c.Status)) =
      b.txUpdates.filterMap (completionOf s.ops) := by
    rw [h1]; simp
  refine ⟨hcomp, ?_, ?_⟩
  · intro T
    have hlen : ((mergeTxUpdatesLoop env b.txUpdates [] [] s).1.filter
        (fun c => c.ID == T)).length =
        (((mergeTxUpdatesLoop env b.txUpdates [] [] s).1.map (fun c => (c.ID, c.Status))).filter
          (fun p => p.1 == T)).length := by
      rw [List.filter_map, List.length_map]
      rfl
    rw [hlen, hcomp, filterMap_filter_length]
    congr 2
    funext k
    unfold terminalFor
    cases completionOf s.ops k <;> rfl
  · intro T j0 restT hf
    obtain ⟨h2, h3⟩ := h5 T j0 restT (by simp) hf
    refine ⟨h2, ?_⟩
    rw [h3]
    have hj0 : j0 ∈ b.txUpdates := by
      have : j0 ∈ b.txUpdates.filter (fun k => txIDAt s.ops k == some T) := by
        rw [hf]; exact List.mem_cons_self _ _
      exact (List.mem_filter.mp this).1
    obtain ⟨op, u, hop, hu⟩ := hvalid j0 hj0
    have hupd : updAt s.ops j0 = some (updateOf s.ops j0) := by
      unfold updateOf updAt
      rw [hop]
      simp [hu]
    rw [hupd]
    generalize updateOf s.ops j0 = u0
    clear hf h3
    induction restT generalizing u0 with
    | nil => rfl
    | cons k rest ih =>
      simp only [List.foldl_cons]
      exact ih _

/-- Witness of C20: the updates `Pending` and then `Succeeded` of transaction `T`; the
merged status is `Succeeded` and there is one completion record. -/
theorem mergeTxUpdates_completion_per_update_witness :
    (mergeTxUpdates (sampleEnv 0) { txUpdates := [0, 1] }
      (sampleSys 10 [] [] []
        [sampleUpdate "T" TxStatus.Pending, sampleUpdate "T" TxStatus.Succeeded])).1.map
        (fun c => (c.ID, c.Status)) = [("T", TxStatus.Succeeded)] ∧
    (updAt (mergeTxUpdates (sampleEnv 0) { txUpdates := [0, 1] }
      (sampleSys 10 [] [] []
        [sampleUpdate "T" TxStatus.Pending, sampleUpdate "T" TxStatus.Succeeded])).2.2.ops 0).map
        (fun u => u.Status) = some (some TxStatus.Succeeded) := by
  have h := mergeTxUpdates_completion_per_update (sampleEnv 0) { txUpdates := [0, 1] }
    (sampleSys 10 [] [] []
      [sampleUpdate "T" TxStatus.Pending, sampleUpdate "T" TxStatus.Succeeded])
    (by decide)
    (by intro i hi
        simp only [List.mem_cons, List.mem_singleton, List.not_mem_nil, or_false] at hi
        rcases hi with h | h
        · subst h; exact ⟨_, _, rfl, rfl⟩
        · subst h; exact ⟨_, _, rfl, rfl⟩)
  refine ⟨h.1.trans (by rfl), ?_⟩
  rw [(h.2.2 "T" 0 [1] (by rfl)).2]
  rfl

/-- Counterexample to C20 as stated: a batch with two updates of transaction `T` that both
carry the terminal status `Succeeded`. `mergeTxUpdates` emits two completion records for
`T`, not one. -/
theorem mergeTxUpdates_two_completions_counterexample :
    (mergeTxUpdates (sampleEnv 0) { txUpdates := [0, 1] }
      (sampleSys 10 [] [] []
        [sampleUpdate "T" TxStatus.Succeeded, sampleUpdate "T" TxStatus.Succeeded])).1.map
        (fun c => (c.ID, c.Status)) =
      [("T", TxStatus.Succeeded), ("T", TxStatus.Succeeded)] ∧
    ((mergeTxUpdates (sampleEnv 0) { txUpdates := [0, 1] }
      (sampleSys 10 [] [] []
        [sampleUpdate "T" TxStatus.Succeeded, sampleUpdate "T" TxStatus.Succeeded])).1.filter
        (fun c => c.ID == "T")).length = 2 := by
  refine ⟨by rfl, by rfl⟩

/-! ## The numeric value of the nonce written -/

/-- The value that `assignNonces` writes from a fresh cache entry whose `nextNonce` is the
unsigned 64-bit value `n`, as the code computes it through `int64`: `n` for `n < 2^63` and
`n - 2^64` for `n ≥ 2^63`; the entry afterwards holds `n + 1`, and `0` for `n = 2^64 - 1`. -/
theorem nonce_written_from_entry (env : Env) (signer : String) (i : Nat) (s : Sys)
    (e : NonceCacheEntry)
    (hins : isInsertOf s.ops signer i = true) (hadm : admitted s.ops i = true)
    (hsize : 0 < s.nextNonceCache.size)
    (hpeek : s.nextNonceCache.peek signer = some e)
    (hage : env.clock s.clockReads - e.cachedTime ≤ env.nonceStateTimeout)
    (hn : e.nextNonce < 2 ^ 64) :
    (assignNoncesForSigner env signer [i] s).1 = none ∧
    nonceAt (assignNoncesForSigner env signer [i] s).2.ops i =
      some (if e.nextNonce < 2 ^ 63 then (e.nextNonce : Int) else (e.nextNonce : Int) - 2 ^ 64) ∧
    (assignNoncesForSigner env signer [i] s).2.nextNonceCache.peek signer =
      some { cachedTime := e.cachedTime,
             nextNonce := if e.nextNonce = 2 ^ 64 - 1 then 0 else e.nextNonce + 1 } := by
  rw [assignNoncesForSigner_fresh env signer [i] s e hpeek hage]
  have hA : admittedOf s.ops [i] = [i] := by simp [admittedOf, hadm]
  rw [hA]
  simp only [stampAll]
  refine ⟨trivial, ?_, ?_⟩
  · rw [nonceAt_stamp_self _ signer i _ hins]
    by_cases h : e.nextNonce < 2 ^ 63
    · rw [if_pos h, toInt64_of_lt _ h]
    · rw [if_neg h, toInt64_of_ge _ (by omega) hn]
  · rw [LRU.peek_add_self _ _ _ (by simpa [LRU.touch] using hsize)]
    by_cases h : e.nextNonce = 2 ^ 64 - 1
    · rw [if_pos h, h]; rfl
    · rw [if_neg h, Nat.mod_eq_of_lt (by omega)]

/-- C24, the code at the failing input: the signer's entry is fresh and holds
`nextNonce = 2^63`, an unsigned 64-bit value, and the batch has one insert of the signer. The
run succeeds and the entry afterwards holds `2^63 + 1`, as the claim says, but the nonce
written on the transaction is `-2^63`, not `2^63`: the value goes through `int64`, whose
conversion the comment at that line calls safe. With `nextNonce = 2^63 - 1`, the largest value
below the sign bit, the nonce written is the value of the entry. -/
theorem int64_cast_stamps_negative :
    (sampleSys 10 [("S", { cachedTime := 5, nextNonce := 2 ^ 63 })] [] []
        [sampleInsert "a" "S" 100]).nextNonceCache.peek "S" =
      some { cachedTime := 5, nextNonce := 2 ^ 63 } ∧
    (2 : Nat) ^ 63 < 2 ^ 64 ∧
    (assignNonces (sampleEnv 5) [("S", [0])]
      (sampleSys 10 [("S", { cachedTime := 5, nextNonce := 2 ^ 63 })] [] []
        [sampleInsert "a" "S" 100])).1 = none ∧
    nonceAt (assignNonces (sampleEnv 5) [("S", [0])]
      (sampleSys 10 [("S", { cachedTime := 5, nextNonce := 2 ^ 63 })] [] []
        [sampleInsert "a" "S" 100])).2.ops 0 = some (-(2 ^ 63)) ∧
    nonceAt (assignNonces (sampleEnv 5) [("S", [0])]
      (sampleSys 10 [("S", { cachedTime := 5, nextNonce := 2 ^ 63 })] [] []
        [sampleInsert "a" "S" 100])).2.ops 0 ≠ some (2 ^ 63) ∧
    (assignNonces (sampleEnv 5) [("S", [0])]
      (sampleSys 10 [("S", { cachedTime := 5, nextNonce := 2 ^ 63 })] [] []
        [sampleInsert "a" "S" 100])).2.nextNonceCache.peek "S" =
      some { cachedTime := 5, nextNonce := 2 ^ 63 + 1 } ∧
    nonceAt (assignNonces (sampleEnv 5) [("S", [0])]
      (sampleSys 10 [("S", { cachedTime := 5, nextNonce := 2 ^ 63 - 1 })] [] []
        [sampleInsert "a" "S" 100])).2.ops 0 = some (2 ^ 63 - 1) := by
  refine ⟨by rfl, by decide, by rfl, by rfl, by decide, by rfl, by rfl⟩

/-! ## How often a signer group asks the chain -/

/-- C25 (the code at the failing input). Signer `S` has the cache entry `nextNonce = 5`, cached
at time 0, and the clock reads two hours, so the entry is expired; the batch holds three
inserts of `S` whose chain callbacks report 3, 100 and 7. One run of `assignNonces` invokes
the chain callback three times for `S`, once for every insert, and the second reconciliation
moves the sequence: the nonces are 5, 100 and 101. With the entry absent the same run asks
the chain once, and with the entry fresh not at all. -/
theorem expired_entry_reconciles_every_insert :
    sampleExpired.nextNonceCache.peek "S" = some { cachedTime := 0, nextNonce := 5 } ∧
    decide ((sampleEnv 7200000000000).clock 0 - 0 > (sampleEnv 7200000000000).nonceStateTimeout)
      = true ∧
    (assignNonces (sampleEnv 7200000000000) [("S", [0, 1, 2])] sampleExpired).1 = none ∧
    (assignNonces (sampleEnv 7200000000000) [("S", [0, 1, 2])] sampleExpired).2.cbCalls =
      ["S", "S", "S"] ∧
    [0, 1, 2].map
        (nonceAt (assignNonces (sampleEnv 7200000000000) [("S", [0, 1, 2])] sampleExpired).2.ops) =
      [some 5, some 100, some 101] ∧
    (assignNonces (sampleEnv 7200000000000) [("S", [0, 1, 2])]
      (sampleSys 10 [] [] [] sampleExpired.ops)).2.cbCalls = ["S"] ∧
    (assignNonces (sampleEnv 5) [("S", [0, 1, 2])] sampleExpired).2.cbCalls = [] := by
  refine ⟨by rfl, by decide, by rfl, by rfl, by rfl, by rfl, by rfl⟩

/-! ## The time kept in a cache entry -/

/-- C26 (amended). One nonce assignment of `assignNonces`, that is one pass of its inner loop
for an admitted insert of `signer`, `cacheEntry` being the loop's variable of that name. When
the assignment is served from a valid entry (`cacheEntry` present and not expired) it takes no
clock reading and the signer's cache entry keeps the `cachedTime` it had; when the assignment
reconciles (no entry, or an expired one) and succeeds, the `cachedTime` of the signer's cache
entry is the clock reading taken in that reconciliation. So `cachedTime` is the moment of
the entry's last reconciliation. -/
theorem cachedTime_is_last_reconciliation (env : Env) (signer : String) (i : Nat) (s : Sys)
    (op : TransactionOperation) (cacheEntry : Option NonceCacheEntry) (cacheExpired : Bool)
    (hop : s.ops[i]? = some op) (hpre : op.noncePreAssigned = false)
    (hconf : op.sentConflict = false) (hsize : 0 < s.nextNonceCache.size) :
    (∀ ce, cacheEntry = some ce → cacheExpired = false →
      (assignNoncesToOps env signer cacheExpired [i] cacheEntry s).1 = none ∧
      (assignNoncesToOps env signer cacheExpired [i] cacheEntry s).2.clockReads = s.clockReads ∧
      ((assignNoncesToOps env signer cacheExpired [i] cacheEntry s).2.nextNonceCache.peek
        signer).map (fun e => e.cachedTime) = some ce.cachedTime) ∧
    ((cacheEntry = none ∨ cacheExpired = true) →
      (assignNoncesToOps env signer cacheExpired [i] cacheEntry s).1 = none →
      (assignNoncesToOps env signer cacheExpired [i] cacheEntry s).2.clockReads =
        s.clockReads + 1 ∧
      ((assignNoncesToOps env signer cacheExpired [i] cacheEntry s).2.nextNonceCache.peek
        signer).map (fun e => e.cachedTime) = some (env.clock s.clockReads)) := by
  constructor
  · intro ce hce hexp
    subst hce; subst hexp
    rw [assignNoncesToOps_fresh]
    have hA : admittedOf s.ops [i] = [i] := by simp [admittedOf, admitted, hop, hpre, hconf]
    rw [hA]
    simp only [stampAll]
    refine ⟨trivial, trivial, ?_⟩
    rw [LRU.peek_add_self _ _ _ hsize]
    rfl
  · intro hcase hok
    have hr : assignNoncesToOps env signer cacheExpired [i] cacheEntry s =
        match reconcileNonce env signer op cacheEntry s with
        | (Except.error e, s1) => (some e, s1)
        | (Except.ok ce, s1) =>
          (none, { s1 with
            ops := modifyOp s1.ops i (stampNonce ce.nextNonce),
            nextNonceCache := s1.nextNonceCache.add signer
              { ce with nextNonce := (ce.nextNonce + 1) % 2 ^ 64 } }) := by
      rw [assignNoncesToOps, hop]
      simp only [hpre, hconf, Bool.false_eq_true, if_false]
      rcases hcase with h | h
      · subst h
        cases hrec : reconcileNonce env signer op none s with
        | mk x s1 => cases x <;> simp [assignNoncesToOps]
      · subst h
        cases cacheEntry with
        | none =>
          cases hrec : reconcileNonce env signer op none s with
          | mk x s1 => cases x <;> simp [assignNoncesToOps]
        | some ce =>
          cases hrec : reconcileNonce env signer op (some ce) s with
          | mk x s1 => cases x <;> simp [assignNoncesToOps]
    rw [hr] at hok ⊢
    have hrec : ∀ ce s1, reconcileNonce env signer op cacheEntry s = (Except.ok ce, s1) →
        ce.cachedTime = env.clock s.clockReads ∧ s1.clockReads = s.clockReads + 1 ∧
          s1.nextNonceCache = s.nextNonceCache := by
      intro ce s1 h
      unfold reconcileNonce at h
      cases hcb : op.nextNonceCB signer with
      | error e => simp [hcb] at h
      | ok c =>
        simp only [hcb] at h
        cases cacheEntry with
        | some ce0 =>
          simp only [readClock, Prod.mk.injEq, Except.ok.injEq] at h
          obtain ⟨h1, h2⟩ := h
          subst h1; subst h2
          exact ⟨rfl, rfl, rfl⟩
        | none =>
          simp only [storeCall] at h
          cases hf : env.storeFault s.storeCalls.length with
          | some e => simp [hf] at h
          | none =>
            simp only [hf] at h
            cases hh : highestNonceTx s.transactions signer with
            | none =>
              simp only [hh, readClock, Prod.mk.injEq, Except.ok.injEq] at h
              obtain ⟨h1, h2⟩ := h
              subst h1; subst h2
              exact ⟨rfl, rfl, rfl⟩
            | some tx =>
              simp only [hh, readClock, Prod.mk.injEq, Except.ok.injEq] at h
              obtain ⟨h1, h2⟩ := h
              subst h1; subst h2
              exact ⟨rfl, rfl, rfl⟩
    cases hx : reconcileNonce env signer op cacheEntry s with
    | mk x s1 =>
      cases x with
      | error e => rw [hx] at hok; simp at hok
      | ok ce =>
        obtain ⟨h1, h2, h3⟩ := hrec ce s1 hx
        simp only
        refine ⟨h2, ?_⟩
        rw [LRU.peek_add_self _ _ _ (by rw [h3]; exact hsize)]
        simp [h1]

/-- Witness of C26: the entry of `S` was cached at time 0 and is fresh when the clock reads
5; the assignment leaves its `cachedTime` at 0. Without an entry the assignment reconciles
and the new entry carries the clock reading 5. -/
theorem cachedTime_is_last_reconciliation_witness :
    ((assignNoncesToOps (sampleEnv 5) "S" false [0]
        (some { cachedTime := 0, nextNonce := 110 })
        (sampleSys 10 [("S", { cachedTime := 0, nextNonce := 110 })] [] []
          [sampleInsert "a" "S" 100])).2.nextNonceCache.peek "S").map (fun e => e.cachedTime) =
      some 0 ∧
    ((assignNoncesToOps (sampleEnv 5) "S" false [0] none
        (sampleSys 10 [] [] [] [sampleInsert "a" "S" 100])).2.nextNonceCache.peek "S").map
      (fun e => e.cachedTime) = some 5 := by
  have h1 := cachedTime_is_last_reconciliation (sampleEnv 5) "S" 0
    (sampleSys 10 [("S", { cachedTime := 0, nextNonce := 110 })] [] []
      [sampleInsert "a" "S" 100])
    (sampleInsert "a" "S" 100) (some { cachedTime := 0, nextNonce := 110 }) false
    (by rfl) (by rfl) (by rfl) (by decide)
  have h2 := cachedTime_is_last_reconciliation (sampleEnv 5) "S" 0
    (sampleSys 10 [] [] [] [sampleInsert "a" "S" 100])
    (sampleInsert "a" "S" 100) none false
    (by rfl) (by rfl) (by rfl) (by decide)
  exact ⟨(h1.1 _ rfl rfl).2.2, (h2.2 (Or.inl rfl) (by rfl)).2⟩

/-- Counterexample to C26 as stated: the entry of `S` was cached at time 0 and the clock
reads 5, within the timeout. `assignNonces` assigns nonce 110 to the insert, reading the
clock once, and the entry afterwards still has `cachedTime = 0`, not the moment 5 of the
assignment. -/
theorem cachedTime_not_refreshed_counterexample :
    (sampleEnv 5).clock 0 = 5 ∧
    (assignNonces (sampleEnv 5) [("S", [0])]
      (sampleSys 10 [("S", { cachedTime := 0, nextNonce := 110 })] [] []
        [sampleInsert "a" "S" 100])).1 = none ∧
    nonceAt (assignNonces (sampleEnv 5) [("S", [0])]
      (sampleSys 10 [("S", { cachedTime := 0, nextNonce := 110 })] [] []
        [sampleInsert "a" "S" 100])).2.ops 0 = some 110 ∧
    (assignNonces (sampleEnv 5) [("S", [0])]
      (sampleSys 10 [("S", { cachedTime := 0, nextNonce := 110 })] [] []
        [sampleInsert "a" "S" 100])).2.clockReads = 1 ∧
    (assignNonces (sampleEnv 5) [("S", [0])]
      (sampleSys 10 [("S", { cachedTime := 0, nextNonce := 110 })] [] []
        [sampleInsert "a" "S" 100])).2.nextNonceCache.peek "S" =
      some { cachedTime := 0, nextNonce := 111 } := by
  refine ⟨by rfl, by rfl, by rfl, by rfl, by rfl⟩

/-! ## The worker: the end of the background context -/

theorem cancelledFromAt_last (k : Nat) (c : Bool) :
    ∀ (pre : List WorkerEvent) (i : Nat),
      cancelledFromAt k i (pre ++ [WorkerEvent.timeoutDone c]) = true →
      c = decide (k ≤ i + pre.length) := by
  intro pre
  induction pre with
  | nil =>
    intro i h
    simpa [cancelledFromAt] using h
  | cons ev rest ih =>
    intro i h
    have h1 : cancelledFromAt k (i + 1) (rest ++ [WorkerEvent.timeoutDone c]) = true := by
      cases ev with
      | received op => simpa [cancelledFromAt] using h
      | timeoutDone c1 =>
        simp only [List.cons_append, cancelledFromAt, Bool.and_eq_true] at h
        exact h.2
    have h2 := ih (i + 1) h1
    rw [h2]
    simp only [List.length_cons]
    congr 1
    rw [Nat.add_assoc, Nat.add_comm 1]

theorem cancelledFrom_last (k : Nat) (pre : List WorkerEvent) (c : Bool) (hk : k ≤ pre.length)
    (h : cancelledFrom k (pre ++ [WorkerEvent.timeoutDone c]) = true) : c = true := by
  have h1 := cancelledFromAt_last k c pre 0 h
  rw [h1]
  simpa using hk

/-- C30 (amended). The background context is cancelled just before event number `k`; a
worker has taken the events `pre`, the first `k` of them before the cancellation, and is in
its loop with the pending batch `ops` when its `select` takes the case
`timeoutContext.Done()`. The worker finds the background context done and leaves its loop
there, whatever events would follow: it has run no further batch, so the pending batch was
not passed to `runBatch`, the operations of the pending batch are as they were received,
with nothing sent on their completion channels, no operation was finished and the state of
the writer is untouched. -/
theorem worker_cancel_drops_batch (env : Env) (B : Int) (w0 : WorkerState) (k : Nat)
    (pre rest : List WorkerEvent) (c : Bool) (ops : List TransactionOperation)
    (hk : k ≤ pre.length)
    (hcancel : cancelledFrom k (pre ++ [WorkerEvent.timeoutDone c]) = true)
    (hns : (worker env B pre w0).stopped = false)
    (hb : (worker env B pre w0).batch = some ops) :
    c = true ∧
    (worker env B (pre ++ WorkerEvent.timeoutDone c :: rest) w0).stopped = true ∧
    (worker env B (pre ++ WorkerEvent.timeoutDone c :: rest) w0).batch = some ops ∧
    (worker env B (pre ++ WorkerEvent.timeoutDone c :: rest) w0).actions =
      (worker env B pre w0).actions ∧
    batchesRun (worker env B (pre ++ WorkerEvent.timeoutDone c :: rest) w0).actions =
      batchesRun (worker env B pre w0).actions ∧
    (worker env B (pre ++ WorkerEvent.timeoutDone c :: rest) w0).finished =
      (worker env B pre w0).finished ∧
    (worker env B (pre ++ WorkerEvent.timeoutDone c :: rest) w0).sys.ops =
      (worker env B pre w0).sys.ops ∧
    (worker env B (pre ++ WorkerEvent.timeoutDone c :: rest) w0).sys.storeCalls =
      (worker env B pre w0).sys.storeCalls := by
  have hc : c = true := cancelledFrom_last k pre c hk hcancel
  subst hc
  have hw : worker env B (pre ++ WorkerEvent.timeoutDone true :: rest) w0 =
      { worker env B pre w0 with stopped := true } := by
    rw [worker_append, worker]
    simp only [hns, Bool.false_eq_true, if_false, workerIteration, if_true]
    exact worker_of_stopped env B rest _ rfl
  rw [hw]
  exact ⟨rfl, rfl, hb, rfl, rfl, rfl, rfl, rfl⟩

/-- Witness of C30: `BatchMaxSize = 5`; the worker has received `a`, which waits in the
pending batch, when the background context is cancelled; the `select` takes the operation `b`
from the work queue and then the case `timeoutContext.Done()`. No batch is run and `a` and
`b` have nothing on their completion channels, also if an operation came after. -/
theorem worker_cancel_drops_batch_witness :
    cancelledFrom 1
      [WorkerEvent.received (sampleInsert "a" "S" 100),
       WorkerEvent.received (sampleInsert "b" "S" 100), WorkerEvent.timeoutDone true] = true ∧
    cancelledFrom 1
      [WorkerEvent.received (sampleInsert "a" "S" 100),
       WorkerEvent.received (sampleInsert "b" "S" 100), WorkerEvent.timeoutDone false] = false ∧
    (worker (sampleEnv 0) 5
      [WorkerEvent.received (sampleInsert "a" "S" 100),
       WorkerEvent.received (sampleInsert "b" "S" 100)]
      { sys := sampleSys 10 [] [] [] [] }).stopped = false ∧
    ((worker (sampleEnv 0) 5
      ([WorkerEvent.received (sampleInsert "a" "S" 100),
        WorkerEvent.received (sampleInsert "b" "S" 100)] ++
        WorkerEvent.timeoutDone true :: [WorkerEvent.received (sampleInsert "c" "S" 100)])
      { sys := sampleSys 10 [] [] [] [] }).batch.map
      (fun os => os.map (fun o => (o.txID, o.done)))) = some [("a", []), ("b", [])] ∧
    batchesRun (worker (sampleEnv 0) 5
      ([WorkerEvent.received (sampleInsert "a" "S" 100),
        WorkerEvent.received (sampleInsert "b" "S" 100)] ++
        WorkerEvent.timeoutDone true :: [WorkerEvent.received (sampleInsert "c" "S" 100)])
      { sys := sampleSys 10 [] [] [] [] }).actions = [] ∧
    (worker (sampleEnv 0) 5
      ([WorkerEvent.received (sampleInsert "a" "S" 100),
        WorkerEvent.received (sampleInsert "b" "S" 100)] ++
        WorkerEvent.timeoutDone true :: [WorkerEvent.received (sampleInsert "c" "S" 100)])
      { sys := sampleSys 10 [] [] [] [] }).finished = [] := by
  have hcancel : cancelledFrom 1
      ([WorkerEvent.received (sampleInsert "a" "S" 100),
        WorkerEvent.received (sampleInsert "b" "S" 100)] ++ [WorkerEvent.timeoutDone true]) =
      true := by
    rfl
  have h := worker_cancel_drops_batch (sampleEnv 0) 5 { sys := sampleSys 10 [] [] [] [] } 1
    [WorkerEvent.received (sampleInsert "a" "S" 100),
     WorkerEvent.received (sampleInsert "b" "S" 100)]
    [WorkerEvent.received (sampleInsert "c" "S" 100)] true
    [sampleInsert "a" "S" 100, sampleInsert "b" "S" 100]
    (by decide) hcancel (by rfl) (by rfl)
  refine ⟨hcancel, by rfl, by rfl, ?_, ?_, ?_⟩
  · rw [h.2.2.1]; rfl
  · rw [h.2.2.2.2.1]; rfl
  · rw [h.2.2.2.2.2.1]; rfl

/-- Counterexample to C30 as stated: `BatchMaxSize = 5`; the worker has received `a`, which
waits in the pending batch, when the background context is cancelled (the grouped
transaction of the store then fails to begin with the cancellation error). The `select`
takes the shutdown request that waits in the work queue, not the case
`timeoutContext.Done()`: the worker passes the pending batch to `runBatch` and `a` is sent
the generic persistence error on its completion channel. The same happens with
`BatchMaxSize = 2` when the `select` takes an operation `b` that fills the batch. -/
theorem worker_cancel_runs_batch_counterexample :
    cancelledFrom 1
      [WorkerEvent.received (sampleInsert "a" "S" 100),
       WorkerEvent.received { isShutdown := true }] = true ∧
    (worker { beginFault := some Err.contextCanceled } 5
      [WorkerEvent.received (sampleInsert "a" "S" 100)]
      { sys := sampleSys 10 [] [] [] [] }).batch.map (fun os => os.map (fun o => o.txID)) =
      some ["a"] ∧
    (batchesRun (worker { beginFault := some Err.contextCanceled } 5
      [WorkerEvent.received (sampleInsert "a" "S" 100),
       WorkerEvent.received { isShutdown := true }]
      { sys := sampleSys 10 [] [] [] [] }).actions).map (fun os => os.map (fun o => o.txID)) =
      [["a"]] ∧
    (worker { beginFault := some Err.contextCanceled } 5
      [WorkerEvent.received (sampleInsert "a" "S" 100),
       WorkerEvent.received { isShutdown := true }]
      { sys := sampleSys 10 [] [] [] [] }).finished.map (fun o => (o.txID, o.done)) =
      [("a", [some Err.transactionPersistenceError])] ∧
    cancelledFrom 1
      [WorkerEvent.received (sampleInsert "a" "S" 100),
       WorkerEvent.received (sampleInsert "b" "S" 100)] = true ∧
    (worker { beginFault := some Err.contextCanceled } 2
      [WorkerEvent.received (sampleInsert "a" "S" 100),
       WorkerEvent.received (sampleInsert "b" "S" 100)]
      { sys := sampleSys 10 [] [] [] [] }).finished.map (fun o => (o.txID, o.done)) =
      [("a", [some Err.transactionPersistenceError]),
       ("b", [some Err.transactionPersistenceError])] := by
  refine ⟨by rfl, by rfl, by rfl, by rfl, by rfl, by rfl⟩

/-! ## The confirmations of a batch -/

theorem classifyOp_confirmations (b : TransactionWriterBatch) (i : Nat) (op : TransactionOperation) :
    (classifyOp b i op).confirmationInserts =
        (match confirmationOf op with
         | some x => queueConfirmation b.confirmationInserts x
         | none => b.confirmationInserts) ∧
    (classifyOp b i op).confirmationResets =
        (match confirmationOf op with
         | some x => noteReset b.confirmationResets x
         | none => b.confirmationResets) := by
  unfold classifyOp confirmationOf queueConfirmation noteReset
  cases op.txInsert <;> cases op.txUpdate <;> cases op.txDelete <;> cases op.receipt <;>
    cases op.historyRecord <;> cases op.confirmation <;>
    first
      | exact ⟨rfl, rfl⟩
      | (simp only; split <;> exact ⟨rfl, rfl⟩)

theorem classifyFrom_confirmations (ops : List TransactionOperation) :
    ∀ (i : Nat) (b : TransactionWriterBatch),
      (classifyFrom i ops b).confirmationInserts =
          (confirmationOps ops).foldl queueConfirmation b.confirmationInserts ∧
      (classifyFrom i ops b).confirmationResets =
          (confirmationOps ops).foldl noteReset b.confirmationResets := by
  induction ops with
  | nil => intro i b; exact ⟨rfl, rfl⟩
  | cons op rest ih =>
    intro i b
    obtain ⟨h1, h2⟩ := classifyOp_confirmations b i op
    obtain ⟨h3, h4⟩ := ih (i + 1) (classifyOp b i op)
    rw [classifyFrom, h3, h4, h1, h2]
    unfold confirmationOps
    rw [List.filterMap_cons]
    cases confirmationOf op with
    | none => exact ⟨rfl, rfl⟩
    | some x => exact ⟨rfl, rfl⟩


theorem filter_queueConfirmation (T : String) (q : List ConfirmationRecord)
    (x : ConfirmationRecord × Bool) :
    (queueConfirmation q x).filter (fun c1 => c1.TransactionID == T) =
      if x.1.TransactionID = T then
        (if x.2 then [x.1] else q.filter (fun c1 => c1.TransactionID == T) ++ [x.1])
      else q.filter (fun c1 => c1.TransactionID == T) := by
  unfold queueConfirmation
  by_cases hT : x.1.TransactionID = T
  · rw [if_pos hT]
    by_cases hr : x.2 = true
    · rw [if_pos hr, if_pos hr, List.filter_append, List.filter_filter]
      have h0 : (q.filter (fun a => (a.TransactionID == T) && (a.TransactionID != x.1.TransactionID))) = [] := by
        rw [List.filter_eq_nil_iff]
        intro a _
        rw [hT]
        by_cases ha : a.TransactionID = T <;> simp [ha]
      rw [h0]
      simp [hT]
    · rw [if_neg hr, if_neg hr, List.filter_append]
      simp [hT]
  · rw [if_neg hT]
    by_cases hr : x.2 = true
    · rw [if_pos hr, List.filter_append, List.filter_filter]
      have h1 : [x.1].filter (fun c1 => c1.TransactionID == T) = [] := by simp [hT]
      rw [h1, List.append_nil]
      apply List.filter_congr
      intro a _
      by_cases ha : a.TransactionID = T
      · have hne : ¬ T = x.1.TransactionID := fun h => hT h.symm
        simp [ha, hne]
      · simp [ha]
    · rw [if_neg hr, List.filter_append]
      simp [hT]

theorem filter_foldl_queue_plain (T : String) (l : List (ConfirmationRecord × Bool)) :
    ∀ (q : List ConfirmationRecord),
      (∀ x, x ∈ l → x.1.TransactionID = T → x.2 = false) →
      (l.foldl queueConfirmation q).filter (fun c1 => c1.TransactionID == T) =
        q.filter (fun c1 => c1.TransactionID == T) ++
          (l.map Prod.fst).filter (fun c1 => c1.TransactionID == T) := by
  induction l with
  | nil => intro q _; simp
  | cons x rest ih =>
    intro q h
    rw [List.foldl_cons, ih _ (fun y hy => h y (List.mem_cons_of_mem _ hy)),
      filter_queueConfirmation]
    by_cases hT : x.1.TransactionID = T
    · have hr := h x (List.mem_cons_self _ _) hT
      simp [hT, hr]
    · simp [hT]

theorem sublist_foldl_queue (l : List (ConfirmationRecord × Bool)) :
    ∀ (q : List ConfirmationRecord),
      List.Sublist (l.foldl queueConfirmation q) (q ++ l.map Prod.fst) := by
  induction l with
  | nil => intro q; simp
  | cons x rest ih =>
    intro q
    rw [List.foldl_cons]
    refine (ih _).trans ?_
    rw [List.map_cons, ← List.singleton_append, ← List.append_assoc]
    apply List.Sublist.append_right
    unfold queueConfirmation
    split
    · exact List.Sublist.append_right (List.filter_sublist _) _
    · exact List.Sublist.refl _

theorem mem_foldl_noteReset (T : String) (l : List (ConfirmationRecord × Bool)) :
    ∀ (r : List String),
      (T ∈ l.foldl noteReset r ↔
        T ∈ r ∨ ∃ x, x ∈ l ∧ x.1.TransactionID = T ∧ x.2 = true) := by
  induction l with
  | nil => intro r; simp
  | cons x rest ih =>
    intro r
    rw [List.foldl_cons, ih]
    have hstep : T ∈ noteReset r x ↔ T ∈ r ∨ (x.1.TransactionID = T ∧ x.2 = true) := by
      unfold noteReset setAdd
      by_cases hr : x.2 = true
      · rw [if_pos hr]
        by_cases hc : r.contains x.1.TransactionID = true
        · rw [if_pos hc]
          constructor
          · exact Or.inl
          · rintro (h | ⟨h, _⟩)
            · exact h
            · rw [← h]; simpa using hc
        · rw [if_neg hc]
          simp [hr, eq_comm]
      · rw [if_neg hr]
        simp [hr]
    rw [hstep]
    constructor
    · rintro ((h | h) | ⟨y, hy, h⟩)
      · exact Or.inl h
      · exact Or.inr ⟨x, List.mem_cons_self _ _, h⟩
      · exact Or.inr ⟨y, List.mem_cons_of_mem _ hy, h⟩
    · rintro (h | ⟨y, hy, h⟩)
      · exact Or.inl (Or.inl h)
      · rcases List.mem_cons.mp hy with h1 | h1
        · subst h1; exact Or.inl (Or.inr h)
        · exact Or.inr ⟨y, h1, h⟩

/-- C27. The classification of `runBatch`, for every batch `b`, operations `ops` and
transaction `T`; the confirmations of `ops` are those of the operations that reach the
confirmation case, in arrival order, each with its reset flag. `T` is in `confirmationResets`
exactly when a confirmation of `T` carries the reset flag. If `c` is the last confirmation of
`T` with the reset flag, the confirmation inserts queued for `T` are `c` followed by the
confirmations of `T` that arrive after it, in arrival order. If no confirmation of `T`
carries the reset flag, `T` is not in `confirmationResets` and the confirmation inserts
queued for `T` are all its confirmations, in arrival order, after those the batch already
held. And the queue as a whole is a subsequence of the confirmations in arrival order. -/
theorem classify_confirmation_resets (b : TransactionWriterBatch)
    (ops : List TransactionOperation) (T : String) :
    (T ∈ (classify b ops).confirmationResets ↔
      ∃ x, x ∈ confirmationOps ops ∧ x.1.TransactionID = T ∧ x.2 = true) ∧
    (∀ (pre post : List (ConfirmationRecord × Bool)) (c : ConfirmationRecord),
      confirmationOps ops = pre ++ (c, true) :: post → c.TransactionID = T →
      (∀ x, x ∈ post → x.1.TransactionID = T → x.2 = false) →
      T ∈ (classify b ops).confirmationResets ∧
      (classify b ops).confirmationInserts.filter (fun c1 => c1.TransactionID == T) =
        c :: (post.map Prod.fst).filter (fun c1 => c1.TransactionID == T)) ∧
    ((∀ x, x ∈ confirmationOps ops → x.1.TransactionID = T → x.2 = false) →
      T ∉ (classify b ops).confirmationResets ∧
      (classify b ops).confirmationInserts.filter (fun c1 => c1.TransactionID == T) =
        b.confirmationInserts.filter (fun c1 => c1.TransactionID == T) ++
          ((confirmationOps ops).map Prod.fst).filter (fun c1 => c1.TransactionID == T)) ∧
    List.Sublist (classify b ops).confirmationInserts
      (b.confirmationInserts ++ (confirmationOps ops).map Prod.fst) := by
  obtain ⟨hq, hr⟩ := classifyFrom_confirmations ops 0
    { b with txInsertsByFrom := [], confirmationResets := [], receiptInserts := [],
             compressionChecks := [] }
  have hq1 : (classify b ops).confirmationInserts =
      (confirmationOps ops).foldl queueConfirmation b.confirmationInserts := hq
  have hr1 : (classify b ops).confirmationResets = (confirmationOps ops).foldl noteReset [] := hr
  have hmem : T ∈ (classify b ops).confirmationResets ↔
      ∃ x, x ∈ confirmationOps ops ∧ x.1.TransactionID = T ∧ x.2 = true := by
    rw [hr1, mem_foldl_noteReset]
    simp
  refine ⟨hmem, ?_, ?_, ?_⟩
  · intro pre post c hsplit hc hpost
    refine ⟨hmem.mpr ⟨(c, true), by rw [hsplit]; simp, hc, rfl⟩, ?_⟩
    rw [hq1, hsplit, List.foldl_append, List.foldl_cons, filter_foldl_queue_plain T post _ hpost,
      filter_queueConfirmation]
    simp [hc]
  · intro hno
    refine ⟨fun h => ?_, ?_⟩
    · obtain ⟨x, hx, hT, hflag⟩ := hmem.mp h
      rw [hno x hx hT] at hflag
      exact Bool.noConfusion hflag
    · rw [hq1]
      exact filter_foldl_queue_plain T _ _ hno
  · rw [hq1]
    exact sublist_foldl_queue _ _

/-- Witness of C27: the batch brings the confirmations 1, 2 (reset), 3 of `t`, between them
confirmation 1 of `u`, and then 4 (reset) and 5 of `t`. For `t` the queue holds 4 and 5; for
`u`, which has no reset, it holds its confirmation and `u` is not among the resets. -/
theorem classify_confirmation_resets_witness :
    "t" ∈ (classify {}
      [sampleConfirmation "t" 1 false, sampleConfirmation "t" 2 true,
       sampleConfirmation "u" 1 false, sampleConfirmation "t" 3 false,
       sampleConfirmation "t" 4 true, sampleConfirmation "t" 5 false]).confirmationResets ∧
    (classify {}
      [sampleConfirmation "t" 1 false, sampleConfirmation "t" 2 true,
       sampleConfirmation "u" 1 false, sampleConfirmation "t" 3 false,
       sampleConfirmation "t" 4 true, sampleConfirmation "t" 5 false]).confirmationInserts.filter
        (fun c1 => c1.TransactionID == "t") =
      [{ TransactionID := "t", payload := 4 }, { TransactionID := "t", payload := 5 }] ∧
    "u" ∉ (classify {}
      [sampleConfirmation "t" 1 false, sampleConfirmation "t" 2 true,
       sampleConfirmation "u" 1 false, sampleConfirmation "t" 3 false,
       sampleConfirmation "t" 4 true, sampleConfirmation "t" 5 false]).confirmationResets ∧
    (classify {}
      [sampleConfirmation "t" 1 false, sampleConfirmation "t" 2 true,
       sampleConfirmation "u" 1 false, sampleConfirmation "t" 3 false,
       sampleConfirmation "t" 4 true, sampleConfirmation "t" 5 false]).confirmationInserts.filter
        (fun c1 => c1.TransactionID == "u") =
      [{ TransactionID := "u", payload := 1 }] := by
  have ht := (classify_confirmation_resets {}
    [sampleConfirmation "t" 1 false, sampleConfirmation "t" 2 true,
     sampleConfirmation "u" 1 false, sampleConfirmation "t" 3 false,
     sampleConfirmation "t" 4 true, sampleConfirmation "t" 5 false] "t").2.1
    [({ TransactionID := "t", payload := 1 }, false), ({ TransactionID := "t", payload := 2 }, true),
     ({ TransactionID := "u", payload := 1 }, false), ({ TransactionID := "t", payload := 3 }, false)]
    [({ TransactionID := "t", payload := 5 }, false)]
    { TransactionID := "t", payload := 4 } (by rfl) (by rfl) (by decide)
  have hu := (classify_confirmation_resets {}
    [sampleConfirmation "t" 1 false, sampleConfirmation "t" 2 true,
     sampleConfirmation "u" 1 false, sampleConfirmation "t" 3 false,
     sampleConfirmation "t" 4 true, sampleConfirmation "t" 5 false] "u").2.2.1 (by decide)
  exact ⟨ht.1, ht.2, hu.1, hu.2⟩

/-! ## The trace of store calls -/

theorem callError_of_stage (env : Env) (rows : List ManagedTX) (k : Nat) (c : StoreCall)
    (h : c.stage ≠ 3) : callError env rows k c = env.storeFault k := by
  unfold callError
  cases env.storeFault k with
  | some e => rfl
  | none => cases c <;> first | rfl | exact absurd rfl h

theorem Traced.idle {env : Env} {rows : List ManagedTX} {s : Sys} {r : Option Err × Sys}
    (h : r.2.storeCalls = s.storeCalls) : Traced env rows s r [] :=
  ⟨by simpa using h, fun k c e hk _ => by simp at hk⟩

theorem Traced.seq {env : Env} {rows : List ManagedTX} {s s1 : Sys} {r : Option Err × Sys}
    {n1 n2 : List StoreCall}
    (h1 : Traced env rows s (none, s1) n1) (h2 : Traced env rows s1 r n2) :
    Traced env rows s r (n1 ++ n2) := by
  have hc1 : s1.storeCalls = s.storeCalls ++ n1 := h1.calls
  refine ⟨by rw [h2.calls, hc1, List.append_assoc], ?_⟩
  intro k c e hk hf
  by_cases hlt : k < n1.length
  · rw [List.getElem?_append_left hlt] at hk
    rcases h1.stops k c e hk hf with ⟨ht, c1, hc1', hfo⟩ | ⟨h, _⟩
    · left
      refine ⟨ht, c1, ?_, hfo⟩
      have hlt1 : k + 1 < n1.length := by
        by_contra hge
        rw [List.getElem?_eq_none (by omega)] at hc1'
        exact Option.noConfusion hc1'
      rw [List.getElem?_append_left hlt1]
      exact hc1'
    · exact Option.noConfusion h
  · have hge : n1.length ≤ k := by omega
    rw [List.getElem?_append_right hge] at hk
    have hidx : s.storeCalls.length + k = s1.storeCalls.length + (k - n1.length) := by
      rw [hc1, List.length_append]; omega
    rw [hidx] at hf
    rcases h2.stops (k - n1.length) c e hk hf with ⟨ht, c1, hc1', hfo⟩ | ⟨h, hl⟩
    · left
      refine ⟨ht, c1, ?_, hfo⟩
      rw [List.getElem?_append_right (by omega)]
      have : k + 1 - n1.length = k - n1.length + 1 := by omega
      rw [this]
      exact hc1'
    · right
      refine ⟨h, ?_⟩
      rw [List.length_append]; omega

theorem Traced.traced_after {env : Env} {rows : List ManagedTX} {s s1 : Sys} {r : Option Err × Sys}
    {new : List StoreCall} (h : Traced env rows s r new) (hs : s1.storeCalls = r.2.storeCalls) :
    Traced env rows s (r.1, s1) new :=
  ⟨by rw [hs]; exact h.calls, h.stops⟩

theorem storeCall_traced (env : Env) (rows : List ManagedTX) (s : Sys) (c : StoreCall)
    (hc : c.stage ≠ 3) : Traced env rows s (storeCall env s c) [c] := by
  refine ⟨rfl, ?_⟩
  intro k c1 e hk hf
  cases k with
  | zero =>
    simp only [List.getElem?_cons_zero, Option.some.injEq] at hk
    subst hk
    rw [callError_of_stage env rows _ _ hc] at hf
    right
    exact ⟨hf, rfl⟩
  | succ k => simp at hk

theorem runStoreCalls_traced (env : Env) (rows : List ManagedTX) (cs : List StoreCall)
    (hcs : ∀ c, c ∈ cs → c.stage ≠ 3) :
    ∀ (s : Sys), ∃ new, Traced env rows s (runStoreCalls env cs s) new ∧
      (∀ c, c ∈ new → c ∈ cs) ∧ new.head? = cs.head? := by
  induction cs with
  | nil => intro s; exact ⟨[], Traced.idle rfl, fun c hc => hc, rfl⟩
  | cons c rest ih =>
    intro s
    have h1 := storeCall_traced env rows s c (hcs c (List.mem_cons_self _ _))
    unfold runStoreCalls
    cases h : storeCall env s c with
    | mk e s1 =>
      rw [h] at h1
      cases e with
      | some e => exact ⟨[c], h1, fun c1 hc1 => by simp at hc1; simp [hc1], rfl⟩
      | none =>
        obtain ⟨new, hn, hsub, _⟩ := ih (fun c1 hc1 => hcs c1 (List.mem_cons_of_mem _ hc1)) s1
        refine ⟨[c] ++ new, h1.seq hn, ?_, rfl⟩
        intro c1 hc1
        rcases List.mem_append.mp hc1 with h2 | h2
        · rw [List.mem_singleton.mp h2]; exact List.mem_cons_self _ _
        · exact List.mem_cons_of_mem _ (hsub c1 h2)

theorem pairwise_stage_const (k : Nat) (new : List StoreCall) (h : ∀ c, c ∈ new → c.stage = k) :
    (new.map StoreCall.stage).Pairwise (fun a b => a ≤ b) := by
  induction new with
  | nil => simp
  | cons c rest ih =>
    rw [List.map_cons, List.pairwise_cons]
    refine ⟨?_, ih (fun c1 hc1 => h c1 (List.mem_cons_of_mem _ hc1))⟩
    intro a ha
    obtain ⟨c1, hc1, rfl⟩ := List.mem_map.mp ha
    rw [h c (List.mem_cons_self _ _), h c1 (List.mem_cons_of_mem _ hc1)]

theorem Staged.const {env : Env} {k : Nat} {new : List StoreCall} (h : ∀ c, c ∈ new → c.stage = k)
    (h9 : k = 9 → new ≠ [] → 0 < env.compressionInterval) : Staged env k k new := by
  refine ⟨pairwise_stage_const k new h, fun c hc => ⟨?_, ?_, ?_⟩⟩
  · rw [h c hc]
  · rw [h c hc]
  · intro h1
    exact h9 (by rw [← h1, h c hc]) (List.ne_nil_of_mem hc)

theorem Staged.nil (env : Env) (lo hi : Nat) : Staged env lo hi [] :=
  ⟨by simp, fun c hc => by simp at hc⟩

theorem Staged.staged_mono {env : Env} {lo hi lo1 hi1 : Nat} {new : List StoreCall}
    (h : Staged env lo hi new) (hlo : lo1 ≤ lo) (hhi : hi ≤ hi1) : Staged env lo1 hi1 new :=
  ⟨h.1, fun c hc => ⟨Nat.le_trans hlo (h.2 c hc).1, Nat.le_trans (h.2 c hc).2.1 hhi, (h.2 c hc).2.2⟩⟩

theorem Staged.append {env : Env} {lo hi lo1 hi1 : Nat} {n1 n2 : List StoreCall}
    (h1 : Staged env lo hi n1) (h2 : Staged env lo1 hi1 n2) (hle : hi ≤ lo1) (hlo : lo ≤ lo1)
    (hhi : hi ≤ hi1) : Staged env lo hi1 (n1 ++ n2) := by
  refine ⟨?_, ?_⟩
  · rw [List.map_append, List.pairwise_append]
    refine ⟨h1.1, h2.1, ?_⟩
    intro a ha b hb
    obtain ⟨c1, hc1, rfl⟩ := List.mem_map.mp ha
    obtain ⟨c2, hc2, rfl⟩ := List.mem_map.mp hb
    exact Nat.le_trans (h1.2 c1 hc1).2.1 (Nat.le_trans hle (h2.2 c2 hc2).1)
  · intro c hc
    rcases List.mem_append.mp hc with h | h
    · exact ⟨(h1.2 c h).1, Nat.le_trans (h1.2 c h).2.1 hhi, (h1.2 c h).2.2⟩
    · exact ⟨Nat.le_trans hlo (h2.2 c h).1, (h2.2 c h).2.1, (h2.2 c h).2.2⟩

theorem insertReceipts_traced (env : Env) (rows : List ManagedTX) (b : TransactionWriterBatch)
    (s : Sys) (hkeys : ∀ n ks, (env.rangeKeys n ks).Perm ks) :
    ∃ new, Traced env rows s (insertReceipts env b s) new ∧ ∀ c, c ∈ new → c.stage = 5 := by
  unfold insertReceipts
  simp only
  obtain ⟨rs, hrs⟩ : ∃ rs, rs = (env.rangeKeys 1 (b.receiptInserts.map Prod.fst)).filterMap
    (fun k => b.receiptInserts.lookup k) := ⟨_, rfl⟩
  obtain ⟨us, hus⟩ : ∃ us, us = (env.rangeKeys 2 (b.receiptInserts.map Prod.fst)).filterMap
    (fun k => b.receiptInserts.lookup k) := ⟨_, rfl⟩
  rw [← hrs, ← hus]
  split
  · rename_i hlen
    simp only [storeCall]
    cases hf : env.storeFault s.storeCalls.length with
    | none =>
      refine ⟨[StoreCall.insertManyReceipts rs], ⟨rfl, ?_⟩, ?_⟩
      · intro k c e hk hce
        cases k with
        | zero =>
          simp only [List.getElem?_cons_zero, Option.some.injEq] at hk
          subst hk
          rw [callError_of_stage _ _ _ _ (by simp [StoreCall.stage]), Nat.add_zero, hf] at hce
          exact Option.noConfusion hce
        | succ k => simp at hk
      · intro c hc
        rw [List.mem_singleton.mp hc]; rfl
    | some e0 =>
      simp only
      obtain ⟨new, hn, hsub, hhead⟩ := runStoreCalls_traced env rows
        (us.map StoreCall.upsertReceipt)
        (by intro c hc; obtain ⟨r, _, rfl⟩ := List.mem_map.mp hc; simp [StoreCall.stage])
        { s with storeCalls := s.storeCalls ++ [StoreCall.insertManyReceipts rs] }
      -- the list of upserts is not empty
      have hne : ∃ r, new.head? = some (StoreCall.upsertReceipt r) := by
        rw [hhead]
        have h1 : rs ≠ [] := by
          intro h0; rw [h0] at hlen; simp at hlen
        obtain ⟨r, hr⟩ := List.exists_mem_of_ne_nil _ h1
        rw [hrs] at hr
        obtain ⟨k, hk, hkr⟩ := List.mem_filterMap.mp hr
        have hk2 : k ∈ env.rangeKeys 2 (b.receiptInserts.map Prod.fst) :=
          (hkeys 2 _).mem_iff.mpr ((hkeys 1 _).mem_iff.mp hk)
        have hr2 : r ∈ us := by
          rw [hus]; exact List.mem_filterMap.mpr ⟨k, hk2, hkr⟩
        cases hl : us with
        | nil => rw [hl] at hr2; simp at hr2
        | cons r0 rest => exact ⟨r0, rfl⟩
      obtain ⟨r0, hr0⟩ := hne
      refine ⟨[StoreCall.insertManyReceipts rs] ++ new, ⟨?_, ?_⟩, ?_⟩
      · rw [hn.calls]; simp
      · intro k c e hk hce
        cases k with
        | zero =>
          simp only [List.singleton_append, List.getElem?_cons_zero, Option.some.injEq] at hk
          subst hk
          left
          refine ⟨rfl, StoreCall.upsertReceipt r0, ?_, rfl⟩
          simp only [List.singleton_append, Nat.zero_add, List.getElem?_cons_succ]
          rw [← List.head?_eq_getElem?]
          exact hr0
        | succ k =>
          simp only [List.singleton_append, List.getElem?_cons_succ] at hk
          have hce1 : callError env rows
              (({ s with storeCalls := s.storeCalls ++ [StoreCall.insertManyReceipts rs] } :
                Sys).storeCalls.length + k) c = some e := by
            simp only [List.length_append, List.length_singleton]
            rw [← hce]; congr 1; omega
          rcases hn.stops k c e hk hce1 with ⟨ht, c1, hc1, hfo⟩ | ⟨h, hl⟩
          · left
            exact ⟨ht, c1, by simpa using hc1, hfo⟩
          · right
            exact ⟨h, by simp [hl]⟩
      · intro c hc
        rcases List.mem_append.mp hc with h | h
        · rw [List.mem_singleton.mp h]; rfl
        · obtain ⟨r, _, rfl⟩ := List.mem_map.mp (hsub c h)
          rfl
  · exact ⟨[], Traced.idle rfl, fun c hc => by simp at hc⟩

theorem compressionCheck_traced (env : Env) (rows : List ManagedTX) (txID : String) (s : Sys) :
    ∃ new, Traced env rows s (compressionCheck env txID s) new ∧ ∀ c, c ∈ new → c.stage = 9 := by
  have hcall : ∀ (s2 : Sys), s2.storeCalls = s.storeCalls →
      ∃ new, Traced env rows s
        (match storeCall env s2 (StoreCall.compressHistory txID) with
          | (some e, s3) => (some e, s3)
          | (none, s3) =>
            ((none : Option Err), { (readClock env s3).2 with
              txMetaCache := (readClock env s3).2.txMetaCache.add txID
                { lastCompacted := (readClock env s3).1 } })) new ∧
        ∀ c, c ∈ new → c.stage = 9 := by
    intro s2 hs2
    have h1 := storeCall_traced env rows s2 (StoreCall.compressHistory txID) (by simp [StoreCall.stage])
    have h2 : Traced env rows s (storeCall env s2 (StoreCall.compressHistory txID))
        [StoreCall.compressHistory txID] :=
      ⟨by rw [h1.calls, hs2], by rw [← hs2]; exact h1.stops⟩
    refine ⟨[StoreCall.compressHistory txID], ?_, fun c hc => by rw [List.mem_singleton.mp hc]; rfl⟩
    cases hc : storeCall env s2 (StoreCall.compressHistory txID) with
    | mk e s3 =>
      rw [hc] at h2
      cases e with
      | some e => exact h2
      | none => exact h2.traced_after rfl
  unfold compressionCheck
  cases hget : s.txMetaCache.get txID with
  | mk hit cache1 =>
    cases hit with
    | none => exact hcall _ rfl
    | some m =>
      simp only [readClock]
      cases hd : decide (env.clock s.clockReads - m.lastCompacted < env.compressionInterval) with
      | true => exact ⟨[], Traced.idle rfl, fun c hc => by simp at hc⟩
      | false => exact hcall _ rfl

theorem compressionChecks_traced (env : Env) (rows : List ManagedTX) (ks : List String) :
    ∀ (s : Sys), ∃ new, Traced env rows s (compressionChecks env ks s) new ∧
      ∀ c, c ∈ new → c.stage = 9 := by
  induction ks with
  | nil => intro s; exact ⟨[], Traced.idle rfl, fun c hc => by simp at hc⟩
  | cons k rest ih =>
    intro s
    obtain ⟨n1, h1, hs1⟩ := compressionCheck_traced env rows k s
    unfold compressionChecks
    cases h : compressionCheck env k s with
    | mk e s1 =>
      rw [h] at h1
      cases e with
      | some e => exact ⟨n1, h1, hs1⟩
      | none =>
        obtain ⟨n2, h2, hs2⟩ := ih s1
        refine ⟨n1 ++ n2, h1.seq h2, ?_⟩
        intro c hc
        rcases List.mem_append.mp hc with h3 | h3
        · exact hs1 c h3
        · exact hs2 c h3

theorem deleteTransactions_traced (env : Env) (rows : List ManagedTX) (ks : List String) :
    ∀ (s : Sys), ∃ new, Traced env rows s (deleteTransactions env ks s) new ∧
      ∀ c, c ∈ new → c.isDelete = true := by
  induction ks with
  | nil => intro s; exact ⟨[], Traced.idle rfl, fun c hc => by simp at hc⟩
  | cons k rest ih =>
    intro s
    unfold deleteTransactions
    simp only [storeCall]
    obtain ⟨n2, h2, hsub2, hhead2⟩ := runStoreCalls_traced env rows
      [StoreCall.deleteManyConfirmations k, StoreCall.deleteManyHistory k,
        StoreCall.deleteTransaction k]
      (by intro c hc; simp at hc; rcases hc with h | h | h <;> subst h <;> simp [StoreCall.stage])
      { s with storeCalls := s.storeCalls ++ [StoreCall.deleteReceipt k] }
    have hdel2 : ∀ c, c ∈ n2 → c.isDelete = true := by
      intro c hc
      have := hsub2 c hc
      simp at this
      rcases this with h | h | h <;> subst h <;> rfl
    -- the first call, with the calls that follow when its error is tolerated
    have hfirst : ∀ (r : Option Err × Sys) (n : List StoreCall),
        Traced env rows { s with storeCalls := s.storeCalls ++ [StoreCall.deleteReceipt k] } r n →
        n.head? = some (StoreCall.deleteManyConfirmations k) →
        (∀ e, env.storeFault s.storeCalls.length = some e → e = Err.deleteRecordNotFound) →
        Traced env rows s r ([StoreCall.deleteReceipt k] ++ n) := by
      intro r n hn hhead htol
      refine ⟨by rw [hn.calls]; simp, ?_⟩
      intro j c e hj hce
      cases j with
      | zero =>
        simp only [List.singleton_append, List.getElem?_cons_zero, Option.some.injEq] at hj
        subst hj
        rw [callError_of_stage _ _ _ _ (by simp [StoreCall.stage]), Nat.add_zero] at hce
        have he := htol e hce
        subst he
        left
        refine ⟨rfl, StoreCall.deleteManyConfirmations k, ?_, by simp [followsFailure]⟩
        simp only [List.singleton_append, Nat.zero_add, List.getElem?_cons_succ]
        rw [← List.head?_eq_getElem?]
        exact hhead
      | succ j =>
        simp only [List.singleton_append, List.getElem?_cons_succ] at hj
        have hce1 : callError env rows
            (({ s with storeCalls := s.storeCalls ++ [StoreCall.deleteReceipt k] } :
              Sys).storeCalls.length + j) c = some e := by
          simp only [List.length_append, List.length_singleton]
          rw [← hce]; congr 1; omega
        rcases hn.stops j c e hj hce1 with ⟨ht, c1, hc1, hfo⟩ | ⟨h, hl⟩
        · left
          exact ⟨ht, c1, by simpa using hc1, hfo⟩
        · right
          exact ⟨h, by simp [hl]⟩
    split
    · rename_i hstop
      refine ⟨[StoreCall.deleteReceipt k], ⟨rfl, ?_⟩, ?_⟩
      · intro j c e hj hce
        cases j with
        | zero =>
          simp only [List.getElem?_cons_zero, Option.some.injEq] at hj
          subst hj
          rw [callError_of_stage _ _ _ _ (by simp [StoreCall.stage]), Nat.add_zero] at hce
          right
          exact ⟨hce, rfl⟩
        | succ j => simp at hj
      · intro c hc
        rw [List.mem_singleton.mp hc]; rfl
    · rename_i hgo
      have htol : ∀ e, env.storeFault s.storeCalls.length = some e →
          e = Err.deleteRecordNotFound := by
        intro e he
        by_contra hne
        apply hgo
        rw [he]
        exact ⟨rfl, fun h => hne (Option.some.inj h)⟩
      have hhead : n2.head? = some (StoreCall.deleteManyConfirmations k) := hhead2
      cases hr : runStoreCalls env
          [StoreCall.deleteManyConfirmations k, StoreCall.deleteManyHistory k,
            StoreCall.deleteTransaction k]
          { s with storeCalls := s.storeCalls ++ [StoreCall.deleteReceipt k] } with
      | mk e2 s2 =>
        rw [hr] at h2
        cases e2 with
        | some e =>
          refine ⟨[StoreCall.deleteReceipt k] ++ n2, hfirst _ _ h2 hhead htol, ?_⟩
          intro c hc
          rcases List.mem_append.mp hc with h | h
          · rw [List.mem_singleton.mp h]; rfl
          · exact hdel2 c h
        | none =>
          simp only
          obtain ⟨n3, h3, hdel3⟩ := ih
            { s2 with transactions := s2.transactions.filter (fun t => t.ID != k) }
          have h23 : Traced env rows
              { s with storeCalls := s.storeCalls ++ [StoreCall.deleteReceipt k] }
              (deleteTransactions env rest
                { s2 with transactions := s2.transactions.filter (fun t => t.ID != k) })
              (n2 ++ n3) := by
            have h2a : Traced env rows
                { s with storeCalls := s.storeCalls ++ [StoreCall.deleteReceipt k] }
                (none, { s2 with transactions := s2.transactions.filter (fun t => t.ID != k) })
                n2 := h2.traced_after rfl
            exact h2a.seq h3
          have hhead23 : (n2 ++ n3).head? = some (StoreCall.deleteManyConfirmations k) := by
            cases n2 with
            | nil => simp at hhead
            | cons c0 r0 => simpa using hhead
          refine ⟨[StoreCall.deleteReceipt k] ++ (n2 ++ n3), hfirst _ _ h23 hhead23 htol, ?_⟩
          intro c hc
          rcases List.mem_append.mp hc with h | h
          · rw [List.mem_singleton.mp h]; rfl
          · rcases List.mem_append.mp h with h | h
            · exact hdel2 c h
            · exact hdel3 c h

theorem insertManyTransactions_traced (env : Env) (txs : List ManagedTX) (s : Sys) :
    Traced env s.transactions s (insertManyTransactions env txs s)
      [StoreCall.insertManyTransactions txs] := by
  unfold insertManyTransactions
  simp only [storeCall]
  cases hf : env.storeFault s.storeCalls.length with
  | some e0 =>
    refine ⟨rfl, ?_⟩
    intro k c e hk hce
    cases k with
    | zero =>
      simp only [List.getElem?_cons_zero, Option.some.injEq] at hk
      subst hk
      simp only [callError, Nat.add_zero, hf, Option.some.injEq] at hce
      right
      exact ⟨by rw [hce], rfl⟩
    | succ k => simp at hk
  | none =>
    simp only
    split
    · rename_i hok
      refine ⟨rfl, ?_⟩
      intro k c e hk hce
      cases k with
      | zero =>
        simp only [List.getElem?_cons_zero, Option.some.injEq] at hk
        subst hk
        simp only [callError, Nat.add_zero, hf] at hce
        rw [if_pos hok] at hce
        exact Option.noConfusion hce
      | succ k => simp at hk
    · rename_i hbad
      refine ⟨rfl, ?_⟩
      intro k c e hk hce
      cases k with
      | zero =>
        simp only [List.getElem?_cons_zero, Option.some.injEq] at hk
        subst hk
        simp only [callError, Nat.add_zero, hf] at hce
        rw [if_neg hbad] at hce
        right
        exact ⟨hce, rfl⟩
      | succ k => simp at hk

theorem primeMetaCache_calls (env : Env) (txs : List ManagedTX) :
    ∀ (s : Sys), (primeMetaCache env txs s).storeCalls = s.storeCalls := by
  induction txs with
  | nil => intro s; rfl
  | cons t rest ih =>
    intro s
    unfold primeMetaCache
    simp only [readClock]
    rw [ih]

theorem mergeTxUpdatesLoop_calls (env : Env) (is : List Nat) :
    ∀ (cs : List TXCompletion) (m : List (String × Nat)) (s : Sys),
      (mergeTxUpdatesLoop env is cs m s).2.2.storeCalls = s.storeCalls := by
  induction is with
  | nil => intro cs m s; rfl
  | cons i rest ih =>
    intro cs m s
    unfold mergeTxUpdatesLoop
    cases hop : s.ops[i]? with
    | none => exact ih cs m s
    | some op =>
      simp only
      cases hl : List.lookup op.txID m with
      | none =>
        simp only
        cases hs : (op.txUpdate.getD {}).Status with
        | none => exact ih _ _ _
        | some st =>
          simp only
          split
          · simp only [readClock]
            rw [ih]
          · exact ih _ _ _
      | some j =>
        simp only
        cases hs : (op.txUpdate.getD {}).Status with
        | none => rw [ih]
        | some st =>
          simp only
          split
          · simp only [readClock]
            rw [ih]
          · rw [ih]

theorem confirmCall_stage (ops : List TransactionOperation) (i : Nat) :
    (confirmCall ops i).stage = 1 := by
  unfold confirmCall
  split <;> rfl

theorem preInsertCheckOps_traced (env : Env) (rows : List ManagedTX) (txs : List Nat) :
    ∀ (v : List Nat) (s : Sys), ∃ new,
      Traced env rows s
        ((preInsertCheckOps env txs v s).1, (preInsertCheckOps env txs v s).2.2) new ∧
      (∀ c, c ∈ new → c.stage = 1) ∧
      (preInsertCheckOps env txs v s).2.2.transactions = s.transactions := by
  induction txs with
  | nil => intro v s; exact ⟨[], Traced.idle rfl, fun c hc => by simp at hc, rfl⟩
  | cons i rest ih =>
    intro v s
    cases hop : s.ops[i]? with
    | none =>
      have h : preInsertCheckOps env (i :: rest) v s = preInsertCheckOps env rest v s := by
        rw [preInsertCheckOps, hop]
      rw [h]
      exact ih v s
    | some op =>
      rw [preInsertCheckOps_cons env i rest v s op hop]
      -- a continuation after the store call
      have cont : ∀ (v2 : List Nat) (s2 : Sys),
          s2.storeCalls = s.storeCalls ++ [confirmCall s.ops i] →
          s2.transactions = s.transactions →
          env.storeFault s.storeCalls.length = none →
          ∃ new, Traced env rows s
            ((preInsertCheckOps env rest v2 s2).1, (preInsertCheckOps env rest v2 s2).2.2) new ∧
            (∀ c, c ∈ new → c.stage = 1) ∧
            (preInsertCheckOps env rest v2 s2).2.2.transactions = s.transactions := by
        intro v2 s2 hcalls hrows hf
        obtain ⟨n2, h2, hs2, hr2⟩ := ih v2 s2
        have h1 : Traced env rows s ((none : Option Err), s2) [confirmCall s.ops i] := by
          refine ⟨hcalls, ?_⟩
          intro k c e hk hce
          cases k with
          | zero =>
            simp only [List.getElem?_cons_zero, Option.some.injEq] at hk
            subst hk
            rw [callError_of_stage _ _ _ _ (by rw [confirmCall_stage]; decide), Nat.add_zero,
              hf] at hce
            exact Option.noConfusion hce
          | succ k => simp at hk
        refine ⟨[confirmCall s.ops i] ++ n2, h1.seq h2, ?_, by rw [hr2, hrows]⟩
        intro c hc
        rcases List.mem_append.mp hc with h | h
        · rw [List.mem_singleton.mp h]; exact confirmCall_stage _ _
        · exact hs2 c h
      split
      · cases hf : env.storeFault s.storeCalls.length with
        | some e =>
          simp only
          refine ⟨[confirmCall s.ops i], ⟨rfl, ?_⟩, ?_, trivial⟩
          · intro k c e1 hk hce
            cases k with
            | zero =>
              simp only [List.getElem?_cons_zero, Option.some.injEq] at hk
              subst hk
              rw [callError_of_stage _ _ _ _ (by rw [confirmCall_stage]; decide), Nat.add_zero,
                hf] at hce
              right
              exact ⟨hce, rfl⟩
            | succ k => simp at hk
          · intro c hc
            rw [List.mem_singleton.mp hc]; exact confirmCall_stage _ _
        | none =>
          simp only
          split
          · exact cont _ _ rfl rfl hf
          · exact cont _ _ rfl rfl hf
      · obtain ⟨n2, h2, hs2, hr2⟩ := ih (v ++ [i])
          { s with txMetaCache := (s.txMetaCache.get op.txID).2 }
        exact ⟨n2, ⟨h2.calls, h2.stops⟩, hs2, hr2⟩

theorem preInsertCheckGroups_traced (env : Env) (rows : List ManagedTX)
    (gs : List (String × List Nat)) :
    ∀ (v : List Nat) (s : Sys), ∃ new,
      Traced env rows s
        ((preInsertCheckGroups env gs v s).1, (preInsertCheckGroups env gs v s).2.2) new ∧
      (∀ c, c ∈ new → c.stage = 1) ∧
      (preInsertCheckGroups env gs v s).2.2.transactions = s.transactions := by
  induction gs with
  | nil => intro v s; exact ⟨[], Traced.idle rfl, fun c hc => by simp at hc, rfl⟩
  | cons g rest ih =>
    intro v s
    obtain ⟨signer, txOps⟩ := g
    obtain ⟨n1, h1, hs1, hr1⟩ := preInsertCheckOps_traced env rows txOps v s
    unfold preInsertCheckGroups
    cases hc : preInsertCheckOps env txOps v s with
    | mk e r =>
      obtain ⟨v1, s1⟩ := r
      rw [hc] at h1 hr1
      simp only at h1 hr1
      cases e with
      | some e => exact ⟨n1, h1, hs1, hr1⟩
      | none =>
        simp only
        obtain ⟨n2, h2, hs2, hr2⟩ := ih v1 s1
        refine ⟨n1 ++ n2, h1.seq h2, ?_, by rw [hr2, hr1]⟩
        intro c hc
        rcases List.mem_append.mp hc with h | h
        · exact hs1 c h
        · exact hs2 c h

theorem reconcileNonce_traced (env : Env) (rows : List ManagedTX) (signer : String)
    (op : TransactionOperation) (ce : Option NonceCacheEntry) (s : Sys) :
    ∃ new, Traced env rows s
        ((match (reconcileNonce env signer op ce s).1 with
          | Except.error e => some e
          | Except.ok _ => none), (reconcileNonce env signer op ce s).2) new ∧
      ∀ c, c ∈ new → c.stage = 2 := by
  unfold reconcileNonce
  cases h1 : op.nextNonceCB signer with
  | error e => exact ⟨[], Traced.idle rfl, fun c hc => by simp at hc⟩
  | ok c =>
    cases ce with
    | some e => exact ⟨[], Traced.idle rfl, fun c hc => by simp at hc⟩
    | none =>
      have h0 := storeCall_traced env rows { s with cbCalls := s.cbCalls ++ [signer] }
        (StoreCall.getManyTransactions signer) (by simp [StoreCall.stage])
      have hst : ∀ c, c ∈ [StoreCall.getManyTransactions signer] → c.stage = 2 := by
        intro c hc; rw [List.mem_singleton.mp hc]; rfl
      simp only [storeCall] at h0 ⊢
      cases h2 : env.storeFault s.storeCalls.length with
      | some e =>
        rw [h2] at h0
        exact ⟨_, ⟨h0.calls, h0.stops⟩, hst⟩
      | none =>
        rw [h2] at h0
        simp only
        cases highestNonceTx s.transactions signer with
        | none => exact ⟨_, ⟨h0.calls, h0.stops⟩, hst⟩
        | some tx => exact ⟨_, ⟨h0.calls, h0.stops⟩, hst⟩

theorem assignNoncesToOps_traced (env : Env) (rows : List ManagedTX) (signer : String)
    (cacheExpired : Bool) (txs : List Nat) :
    ∀ (ce : Option NonceCacheEntry) (s : Sys),
      ∃ new, Traced env rows s (assignNoncesToOps env signer cacheExpired txs ce s) new ∧
        ∀ c, c ∈ new → c.stage = 2 := by
  induction txs with
  | nil => intro ce s; exact ⟨[], Traced.idle rfl, fun c hc => by simp at hc⟩
  | cons i rest ih =>
    intro ce s
    unfold assignNoncesToOps
    cases h : s.ops[i]? with
    | none => exact ih ce s
    | some op =>
      simp only
      split
      · exact ih ce s
      · split
        · exact ih ce s
        · have key : ∀ (r : Except Err NonceCacheEntry × Sys),
              (∃ n0, Traced env rows s
                ((match r.1 with
                  | Except.error e => some e
                  | Except.ok _ => none), r.2) n0 ∧ ∀ c, c ∈ n0 → c.stage = 2) →
              ∃ new, Traced env rows s (match r with
                | (Except.error e, s1) => (some e, s1)
                | (Except.ok ce, s1) =>
                  assignNoncesToOps env signer cacheExpired rest
                    (some { ce with nextNonce := (ce.nextNonce + 1) % 2 ^ 64 })
                    { s1 with ops := modifyOp s1.ops i (stampNonce ce.nextNonce),
                              nextNonceCache := s1.nextNonceCache.add signer
                                { ce with nextNonce := (ce.nextNonce + 1) % 2 ^ 64 } }) new ∧
                ∀ c, c ∈ new → c.stage = 2 := by
            intro r hr
            obtain ⟨res, s1⟩ := r
            obtain ⟨n0, h0, h0s⟩ := hr
            cases res with
            | error e => exact ⟨n0, h0, h0s⟩
            | ok ce1 =>
              simp only at h0 ⊢
              obtain ⟨n1, h1, h1s⟩ := ih (some { ce1 with nextNonce := (ce1.nextNonce + 1) % 2 ^ 64 })
                { s1 with ops := modifyOp s1.ops i (stampNonce ce1.nextNonce),
                          nextNonceCache := s1.nextNonceCache.add signer
                            { ce1 with nextNonce := (ce1.nextNonce + 1) % 2 ^ 64 } }
              have h0a : Traced env rows s ((none : Option Err),
                  { s1 with ops := modifyOp s1.ops i (stampNonce ce1.nextNonce),
                            nextNonceCache := s1.nextNonceCache.add signer
                              { ce1 with nextNonce := (ce1.nextNonce + 1) % 2 ^ 64 } }) n0 :=
                h0.traced_after rfl
              refine ⟨n0 ++ n1, h0a.seq h1, ?_⟩
              intro c hc
              rcases List.mem_append.mp hc with h | h
              · exact h0s c h
              · exact h1s c h
          cases ce with
          | none => exact key _ (reconcileNonce_traced env rows signer op none s)
          | some e =>
            cases cacheExpired with
            | false => exact key (Except.ok e, s) ⟨[], Traced.idle rfl, fun c hc => by simp at hc⟩
            | true => exact key _ (reconcileNonce_traced env rows signer op (some e) s)

theorem assignNoncesForSigner_traced (env : Env) (rows : List ManagedTX) (signer : String)
    (txs : List Nat) (s : Sys) :
    ∃ new, Traced env rows s (assignNoncesForSigner env signer txs s) new ∧
      ∀ c, c ∈ new → c.stage = 2 := by
  unfold assignNoncesForSigner
  cases hg : s.nextNonceCache.get signer with
  | mk hit cache1 =>
    cases hit with
    | some ce =>
      simp only [readClock]
      obtain ⟨n, h, hs⟩ := assignNoncesToOps_traced env rows signer
        (decide (env.clock s.clockReads - ce.cachedTime > env.nonceStateTimeout)) txs (some ce)
        { s with nextNonceCache := cache1, clockReads := s.clockReads + 1 }
      exact ⟨n, ⟨h.calls, h.stops⟩, hs⟩
    | none =>
      simp only
      obtain ⟨n, h, hs⟩ := assignNoncesToOps_traced env rows signer false txs none
        { s with nextNonceCache := cache1 }
      exact ⟨n, ⟨h.calls, h.stops⟩, hs⟩

theorem assignNonces_traced (env : Env) (rows : List ManagedTX) (gs : List (String × List Nat)) :
    ∀ (s : Sys), ∃ new, Traced env rows s (assignNonces env gs s) new ∧
      ∀ c, c ∈ new → c.stage = 2 := by
  induction gs with
  | nil => intro s; exact ⟨[], Traced.idle rfl, fun c hc => by simp at hc⟩
  | cons g rest ih =>
    intro s
    obtain ⟨signer, txs⟩ := g
    obtain ⟨n1, h1, hs1⟩ := assignNoncesForSigner_traced env rows signer txs s
    unfold assignNonces
    cases hgr : assignNoncesForSigner env signer txs s with
    | mk e s1 =>
      rw [hgr] at h1
      cases e with
      | some e => exact ⟨n1, h1, hs1⟩
      | none =>
        simp only
        obtain ⟨n2, h2, hs2⟩ := ih s1
        refine ⟨n1 ++ n2, h1.seq h2, ?_⟩
        intro c hc
        rcases List.mem_append.mp hc with h | h
        · exact hs1 c h
        · exact hs2 c h

theorem runStoreCalls_staged (env : Env) (rows : List ManagedTX) (cs : List StoreCall) (k : Nat)
    (hk : k ≠ 3) (hk9 : k ≠ 9) (hcs : ∀ c, c ∈ cs → c.stage = k) (s : Sys) :
    ∃ new, Traced env rows s (runStoreCalls env cs s) new ∧ Staged env k k new := by
  obtain ⟨new, hn, hsub, _⟩ := runStoreCalls_traced env rows cs
    (fun c hc => by rw [hcs c hc]; exact hk) s
  exact ⟨new, hn, Staged.const (fun c hc => hcs c (hsub c hc)) (fun h => absurd h hk9)⟩

/-- What one more step adds to the trace of the steps before it. -/
theorem Traced.traced_step {env : Env} {rows : List ManagedTX} {s s1 : Sys} {r : Option Err × Sys}
    {acc n : List StoreCall} {lo k k2 : Nat}
    (hacc : Traced env rows s (none, s1) acc) (hst : Staged env lo k acc)
    (hn : Traced env rows s1 r n) (hs : Staged env k2 k2 n) (hle : k ≤ k2) (hlo : lo ≤ k2) :
    Traced env rows s r (acc ++ n) ∧ Staged env lo k2 (acc ++ n) :=
  ⟨hacc.seq hn, hst.append hs hle hlo hle⟩

theorem executeBatchTail_traced (env : Env) (rows : List ManagedTX) (b : TransactionWriterBatch)
    (s : Sys) (hkeys : ∀ n ks, (env.rangeKeys n ks).Perm ks) :
    ∃ main deletes, Traced env rows s (executeBatchTail env b s) (main ++ deletes) ∧
      Staged env 4 10 main ∧ ∀ c, c ∈ deletes → c.isDelete = true := by
  have fin : ∀ (r : Option Err × Sys) (acc : List StoreCall) (k : Nat),
      Traced env rows s r acc ∧ Staged env 4 k acc → k ≤ 10 →
      ∃ main deletes, Traced env rows s r (main ++ deletes) ∧
        Staged env 4 10 main ∧ ∀ c, c ∈ deletes → c.isDelete = true := by
    intro r acc k h hk
    exact ⟨acc, [], by rw [List.append_nil]; exact h.1, h.2.staged_mono (Nat.le_refl _) hk,
      fun c hc => by simp at hc⟩
  unfold executeBatchTail mergeTxUpdates
  have h1 := mergeTxUpdatesLoop_calls env b.txUpdates [] [] s
  cases hm : mergeTxUpdatesLoop env b.txUpdates [] [] s with
  | mk cs r =>
    obtain ⟨m, s1⟩ := r
    rw [hm] at h1
    simp only at h1 ⊢
    have a1 : Traced env rows s ((none : Option Err), s1) [] := Traced.idle h1
    have t1 : Staged env 4 4 [] := Staged.nil env 4 4
    obtain ⟨n2, h2, hs2⟩ := runStoreCalls_staged env rows
      ((env.rangeKeys 0 (m.map Prod.fst)).filterMap (fun txID =>
        (m.lookup txID).bind (fun j =>
          (s1.ops[j]?).map (fun o => StoreCall.updateTransaction txID (o.txUpdate.getD {})))))
      4 (by decide) (by decide)
      (by
        intro c hc
        obtain ⟨txID, _, h⟩ := List.mem_filterMap.mp hc
        cases hl : m.lookup txID with
        | none => rw [hl] at h; simp at h
        | some j =>
          rw [hl] at h
          cases ho : s1.ops[j]? with
          | none => rw [Option.some_bind, ho] at h; simp at h
          | some o =>
            rw [Option.some_bind, ho] at h
            simp only [Option.map_some', Option.some.injEq] at h
            rw [← h]; rfl) s1
    cases hr2 : runStoreCalls env
      ((env.rangeKeys 0 (m.map Prod.fst)).filterMap (fun txID =>
        (m.lookup txID).bind (fun j =>
          (s1.ops[j]?).map (fun o => StoreCall.updateTransaction txID (o.txUpdate.getD {}))))) s1 with
    | mk e2 s2 =>
      rw [hr2] at h2
      have a2 := Traced.traced_step a1 t1 h2 hs2 (Nat.le_refl _) (Nat.le_refl _)
      cases e2 with
      | some e => exact fin _ _ 4 a2 (by decide)
      | none =>
        simp only
        obtain ⟨n3, h3, hs3⟩ := insertReceipts_traced env rows b s2 hkeys
        have hst3 : Staged env 5 5 n3 := Staged.const hs3 (fun h => absurd h (by decide))
        cases hr3 : insertReceipts env b s2 with
        | mk e3 s3 =>
          rw [hr3] at h3
          have a3 := Traced.traced_step a2.1 a2.2 h3 hst3 (by decide) (by decide)
          cases e3 with
          | some e => exact fin _ _ 5 a3 (by decide)
          | none =>
            simp only
            obtain ⟨n4, h4, hs4⟩ := runStoreCalls_staged env rows
              ((env.rangeKeys 3 b.confirmationResets).map StoreCall.deleteManyConfirmations)
              6 (by decide) (by decide)
              (by intro c hc; obtain ⟨t, _, rfl⟩ := List.mem_map.mp hc; rfl) s3
            cases hr4 : runStoreCalls env
              ((env.rangeKeys 3 b.confirmationResets).map StoreCall.deleteManyConfirmations) s3 with
            | mk e4 s4 =>
              rw [hr4] at h4
              have a4 := Traced.traced_step a3.1 a3.2 h4 hs4 (by decide) (by decide)
              cases e4 with
              | some e => exact fin _ _ 6 a4 (by decide)
              | none =>
                simp only
                obtain ⟨n5, h5, hs5⟩ := runStoreCalls_staged env rows
                  (if b.confirmationInserts.length > 0 then
                    [StoreCall.insertManyConfirmations b.confirmationInserts] else [])
                  7 (by decide) (by decide)
                  (by intro c hc
                      split at hc
                      · rw [List.mem_singleton.mp hc]; rfl
                      · simp at hc) s4
                cases hr5 : runStoreCalls env
                  (if b.confirmationInserts.length > 0 then
                    [StoreCall.insertManyConfirmations b.confirmationInserts] else []) s4 with
                | mk e5 s5 =>
                  rw [hr5] at h5
                  have a5 := Traced.traced_step a4.1 a4.2 h5 hs5 (by decide) (by decide)
                  cases e5 with
                  | some e => exact fin _ _ 7 a5 (by decide)
                  | none =>
                    simp only
                    obtain ⟨n6, h6, hs6⟩ := runStoreCalls_staged env rows
                      (if b.historyInserts.length > 0 then
                        [StoreCall.insertManyHistory b.historyInserts] else [])
                      8 (by decide) (by decide)
                      (by intro c hc
                          split at hc
                          · rw [List.mem_singleton.mp hc]; rfl
                          · simp at hc) s5
                    cases hr6 : runStoreCalls env
                      (if b.historyInserts.length > 0 then
                        [StoreCall.insertManyHistory b.historyInserts] else []) s5 with
                    | mk e6 s6 =>
                      rw [hr6] at h6
                      have a6 := Traced.traced_step a5.1 a5.2 h6 hs6 (by decide) (by decide)
                      cases e6 with
                      | some e => exact fin _ _ 8 a6 (by decide)
                      | none =>
                        simp only
                        have h7 : ∃ n7, Traced env rows s6 (if env.compressionInterval > 0 then
                            compressionChecks env (env.rangeKeys 4 b.compressionChecks) s6
                            else (none, s6)) n7 ∧ Staged env 9 9 n7 := by
                          split
                          · rename_i hpos
                            obtain ⟨n7, h7, hs7⟩ := compressionChecks_traced env rows
                              (env.rangeKeys 4 b.compressionChecks) s6
                            exact ⟨n7, h7, Staged.const hs7 (fun _ _ => hpos)⟩
                          · exact ⟨[], Traced.idle rfl, Staged.nil env 9 9⟩
                        obtain ⟨n7, h7, hs7⟩ := h7
                        cases hr7 : (if env.compressionInterval > 0 then
                            compressionChecks env (env.rangeKeys 4 b.compressionChecks) s6
                            else (none, s6)) with
                        | mk e7 s7 =>
                          rw [hr7] at h7
                          have a7 := Traced.traced_step a6.1 a6.2 h7 hs7 (by decide) (by decide)
                          cases e7 with
                          | some e => exact fin _ _ 9 a7 (by decide)
                          | none =>
                            simp only
                            have h8 := storeCall_traced env rows s7
                              (StoreCall.writeTransactionCompletions cs) (by simp [StoreCall.stage])
                            have hs8 : Staged env 10 10 [StoreCall.writeTransactionCompletions cs] :=
                              Staged.const (fun c hc => by rw [List.mem_singleton.mp hc]; rfl)
                                (fun h => absurd h (by decide))
                            cases hr8 : storeCall env s7 (StoreCall.writeTransactionCompletions cs) with
                            | mk e8 s8 =>
                              rw [hr8] at h8
                              have a8 := Traced.traced_step a7.1 a7.2 h8 hs8 (by decide) (by decide)
                              cases e8 with
                              | some e => exact fin _ _ 10 a8 (by decide)
                              | none =>
                                simp only
                                obtain ⟨n9, h9, hs9⟩ := deleteTransactions_traced env rows
                                  b.txDeletes s8
                                exact ⟨_, n9, a8.1.seq h9, a8.2, hs9⟩

theorem executeBatchOps_traced (env : Env) (b : TransactionWriterBatch) (s : Sys)
    (hkeys : ∀ n ks, (env.rangeKeys n ks).Perm ks) :
    ∃ main deletes, Traced env s.transactions s (executeBatchOps env b s) (main ++ deletes) ∧
      Staged env 1 10 main ∧ ∀ c, c ∈ deletes → c.isDelete = true := by
  obtain ⟨n1, h1, hs1, hrows1⟩ := preInsertCheckGroups_traced env s.transactions
    (env.rangeInserts 0 b.txInsertsByFrom) [] s
  have hst1 : Staged env 1 1 n1 := Staged.const hs1 (fun h => absurd h (by decide))
  have hpre : preInsertCheckGroups env (env.rangeInserts 0 b.txInsertsByFrom) [] s =
      preInsertIdempotencyCheck env b s := rfl
  rw [hpre] at h1 hrows1
  -- the steps that follow the pre-check end the run
  have tail : ∀ (s2 : Sys) (acc : List StoreCall) (k : Nat), k ≤ 4 →
      Traced env s.transactions s ((none : Option Err), s2) acc → Staged env 1 k acc →
      ∃ main deletes, Traced env s.transactions s (executeBatchTail env b s2) (main ++ deletes) ∧
        Staged env 1 10 main ∧ ∀ c, c ∈ deletes → c.isDelete = true := by
    intro s2 acc k hk hacc hst
    obtain ⟨main, deletes, ht, hsm, hd⟩ := executeBatchTail_traced env s.transactions b s2 hkeys
    refine ⟨acc ++ main, deletes, ?_, hst.append hsm hk (by decide) (by omega), hd⟩
    rw [List.append_assoc]
    exact hacc.seq ht
  have fin : ∀ (r : Option Err × Sys) (acc : List StoreCall) (k : Nat),
      Traced env s.transactions s r acc → Staged env 1 k acc → k ≤ 10 →
      ∃ main deletes, Traced env s.transactions s r (main ++ deletes) ∧
        Staged env 1 10 main ∧ ∀ c, c ∈ deletes → c.isDelete = true := by
    intro r acc k h hst hk
    exact ⟨acc, [], by rw [List.append_nil]; exact h, hst.staged_mono (Nat.le_refl _) hk,
      fun c hc => by simp at hc⟩
  rcases executeBatchOps_cases env b s with ⟨e, he, h⟩ | ⟨he, _, h⟩ | ⟨e, he, _, ha, h⟩ |
    ⟨he, _, ha, h⟩
  · rw [h]
    rw [he] at h1
    exact fin _ n1 1 h1 hst1 (by decide)
  · rw [h]
    rw [he] at h1
    exact tail _ n1 1 (by decide) h1 hst1
  · rw [h]
    rw [he] at h1
    obtain ⟨n2, h2, hs2⟩ := assignNonces_traced env s.transactions
      (env.rangeInserts 1 b.txInsertsByFrom) (preInsertIdempotencyCheck env b s).2.2
    have hst2 : Staged env 2 2 n2 := Staged.const hs2 (fun h => absurd h (by decide))
    have h2a : Traced env s.transactions (preInsertIdempotencyCheck env b s).2.2
        (some e, (assignNonces env (env.rangeInserts 1 b.txInsertsByFrom)
          (preInsertIdempotencyCheck env b s).2.2).2) n2 := by
      rw [← ha]; exact h2
    have a2 := Traced.traced_step h1 hst1 h2a hst2 (by decide) (by decide)
    exact fin _ _ 2 a2.1 a2.2 (by decide)
  · rw [h]
    rw [he] at h1
    obtain ⟨n2, h2, hs2⟩ := assignNonces_traced env s.transactions
      (env.rangeInserts 1 b.txInsertsByFrom) (preInsertIdempotencyCheck env b s).2.2
    have hst2 : Staged env 2 2 n2 := Staged.const hs2 (fun h => absurd h (by decide))
    have hrows2 : (assignNonces env (env.rangeInserts 1 b.txInsertsByFrom)
        (preInsertIdempotencyCheck env b s).2.2).2.transactions = s.transactions := by
      rw [(assignNonces_frame env _ _).2.2.1, hrows1]
    cases hr2 : assignNonces env (env.rangeInserts 1 b.txInsertsByFrom)
        (preInsertIdempotencyCheck env b s).2.2 with
    | mk e2 sB =>
      rw [hr2] at h2 ha hrows2
      simp only at ha hrows2 ⊢
      subst ha
      have a2 := Traced.traced_step h1 hst1 h2 hst2 (by decide) (by decide)
      have h3 := insertManyTransactions_traced env
        (bulkInserts (preInsertIdempotencyCheck env b s).2.1 sB.ops) sB
      rw [hrows2] at h3
      have hst3 : Staged env 3 3
          [StoreCall.insertManyTransactions
            (bulkInserts (preInsertIdempotencyCheck env b s).2.1 sB.ops)] :=
        Staged.const (fun c hc => by rw [List.mem_singleton.mp hc]; rfl)
          (fun h => absurd h (by decide))
      cases hr3 : insertManyTransactions env
          (bulkInserts (preInsertIdempotencyCheck env b s).2.1 sB.ops) sB with
      | mk e3 sC =>
        rw [hr3] at h3
        have a3 := Traced.traced_step a2.1 a2.2 h3 hst3 (by decide) (by decide)
        cases e3 with
        | some e => exact fin _ _ 3 a3.1 a3.2 (by decide)
        | none =>
          simp only
          have a3a : Traced env s.transactions s ((none : Option Err),
              primeMetaCache env (bulkInserts (preInsertIdempotencyCheck env b s).2.1 sB.ops) sC)
              ((n1 ++ n2) ++ [StoreCall.insertManyTransactions
                (bulkInserts (preInsertIdempotencyCheck env b s).2.1 sB.ops)]) :=
            a3.1.traced_after (primeMetaCache_calls env _ sC)
          exact tail _ _ 3 (by decide) a3a a3.2

/-! ## The order of the store calls of executeBatchOps -/

/-- C28 (amended). In every run of `executeBatchOps` (the `range` loops visiting each key of
their map once) the store calls made are a list `main` followed by a list `deletes`: the
calls of `main` come in the order of the steps, 1 the idempotency pre-check, 2 the nonce
assignment, 3 the bulk insert of transactions, 4 the merged updates, 5 the receipts, 6 the
deletion of the confirmations of reset transactions, 7 the confirmation inserts, 8 the
history inserts, 9 the compression checks, 10 the completion records, and `deletes` are the
calls of the transaction deletes. Every call that returns an error is the last call of the
run, and the run returns that error, with two exceptions, after which the run goes on: an
error of the bulk insert of receipts, which is followed by an upsert of a receipt, and the
error `DeleteRecordNotFound` of the deletion of a receipt, which is followed by the deletion
of the confirmations of that transaction. -/
theorem executeBatchOps_call_order (env : Env) (b : TransactionWriterBatch) (s : Sys)
    (hkeys : ∀ n ks, (env.rangeKeys n ks).Perm ks) :
    ∃ main deletes : List StoreCall,
      (executeBatchOps env b s).2.storeCalls = s.storeCalls ++ (main ++ deletes) ∧
      (main.map StoreCall.stage).Pairwise (fun x y => x ≤ y) ∧
      (∀ c, c ∈ main → 1 ≤ c.stage ∧ c.stage ≤ 10) ∧
      (∀ c, c ∈ deletes → c.isDelete = true) ∧
      ∀ (k : Nat) (c : StoreCall) (e : Err), (main ++ deletes)[k]? = some c →
        callError env s.transactions (s.storeCalls.length + k) c = some e →
        (tolerated c e = true ∧
          ∃ c1, (main ++ deletes)[k + 1]? = some c1 ∧ followsFailure c c1 = true) ∨
        ((executeBatchOps env b s).1 = some e ∧ (main ++ deletes).length = k + 1) := by
  obtain ⟨main, deletes, ht, hst, hd⟩ := executeBatchOps_traced env b s hkeys
  exact ⟨main, deletes, ht.calls, hst.1, fun c hc => ⟨(hst.2 c hc).1, (hst.2 c hc).2.1⟩, hd,
    ht.stops⟩

/-- Witness of C28: a batch of one delete, one history record, two confirmations of which
the second resets, one receipt, one update and one insert, in that order of arrival, with
`CompressionInterval = 5` and the bulk insert of receipts (store call number 3) failing.
The calls are made in the order of the steps and the failed bulk insert is followed by the
upsert; the run succeeds. -/
theorem executeBatchOps_call_order_witness :
    (∀ n ks, ((sampleFaultEnv 0 5 3 Err.uniqueViolation).rangeKeys n ks).Perm ks) ∧
    (∃ main deletes : List StoreCall,
      (executeBatchOps (sampleFaultEnv 0 5 3 Err.uniqueViolation) (classify {} sampleMixedOps)
        (sampleSys 10 [] [] [] sampleMixedOps)).2.storeCalls =
        (sampleSys 10 [] [] [] sampleMixedOps).storeCalls ++ (main ++ deletes) ∧
      (main.map StoreCall.stage).Pairwise (fun x y => x ≤ y) ∧
      (∀ c, c ∈ main → 1 ≤ c.stage ∧ c.stage ≤ 10) ∧
      (∀ c, c ∈ deletes → c.isDelete = true) ∧
      ∀ (k : Nat) (c : StoreCall) (e : Err), (main ++ deletes)[k]? = some c →
        callError (sampleFaultEnv 0 5 3 Err.uniqueViolation)
          (sampleSys 10 [] [] [] sampleMixedOps).transactions
          ((sampleSys 10 [] [] [] sampleMixedOps).storeCalls.length + k) c = some e →
        (tolerated c e = true ∧
          ∃ c1, (main ++ deletes)[k + 1]? = some c1 ∧ followsFailure c c1 = true) ∨
        ((executeBatchOps (sampleFaultEnv 0 5 3 Err.uniqueViolation) (classify {} sampleMixedOps)
          (sampleSys 10 [] [] [] sampleMixedOps)).1 = some e ∧
          (main ++ deletes).length = k + 1)) ∧
    (executeBatchOps (sampleFaultEnv 0 5 3 Err.uniqueViolation) (classify {} sampleMixedOps)
      (sampleSys 10 [] [] [] sampleMixedOps)).2.storeCalls.map StoreCall.stage =
      [2, 3, 4, 5, 5, 6, 7, 8, 9, 10, 11, 6, 11, 11] ∧
    (executeBatchOps (sampleFaultEnv 0 5 3 Err.uniqueViolation) (classify {} sampleMixedOps)
      (sampleSys 10 [] [] [] sampleMixedOps)).1 = none :=
  ⟨fun _ _ => List.Perm.refl _,
    executeBatchOps_call_order (sampleFaultEnv 0 5 3 Err.uniqueViolation)
      (classify {} sampleMixedOps) (sampleSys 10 [] [] [] sampleMixedOps)
      (fun _ _ => List.Perm.refl _),
    by rfl, by rfl⟩

/-- Counterexample to C28 as stated: a batch that deletes transaction `d`, the deletion of
the receipt (store call number 1) returning `DeleteRecordNotFound`. That call is not the bulk
insert of receipts and it returns an error, yet the run does not stop: three more store calls
follow and the run returns no error. -/
theorem tolerated_delete_error_counterexample :
    (sampleFaultEnv 0 0 1 Err.deleteRecordNotFound).storeFault 1 =
      some Err.deleteRecordNotFound ∧
    (executeBatchOps (sampleFaultEnv 0 0 1 Err.deleteRecordNotFound)
      (classify {} [sampleDelete "d"]) (sampleSys 10 [] [] [] [sampleDelete "d"])).2.storeCalls =
      [StoreCall.writeTransactionCompletions [], StoreCall.deleteReceipt "d",
       StoreCall.deleteManyConfirmations "d", StoreCall.deleteManyHistory "d",
       StoreCall.deleteTransaction "d"] ∧
    (executeBatchOps (sampleFaultEnv 0 0 1 Err.deleteRecordNotFound)
      (classify {} [sampleDelete "d"]) (sampleSys 10 [] [] [] [sampleDelete "d"])).1 = none := by
  refine ⟨by rfl, by rfl, by rfl⟩

/-! ## The compression check -/

/-- C29. The function `compressionCheck` on a metadata cache with at least one slot makes
one store call, the compaction of the history of the transaction, when the compaction is due
(the cache has no entry for the transaction, or the time since the entry's `lastCompacted`
is at least `CompressionInterval`) and no store call otherwise. When the compaction
succeeds the check returns no error and the cache holds for the transaction an entry whose
`lastCompacted` is the clock reading taken after the compaction, the last reading so far;
when the compaction fails the check returns its error and the cache holds for the
transaction what it held before. And with `CompressionInterval = 0` a run of
`executeBatchOps` makes no compaction call at all. -/
theorem compressionCheck_when_due (env : Env) (txID : String) (s : Sys)
    (hsize : 0 < s.txMetaCache.size) (hkeys : ∀ n ks, (env.rangeKeys n ks).Perm ks) :
    (compressionCheck env txID s).2.storeCalls =
      s.storeCalls ++ (if compactionDue env txID s then [StoreCall.compressHistory txID] else []) ∧
    (compactionDue env txID s = false →
      (compressionCheck env txID s).1 = none ∧
      (compressionCheck env txID s).2.txMetaCache.peek txID = s.txMetaCache.peek txID) ∧
    (compactionDue env txID s = true → env.storeFault s.storeCalls.length = none →
      (compressionCheck env txID s).1 = none ∧
      (compressionCheck env txID s).2.txMetaCache.peek txID =
        some { lastCompacted := env.clock ((compressionCheck env txID s).2.clockReads - 1) } ∧
      s.clockReads < (compressionCheck env txID s).2.clockReads) ∧
    (∀ e, compactionDue env txID s = true → env.storeFault s.storeCalls.length = some e →
      (compressionCheck env txID s).1 = some e ∧
      (compressionCheck env txID s).2.txMetaCache.peek txID = s.txMetaCache.peek txID) ∧
    (env.compressionInterval = 0 → ∀ (b : TransactionWriterBatch) (s0 : Sys) (c : StoreCall),
      c ∈ (executeBatchOps env b s0).2.storeCalls.drop s0.storeCalls.length → c.stage ≠ 9) := by
  have hlast : (env.compressionInterval = 0 → ∀ (b : TransactionWriterBatch) (s0 : Sys)
      (c : StoreCall),
      c ∈ (executeBatchOps env b s0).2.storeCalls.drop s0.storeCalls.length → c.stage ≠ 9) := by
    intro h0 b s0 c hc
    obtain ⟨main, deletes, ht, hst, hd⟩ := executeBatchOps_traced env b s0 hkeys
    rw [ht.calls, List.drop_left] at hc
    rcases List.mem_append.mp hc with h | h
    · intro h9
      have := (hst.2 c h).2.2 h9
      omega
    · intro h9
      have hdel := hd c h
      cases c with
      | compressHistory T => simp [StoreCall.isDelete] at hdel
      | _ => simp [StoreCall.stage] at h9
  refine ⟨?_, ?_, ?_, ?_, hlast⟩
  all_goals unfold compressionCheck compactionDue
  all_goals unfold LRU.get
  all_goals cases hpk : s.txMetaCache.peek txID with
    | none =>
      simp only [storeCall, readClock]
      cases hf : env.storeFault s.storeCalls.length with
      | none => simp [LRU.peek_add_self _ _ _ hsize]
      | some e0 => simp [hpk]
    | some m =>
      simp only [storeCall, readClock]
      by_cases hd : env.clock s.clockReads - m.lastCompacted < env.compressionInterval
      · have hnd : ¬ (env.clock s.clockReads - m.lastCompacted ≥ env.compressionInterval) := by
          omega
        simp [hd, hnd, LRU.peek_touch_self]
      · have hnd : env.clock s.clockReads - m.lastCompacted ≥ env.compressionInterval := by
          omega
        cases hf : env.storeFault s.storeCalls.length with
        | none =>
          simp [hd, hnd, hf, LRU.peek_touch_self,
            LRU.peek_add_self _ _ _ (show 0 < (s.txMetaCache.touch txID m).size from hsize)]
          all_goals omega
        | some e0 => simp [hd, hnd, hf, LRU.peek_touch_self]

/-- Witness of C29: the cache holds for `h` an entry compacted at time 0, the clock reads
10 and `CompressionInterval` is 5, so the compaction is due. The check makes the compaction
call and the entry then holds `lastCompacted = 10`. -/
theorem compressionCheck_when_due_witness :
    (compressionCheck (sampleFaultEnv 10 5 99 Err.uniqueViolation) "h"
      (sampleSys 10 [] ["h"] [] [])).2.storeCalls = [StoreCall.compressHistory "h"] ∧
    (compressionCheck (sampleFaultEnv 10 5 99 Err.uniqueViolation) "h"
      (sampleSys 10 [] ["h"] [] [])).2.txMetaCache.peek "h" = some { lastCompacted := 10 } ∧
    ((executeBatchOps (sampleFaultEnv 10 0 99 Err.uniqueViolation)
      (classify {} [sampleHistory "h" 1]) (sampleSys 10 [] ["h"] [] [sampleHistory "h" 1])
      ).2.storeCalls.drop 0).map StoreCall.stage = [8, 10] := by
  have h := compressionCheck_when_due (sampleFaultEnv 10 5 99 Err.uniqueViolation) "h"
    (sampleSys 10 [] ["h"] [] []) (by decide) (fun _ _ => List.Perm.refl _)
  have h2 := (h.2.2.1 (by rfl) (by rfl)).2.1
  exact ⟨h.1, h2, by rfl⟩

/-! ## The transaction handler: createManagedTx -/

/-- C21. The function `createManagedTx` hands to `InsertTransactionWithNextNonce` the new
transaction object. When the insert fails with `e`, the function makes no other call, so it
appends no history action, and returns no transaction and the error `e`. When the insert
succeeds, the next call, made once, is the history append for the transaction's ID with
sub-status `Received`, action `AssignNonce` and the info `{"nonce":"n"}`, where `n` is the
nonce that the insert stamped on the object, in decimal digits, and the text `<nil>` when the
insert left the nonce of the object nil; after it comes at most the marking of the in-flight
list. -/
theorem createManagedTx_history_action (tk : Toolkit) (txID txFrom : String) (h : Handler) :
    (∀ (e : Err) (mtx1 : ManagedTX),
      tk.InsertTransactionWithNextNonce h.calls
        { ID := txID, Created := tk.Now h.clockReads, From := txFrom,
          Status := TxStatus.Pending } = (some e, mtx1) →
      (createManagedTx tk txID txFrom h).1 = (none, some e) ∧
      (createManagedTx tk txID txFrom h).2.calls =
        h.calls ++ [HandlerCall.insertTransactionWithNextNonce
          { ID := txID, Created := tk.Now h.clockReads, From := txFrom,
            Status := TxStatus.Pending }]) ∧
    (∀ (mtx1 : ManagedTX),
      tk.InsertTransactionWithNextNonce h.calls
        { ID := txID, Created := tk.Now h.clockReads, From := txFrom,
          Status := TxStatus.Pending } = (none, mtx1) →
      ∃ rest : List HandlerCall,
        (createManagedTx tk txID txFrom h).2.calls =
          h.calls ++
            [HandlerCall.insertTransactionWithNextNonce
              { ID := txID, Created := tk.Now h.clockReads, From := txFrom,
                Status := TxStatus.Pending },
             HandlerCall.addSubStatusAction txID TxSubStatus.Received TxAction.AssignNonce
              ("\x7b\"nonce\":\"" ++ ffBigIntString mtx1.Nonce ++ "\"\x7d") none
              (tk.Now (h.clockReads + 1))] ++
            rest ∧
        (∀ c, c ∈ rest → c = HandlerCall.markInflightStale) ∧
        (∀ n : Int, mtx1.Nonce = some n → ffBigIntString mtx1.Nonce = toString n) ∧
        (mtx1.Nonce = none → ffBigIntString mtx1.Nonce = "<nil>")) := by
  constructor
  · intro e mtx1 hins
    unfold createManagedTx
    simp only [hins]
    exact ⟨trivial, trivial⟩
  · intro mtx1 hins
    have hstr : ∀ n : Int, mtx1.Nonce = some n → ffBigIntString mtx1.Nonce = toString n := by
      intro n hn; rw [hn]; rfl
    have hnil : mtx1.Nonce = none → ffBigIntString mtx1.Nonce = "<nil>" := by
      intro hn; rw [hn]; rfl
    unfold createManagedTx
    simp only [hins]
    split
    · exact ⟨[], by simp, fun c hc => by simp at hc, hstr, hnil⟩
    · exact ⟨[HandlerCall.markInflightStale], by simp [markInflightStale],
        fun c hc => by simpa using hc, hstr, hnil⟩

/-- Witness of C21: the insert stamps nonce 42 on transaction `t1`; the calls are the
insert, the history append with info `{"nonce":"42"}`, and the marking of the in-flight
list. When the insert fails, the insert is the only call and its error is returned. When the
insert succeeds and leaves the nonce nil, the info is `{"nonce":"<nil>"}`. -/
theorem createManagedTx_history_action_witness :
    (createManagedTx (sampleToolkit [] 42 none none) "t1" "S" {}).2.calls =
      [HandlerCall.insertTransactionWithNextNonce { ID := "t1", From := "S", Created := 7 },
       HandlerCall.addSubStatusAction "t1" TxSubStatus.Received TxAction.AssignNonce
         "\x7b\"nonce\":\"42\"\x7d" none 7,
       HandlerCall.markInflightStale] ∧
    (createManagedTx (sampleToolkit [] 42 (some (Err.other 9)) none) "t1" "S" {}).1 =
      (none, some (Err.other 9)) ∧
    (createManagedTx (sampleToolkit [] 42 (some (Err.other 9)) none) "t1" "S" {}).2.calls =
      [] ++ [HandlerCall.insertTransactionWithNextNonce
        { ID := "t1", Created := 7, From := "S", Status := TxStatus.Pending }] ∧
    ffBigIntString (some 42) = "42" ∧
    (createManagedTx (sampleToolkitUnstamped none) "t1" "S" {}).2.calls =
      [HandlerCall.insertTransactionWithNextNonce { ID := "t1", From := "S", Created := 7 },
       HandlerCall.addSubStatusAction "t1" TxSubStatus.Received TxAction.AssignNonce
         "\x7b\"nonce\":\"<nil>\"\x7d" none 7,
       HandlerCall.markInflightStale] := by
  have h1 := (createManagedTx_history_action (sampleToolkit [] 42 (some (Err.other 9)) none)
    "t1" "S" {}).1 (Err.other 9) { ID := "t1", From := "S", Created := 7 } (by rfl)
  have h2 := (createManagedTx_history_action (sampleToolkit [] 42 none none)
    "t1" "S" {}).2 { ID := "t1", From := "S", Created := 7, Nonce := some 42 } (by rfl)
  obtain ⟨rest, _, _, h42, _⟩ := h2
  exact ⟨by decide, h1.1, h1.2, (h42 42 rfl).trans (by decide), by decide⟩

/-- C22. When `InsertTransactionWithNextNonce` succeeds and the history append then fails
with `e`, the function `createManagedTx` returns no transaction and the error `e`; the
insert and the failed history append are the only calls it has made, so no persistence
call follows and the in-flight list is not marked stale. The info of the history append
carries the nonce of the object as the insert left it: its decimal digits, or `<nil>` for a
nil nonce. -/
theorem createManagedTx_history_failure (tk : Toolkit) (txID txFrom : String) (h : Handler)
    (mtx1 : ManagedTX) (e : Err)
    (hins : tk.InsertTransactionWithNextNonce h.calls
      { ID := txID, Created := tk.Now h.clockReads, From := txFrom,
        Status := TxStatus.Pending } = (none, mtx1))
    (hhist : tk.AddSubStatusAction
      (h.calls ++ [HandlerCall.insertTransactionWithNextNonce
        { ID := txID, Created := tk.Now h.clockReads, From := txFrom,
          Status := TxStatus.Pending }])
      txID TxSubStatus.Received TxAction.AssignNonce
      ("\x7b\"nonce\":\"" ++ ffBigIntString mtx1.Nonce ++ "\"\x7d") none
      (tk.Now (h.clockReads + 1)) = some e) :
    (createManagedTx tk txID txFrom h).1 = (none, some e) ∧
    (createManagedTx tk txID txFrom h).2.calls =
      h.calls ++
        [HandlerCall.insertTransactionWithNextNonce
          { ID := txID, Created := tk.Now h.clockReads, From := txFrom,
            Status := TxStatus.Pending },
         HandlerCall.addSubStatusAction txID TxSubStatus.Received TxAction.AssignNonce
          ("\x7b\"nonce\":\"" ++ ffBigIntString mtx1.Nonce ++ "\"\x7d") none
          (tk.Now (h.clockReads + 1))] ∧
    (createManagedTx tk txID txFrom h).2.calls.drop (h.calls.length + 2) = [] ∧
    HandlerCall.markInflightStale ∉ (createManagedTx tk txID txFrom h).2.calls.drop h.calls.length := by
  have hr : createManagedTx tk txID txFrom h =
      ((none, some e),
        { h with clockReads := h.clockReads + 1 + 1,
                 calls := h.calls ++ [HandlerCall.insertTransactionWithNextNonce
                     { ID := txID, Created := tk.Now h.clockReads, From := txFrom,
                       Status := TxStatus.Pending }] ++
                   [HandlerCall.addSubStatusAction txID TxSubStatus.Received TxAction.AssignNonce
                     ("\x7b\"nonce\":\"" ++ ffBigIntString mtx1.Nonce ++ "\"\x7d") none
                     (tk.Now (h.clockReads + 1))] }) := by
    unfold createManagedTx
    simp only [hins, hhist]
  rw [hr]
  refine ⟨rfl, by simp, by simp, by simp⟩

/-- Witness of C22: the insert stamps nonce 42 on `t1` and the history append fails with
error 3. The function returns that error and no transaction after these two calls. The same
holds when the insert leaves the nonce nil, the info then being `{"nonce":"<nil>"}`. -/
theorem createManagedTx_history_failure_witness :
    (createManagedTx (sampleToolkit [] 42 none (some (Err.other 3))) "t1" "S" {}).1 =
      (none, some (Err.other 3)) ∧
    (createManagedTx (sampleToolkit [] 42 none (some (Err.other 3))) "t1" "S" {}).2.calls =
      [HandlerCall.insertTransactionWithNextNonce { ID := "t1", From := "S", Created := 7 },
       HandlerCall.addSubStatusAction "t1" TxSubStatus.Received TxAction.AssignNonce
         "\x7b\"nonce\":\"42\"\x7d" none 7] ∧
    (createManagedTx (sampleToolkitUnstamped (some (Err.other 3))) "t1" "S" {}).1 =
      (none, some (Err.other 3)) ∧
    (createManagedTx (sampleToolkitUnstamped (some (Err.other 3))) "t1" "S" {}).2.calls =
      [HandlerCall.insertTransactionWithNextNonce { ID := "t1", From := "S", Created := 7 },
       HandlerCall.addSubStatusAction "t1" TxSubStatus.Received TxAction.AssignNonce
         "\x7b\"nonce\":\"<nil>\"\x7d" none 7] := by
  have h := createManagedTx_history_failure (sampleToolkit [] 42 none (some (Err.other 3)))
    "t1" "S" {} { ID := "t1", From := "S", Created := 7, Nonce := some 42 } (Err.other 3)
    (by rfl) (by rfl)
  have hn := createManagedTx_history_failure (sampleToolkitUnstamped (some (Err.other 3)))
    "t1" "S" {} { ID := "t1", From := "S", Created := 7 } (Err.other 3)
    (by rfl) (by rfl)
  exact ⟨h.1, by decide, hn.1, by decide⟩

/-! ## The transaction handler: the ID of a request -/

theorem createManagedTx_calls (tk : Toolkit) (txID txFrom : String) (h : Handler) :
    ∃ new : List HandlerCall, (createManagedTx tk txID txFrom h).2.calls = h.calls ++ new ∧
      (∀ id, HandlerCall.getTransactionByID id ∉ new) ∧
      ∀ mtx, HandlerCall.insertTransactionWithNextNonce mtx ∈ new → mtx.ID = txID := by
  unfold createManagedTx
  simp only
  cases hins : tk.InsertTransactionWithNextNonce h.calls
      { ID := txID, Created := tk.Now h.clockReads, From := txFrom,
        Status := TxStatus.Pending } with
  | mk e mtx1 =>
    cases e with
    | some e =>
      refine ⟨[HandlerCall.insertTransactionWithNextNonce
        { ID := txID, Created := tk.Now h.clockReads, From := txFrom,
          Status := TxStatus.Pending }], rfl, by simp, ?_⟩
      intro mtx hm
      simp only [List.mem_singleton, HandlerCall.insertTransactionWithNextNonce.injEq] at hm
      rw [hm]
    | none =>
      simp only
      split
      · refine ⟨[HandlerCall.insertTransactionWithNextNonce
            { ID := txID, Created := tk.Now h.clockReads, From := txFrom,
              Status := TxStatus.Pending },
          HandlerCall.addSubStatusAction txID TxSubStatus.Received TxAction.AssignNonce
            ("\x7b\"nonce\":\"" ++ ffBigIntString mtx1.Nonce ++ "\"\x7d") none
            (tk.Now (h.clockReads + 1))], by simp, by simp, ?_⟩
        intro mtx hm
        simp only [List.mem_cons, HandlerCall.insertTransactionWithNextNonce.injEq,
          List.mem_singleton, reduceCtorEq, or_false, List.not_mem_nil] at hm
        rw [hm]
      · refine ⟨[HandlerCall.insertTransactionWithNextNonce
            { ID := txID, Created := tk.Now h.clockReads, From := txFrom,
              Status := TxStatus.Pending },
          HandlerCall.addSubStatusAction txID TxSubStatus.Received TxAction.AssignNonce
            ("\x7b\"nonce\":\"" ++ ffBigIntString mtx1.Nonce ++ "\"\x7d") none
            (tk.Now (h.clockReads + 1)),
          HandlerCall.markInflightStale], by simp [markInflightStale], by simp, ?_⟩
        intro mtx hm
        simp only [List.mem_cons, HandlerCall.insertTransactionWithNextNonce.injEq,
          List.mem_singleton, reduceCtorEq, or_false, List.not_mem_nil] at hm
        rw [hm]

/-- C23. A request handled by `HandleNewTransaction` or `HandleNewContractDeployment`. When
the supplied ID is not empty and the persistence returns a transaction for it, the handler
returns the duplicate-ID error for that ID with no transaction and the rejected flag unset,
and the lookup is the only call it has made: neither the prepare operation of the connector
nor `InsertTransactionWithNextNonce` is called. When the lookup fails, its error is returned
unchanged, again after that one call. When the supplied ID is empty, `requestIDPreCheck`
returns a newly generated ID without a call, the handler makes no lookup at all, and an
insert it makes is for the generated ID. -/
theorem duplicate_request_rejected (tk : Toolkit) (txReq : TransactionRequest) (h : Handler) :
    (txReq.ID ≠ "" → ∀ existing : ManagedTX,
      tk.GetTransactionByID h.calls txReq.ID = Except.ok (some existing) →
      HandleNewTransaction tk txReq h =
        ((none, false, some (Err.duplicateID txReq.ID)),
          { h with calls := h.calls ++ [HandlerCall.getTransactionByID txReq.ID] }) ∧
      HandleNewContractDeployment tk txReq h =
        ((none, false, some (Err.duplicateID txReq.ID)),
          { h with calls := h.calls ++ [HandlerCall.getTransactionByID txReq.ID] })) ∧
    (txReq.ID ≠ "" → ∀ e : Err,
      tk.GetTransactionByID h.calls txReq.ID = Except.error e →
      HandleNewTransaction tk txReq h =
        ((none, false, some e),
          { h with calls := h.calls ++ [HandlerCall.getTransactionByID txReq.ID] }) ∧
      HandleNewContractDeployment tk txReq h =
        ((none, false, some e),
          { h with calls := h.calls ++ [HandlerCall.getTransactionByID txReq.ID] })) ∧
    (txReq.ID = "" →
      requestIDPreCheck tk txReq.ID h =
        (Except.ok (tk.NewUUID h.uuids), { h with uuids := h.uuids + 1 }) ∧
      (∀ c, c ∈ (HandleNewTransaction tk txReq h).2.calls.drop h.calls.length →
        (∀ id, c ≠ HandlerCall.getTransactionByID id) ∧
        ∀ mtx, c = HandlerCall.insertTransactionWithNextNonce mtx → mtx.ID = tk.NewUUID h.uuids) ∧
      (∀ c, c ∈ (HandleNewContractDeployment tk txReq h).2.calls.drop h.calls.length →
        (∀ id, c ≠ HandlerCall.getTransactionByID id) ∧
        ∀ mtx, c = HandlerCall.insertTransactionWithNextNonce mtx →
          mtx.ID = tk.NewUUID h.uuids)) := by
  refine ⟨?_, ?_, ?_⟩
  · intro hne existing hget
    unfold HandleNewTransaction HandleNewContractDeployment requestIDPreCheck
    simp only [hne, if_false, hget]
    exact ⟨trivial, trivial⟩
  · intro hne e hget
    unfold HandleNewTransaction HandleNewContractDeployment requestIDPreCheck
    simp only [hne, if_false, hget]
    exact ⟨trivial, trivial⟩
  · intro hempty
    have hpre : requestIDPreCheck tk txReq.ID h =
        (Except.ok (tk.NewUUID h.uuids), { h with uuids := h.uuids + 1 }) := by
      unfold requestIDPreCheck
      rw [if_pos hempty]
    refine ⟨hpre, ?_, ?_⟩
    · intro c hc
      unfold HandleNewTransaction at hc
      rw [hpre] at hc
      simp only at hc
      cases hp : tk.TransactionPrepare h.calls txReq.input with
      | error x =>
        rw [hp] at hc
        simp only [List.drop_left, List.mem_singleton] at hc
        subst hc
        exact ⟨fun id => by simp, fun mtx hm => by simp at hm⟩
      | ok u =>
        rw [hp] at hc
        simp only at hc
        obtain ⟨new, hnew, hno, hid⟩ := createManagedTx_calls tk (tk.NewUUID h.uuids) txReq.From
          { h with uuids := h.uuids + 1,
                   calls := h.calls ++ [HandlerCall.transactionPrepare txReq.input] }
        rw [hnew] at hc
        simp only [List.append_assoc, List.drop_left, List.singleton_append, List.mem_cons] at hc
        rcases hc with hc | hc
        · subst hc
          exact ⟨fun id => by simp, fun mtx hm => by simp at hm⟩
        · exact ⟨fun id hid1 => hno id (hid1 ▸ hc), fun mtx hm => hid mtx (hm ▸ hc)⟩
    · intro c hc
      unfold HandleNewContractDeployment at hc
      rw [hpre] at hc
      simp only at hc
      cases hp : tk.DeployContractPrepare h.calls txReq.input with
      | error x =>
        rw [hp] at hc
        simp only [List.drop_left, List.mem_singleton] at hc
        subst hc
        exact ⟨fun id => by simp, fun mtx hm => by simp at hm⟩
      | ok u =>
        rw [hp] at hc
        simp only at hc
        obtain ⟨new, hnew, hno, hid⟩ := createManagedTx_calls tk (tk.NewUUID h.uuids) txReq.From
          { h with uuids := h.uuids + 1,
                   calls := h.calls ++ [HandlerCall.deployContractPrepare txReq.input] }
        rw [hnew] at hc
        simp only [List.append_assoc, List.drop_left, List.singleton_append, List.mem_cons] at hc
        rcases hc with hc | hc
        · subst hc
          exact ⟨fun id => by simp, fun mtx hm => by simp at hm⟩
        · exact ⟨fun id hid1 => hno id (hid1 ▸ hc), fun mtx hm => hid mtx (hm ▸ hc)⟩

/-- Witness of C23: the store holds transaction `t1`. A request with ID `t1` is answered
with the duplicate-ID error after the lookup alone; a request without ID gets the generated
ID `fresh-0` and causes no lookup. -/
theorem duplicate_request_rejected_witness :
    HandleNewTransaction (sampleToolkit ["t1"] 42 none none) { ID := "t1", From := "S" } {} =
      ((none, false, some (Err.duplicateID "t1")),
        { calls := [HandlerCall.getTransactionByID "t1"] }) ∧
    HandleNewContractDeployment (sampleToolkit ["t1"] 42 none none) { ID := "t1", From := "S" } {} =
      ((none, false, some (Err.duplicateID "t1")),
        { calls := [HandlerCall.getTransactionByID "t1"] }) ∧
    requestIDPreCheck (sampleToolkit ["t1"] 42 none none) "" {} =
      (Except.ok "fresh-0", { uuids := 1 }) ∧
    (HandleNewTransaction (sampleToolkit ["t1"] 42 none none) { ID := "", From := "S" } {}).2.calls =
      [HandlerCall.transactionPrepare "",
       HandlerCall.insertTransactionWithNextNonce { ID := "fresh-0", From := "S", Created := 7 },
       HandlerCall.addSubStatusAction "fresh-0" TxSubStatus.Received TxAction.AssignNonce
         "\x7b\"nonce\":\"42\"\x7d" none 7,
       HandlerCall.markInflightStale] := by
  have h1 := (duplicate_request_rejected (sampleToolkit ["t1"] 42 none none)
    { ID := "t1", From := "S" } {}).1 (by decide) { ID := "t1" } (by rfl)
  have h2 := (duplicate_request_rejected (sampleToolkit ["t1"] 42 none none)
    { ID := "", From := "S" } {}).2.2 (by rfl)
  exact ⟨h1.1, h1.2, h2.1, by decide⟩

end NonceDemo
